import Mathlib

/-!
# VocabTree (VocabLib/include/VocabTree.h)

A shallow embedding of the hierarchical k-means / k-majority vocabulary tree:
the node record, the recursive clusterer `computeClustering`, `build`,
`quantize`, the persistence pair `save` / `load` and `operator==`.

Conventions of the embedding.

* Pointers are values. A `NULL` children pointer is `none`; a children array is
  `some cs`. A centre is the list of its elements, a `NULL` centre the empty
  list. The word list `m_words` holds the leaves themselves: a leaf is complete
  when it is pushed and is not written afterwards.
* The members `computeClustering` writes (`m_size`, `m_words`) and the state of
  the process-wide random generator used by the centre chooser are threaded
  explicitly as a `Progress`.
* The collaborators that live outside this header (the distance functor, the
  centre chooser, the k-majority primitives and the element arithmetic) are the
  fields of a `Kernel`.
* Undefined behaviour of the source (null dereference, out-of-bounds access) is
  the failure `Error.undefined`; recursion that does not come back within the
  step budget is `Error.fuel`.
* `int` and `size_t` values are unbounded integers and naturals.
-/

namespace vlr

/-- Failures of the tree operations. `invalidParam` and `emptyDataset` are the
two kinds of `std::runtime_error` thrown by `build`, `treeEmpty` the one thrown
by `save`, `assertFailed` a failed `CV_Assert`, `parseError` a rejected file,
`badAlloc` an array allocation of negative length, `undefined` a null
dereference or an access outside an array, `fuel` a recursion that did not come
back within the budget of nested calls. -/
inductive Error where
  | invalidParam
  | emptyDataset
  | treeEmpty
  | assertFailed
  | parseError
  | badAlloc
  | undefined
  | fuel
deriving DecidableEq, Repr

/-- Structure representing a node in the hierarchical k-means tree
(`struct VocabTreeNode`). -/
inductive VocabTreeNode (α : Type) where
  | mk (node_id : Int) (center : List α)
      (children : Option (List (VocabTreeNode α))) (word_id : Int)

namespace VocabTreeNode

variable {α : Type}

/-- The node id. -/
def node_id : VocabTreeNode α → Int
  | mk i _ _ _ => i

/-- The cluster center. -/
def center : VocabTreeNode α → List α
  | mk _ c _ _ => c

/-- Children nodes (only for non-terminal nodes). -/
def children : VocabTreeNode α → Option (List (VocabTreeNode α))
  | mk _ _ cs _ => cs

/-- Word id (only for terminal nodes). -/
def word_id : VocabTreeNode α → Int
  | mk _ _ _ w => w

/-- The default constructor `VocabTreeNode()`: ids `-1`, no centre, no
children. -/
def new : VocabTreeNode α := mk (-1) [] none (-1)

/-- Assignment `node->node_id = v`. -/
def setNodeId (n : VocabTreeNode α) (v : Int) : VocabTreeNode α :=
  mk v n.center n.children n.word_id

/-- Assignment `node->center = c`. -/
def setCenter (n : VocabTreeNode α) (c : List α) : VocabTreeNode α :=
  mk n.node_id c n.children n.word_id

/-- Assignment `node->children = cs`. -/
def setChildren (n : VocabTreeNode α) (cs : Option (List (VocabTreeNode α))) :
    VocabTreeNode α :=
  mk n.node_id n.center cs n.word_id

/-- Assignment `node->word_id = v`. -/
def setWordId (n : VocabTreeNode α) (v : Int) : VocabTreeNode α :=
  mk n.node_id n.center n.children v

end VocabTreeNode

/-- The data set `vlr::Mat`: its rows, its number of columns and whether its
element type is `CV_8U`. -/
structure Mat (α : Type) where
  data : List (List α)
  cols : Nat
  isU8 : Bool

namespace Mat

variable {α : Type}

/-- Number of rows, `m_dataset.rows`. -/
def rows (m : Mat α) : Nat := m.data.length

/-- Row access, `m_dataset.row(i)`. -/
def row (m : Mat α) (i : Nat) : List α := m.data.getD i []

/-- Modelled from the spec: `DynamicMat::empty()` is not part of this header;
the data set is empty when it has zero rows. -/
def empty (m : Mat α) : Bool := m.rows == 0

end Mat

/-- The collaborators of `VocabTree<TDescriptor, Distance>` that are defined
outside the header: the element zero, the distance functor `m_distance`, the
value `DistanceType(-1)`, `CentersChooser::chooseCenters` (with the state of the
random generator it draws from), `KMajority::cumBitSum`,
`KMajority::majorityVoting`, and the element operations `+=` and `/= count`. -/
structure Kernel (α δ σ : Type) where
  zero : α
  distance : List α → List α → Nat → δ
  minusOne : δ
  chooseCenters : σ → Int → List Nat → Mat α → List Nat × σ
  cumBitSum : List α → List Int → List Int
  majorityVoting : List Int → Int → List α
  add : α → α → α
  divCount : α → Int → α

/-- The members of `class VocabTree`, with the state of the random generator
the centre chooser draws from. -/
structure VocabTree (α σ : Type) where
  m_iterations : Int
  m_dataset : Mat α
  m_branching : Int
  m_depth : Int
  m_veclen : Nat
  m_size : Nat
  m_root : Option (VocabTreeNode α)
  m_words : List (VocabTreeNode α)
  rng : σ

/-- The largest `int`, `std::numeric_limits<int>::max()`. -/
def INT_MAX : Int := 2147483647

namespace VocabTree

variable {α δ σ : Type}

/-- Class constructor: a negative iteration count becomes `INT_MAX`. -/
def new (inputData : Mat α) (branching depth maxIterations : Int) (seed : σ) :
    VocabTree α σ where
  m_iterations := if maxIterations < 0 then INT_MAX else maxIterations
  m_dataset := inputData
  m_branching := branching
  m_depth := depth
  m_veclen := inputData.cols
  m_size := 0
  m_root := none
  m_words := []
  rng := seed

/-- Accessor `getNumNodes()`. -/
def getNumNodes (t : VocabTree α σ) : Nat := t.m_size

/-- Accessor `getNumWords()`. -/
def getNumWords (t : VocabTree α σ) : Nat := t.m_words.length

/-- Accessor `size()`. -/
def size (t : VocabTree α σ) : Nat := t.getNumWords

/-- Accessor `getRoot()`. -/
def getRoot (t : VocabTree α σ) : Option (VocabTreeNode α) := t.m_root

/-- Accessor `getBranching()`. -/
def getBranching (t : VocabTree α σ) : Int := t.m_branching

/-- Accessor `getDepth()`. -/
def getDepth (t : VocabTree α σ) : Int := t.m_depth

/-- Accessor `getVeclen()`. -/
def getVeclen (t : VocabTree α σ) : Nat := t.m_veclen

/-- Whether the tree is empty, `empty()`. -/
def empty (t : VocabTree α σ) : Bool := t.m_size == 0

end VocabTree

/-- The members written by `computeClustering`: `m_size`, `m_words` and the
random generator state. -/
structure Progress (α σ : Type) where
  m_size : Nat
  m_words : List (VocabTreeNode α)
  rng : σ

/-- Statement `count[j] += d` on a vector of counters. -/
def addAt (count : List Int) (j : Nat) (d : Int) : List Int :=
  count.set j (count.getD j 0 + d)

/-- Statement `std::swap(xs[i], xs[j])`. -/
def swapAt (xs : List Nat) (i j : Nat) : List Nat :=
  (xs.set i (xs.getD j 0)).set j (xs.getD i 0)

section Clustering

variable {α δ σ : Type} [LinearOrder δ]

/-- The nearest of the `branching` rows of `dcenters` to the point `x`, with
its distance: start from row 0 and move to row `j` whenever the distance found
so far is strictly greater than the distance to row `j`
(lines 764-776 and 856-868). -/
def nearestCenter (K : Kernel α δ σ) (veclen : Nat) (branching : Int)
    (dcenters : List (List α)) (x : List α) : Nat × δ :=
  (List.range' 1 (branching.toNat - 1)).foldl
    (fun (best : Nat × δ) (j : Nat) =>
      let new_sq_dist := K.distance x (dcenters.getD j []) veclen
      if best.2 > new_sq_dist then (j, new_sq_dist) else best)
    (0, K.distance x (dcenters.getD 0 []) veclen)

/-- The working vectors of the Lloyd loop. -/
structure Lloyd (α δ : Type) where
  dcenters : List (List α)
  belongs_to : List Nat
  distance_to : List δ
  count : List Int
  converged : Bool

/-- Initial centres: row `i` of `dcenters` is the data row `centers_idx[i]`
(lines 738-742). -/
def initCenters (data : Mat α) (branching : Int) (centers_idx : List Nat) :
    List (List α) :=
  (List.range branching.toNat).map (fun i => data.row (centers_idx.getD i 0))

/-- Initial assignment of every point to its nearest centre, counting the
members of each cluster (lines 750-778). -/
def initialAssignment (K : Kernel α δ σ) (data : Mat α) (veclen : Nat)
    (branching : Int) (dcenters : List (List α)) (indices : List Nat) :
    Lloyd α δ :=
  let near := indices.map
    (fun idx => nearestCenter K veclen branching dcenters (data.row idx))
  let belongs_to := near.map Prod.fst
  { dcenters := dcenters
    belongs_to := belongs_to
    distance_to := near.map Prod.snd
    count := belongs_to.foldl (fun count j => addAt count j 1)
      (List.replicate branching.toNat 0)
    converged := false }

/-- Bitwise summing of the data into the counters of each centroid
(lines 815-819). -/
def bitwiseSums (K : Kernel α δ σ) (data : Mat α) :
    List Nat → List Nat → List (List Int) → List (List Int)
  | idx :: indices, j :: belongs_to, bitwiseCount =>
      bitwiseSums K data indices belongs_to
        (bitwiseCount.set j (K.cumBitSum (data.row idx) (bitwiseCount.getD j [])))
  | _, _, bitwiseCount => bitwiseCount

/-- Accumulation of the data into its cluster accumulator (lines 828-833). -/
def accumulate (K : Kernel α δ σ) (data : Mat α) (veclen : Nat) :
    List Nat → List Nat → List (List α) → List (List α)
  | idx :: indices, j :: belongs_to, dcenters =>
      accumulate K data veclen indices belongs_to
        (dcenters.set j ((List.range veclen).map (fun k =>
          K.add ((dcenters.getD j []).getD k K.zero)
            ((data.row idx).getD k K.zero))))
  | _, _, dcenters => dcenters

/-- Recomputation of the centroids (lines 804-842): bitwise majority voting for
`CV_8U` data, the mean of the members otherwise; a cluster without members
keeps the zero row in the second case. -/
def computeCentroids (K : Kernel α δ σ) (data : Mat α) (veclen : Nat)
    (branching : Int) (indices : List Nat) (belongs_to : List Nat)
    (count : List Int) : List (List α) :=
  if data.isU8 then
    let bitwiseCount := bitwiseSums K data indices belongs_to
      (List.replicate branching.toNat (List.replicate (veclen * 8) 0))
    (List.range branching.toNat).map (fun j =>
      K.majorityVoting (bitwiseCount.getD j []) (count.getD j 0))
  else
    let sums := accumulate K data veclen indices belongs_to
      (List.replicate branching.toNat (List.replicate veclen K.zero))
    (List.range branching.toNat).map (fun i =>
      if count.getD i 0 ≠ 0 then
        (List.range veclen).map (fun k =>
          K.divCount ((sums.getD i []).getD k K.zero) (count.getD i 0))
      else sums.getD i [])

/-- Reassignment of every point to its nearest centre (lines 855-877): a point
whose centre changes moves one unit of `count`, takes its new label and
distance, and clears `converged`. -/
def reassign (near : List α → Nat × δ) (data : Mat α) :
    List Nat → List Nat → List δ → List Int → Bool →
      List Nat × List δ × List Int × Bool
  | idx :: indices, b :: belongs_to, d :: distance_to, count, converged =>
      let new := near (data.row idx)
      if new.1 ≠ b then
        let r := reassign near data indices belongs_to distance_to
          (addAt (addAt count b (-1)) new.1 1) false
        (new.1 :: r.1, new.2 :: r.2.1, r.2.2.1, r.2.2.2)
      else
        let r := reassign near data indices belongs_to distance_to count converged
        (b :: r.1, d :: r.2.1, r.2.2.1, r.2.2.2)
  | _, _, _, count, converged => ([], [], count, converged)

/-- Index of the biggest cluster (lines 902-906): the lowest index holding the
largest count. -/
def biggestCluster (branching : Int) (count : List Int) : Nat :=
  (List.range' 1 (branching.toNat - 1)).foldl
    (fun max_k k1 => if count.getD max_k 0 < count.getD k1 0 then k1 else max_k) 0

/-- Farthest point of cluster `max_k` (lines 909-918), scanning positions from
`i` on; `none` stands for the index `-1`. -/
def farthestPoint (max_k : Nat) :
    List Nat → List δ → Nat → δ → Option Nat → Option Nat
  | b :: belongs_to, d :: distance_to, i, maxDist, idxFarthestPt =>
      if b = max_k ∧ maxDist < d then
        farthestPoint max_k belongs_to distance_to (i + 1) d (some i)
      else
        farthestPoint max_k belongs_to distance_to (i + 1) maxDist idxFarthestPt
  | _, _, _, _, idxFarthestPt => idxFarthestPt

/-- Handling of empty clusters (lines 896-924) for the clusters `k`, `k+1`, ...:
an empty cluster takes the farthest point of the biggest cluster. Writing
`belongs_to[-1]` is undefined. -/
def handleEmptyClusters (K : Kernel α δ σ) (branching : Int) (distance_to : List δ) :
    Nat → Nat → List Nat → List Int → Except Error (List Nat × List Int)
  | 0, _, belongs_to, count => .ok (belongs_to, count)
  | todo + 1, k, belongs_to, count =>
      if count.getD k 0 ≠ 0 then
        handleEmptyClusters K branching distance_to todo (k + 1) belongs_to count
      else
        let max_k := biggestCluster branching count
        match farthestPoint max_k belongs_to distance_to 0 K.minusOne none with
        | none => .error .undefined
        | some idxFarthestPt =>
            handleEmptyClusters K branching distance_to todo (k + 1)
              (belongs_to.set idxFarthestPt k) (addAt (addAt count max_k (-1)) k 1)

/-- One pass of the body of the Lloyd loop (lines 795-924). -/
def lloydIteration (K : Kernel α δ σ) (data : Mat α) (veclen : Nat)
    (branching : Int) (indices : List Nat) (s : Lloyd α δ) :
    Except Error (Lloyd α δ) :=
  let dcenters := computeCentroids K data veclen branching indices s.belongs_to s.count
  let r := reassign (nearestCenter K veclen branching dcenters) data indices
    s.belongs_to s.distance_to s.count true
  match handleEmptyClusters K branching r.2.1 branching.toNat 0 r.1 r.2.2.1 with
  | .error e => .error e
  | .ok fixed =>
      .ok { dcenters := dcenters
            belongs_to := fixed.1
            distance_to := r.2.1
            count := fixed.2
            converged := r.2.2.2 }

/-- The Lloyd loop `while (converged == false && iteration < m_iterations)`
(line 788); `remaining` is `m_iterations - iteration`. -/
def lloydLoop (K : Kernel α δ σ) (data : Mat α) (veclen : Nat) (branching : Int)
    (indices : List Nat) : Nat → Lloyd α δ → Except Error (Lloyd α δ)
  | 0, s => .ok s
  | remaining + 1, s =>
      if s.converged then .ok s
      else
        match lloydIteration K data veclen branching indices s with
        | .error e => .error e
        | .ok s1 => lloydLoop K data veclen branching indices remaining s1

/-- Deep copy of the rows of `dcenters` into the centres handed to the children
(lines 934-941). -/
def copyCenters (K : Kernel α δ σ) (veclen : Nat) (branching : Int)
    (dcenters : List (List α)) : List (List α) :=
  (List.range branching.toNat).map (fun i =>
    (List.range veclen).map (fun k => (dcenters.getD i []).getD k K.zero))

/-- Re-ordering of the indices by chunks in clustering order (lines 956-962)
for positions `i`, `i+1`, ...: a position labelled `c` is swapped to position
`end`. -/
def reorder (c : Nat) : Nat → Nat → List Nat → List Nat → Nat →
    List Nat × List Nat × Nat
  | 0, _, indices, belongs_to, «end» => (indices, belongs_to, «end»)
  | todo + 1, i, indices, belongs_to, «end» =>
      if belongs_to.getD i 0 = c then
        reorder c todo (i + 1) (swapAt indices i «end») (swapAt belongs_to i «end»)
          («end» + 1)
      else
        reorder c todo (i + 1) indices belongs_to «end»

/-- The loop over the children (lines 947-969) for the clusters `c`, `c+1`, ...:
gather the indices labelled `c` behind `start`, create the child with its
centre, cluster it on the range `[start, end)` and go on from `end`. The
recursive call is the argument `recurse`. -/
def clusterChildren
    (recurse : VocabTreeNode α → List Nat → Int → Progress α σ →
      Except Error (VocabTreeNode α × List Nat × Progress α σ))
    (centers : List (List α)) (level : Int) :
    Nat → Nat → List Nat → List Nat → Nat → Progress α σ →
      Except Error (List (VocabTreeNode α) × List Nat × Progress α σ)
  | 0, _, indices, _, _, s => .ok ([], indices, s)
  | todo + 1, c, indices, belongs_to, start, s =>
      let r := reorder c indices.length 0 indices belongs_to start
      let «end» := r.2.2
      let child := (VocabTreeNode.new : VocabTreeNode α).setCenter (centers.getD c [])
      match recurse child ((r.1.drop start).take («end» - start)) (level + 1) s with
      | .error e => .error e
      | .ok done =>
          let indices1 := r.1.take start ++ done.2.1 ++ r.1.drop «end»
          match clusterChildren recurse centers level todo (c + 1) indices1 r.2.1
              «end» done.2.2 with
          | .error e => .error e
          | .ok rest => .ok (done.1 :: rest.1, rest.2.1, rest.2.2)

/-- A node becomes a leaf (lines 675-677 and 721-723): no children, the next
word id, and it is appended to the words. -/
def makeLeaf (node : VocabTreeNode α) (indices : List Nat) (s : Progress α σ) :
    VocabTreeNode α × List Nat × Progress α σ :=
  let leaf := (node.setChildren none).setWordId s.m_words.length
  (leaf, indices, { s with m_words := s.m_words ++ [leaf] })

/-- The method doing the recursive hierarchical clustering,
`computeClustering(node, indices, indices_length, level, fitted)`
(lines 659-973). The result is the node, its index range and the written
members after the call. The flag `fitted` is only handed on to the recursive
calls and is left out. `fuel` bounds the depth of the recursion. -/
def computeClustering (K : Kernel α δ σ) (t : VocabTree α σ) :
    Nat → VocabTreeNode α → List Nat → Int → Progress α σ →
      Except Error (VocabTreeNode α × List Nat × Progress α σ)
  | 0, _, _, _, _ => .error .fuel
  | fuel + 1, node, indices, level, s =>
      let node1 := node.setNodeId s.m_size
      let s1 : Progress α σ := { s with m_size := s.m_size + 1 }
      let indices1 := if level > 1 then indices.insertionSort (· ≤ ·) else indices
      if level = t.m_depth ∨ (indices1.length : Int) < t.m_branching then
        .ok (makeLeaf node1 indices1 s1)
      else
        let chosen := K.chooseCenters s1.rng t.m_branching indices1 t.m_dataset
        let s2 : Progress α σ := { s1 with rng := chosen.2 }
        if (chosen.1.length : Int) < t.m_branching then
          .ok (makeLeaf node1 indices1 s2)
        else
          let start := initialAssignment K t.m_dataset t.m_veclen t.m_branching
            (initCenters t.m_dataset t.m_branching chosen.1) indices1
          match lloydLoop K t.m_dataset t.m_veclen t.m_branching indices1
              t.m_iterations.toNat start with
          | .error e => .error e
          | .ok final =>
              let centers := copyCenters K t.m_veclen t.m_branching final.dcenters
              match clusterChildren (computeClustering K t fuel) centers level
                  t.m_branching.toNat 0 indices1 final.belongs_to 0 s2 with
              | .error e => .error e
              | .ok r => .ok (node1.setChildren (some r.1), r.2.1, r.2.2)

/-- Builds the tree, `build()` (lines 351-393). The recursion starts at level 0
and stops at level `m_depth`, so `m_depth + 1` nested calls suffice. -/
def build (K : Kernel α δ σ) (t : VocabTree α σ) : Except Error (VocabTree α σ) :=
  if t.m_branching < 2 then .error .invalidParam
  else if t.m_depth < 1 then .error .invalidParam
  else if t.m_dataset.empty = true then .error .emptyDataset
  else
    let size := t.m_dataset.rows
    let indices := List.range size
    let root := (VocabTreeNode.new : VocabTreeNode α).setCenter
      (List.replicate t.m_veclen K.zero)
    match computeClustering K t (t.m_depth.toNat + 1) root indices 0
        { m_size := t.m_size, m_words := t.m_words, rng := t.rng } with
    | .error e => .error e
    | .ok r =>
        .ok { t with m_root := some r.1, m_size := r.2.2.m_size,
                     m_words := r.2.2.m_words, rng := r.2.2.rng }

end Clustering

/-! ## Quantization -/

section Quantize

variable {α δ σ : Type} [LinearOrder δ]

/-- The search for a better child (lines 416-427) over the child indices `js`:
child `j` replaces the best one when its distance is strictly smaller, and in
that case `nodeAtL` is written if `level == diLevel`. Reading a child outside
the array is undefined. -/
def betterChild (K : Kernel α δ σ) (veclen : Nat) (feature : List α)
    (children : List (VocabTreeNode α)) (level diLevel : Int) :
    List Nat → Nat → δ → Int → Except Error (Nat × Int)
  | [], best, _, nodeAtL => .ok (best, nodeAtL)
  | j :: js, best, best_distance, nodeAtL =>
      match children[j]? with
      | none => .error .undefined
      | some child =>
          let d := K.distance feature child.center veclen
          if d < best_distance then
            betterChild K veclen feature children level diLevel js j d
              (if level = diLevel then (j : Int) else nodeAtL)
          else
            betterChild K veclen feature children level diLevel js best
              best_distance nodeAtL

mutual
/-- The descent loop `while (best_node->children != NULL)` of `quantize`
(lines 407-432), from `node` at depth `level`. -/
def descend (K : Kernel α δ σ) (veclen : Nat) (branching : Int)
    (feature : List α) (diLevel : Int) :
    VocabTreeNode α → Int → Int → Except Error (Int × Int)
  | .mk _ _ none word_id, _, nodeAtL => .ok (word_id, nodeAtL)
  | .mk _ _ (some children) _, level, nodeAtL =>
      match children with
      | [] => .error .undefined
      | first :: _ =>
          match betterChild K veclen feature children level diLevel
              (List.range' 1 (branching.toNat - 1)) 0
              (K.distance feature first.center veclen) nodeAtL with
          | .error e => .error e
          | .ok found =>
              descendAt K veclen branching feature diLevel children found.1
                (level + 1) found.2
/-- The loop goes on from child number `j` of the array. -/
def descendAt (K : Kernel α δ σ) (veclen : Nat) (branching : Int)
    (feature : List α) (diLevel : Int) :
    List (VocabTreeNode α) → Nat → Int → Int → Except Error (Int × Int)
  | [], _, _, _ => .error .undefined
  | child :: _, 0, level, nodeAtL =>
      descend K veclen branching feature diLevel child level nodeAtL
  | _ :: rest, j + 1, level, nodeAtL =>
      descendAt K veclen branching feature diLevel rest j level nodeAtL
end

/-- The method `quantize(feature, diLevel, wordId, nodeAtL)` (lines 397-433).
The reference parameter `nodeAtL` comes in with the caller's value; the result
is the pair `(wordId, nodeAtL)`. A null root is dereferenced. -/
def quantize (K : Kernel α δ σ) (t : VocabTree α σ) (feature : List α)
    (diLevel : Int) (nodeAtL : Int) : Except Error (Int × Int) :=
  if ¬ (0 ≤ diLevel ∧ diLevel < t.m_depth) then .error .assertFailed
  else
    match t.m_root with
    | none => .error .undefined
    | some root => descend K t.m_veclen t.m_branching feature diLevel root 0 nodeAtL

end Quantize

/-! ## Equality -/

section Equality

variable {α σ : Type} [DecidableEq α]

/-- The loop over the centre elements `k`, `k+1`, ... of `compareEqual`
(lines 1002-1008): `true` when no element differs. Reading past a centre is
undefined. -/
def centersEqual (a b : List α) : Nat → Nat → Except Error Bool
  | 0, _ => .ok true
  | todo + 1, k =>
      match a[k]?, b[k]? with
      | some x, some y => if x ≠ y then .ok false else centersEqual a b todo (k + 1)
      | _, _ => .error .undefined

mutual
/-- The recursive comparison `compareEqual(a, b)` (lines 984-1023). -/
def compareEqual (veclen : Nat) (branching : Int) :
    VocabTreeNode α → VocabTreeNode α → Except Error Bool
  | .mk _ ca (some as) _, .mk _ cb (some bs) _ =>
      match centersEqual ca cb veclen 0 with
      | .error e => .error e
      | .ok false => .ok false
      | .ok true => compareChildren veclen branching as bs branching.toNat
  | .mk _ ca none _, .mk _ cb none _ =>
      match centersEqual ca cb veclen 0 with
      | .error e => .error e
      | .ok false => .ok false
      | .ok true => .ok true
  | .mk _ _ (some _) _, .mk _ _ none _ => .ok false
  | .mk _ _ none _, .mk _ _ (some _) _ => .ok false
/-- The loop over the children of two interior nodes (lines 1015-1019). -/
def compareChildren (veclen : Nat) (branching : Int) :
    List (VocabTreeNode α) → List (VocabTreeNode α) → Nat → Except Error Bool
  | _, _, 0 => .ok true
  | a :: as, b :: bs, todo + 1 =>
      match compareEqual veclen branching a b with
      | .error e => .error e
      | .ok false => .ok false
      | .ok true => compareChildren veclen branching as bs todo
  | [], _, _ + 1 => .error .undefined
  | _ :: _, [], _ + 1 => .error .undefined
end

/-- The comparison `operator==` (lines 1025-1050). Null roots are
dereferenced. -/
def VocabTree.operatorEq (a b : VocabTree α σ) : Except Error Bool :=
  if a.getVeclen ≠ b.getVeclen ∨ a.getBranching ≠ b.getBranching
      ∨ a.getDepth ≠ b.getDepth then .ok false
  else
    match a.getRoot, b.getRoot with
    | some ra, some rb =>
        match compareEqual a.m_veclen a.m_branching ra rb with
        | .error e => .error e
        | .ok false => .ok false
        | .ok true => .ok true
    | _, _ => .error .undefined

/-- The comparison `operator!=` (lines 1052-1056). -/
def VocabTree.operatorNe (a b : VocabTree α σ) : Except Error Bool :=
  match a.operatorEq b with
  | .error e => .error e
  | .ok r => .ok (!r)

end Equality

/-! ## Persistence

The file is the sequence of its lines after decompression; a line is known by
its first word, as the tokenizer of `load` sees it. -/

/-- A line of the tree file. `values` is a line with any other first word: the
numbers it starts with and whether it holds a closing bracket. -/
inductive Line (α : Type) where
  | iterations (v : Int)
  | branching (v : Int)
  | depth (v : Int)
  | vectorLength (v : Nat)
  | size (v : Nat)
  | nodes
  | start
  | center
  | rows (v : Int)
  | cols (v : Int)
  | dt (isFloat : Bool)
  | data (elems : List α) (closing : Bool)
  | values (elems : List α) (closing : Bool)
  | nodeId (v : Int)
  | wordId (v : Int)

/-- Modelled from the spec: the document writer `cv::FileStorage` is not part
of this repository. It is known by the element type tag it prints and by the
way it breaks the elements of a matrix over lines. -/
structure Writer (α : Type) where
  isFloat : Bool
  split : List α → List (List α)

section Persistence

variable {α σ : Type}

/-- Modelled from the spec: the continuation lines of a `data:` list, the last
one holding the closing bracket. -/
def moreDataLines : List (List α) → List (Line α)
  | [] => []
  | [chunk] => [Line.values chunk true]
  | chunk :: rest => Line.values chunk false :: moreDataLines rest

/-- Modelled from the spec: the lines of `data: [v0, v1, …]`, possibly spanning
multiple lines until a closing `]`. -/
def dataLines : List (List α) → List (Line α)
  | [] => [Line.data [] true]
  | [chunk] => [Line.data chunk true]
  | chunk :: rest => Line.data chunk false :: moreDataLines rest

/-- Modelled from the spec: the lines of one node record, `center:` (rows=1,
cols=D, element type tag, data), `nodeId:`, `wordId:`. -/
def nodeLines (W : Writer α) (veclen : Nat) (center : List α)
    (node_id word_id : Int) : List (Line α) :=
  [Line.start, Line.center, Line.rows 1, Line.cols veclen, Line.dt W.isFloat]
    ++ dataLines (W.split center) ++ [Line.nodeId node_id, Line.wordId word_id]

mutual
/-- Saves the vocabulary tree starting at a given node, `save_tree`
(lines 474-494): the record of the node, then its children in order. The
matrix written reads `m_veclen` elements of the centre. -/
def save_tree (W : Writer α) (veclen : Nat) (branching : Int) :
    VocabTreeNode α → Except Error (List (Line α))
  | .mk node_id center none word_id =>
      if center.length < veclen then .error .undefined
      else .ok (nodeLines W veclen (center.take veclen) node_id word_id)
  | .mk node_id center (some children) word_id =>
      if center.length < veclen then .error .undefined
      else
        match save_children W veclen branching children branching.toNat with
        | .error e => .error e
        | .ok below =>
            .ok (nodeLines W veclen (center.take veclen) node_id word_id ++ below)
/-- The loop over the children in `save_tree` (lines 488-492). -/
def save_children (W : Writer α) (veclen : Nat) (branching : Int) :
    List (VocabTreeNode α) → Nat → Except Error (List (Line α))
  | _, 0 => .ok []
  | [], _ + 1 => .error .undefined
  | child :: rest, todo + 1 =>
      match save_tree W veclen branching child with
      | .error e => .error e
      | .ok first =>
          match save_children W veclen branching rest todo with
          | .error e => .error e
          | .ok others => .ok (first ++ others)
end

/-- Saves the tree, `save(filename)` (lines 437-470): the lines written, or the
failure. The two lines before `iterations:` are the document header and the
`type:` field. -/
def save (W : Writer α) (t : VocabTree α σ) : Except Error (List (Line α)) :=
  if t.empty = true then .error .treeEmpty
  else
    match t.m_root with
    | none => .error .undefined
    | some root =>
        match save_tree W t.m_veclen t.m_branching root with
        | .error e => .error e
        | .ok body =>
            .ok ([Line.values [] false, Line.values [] false,
              Line.iterations t.m_iterations, Line.branching t.m_branching,
              Line.depth t.m_depth, Line.vectorLength t.m_veclen,
              Line.size t.m_size, Line.nodes] ++ body)

/-- The header loop of `load` (lines 527-544): the fields set the members, the
line `nodes:` ends the loop, any other line is skipped. -/
def readHeader : List (Line α) → VocabTree α σ → VocabTree α σ × List (Line α)
  | [], t => (t, [])
  | .iterations v :: rest, t => readHeader rest { t with m_iterations := v }
  | .branching v :: rest, t => readHeader rest { t with m_branching := v }
  | .depth v :: rest, t => readHeader rest { t with m_depth := v }
  | .vectorLength v :: rest, t => readHeader rest { t with m_veclen := v }
  | .size v :: rest, t => readHeader rest { t with m_size := v }
  | .nodes :: rest, t => (t, rest)
  | _ :: rest, t => readHeader rest t

/-- The locals of `load_tree` that outlive a line: `_rows`, `_cols`, `colIdx`
and the matrix `_center` (its rows, its columns and its first row). -/
structure Scan (α : Type) where
  _rows : Int
  _cols : Int
  colIdx : Int
  centerRows : Int
  centerCols : Int
  centerRow : List α

/-- The locals at the start of `load_tree` (lines 575-581). -/
def Scan.init : Scan α :=
  { _rows := -1, _cols := -1, colIdx := -1, centerRows := 0, centerCols := 0,
    centerRow := [] }

/-- The loop `_center.at<TDescriptor>(0, ++colIdx) = elem` (lines 618-620).
Writing outside the matrix is undefined. -/
def storeElems : List α → Scan α → Except Error (Scan α)
  | [], sc => .ok sc
  | elem :: elems, sc =>
      let colIdx := sc.colIdx + 1
      if 1 ≤ sc.centerRows ∧ 0 ≤ colIdx ∧ colIdx < sc.centerCols then
        storeElems elems { sc with colIdx := colIdx,
                                   centerRow := sc.centerRow.set colIdx.toNat elem }
      else .error .undefined

/-- The branch of `load_tree` for a line of elements (lines 602-637); `first`
tells a line that starts with `data:`, which creates the zero matrix
`_rows × _cols`. On the closing line the dimensions are asserted and the centre
is copied into the node. -/
def readElems (zero : α) (veclen : Nat) (first : Bool) (elems : List α)
    (closing : Bool) (node : VocabTreeNode α) (sc : Scan α) :
    Except Error (VocabTreeNode α × Scan α) :=
  if first = true ∧ (sc._rows < 0 ∨ sc._cols < 0) then .error .assertFailed
  else
    let sc1 : Scan α :=
      if first then
        { sc with centerRows := sc._rows, centerCols := sc._cols,
                  centerRow := if 1 ≤ sc._rows then List.replicate sc._cols.toNat zero
                               else [] }
      else sc
    match storeElems elems sc1 with
    | .error e => .error e
    | .ok sc2 =>
        if closing then
          if sc2.centerRows ≠ 1 then .error .assertFailed
          else if sc2.centerCols ≠ (veclen : Int) then .error .assertFailed
          else
            .ok (node.setCenter sc2.centerRow,
              { sc2 with centerRows := 0, centerCols := 0, centerRow := [] })
        else .ok (node, sc2)

/-- The line loop of `load_tree` (lines 583-638): it ends after the line
`wordId:` or with the file. -/
def readNode (zero : α) (veclen : Nat) :
    List (Line α) → VocabTreeNode α → Scan α →
      Except Error (VocabTreeNode α × List (Line α))
  | [], node, _ => .ok (node, [])
  | .start :: rest, node, sc => readNode zero veclen rest node sc
  | .center :: rest, node, sc => readNode zero veclen rest node sc
  | .rows v :: rest, node, sc => readNode zero veclen rest node { sc with _rows := v }
  | .cols v :: rest, node, sc => readNode zero veclen rest node { sc with _cols := v }
  | .dt _ :: rest, node, sc => readNode zero veclen rest node sc
  | .nodeId v :: rest, node, sc => readNode zero veclen rest (node.setNodeId v) sc
  | .wordId v :: rest, node, _ => .ok (node.setWordId v, rest)
  | .data elems closing :: rest, node, sc =>
      match readElems zero veclen true elems closing node sc with
      | .error e => .error e
      | .ok r => readNode zero veclen rest r.1 r.2
  | .values elems closing :: rest, node, sc =>
      match readElems zero veclen false elems closing node sc with
      | .error e => .error e
      | .ok r => readNode zero veclen rest r.1 r.2
  | _ :: rest, node, sc =>
      match readElems zero veclen false [] false node sc with
      | .error e => .error e
      | .ok r => readNode zero veclen rest r.1 r.2

/-- The loop over the children in `load_tree` (lines 649-652); the recursive
call is the argument `recurse`. -/
def loadChildren
    (recurse : List (Line α) → VocabTreeNode α → List (VocabTreeNode α) →
      Except Error (VocabTreeNode α × List (Line α) × List (VocabTreeNode α))) :
    Nat → List (Line α) → List (VocabTreeNode α) →
      Except Error (List (VocabTreeNode α) × List (Line α) × List (VocabTreeNode α))
  | 0, lines, words => .ok ([], lines, words)
  | todo + 1, lines, words =>
      match recurse lines VocabTreeNode.new words with
      | .error e => .error e
      | .ok first =>
          match loadChildren recurse todo first.2.1 first.2.2 with
          | .error e => .error e
          | .ok others => .ok (first.1 :: others.1, others.2.1, others.2.2)

/-- Loads the vocabulary tree from a stream into a given node, `load_tree`
(lines 561-655). The result is the node, the lines left in the stream and
`m_words`. `fuel` bounds the depth of the recursion. -/
def load_tree (zero : α) (veclen : Nat) (branching : Int) :
    Nat → List (Line α) → VocabTreeNode α → List (VocabTreeNode α) →
      Except Error (VocabTreeNode α × List (Line α) × List (VocabTreeNode α))
  | 0, _, _, _ => .error .fuel
  | fuel + 1, lines, node, words =>
      match readNode zero veclen lines node Scan.init with
      | .error e => .error e
      | .ok r =>
          let hasChildren : Bool := r.1.word_id = -1
          if hasChildren = false then
            let leaf := r.1.setChildren none
            .ok (leaf, r.2, words ++ [leaf])
          else if branching < 0 then .error .badAlloc
          else
            match loadChildren (load_tree zero veclen branching fuel)
                branching.toNat r.2 words with
            | .error e => .error e
            | .ok below => .ok (r.1.setChildren (some below.1), below.2.1, below.2.2)

/-- Loads the tree from the lines of a file, `load(filename)` (lines 498-557),
with a budget of nested calls of `load_tree`. -/
def load (zero : α) (fuel : Nat) (file : List (Line α)) (t : VocabTree α σ) :
    Except Error (VocabTree α σ) :=
  let header := readHeader file t
  match load_tree zero header.1.m_veclen header.1.m_branching fuel header.2
      VocabTreeNode.new header.1.m_words with
  | .error e => .error e
  | .ok r => .ok { header.1 with m_root := some r.1, m_words := r.2.2 }

end Persistence

/-! ## Traversals and the shape of a tree

The notions the properties of a built tree are stated with. -/

namespace VocabTreeNode

variable {α : Type}

mutual
/-- Pre-order, child-0-first listing of the nodes below and including a node,
each with its level; the node itself is at level `level`. -/
def preorderAt : VocabTreeNode α → Int → List (Int × VocabTreeNode α)
  | .mk node_id center none word_id, level =>
      [(level, .mk node_id center none word_id)]
  | .mk node_id center (some children) word_id, level =>
      (level, .mk node_id center (some children) word_id)
        :: preorderListAt children (level + 1)
/-- Pre-order listing of a sequence of siblings at level `level`. -/
def preorderListAt : List (VocabTreeNode α) → Int → List (Int × VocabTreeNode α)
  | [], _ => []
  | child :: rest, level => preorderAt child level ++ preorderListAt rest level
end

/-- Pre-order, child-0-first listing of the nodes reachable from a root. -/
def preorder (root : VocabTreeNode α) : List (VocabTreeNode α) :=
  (preorderAt root 0).map Prod.snd

/-- A leaf is a node without children. -/
def isLeaf (n : VocabTreeNode α) : Bool := n.children.isNone

/-- The leaves reachable from a root, in pre-order. -/
def leaves (root : VocabTreeNode α) : List (VocabTreeNode α) :=
  (preorder root).filter isLeaf

/-- The levels of the leaves reachable from a root, in pre-order. -/
def leafLevels (root : VocabTreeNode α) : List Int :=
  ((preorderAt root 0).filter (fun p => isLeaf p.2)).map Prod.fst

/-- A node is either a leaf (no children, a word id that is not negative) or
an interior node with exactly `branching` children and word id `-1`. -/
def Shaped (branching : Int) (n : VocabTreeNode α) : Prop :=
  (n.children = none ∧ 0 ≤ n.word_id) ∨
    (∃ cs, n.children = some cs ∧ (cs.length : Int) = branching ∧ n.word_id = -1)

end VocabTreeNode

/-- What the equality of the spec looks at in a node: its centre, whether it is
a leaf or an interior node, and the same for its children in order. Ids are
left out. -/
inductive Skeleton (α : Type) where
  | mk (center : List α) (children : Option (List (Skeleton α)))

namespace VocabTreeNode

variable {α : Type}

mutual
/-- The skeleton of the tree below a node. -/
def skeleton : VocabTreeNode α → Skeleton α
  | .mk _ center none _ => .mk center none
  | .mk _ center (some children) _ => .mk center (some (skeletonList children))
/-- The skeletons of a sequence of siblings. -/
def skeletonList : List (VocabTreeNode α) → List (Skeleton α)
  | [] => []
  | child :: rest => skeleton child :: skeletonList rest
end

/-- A node fits a tree of vector length `veclen` and branching factor
`branching`: its centre has `veclen` elements and, when it is interior, it has
`branching` children. -/
def fits (veclen : Nat) (branching : Int) (n : VocabTreeNode α) : Bool :=
  n.center.length == veclen &&
    (match n.children with
      | none => true
      | some cs => (cs.length : Int) == branching)

/-- Every node reachable from the root fits the tree. -/
def WellFormed (veclen : Nat) (branching : Int) (root : VocabTreeNode α) : Prop :=
  ∀ n ∈ root.preorder, fits veclen branching n = true

end VocabTreeNode

section DescentSpec

variable {α δ σ : Type} [LinearOrder δ]

/-- Child number `j` is the one the descent of the spec chooses: its centre has
minimum distance to the descriptor among the children, and every child with a
lower index is strictly farther, so that the lowest index wins ties. -/
def IsNearestChild (K : Kernel α δ σ) (veclen : Nat) (feature : List α)
    (children : List (VocabTreeNode α)) (j : Nat) : Prop :=
  ∃ c, children[j]? = some c
    ∧ (∀ (i : Nat) (ci : VocabTreeNode α), children[i]? = some ci →
        K.distance feature c.center veclen ≤ K.distance feature ci.center veclen)
    ∧ (∀ (i : Nat) (ci : VocabTreeNode α), i < j → children[i]? = some ci →
        K.distance feature c.center veclen < K.distance feature ci.center veclen)

/-- The descent of the spec from a node to a leaf: a leaf is reached at once;
at an interior node the descent goes on from the nearest child. -/
inductive Descends (K : Kernel α δ σ) (veclen : Nat) (feature : List α) :
    VocabTreeNode α → VocabTreeNode α → Prop where
  | leaf (n : VocabTreeNode α) : n.children = none → Descends K veclen feature n n
  | step (n : VocabTreeNode α) (cs : List (VocabTreeNode α)) (j : Nat)
      (c leaf : VocabTreeNode α) :
      n.children = some cs → IsNearestChild K veclen feature cs j →
      cs[j]? = some c → Descends K veclen feature c leaf →
      Descends K veclen feature n leaf

end DescentSpec

/-- What a run of the clusterer leaves behind, in terms of the pre-order listing
`listing` of the nodes it created between the written members `s` and `s1`:
node ids count up from `s.m_size`, the leaves are appended to the words and
carry their position as word id, every node is shaped, lies at a level up to
`m_depth` and has a centre of `m_veclen` elements. -/
structure Laid {α σ : Type} (t : VocabTree α σ) (s : Progress α σ)
    (listing : List (Int × VocabTreeNode α)) (s1 : Progress α σ) : Prop where
  ids : listing.map (fun p => p.2.node_id)
    = (List.range' s.m_size listing.length).map Int.ofNat
  size : s1.m_size = s.m_size + listing.length
  words : s1.m_words
    = s.m_words ++ (listing.map Prod.snd).filter VocabTreeNode.isLeaf
  wordIds : ((listing.map Prod.snd).filter VocabTreeNode.isLeaf).map
      VocabTreeNode.word_id
    = (List.range' s.m_words.length
        ((listing.map Prod.snd).filter VocabTreeNode.isLeaf).length).map Int.ofNat
  shaped : ∀ p ∈ listing, VocabTreeNode.Shaped t.m_branching p.2
  levels : ∀ p ∈ listing, p.1 ≤ t.m_depth
  centers : ∀ p ∈ listing, p.2.center.length = t.m_veclen

/-- The invariant of the working vectors of the Lloyd loop over `n` points and
`B` clusters: one label and one distance per point, every label below `B`, and
`count[c]` the number of points labelled `c`. -/
structure LloydInv {α δ : Type} (B n : Nat) (s : Lloyd α δ) : Prop where
  labels : s.belongs_to.length = n
  dists : s.distance_to.length = n
  counts : s.count.length = B
  bound : ∀ b ∈ s.belongs_to, b < B
  agree : ∀ c, c < B → s.count.getD c 0 = (s.belongs_to.count c : Int)

/-- The rows of the points labelled `c`, in the order of the indices. -/
def clusterRows {α : Type} (data : Mat α) (indices belongs_to : List Nat) (c : Nat) :
    List (List α) :=
  ((indices.zip belongs_to).filter (fun p => p.2 = c)).map (fun p => data.row p.1)

/-! ## The binary instance: bytes, Hamming distance, k-majority -/

/-- Bit `b` of a byte. -/
def bitOf (x : Nat) (b : Nat) : Nat := x / 2 ^ b % 2

/-- Whether bit position `j` (bit `j % 8` of byte `j / 8`) is set in a row of
bytes. -/
def bitSet (row : List Nat) (j : Nat) : Bool := bitOf (row.getD (j / 8) 0) (j % 8) = 1

/-- Modelled from the spec: `cv::Hamming` is not part of this header; the
distance over packed bytes is the population count of the XOR, here the number
of bit positions at which the two vectors differ. -/
def hammingDistance (a b : List Nat) (veclen : Nat) : Int :=
  ((List.range (veclen * 8)).filter (fun j =>
    bitOf (a.getD (j / 8) 0) (j % 8) ≠ bitOf (b.getD (j / 8) 0) (j % 8))).length

namespace KMajority

/-- Modelled from the spec: `KMajority::cumBitSum` is not part of this header;
it accumulates each of the 8·D bit positions of `src` into the vector of 8·D
integer counters. Bit position `j` is bit `j % 8` of byte `j / 8`. -/
def cumBitSum (src : List Nat) (counters : List Int) : List Int :=
  (List.range counters.length).map (fun j =>
    counters.getD j 0 + (bitOf (src.getD (j / 8) 0) (j % 8) : Int))

/-- Modelled from the spec: `KMajority::majorityVoting` is not part of this
header; bit `j` of the output is 1 iff `counters[j] > cluster_size / 2`. -/
def majorityVoting (counters : List Int) (cluster_size : Int) : List Nat :=
  (List.range (counters.length / 8)).map (fun k =>
    ((List.range 8).map (fun b =>
      if counters.getD (8 * k + b) 0 > cluster_size / 2 then 2 ^ b else 0)).sum)

end KMajority

/-- The collaborators of `VocabTreeBin = VocabTree<uchar, cv::Hamming>` for a
given centre chooser; bytes are the naturals below 256. -/
def binKernel {σ : Type} (chooseCenters : σ → Int → List Nat → Mat Nat → List Nat × σ) :
    Kernel Nat Int σ where
  zero := 0
  distance := hammingDistance
  minusOne := -1
  chooseCenters := chooseCenters
  cumBitSum := KMajority.cumBitSum
  majorityVoting := KMajority.majorityVoting
  add := fun a b => (a + b) % 256
  divCount := fun a n => (a / n.toNat) % 256

/-- A centre chooser without randomness: the first `k` of the candidate
indices. -/
def firstCenters (rng : Unit) (k : Int) (indices : List Nat) (_data : Mat Nat) :
    List Nat × Unit :=
  (indices.take k.toNat, rng)

/-! ## A worked instance -/

/-- A data set of eight descriptors of one byte. -/
def exampleData : Mat Nat :=
  { data := [[0], [1], [3], [240], [241], [255], [15], [14]], cols := 1, isU8 := true }

/-- A freshly constructed tree over `exampleData`: branching 2, depth 2, at most
10 iterations. -/
def exampleTree : VocabTree Nat Unit := VocabTree.new exampleData 2 2 10 ()

/-- The leaves of the tree built from `exampleTree`, in the order of the
words. -/
def exampleWords : List (VocabTreeNode Nat) :=
  [.mk 2 [0] none 0, .mk 3 [1] none 1, .mk 5 [255] none 2, .mk 6 [14] none 3]

/-- The root of the tree built from `exampleTree`. -/
def exampleRoot : VocabTreeNode Nat :=
  .mk 0 [0] (some
    [.mk 1 [1] (some [.mk 2 [0] none 0, .mk 3 [1] none 1]) (-1),
     .mk 4 [15] (some [.mk 5 [255] none 2, .mk 6 [14] none 3]) (-1)]) (-1)

/-- The tree built from `exampleTree`. -/
def exampleBuilt : VocabTree Nat Unit :=
  { exampleTree with m_size := 7, m_root := some exampleRoot, m_words := exampleWords }

/-- The tree after a second `build()` on `exampleBuilt`: a new root with the
node ids 7 to 13, and the four new leaves appended to the four old words. -/
def exampleRebuilt : VocabTree Nat Unit :=
  { exampleTree with
    m_size := 14
    m_root := some (.mk 7 [0] (some
      [.mk 8 [1] (some [.mk 9 [0] none 4, .mk 10 [1] none 5]) (-1),
       .mk 11 [15] (some [.mk 12 [255] none 6, .mk 13 [14] none 7]) (-1)]) (-1))
    m_words := exampleWords ++
      [.mk 9 [0] none 4, .mk 10 [1] none 5, .mk 12 [255] none 6, .mk 13 [14] none 7] }

/-- A document writer for bytes that puts eight elements on the first line of a
matrix and the others on a second line. -/
def exampleWriter : Writer Nat :=
  { isFloat := false, split := fun c => [c.take 8, c.drop 8] }

/-- The root of a tree with the centres of `exampleRoot` at the same positions
and other node ids and word ids. -/
def exampleRootRelabelled : VocabTreeNode Nat :=
  .mk 10 [0] (some
    [.mk 11 [1] (some [.mk 12 [0] none 7, .mk 13 [1] none 5]) (-1),
     .mk 14 [15] (some [.mk 15 [255] none 3, .mk 16 [14] none 1]) (-1)]) (-1)

/-- A tree over `exampleRootRelabelled` with another iteration count and node
count than `exampleBuilt`. -/
def exampleRelabelled : VocabTree Nat Unit :=
  { exampleTree with m_iterations := 3, m_size := 99,
                     m_root := some exampleRootRelabelled, m_words := [] }

/-- A file without a `size:` line: the header declares branching 2, depth 2 and
vector length 1, and the only node record is a leaf with centre `[0]`. -/
def exampleFileNoSize : List (Line Nat) :=
  [.branching 2, .depth 2, .vectorLength 1, .nodes,
   .start, .center, .rows 1, .cols 1, .dt false, .data [0] true, .nodeId 0, .wordId 0]

/-- The tree `load` makes of `exampleFileNoSize` from `exampleTree`: a root, one
word, and the node count still 0. -/
def exampleLoadedNoSize : VocabTree Nat Unit :=
  { exampleTree with m_root := some (.mk 0 [0] none 0), m_words := [.mk 0 [0] none 0] }

/-- A file whose header declares depth 1 and whose node records are those of
`exampleRoot`, with the interior nodes 1 and 4 at depth 1. -/
def exampleFileDepth1 : List (Line Nat) :=
  [.iterations 10, .branching 2, .depth 1, .vectorLength 1, .size 7, .nodes,
   .start, .center, .rows 1, .cols 1, .dt false, .data [0] true, .nodeId 0, .wordId (-1),
   .start, .center, .rows 1, .cols 1, .dt false, .data [1] true, .nodeId 1, .wordId (-1),
   .start, .center, .rows 1, .cols 1, .dt false, .data [0] true, .nodeId 2, .wordId 0,
   .start, .center, .rows 1, .cols 1, .dt false, .data [1] true, .nodeId 3, .wordId 1,
   .start, .center, .rows 1, .cols 1, .dt false, .data [15] true, .nodeId 4, .wordId (-1),
   .start, .center, .rows 1, .cols 1, .dt false, .data [255] true, .nodeId 5, .wordId 2,
   .start, .center, .rows 1, .cols 1, .dt false, .data [14] true, .nodeId 6, .wordId 3]

/-- A data set of four descriptors of one byte. -/
def exampleDataFour : Mat Nat :=
  { data := [[1], [2], [7], [4]], cols := 1, isU8 := true }

/-- The tree built from `exampleDataFour` with branching 2 and depth 2: the root
splits into the centres `[5]` (rows 1, 7, 4) and `[2]` (row 2); the first child
splits into the leaves `[0]` and `[7]`, the second is a leaf. -/
def exampleBuiltFour : VocabTree Nat Unit :=
  { VocabTree.new exampleDataFour 2 2 10 () with
    m_size := 5
    m_root := some (.mk 0 [0] (some
      [.mk 1 [5] (some [.mk 2 [0] none 0, .mk 3 [7] none 1]) (-1),
       .mk 4 [2] none 2]) (-1))
    m_words := [.mk 2 [0] none 0, .mk 3 [7] none 1, .mk 4 [2] none 2] }

/-! ## The log of the calls of the clusterer

The clusterer hands a range of the index array to every call. To speak about
these ranges the clusterer is repeated here with a log: every call of
`computeClustering` adds one record. The logged functions return the results of
the original ones together with the log. -/

/-- The record of one call of `computeClustering`: its level, the id it gives to
its node, the range of indices handed to it, the range after the sorting of
lines 666-670 (`work`), whether the node became a leaf, for an interior node
the vectors `belongs_to` (`labels`) and `count` at the end of the Lloyd loop and
the ranges handed to its children, and the range when the call returns
(`result`). -/
structure Call where
  level : Int
  node_id : Nat
  range : List Nat
  work : List Nat
  leaf : Bool
  labels : List Nat
  count : List Int
  parts : List (List Nat)
  result : List Nat

/-- The ranges handed to the calls that made a leaf, in the order of the
calls. -/
def leafRanges (calls : List Call) : List (List Nat) :=
  (calls.filter (fun call => call.leaf)).map (fun call => call.range)

section Logged

variable {α δ σ : Type} [LinearOrder δ]

/-- The loop over the children `clusterChildren` (lines 947-969) with the log:
besides the results it returns the ranges `[start, end)` handed to the children
and the records of the calls below them. -/
def clusterChildrenLogged
    (recurse : VocabTreeNode α → List Nat → Int → Progress α σ →
      Except Error ((VocabTreeNode α × List Nat × Progress α σ) × List Call))
    (centers : List (List α)) (level : Int) :
    Nat → Nat → List Nat → List Nat → Nat → Progress α σ →
      Except Error ((List (VocabTreeNode α) × List Nat × Progress α σ)
        × List (List Nat) × List Call)
  | 0, _, indices, _, _, s => .ok (([], indices, s), [], [])
  | todo + 1, c, indices, belongs_to, start, s =>
      let r := reorder c indices.length 0 indices belongs_to start
      let «end» := r.2.2
      let child := (VocabTreeNode.new : VocabTreeNode α).setCenter (centers.getD c [])
      let part := (r.1.drop start).take («end» - start)
      match recurse child part (level + 1) s with
      | .error e => .error e
      | .ok done =>
          let indices1 := r.1.take start ++ done.1.2.1 ++ r.1.drop «end»
          match clusterChildrenLogged recurse centers level todo (c + 1) indices1 r.2.1
              «end» done.1.2.2 with
          | .error e => .error e
          | .ok rest =>
              .ok ((done.1.1 :: rest.1.1, rest.1.2.1, rest.1.2.2), part :: rest.2.1,
                done.2 ++ rest.2.2)

/-- The method `computeClustering` (lines 659-973) with the log: the record of
the call itself comes first, the records of the calls for the children follow
it. -/
def computeClusteringLogged (K : Kernel α δ σ) (t : VocabTree α σ) :
    Nat → VocabTreeNode α → List Nat → Int → Progress α σ →
      Except Error ((VocabTreeNode α × List Nat × Progress α σ) × List Call)
  | 0, _, _, _, _ => .error .fuel
  | fuel + 1, node, indices, level, s =>
      let node1 := node.setNodeId s.m_size
      let s1 : Progress α σ := { s with m_size := s.m_size + 1 }
      let indices1 := if level > 1 then indices.insertionSort (· ≤ ·) else indices
      let leafCall : Call :=
        { level := level, node_id := s.m_size, range := indices, work := indices1,
          leaf := true, labels := [], count := [], parts := [], result := indices1 }
      if level = t.m_depth ∨ (indices1.length : Int) < t.m_branching then
        .ok (makeLeaf node1 indices1 s1, [leafCall])
      else
        let chosen := K.chooseCenters s1.rng t.m_branching indices1 t.m_dataset
        let s2 : Progress α σ := { s1 with rng := chosen.2 }
        if (chosen.1.length : Int) < t.m_branching then
          .ok (makeLeaf node1 indices1 s2, [leafCall])
        else
          let start := initialAssignment K t.m_dataset t.m_veclen t.m_branching
            (initCenters t.m_dataset t.m_branching chosen.1) indices1
          match lloydLoop K t.m_dataset t.m_veclen t.m_branching indices1
              t.m_iterations.toNat start with
          | .error e => .error e
          | .ok final =>
              let centers := copyCenters K t.m_veclen t.m_branching final.dcenters
              match clusterChildrenLogged (computeClusteringLogged K t fuel) centers level
                  t.m_branching.toNat 0 indices1 final.belongs_to 0 s2 with
              | .error e => .error e
              | .ok r =>
                  .ok ((node1.setChildren (some r.1.1), r.1.2.1, r.1.2.2),
                    { level := level, node_id := s.m_size, range := indices,
                      work := indices1, leaf := false, labels := final.belongs_to,
                      count := final.count, parts := r.2.1, result := r.1.2.1 } :: r.2.2)

/-- The method `build()` (lines 351-393) with the log of the calls of the
clusterer. -/
def buildLogged (K : Kernel α δ σ) (t : VocabTree α σ) :
    Except Error (VocabTree α σ × List Call) :=
  if t.m_branching < 2 then .error .invalidParam
  else if t.m_depth < 1 then .error .invalidParam
  else if t.m_dataset.empty = true then .error .emptyDataset
  else
    let size := t.m_dataset.rows
    let indices := List.range size
    let root := (VocabTreeNode.new : VocabTreeNode α).setCenter
      (List.replicate t.m_veclen K.zero)
    match computeClusteringLogged K t (t.m_depth.toNat + 1) root indices 0
        { m_size := t.m_size, m_words := t.m_words, rng := t.rng } with
    | .error e => .error e
    | .ok r =>
        .ok ({ t with m_root := some r.1.1, m_size := r.1.2.2.m_size,
                      m_words := r.1.2.2.m_words, rng := r.1.2.2.rng }, r.2)

end Logged

/-- A data set of one point repeated four times and two other points. -/
def exampleDataRepeated : Mat Nat :=
  { data := [[5], [5], [5], [5], [0], [255]], cols := 1, isU8 := true }

/-- The tree built from `exampleDataRepeated` with branching 3 and depth 1: the
three initial centres are the repeated point, the two clusters that are empty
after the reassignment take the two other points. -/
def exampleBuiltRepeated : VocabTree Nat Unit :=
  { VocabTree.new exampleDataRepeated 3 1 10 () with
    m_size := 4
    m_root := some (.mk 0 [0] (some
      [.mk 1 [5] none 0, .mk 2 [0] none 1, .mk 3 [255] none 2]) (-1))
    m_words := [.mk 1 [5] none 0, .mk 2 [0] none 1, .mk 3 [255] none 2] }

/-- The conditions under which the spec makes a node a leaf, for a call at
`level` with the range `indices` and the generator state `rng`: the last level
is reached, or there are fewer indices than clusters, or the initializer,
called on the range as the clusterer holds it, returns fewer than `m_branching`
centres. -/
def becomesLeaf {α δ σ : Type} (K : Kernel α δ σ) (t : VocabTree α σ)
    (indices : List Nat) (level : Int) (rng : σ) : Prop :=
  level = t.m_depth ∨ (indices.length : Int) < t.m_branching
    ∨ ((K.chooseCenters rng t.m_branching
        (if level > 1 then indices.insertionSort (· ≤ ·) else indices)
        t.m_dataset).1.length : Int) < t.m_branching

/-- The log of the calls of the clusterer during the `build()` of
`exampleTree`. -/
def exampleCalls : List Call :=
  [{ level := 0, node_id := 0, range := [0, 1, 2, 3, 4, 5, 6, 7],
     work := [0, 1, 2, 3, 4, 5, 6, 7], leaf := false,
     labels := [0, 0, 0, 0, 0, 1, 1, 1], count := [5, 3],
     parts := [[0, 1, 2, 3, 4], [5, 6, 7]], result := [0, 3, 1, 2, 4, 5, 6, 7] },
   { level := 1, node_id := 1, range := [0, 1, 2, 3, 4], work := [0, 1, 2, 3, 4],
     leaf := false, labels := [0, 1, 1, 0, 1], count := [2, 3],
     parts := [[0, 3], [2, 1, 4]], result := [0, 3, 1, 2, 4] },
   { level := 2, node_id := 2, range := [0, 3], work := [0, 3], leaf := true,
     labels := [], count := [], parts := [], result := [0, 3] },
   { level := 2, node_id := 3, range := [2, 1, 4], work := [1, 2, 4], leaf := true,
     labels := [], count := [], parts := [], result := [1, 2, 4] },
   { level := 1, node_id := 4, range := [5, 6, 7], work := [5, 6, 7], leaf := false,
     labels := [0, 1, 1], count := [1, 2], parts := [[5], [6, 7]],
     result := [5, 6, 7] },
   { level := 2, node_id := 5, range := [5], work := [5], leaf := true,
     labels := [], count := [], parts := [], result := [5] },
   { level := 2, node_id := 6, range := [6, 7], work := [6, 7], leaf := true,
     labels := [], count := [], parts := [], result := [6, 7] }]

/-- The log of the calls of the clusterer during the `build()` of the tree with
branching 3 and depth 1 from `exampleDataRepeated`. -/
def exampleCallsRepeated : List Call :=
  [{ level := 0, node_id := 0, range := [0, 1, 2, 3, 4, 5], work := [0, 1, 2, 3, 4, 5],
     leaf := false, labels := [0, 0, 0, 0, 1, 2], count := [4, 1, 1],
     parts := [[0, 1, 2, 3], [4], [5]], result := [0, 1, 2, 3, 4, 5] },
   { level := 1, node_id := 1, range := [0, 1, 2, 3], work := [0, 1, 2, 3], leaf := true,
     labels := [], count := [], parts := [], result := [0, 1, 2, 3] },
   { level := 1, node_id := 2, range := [4], work := [4], leaf := true,
     labels := [], count := [], parts := [], result := [4] },
   { level := 1, node_id := 3, range := [5], work := [5], leaf := true,
     labels := [], count := [], parts := [], result := [5] }]

/-- The indices of a range whose label is `c`, in the order of the range. -/
def clusterIndices (indices belongs_to : List Nat) (c : Nat) : List Nat :=
  ((indices.zip belongs_to).filter (fun p => p.2 = c)).map Prod.fst

section LloydLog

variable {α δ σ : Type} [LinearOrder δ]

/-- The Lloyd loop `lloydLoop` (line 788) with a log: besides the working
vectors at the end of the loop it returns the working vectors after each
iteration, in the order of the iterations. -/
def lloydLoopLogged (K : Kernel α δ σ) (data : Mat α) (veclen : Nat) (branching : Int)
    (indices : List Nat) : Nat → Lloyd α δ → Except Error (Lloyd α δ × List (Lloyd α δ))
  | 0, s => .ok (s, [])
  | remaining + 1, s =>
      if s.converged then .ok (s, [])
      else
        match lloydIteration K data veclen branching indices s with
        | .error e => .error e
        | .ok s1 =>
            match lloydLoopLogged K data veclen branching indices remaining s1 with
            | .error e => .error e
            | .ok r => .ok (r.1, s1 :: r.2)

/-- The vector `belongs_to` after the reassignment of an iteration
(lines 855-877) and before the handling of empty clusters. -/
def reassignedLabels (K : Kernel α δ σ) (data : Mat α) (veclen : Nat) (branching : Int)
    (indices : List Nat) (s : Lloyd α δ) : List Nat :=
  (reassign (nearestCenter K veclen branching
      (computeCentroids K data veclen branching indices s.belongs_to s.count))
    data indices s.belongs_to s.distance_to s.count true).1

end LloydLog

/-- A data set of one point three times and a neighbour of it. -/
def exampleDataNear : Mat Nat :=
  { data := [[5], [5], [5], [7]], cols := 1, isU8 := true }

/-- The working vectors after the initial assignment of `exampleDataNear` to the
initial centres `[5]` and `[5]`: every point lies in cluster 0. -/
def exampleNearStart : Lloyd Nat Int :=
  { dcenters := [[5], [5]], belongs_to := [0, 0, 0, 0], distance_to := [0, 0, 0, 1],
    count := [4, 0], converged := false }

/-- The working vectors after the first iteration from `exampleNearStart`: the
reassignment moves no point, the handling of the empty cluster 1 moves the last
point into it. -/
def exampleNearEnd : Lloyd Nat Int :=
  { dcenters := [[5], [0]], belongs_to := [0, 0, 0, 1], distance_to := [0, 0, 0, 1],
    count := [3, 1], converged := true }

/-! ## Node records

The node records of a tree file as the spec describes them, and the tree the
spec reads off a pre-order sequence of records. -/

/-- A node record of the tree file: `nodeId`, `center` and `wordId`. -/
structure Record (α : Type) where
  node_id : Int
  center : List α
  word_id : Int

section Records

variable {α : Type}

/-- The lines of a sequence of node records, one record after the other. -/
def recordLines (W : Writer α) (veclen : Nat) : List (Record α) → List (Line α)
  | [] => []
  | r :: rest => nodeLines W veclen r.center r.node_id r.word_id ++ recordLines W veclen rest

/-- The children of an interior node as the spec reads them: `todo` subtrees
taken one after the other from the records, in child-index order, with the
leaves in the order they are read. The reading of one subtree is the argument
`recurse`. -/
def rebuildChildren
    (recurse : List (Record α) →
      Option (VocabTreeNode α × List (Record α) × List (VocabTreeNode α))) :
    Nat → List (Record α) →
      Option (List (VocabTreeNode α) × List (Record α) × List (VocabTreeNode α))
  | 0, recs => some ([], recs, [])
  | todo + 1, recs =>
      match recurse recs with
      | none => none
      | some first =>
          match rebuildChildren recurse todo first.2.1 with
          | none => none
          | some others => some (first.1 :: others.1, others.2.1, first.2.2 ++ others.2.2)

/-- The tree the spec reads off a pre-order sequence of node records: a record
with `wordId == -1` is an interior node followed by the records of exactly `B`
subtrees, a record with `wordId >= 0` is a leaf. The result is the tree, the
records left over and the leaves in the order they were read; `fuel` bounds the
depth. -/
def rebuild (B : Nat) :
    Nat → List (Record α) →
      Option (VocabTreeNode α × List (Record α) × List (VocabTreeNode α))
  | 0, _ => none
  | _ + 1, [] => none
  | fuel + 1, r :: rest =>
      if r.word_id = -1 then
        match rebuildChildren (rebuild B fuel) B rest with
        | none => none
        | some below =>
            some (.mk r.node_id r.center (some below.1) (-1), below.2.1, below.2.2)
      else if 0 ≤ r.word_id then
        some (.mk r.node_id r.center none r.word_id, rest,
          [.mk r.node_id r.center none r.word_id])
      else none

end Records

/-- The node records of the file of `exampleBuilt`, in pre-order. -/
def exampleRecords : List (Record Nat) :=
  [⟨0, [0], -1⟩, ⟨1, [1], -1⟩, ⟨2, [0], 0⟩, ⟨3, [1], 1⟩, ⟨4, [15], -1⟩, ⟨5, [255], 2⟩,
   ⟨6, [14], 3⟩]

/-- A file that ends after its header: no node record follows `nodes:`. -/
def exampleFileNoNodes : List (Line Nat) :=
  [.iterations 10, .branching 2, .depth 2, .vectorLength 1, .size 7, .nodes]

/-- A file whose node records end early: the record of an interior root and the
record of one leaf, where the branching factor 2 asks for two children. -/
def exampleFileShort : List (Line Nat) :=
  [.iterations 10, .branching 2, .depth 2, .vectorLength 1, .size 3, .nodes,
   .start, .center, .rows 1, .cols 1, .dt false, .data [0] true, .nodeId 0, .wordId (-1),
   .start, .center, .rows 1, .cols 1, .dt false, .data [1] true, .nodeId 1, .wordId 0]

/-! ## Landmark voting (VocabMatch/VocabMatch.cpp)

The part of `main` that turns the ranking of the data base images for a query
into the most voted landmark. The data base is known by the landmark ids of its
images (`db_landmarks`, one per image, `db_filenames` has the same size), the
ranking by the row `perm` of image indices. -/

namespace VocabMatch

/-- The value `*std::max_element(db_landmarks.begin(), db_landmarks.end())`
(line 178). On an empty vector the end iterator is dereferenced. -/
def maxElement : List Int → Except Error Int
  | [] => .error .undefined
  | x :: xs => .ok (xs.foldl (fun best y => if best < y then y else best) x)

/-- The loop accumulating the landmark votes (lines 257-259) for the ranks `i`,
`i+1`, ...: `votes[db_landmarks[perm.at<int>(0, i)]]++`. An index outside one of
the three vectors is undefined. -/
def countVotes (db_landmarks : List Int) (perm : List Nat) :
    Nat → Nat → List Int → Except Error (List Int)
  | 0, _, votes => .ok votes
  | todo + 1, i, votes =>
      match perm[i]? with
      | none => .error .undefined
      | some image =>
          match db_landmarks[image]? with
          | none => .error .undefined
          | some landmark =>
              if 0 ≤ landmark ∧ landmark < votes.length then
                countVotes db_landmarks perm todo (i + 1)
                  (votes.set landmark.toNat (votes.getD landmark.toNat 0 + 1))
              else .error .undefined

/-- The loop finding the most voted landmark (lines 262-269) over the landmark
ids `j`, `j+1`, ...: a landmark replaces the current one when it has strictly
more votes. The result is `(max_votes, max_landmark)`. -/
def maxVoted (votes : List Int) : Nat → Nat → Int × Int → Int × Int
  | 0, _, best => best
  | todo + 1, j, best =>
      if votes.getD j 0 > best.1 then maxVoted votes todo (j + 1) (votes.getD j 0, j)
      else maxVoted votes todo (j + 1) best

/-- The conversion of an integer to `int`: 32 bits, two's complement, the value
wraps modulo `2^32`. -/
def toInt32 (x : Int) : Int := (x + 2147483648) % 4294967296 - 2147483648

/-- The voting for one query (lines 249-269 with `max_ld` of line 178): the
result is `(top, max_landmark, max_votes)`, the last two being what is printed
to the matches file (line 281). `top` and `max_ld + 1` are values of type `int`:
`top` is the conversion of `MIN (num_nbrs, db_filenames.size())`, and the sum
`max_ld + 1` wraps at `INT_MAX`. A negative size of `votes` fails the
allocation. The loops run while the counter is below `top`, respectively below
`max_ld + 1`. -/
def landmarkVoting (num_nbrs : Nat) (db_landmarks : List Int) (perm : List Nat) :
    Except Error (Int × Int × Int) :=
  match maxElement db_landmarks with
  | .error e => .error e
  | .ok max_ld =>
      let top : Int := toInt32 (min num_nbrs db_landmarks.length : Nat)
      let size : Int := toInt32 (max_ld + 1)
      if size < 0 then .error .badAlloc
      else
        match countVotes db_landmarks perm top.toNat 0 (List.replicate size.toNat 0) with
        | .error e => .error e
        | .ok votes =>
            let found := maxVoted votes size.toNat 0 (0, -1)
            .ok (top, found.2, found.1)

/-- The landmark ids of the `top` best ranked images, in the order of the
ranking. -/
def topLandmarks (db_landmarks : List Int) (perm : List Nat) (top : Nat) : List Int :=
  (perm.take top).map (fun image => db_landmarks.getD image 0)

end VocabMatch

end vlr

/-! ## The clusterer -/

namespace vlr

section ClusteringFacts

variable {α δ σ : Type} [LinearOrder δ]

theorem range'_add (a m n : Nat) :
    List.range' a (m + n) = List.range' a m ++ List.range' (a + m) n := by
  rw [Nat.add_comm m n]
  exact (List.range'_append_1 a m n).symm

theorem Laid.nil (t : VocabTree α σ) (s : Progress α σ) : Laid t s [] s where
  ids := by simp
  size := by simp
  words := by simp
  wordIds := by simp
  shaped := by simp
  levels := by simp
  centers := by simp

theorem Laid.append {t : VocabTree α σ} {s s1 s2 : Progress α σ}
    {l1 l2 : List (Int × VocabTreeNode α)} (h1 : Laid t s l1 s1)
    (h2 : Laid t s1 l2 s2) : Laid t s (l1 ++ l2) s2 where
  ids := by
    rw [List.map_append, h1.ids, h2.ids, h1.size, List.length_append, range'_add,
      List.map_append]
  size := by rw [h2.size, h1.size, List.length_append]; omega
  words := by
    rw [h2.words, h1.words, List.map_append, List.filter_append, List.append_assoc]
  wordIds := by
    rw [List.map_append, List.filter_append, List.map_append, h1.wordIds, h2.wordIds,
      h1.words, List.length_append, List.length_append, range'_add, List.map_append]
  shaped := by
    intro p hp
    rcases List.mem_append.1 hp with h | h
    · exact h1.shaped p h
    · exact h2.shaped p h
  levels := by
    intro p hp
    rcases List.mem_append.1 hp with h | h
    · exact h1.levels p h
    · exact h2.levels p h
  centers := by
    intro p hp
    rcases List.mem_append.1 hp with h | h
    · exact h1.centers p h
    · exact h2.centers p h

theorem Laid.congr_start {t : VocabTree α σ} {s s0 s1 : Progress α σ}
    {l : List (Int × VocabTreeNode α)} (h : Laid t s l s1)
    (hsize : s0.m_size = s.m_size) (hwords : s0.m_words = s.m_words) :
    Laid t s0 l s1 where
  ids := by rw [hsize]; exact h.ids
  size := by rw [hsize]; exact h.size
  words := by rw [hwords]; exact h.words
  wordIds := by rw [hwords]; exact h.wordIds
  shaped := h.shaped
  levels := h.levels
  centers := h.centers

theorem Laid.leaf (t : VocabTree α σ) (s : Progress α σ) (rng : σ) (level : Int)
    (node_id : Int) (center : List α) (hid : node_id = s.m_size)
    (hcenter : center.length = t.m_veclen) (hlevel : level ≤ t.m_depth) :
    Laid t s [(level, VocabTreeNode.mk node_id center none s.m_words.length)]
      { m_size := s.m_size + 1
        m_words := s.m_words
          ++ [VocabTreeNode.mk node_id center none s.m_words.length]
        rng := rng } where
  ids := by simp [VocabTreeNode.node_id, hid]
  size := by simp
  words := by simp [VocabTreeNode.isLeaf, VocabTreeNode.children]
  wordIds := by simp [VocabTreeNode.isLeaf, VocabTreeNode.children, VocabTreeNode.word_id]
  shaped := by
    intro p hp
    rw [List.mem_singleton] at hp
    subst hp
    exact Or.inl ⟨rfl, by simp [VocabTreeNode.word_id]⟩
  levels := by
    intro p hp
    rw [List.mem_singleton] at hp
    subst hp
    exact hlevel
  centers := by
    intro p hp
    rw [List.mem_singleton] at hp
    subst hp
    exact hcenter

theorem Laid.interior (t : VocabTree α σ) (s : Progress α σ) (rng : σ) (level : Int)
    (node_id : Int) (center : List α) (children : List (VocabTreeNode α))
    (hid : node_id = s.m_size) (hcenter : center.length = t.m_veclen)
    (hlevel : level ≤ t.m_depth) (hchildren : (children.length : Int) = t.m_branching) :
    Laid t s [(level, VocabTreeNode.mk node_id center (some children) (-1))]
      { m_size := s.m_size + 1, m_words := s.m_words, rng := rng } where
  ids := by simp [VocabTreeNode.node_id, hid]
  size := by simp
  words := by simp [VocabTreeNode.isLeaf, VocabTreeNode.children]
  wordIds := by simp [VocabTreeNode.isLeaf, VocabTreeNode.children]
  shaped := by
    intro p hp
    rw [List.mem_singleton] at hp
    subst hp
    exact Or.inr ⟨children, rfl, hchildren, rfl⟩
  levels := by
    intro p hp
    rw [List.mem_singleton] at hp
    subst hp
    exact hlevel
  centers := by
    intro p hp
    rw [List.mem_singleton] at hp
    subst hp
    exact hcenter

theorem clusterChildren_laid {t : VocabTree α σ}
    (recurse : VocabTreeNode α → List Nat → Int → Progress α σ →
      Except Error (VocabTreeNode α × List Nat × Progress α σ))
    (centers : List (List α)) (level : Int)
    (hrec : ∀ node idx s r, node.word_id = -1 → node.center.length = t.m_veclen →
      recurse node idx (level + 1) s = .ok r →
        Laid t s (r.1.preorderAt (level + 1)) r.2.2) :
    ∀ (todo c : Nat) (indices belongs_to : List Nat) (start : Nat)
      (s : Progress α σ) r,
      (∀ i, c ≤ i → i < c + todo → (centers.getD i []).length = t.m_veclen) →
      clusterChildren recurse centers level todo c indices belongs_to start s = .ok r →
      Laid t s (VocabTreeNode.preorderListAt r.1 (level + 1)) r.2.2
        ∧ r.1.length = todo := by
  intro todo
  induction todo with
  | zero =>
      intro c indices belongs_to start s r _ h
      simp only [clusterChildren, Except.ok.injEq] at h
      subst h
      exact ⟨by simpa [VocabTreeNode.preorderListAt] using Laid.nil t s, rfl⟩
  | succ todo ih =>
      intro c indices belongs_to start s r hc h
      simp only [clusterChildren] at h
      split at h
      · exact absurd h (by simp)
      · rename_i done hdone
        split at h
        · exact absurd h (by simp)
        · rename_i rest hrest
          simp only [Except.ok.injEq] at h
          subst h
          have h1 := hrec _ _ _ _ (by simp [VocabTreeNode.setCenter, VocabTreeNode.new,
            VocabTreeNode.word_id]) (by
              simpa [VocabTreeNode.setCenter, VocabTreeNode.center] using
                hc c (Nat.le_refl c) (by omega)) hdone
          have h2 := ih _ _ _ _ _ _ (fun i hi hlt => hc i (by omega) (by omega)) hrest
          refine ⟨?_, by simp [h2.2]⟩
          simpa [VocabTreeNode.preorderListAt] using h1.append h2.1

theorem makeLeaf_laid (t : VocabTree α σ) (node : VocabTreeNode α)
    (indices : List Nat) (s : Progress α σ) (rng : σ) (level : Int)
    (hcenter : node.center.length = t.m_veclen) (hlevel : level ≤ t.m_depth) :
    Laid t s
      ((makeLeaf (node.setNodeId s.m_size) indices
        { m_size := s.m_size + 1, m_words := s.m_words, rng := rng }).1.preorderAt level)
      (makeLeaf (node.setNodeId s.m_size) indices
        { m_size := s.m_size + 1, m_words := s.m_words, rng := rng }).2.2 := by
  have h := Laid.leaf t s rng level (s.m_size : Int) node.center rfl hcenter hlevel
  simpa [makeLeaf, VocabTreeNode.setNodeId, VocabTreeNode.setChildren,
    VocabTreeNode.setWordId, VocabTreeNode.node_id, VocabTreeNode.center,
    VocabTreeNode.preorderAt] using h

theorem computeClustering_laid (K : Kernel α δ σ) (t : VocabTree α σ)
    (hB : 0 ≤ t.m_branching) :
    ∀ (fuel : Nat) (node : VocabTreeNode α) (indices : List Nat) (level : Int)
      (s : Progress α σ) r,
      node.word_id = -1 → node.center.length = t.m_veclen → level ≤ t.m_depth →
      computeClustering K t fuel node indices level s = .ok r →
      Laid t s (r.1.preorderAt level) r.2.2 := by
  intro fuel
  induction fuel with
  | zero =>
      intro node indices level s r _ _ _ h
      simp [computeClustering] at h
  | succ fuel ih =>
      intro node indices level s r hword hcenter hlevel h
      simp only [computeClustering] at h
      cases node with
      | mk nid ctr kids wid =>
      simp only [VocabTreeNode.word_id] at hword
      simp only [VocabTreeNode.center] at hcenter
      subst hword
      generalize (if level > 1 then indices.insertionSort (· ≤ ·) else indices)
        = indices1 at h
      split at h
      · simp only [Except.ok.injEq] at h
        subst h
        exact makeLeaf_laid t _ _ s s.rng level hcenter hlevel
      · rename_i hnot
        split at h
        · simp only [Except.ok.injEq] at h
          subst h
          exact makeLeaf_laid t _ _ s _ level hcenter hlevel
        · split at h
          · exact absurd h (by simp)
          · rename_i final hfinal
            split at h
            · exact absurd h (by simp)
            · rename_i below hbelow
              simp only [Except.ok.injEq] at h
              subst h
              have hlt : level + 1 ≤ t.m_depth := by
                have : level ≠ t.m_depth := fun e => hnot (Or.inl e)
                omega
              have hkids := clusterChildren_laid (t := t) (computeClustering K t fuel)
                (copyCenters K t.m_veclen t.m_branching final.dcenters) level
                (fun node idx s r hw hc hr => ih node idx (level + 1) s r hw hc hlt hr)
                t.m_branching.toNat 0 _ _ 0 _ below
                (by
                  intro i _ hi
                  simp only [copyCenters]
                  rw [List.getD_eq_getElem?_getD, List.getElem?_map,
                    List.getElem?_range (by omega)]
                  simp)
                hbelow
              have hhead := Laid.interior t s (K.chooseCenters s.rng t.m_branching
                  indices1 t.m_dataset).2 level (s.m_size : Int) ctr below.1 rfl
                hcenter hlevel (by rw [hkids.2]; exact Int.toNat_of_nonneg hB)
              have := hhead.append hkids.1
              simpa [VocabTreeNode.setNodeId, VocabTreeNode.setChildren,
                VocabTreeNode.node_id, VocabTreeNode.center, VocabTreeNode.word_id,
                VocabTreeNode.preorderAt] using this

/-- What a successful `build` establishes: the parameters passed the
validation, only the root, the node count, the words and the generator state
are written, and the clusterer laid out the tree below the new root. -/
theorem build_laid (K : Kernel α δ σ) (t0 t : VocabTree α σ)
    (h : build K t0 = .ok t) :
    2 ≤ t0.m_branching ∧ 1 ≤ t0.m_depth ∧ 0 < t0.m_dataset.rows
      ∧ t.m_branching = t0.m_branching ∧ t.m_depth = t0.m_depth
      ∧ t.m_veclen = t0.m_veclen ∧ t.m_iterations = t0.m_iterations
      ∧ t.m_dataset = t0.m_dataset
      ∧ ∃ root, t.m_root = some root
        ∧ Laid t0 { m_size := t0.m_size, m_words := t0.m_words, rng := t0.rng }
            (root.preorderAt 0)
            { m_size := t.m_size, m_words := t.m_words, rng := t.rng } := by
  unfold build at h
  split at h
  · exact absurd h (by simp)
  · rename_i hB
    split at h
    · exact absurd h (by simp)
    · rename_i hD
      split at h
      · exact absurd h (by simp)
      · rename_i hE
        simp only at h
        split at h
        · exact absurd h (by simp)
        · rename_i r hr
          simp only [Except.ok.injEq] at h
          subst h
          have hlaid := computeClustering_laid K t0 (by omega) _ _ _ 0 _ r
            (by simp [VocabTreeNode.setCenter, VocabTreeNode.new, VocabTreeNode.word_id])
            (by simp [VocabTreeNode.setCenter, VocabTreeNode.center])
            (by omega) hr
          refine ⟨by omega, by omega, ?_, rfl, rfl, rfl, rfl, rfl, r.1, rfl, hlaid⟩
          simp only [Mat.empty, beq_iff_eq] at hE
          omega


end ClusteringFacts

end vlr

/-! ## Identifiers, counts and shape of a built tree -/

namespace vlr

section BuiltTree

variable {α δ σ : Type} [LinearOrder δ]

theorem preorderAt_head (n : VocabTreeNode α) (level : Int) :
    (n.preorderAt level).head? = some (level, n) := by
  cases n with
  | mk node_id center children word_id =>
      cases children <;> simp [VocabTreeNode.preorderAt]

theorem map_ofNat_range_pairwise (n : Nat) :
    ((List.range n).map Int.ofNat).Pairwise (· < ·) := by
  rw [List.pairwise_map]
  exact (List.pairwise_lt_range n).imp (fun h => Int.ofNat_lt.2 h)

/-- C5. After `build()` on a freshly constructed tree the leaves, met in
pre-order (child 0 first), carry the word ids 0, 1, ..., W-1 in this order, so
without gaps or repeats and strictly ascending; the word list is the list of
these leaves, so its i-th entry is the leaf whose word id is i. -/
theorem build_word_ids (K : Kernel α δ σ) (data : Mat α)
    (branching depth maxIterations : Int) (seed : σ) (t : VocabTree α σ)
    (h : build K (VocabTree.new data branching depth maxIterations seed) = .ok t) :
    ∃ root, t.getRoot = some root
      ∧ root.leaves.map VocabTreeNode.word_id
          = (List.range t.getNumWords).map Int.ofNat
      ∧ (root.leaves.map VocabTreeNode.word_id).Pairwise (· < ·)
      ∧ t.m_words = root.leaves
      ∧ ∀ i, i < t.getNumWords →
          ∃ leaf, t.m_words[i]? = some leaf ∧ root.leaves[i]? = some leaf
            ∧ leaf.word_id = (i : Int) := by
  obtain ⟨_, _, _, _, _, _, _, _, root, hroot, hlaid⟩ := build_laid K _ t h
  have hwords : t.m_words = root.leaves := by
    simpa [VocabTree.new, VocabTreeNode.leaves, VocabTreeNode.preorder] using hlaid.words
  have hids : root.leaves.map VocabTreeNode.word_id
      = (List.range t.getNumWords).map Int.ofNat := by
    have := hlaid.wordIds
    simp only [VocabTree.new, List.length_nil] at this
    rw [VocabTree.getNumWords, hwords, List.range_eq_range']
    exact this
  refine ⟨root, hroot, hids, ?_, hwords, ?_⟩
  · rw [hids]
    exact map_ofNat_range_pairwise _
  · intro i hi
    have hlen : i < root.leaves.length := by
      rw [← hwords]
      exact hi
    refine ⟨root.leaves[i], ?_, List.getElem?_eq_getElem hlen, ?_⟩
    · rw [hwords]
      exact List.getElem?_eq_getElem hlen
    · have h1 : (root.leaves.map VocabTreeNode.word_id)[i]?
          = ((List.range t.getNumWords).map Int.ofNat)[i]? := by rw [hids]
      rw [List.getElem?_map, List.getElem?_map, List.getElem?_eq_getElem hlen,
        List.getElem?_range hi] at h1
      simpa using h1

/-- C6. After `build()` on a freshly constructed tree a pre-order, child-0-first
traversal lists the node ids 0, 1, ..., getNumNodes()-1 in this order; the ids
are unique and the root has id 0. -/
theorem build_node_ids (K : Kernel α δ σ) (data : Mat α)
    (branching depth maxIterations : Int) (seed : σ) (t : VocabTree α σ)
    (h : build K (VocabTree.new data branching depth maxIterations seed) = .ok t) :
    ∃ root, t.getRoot = some root
      ∧ root.preorder.map VocabTreeNode.node_id
          = (List.range t.getNumNodes).map Int.ofNat
      ∧ (root.preorder.map VocabTreeNode.node_id).Nodup
      ∧ root.node_id = 0 := by
  obtain ⟨_, _, _, _, _, _, _, _, root, hroot, hlaid⟩ := build_laid K _ t h
  have hsize : t.m_size = (root.preorderAt 0).length := by
    simpa [VocabTree.new] using hlaid.size
  have hids : root.preorder.map VocabTreeNode.node_id
      = (List.range t.getNumNodes).map Int.ofNat := by
    have := hlaid.ids
    simp only [VocabTree.new] at this
    rw [VocabTree.getNumNodes, hsize, List.range_eq_range', ← this,
      VocabTreeNode.preorder, List.map_map]
    rfl
  refine ⟨root, hroot, hids, ?_, ?_⟩
  · rw [hids]
    exact ((map_ofNat_range_pairwise _).imp (fun h => ne_of_lt h))
  · have hhead := preorderAt_head root 0
    have hpos : 0 < t.getNumNodes := by
      rw [VocabTree.getNumNodes, hsize]
      cases hl : root.preorderAt 0 with
      | nil => rw [hl] at hhead; simp at hhead
      | cons a l => simp
    have h1 : (root.preorder.map VocabTreeNode.node_id).head?
        = ((List.range t.getNumNodes).map Int.ofNat).head? := by rw [hids]
    rw [VocabTreeNode.preorder, List.map_map, List.head?_map, hhead,
      List.head?_map, List.head?_range] at h1
    simp only [Option.map_some', Function.comp_apply] at h1
    rw [if_neg (by omega)] at h1
    simpa using h1

/-- C7. After a successful `build()` on a freshly constructed tree `size()` and
`getNumWords()` both equal the number of leaves reachable from the root, and
`getNumNodes()` equals the number of nodes reachable from the root. -/
theorem build_counts (K : Kernel α δ σ) (data : Mat α)
    (branching depth maxIterations : Int) (seed : σ) (t : VocabTree α σ)
    (h : build K (VocabTree.new data branching depth maxIterations seed) = .ok t) :
    ∃ root, t.getRoot = some root
      ∧ t.size = root.leaves.length
      ∧ t.getNumWords = root.leaves.length
      ∧ t.getNumNodes = root.preorder.length := by
  obtain ⟨_, _, _, _, _, _, _, _, root, hroot, hlaid⟩ := build_laid K _ t h
  have hwords : t.m_words = root.leaves := by
    simpa [VocabTree.new, VocabTreeNode.leaves, VocabTreeNode.preorder] using hlaid.words
  have hsize : t.m_size = (root.preorderAt 0).length := by
    simpa [VocabTree.new] using hlaid.size
  refine ⟨root, hroot, ?_, ?_, ?_⟩
  · rw [VocabTree.size, VocabTree.getNumWords, hwords]
  · rw [VocabTree.getNumWords, hwords]
  · rw [VocabTree.getNumNodes, hsize, VocabTreeNode.preorder, List.length_map]

/-- C9. After `build()` every node reachable from the root is either a leaf
(no children, word id at least 0) or an interior node with exactly B children
and word id -1. -/
theorem build_shape (K : Kernel α δ σ) (t0 t : VocabTree α σ)
    (h : build K t0 = .ok t) :
    ∃ root, t.getRoot = some root ∧ ∀ n ∈ root.preorder,
      (n.children = none ∧ 0 ≤ n.word_id) ∨
        (∃ cs, n.children = some cs ∧ (cs.length : Int) = t.getBranching
          ∧ n.word_id = -1) := by
  obtain ⟨_, _, _, hB, _, _, _, _, root, hroot, hlaid⟩ := build_laid K _ t h
  refine ⟨root, hroot, ?_⟩
  intro n hn
  obtain ⟨p, hp, rfl⟩ := List.mem_map.1 hn
  have := hlaid.shaped p hp
  rw [VocabTree.getBranching, hB]
  exact this

theorem build_word_ids_witness :
    build (binKernel firstCenters) (VocabTree.new exampleData 2 2 10 ()) = .ok exampleBuilt
      ∧ ∃ root, exampleBuilt.getRoot = some root
        ∧ root.leaves.map VocabTreeNode.word_id
            = (List.range exampleBuilt.getNumWords).map Int.ofNat
        ∧ (root.leaves.map VocabTreeNode.word_id).Pairwise (· < ·)
        ∧ exampleBuilt.m_words = root.leaves
        ∧ ∀ i, i < exampleBuilt.getNumWords →
            ∃ leaf, exampleBuilt.m_words[i]? = some leaf ∧ root.leaves[i]? = some leaf
              ∧ leaf.word_id = (i : Int) :=
  ⟨rfl, build_word_ids (binKernel firstCenters) exampleData 2 2 10 () exampleBuilt rfl⟩

theorem build_node_ids_witness :
    build (binKernel firstCenters) (VocabTree.new exampleData 2 2 10 ()) = .ok exampleBuilt
      ∧ ∃ root, exampleBuilt.getRoot = some root
        ∧ root.preorder.map VocabTreeNode.node_id
            = (List.range exampleBuilt.getNumNodes).map Int.ofNat
        ∧ (root.preorder.map VocabTreeNode.node_id).Nodup
        ∧ root.node_id = 0 :=
  ⟨rfl, build_node_ids (binKernel firstCenters) exampleData 2 2 10 () exampleBuilt rfl⟩

theorem build_counts_witness :
    build (binKernel firstCenters) (VocabTree.new exampleData 2 2 10 ()) = .ok exampleBuilt
      ∧ ∃ root, exampleBuilt.getRoot = some root
        ∧ exampleBuilt.size = root.leaves.length
        ∧ exampleBuilt.getNumWords = root.leaves.length
        ∧ exampleBuilt.getNumNodes = root.preorder.length :=
  ⟨rfl, build_counts (binKernel firstCenters) exampleData 2 2 10 () exampleBuilt rfl⟩

theorem build_shape_witness :
    build (binKernel firstCenters) exampleTree = .ok exampleBuilt
      ∧ ∃ root, exampleBuilt.getRoot = some root ∧ ∀ n ∈ root.preorder,
        (n.children = none ∧ 0 ≤ n.word_id) ∨
          (∃ cs, n.children = some cs ∧ (cs.length : Int) = exampleBuilt.getBranching
            ∧ n.word_id = -1) :=
  ⟨rfl, build_shape (binKernel firstCenters) exampleTree exampleBuilt rfl⟩

end BuiltTree

end vlr

/-! ## Validation of the parameters -/

namespace vlr

section Validation

variable {α δ σ : Type} [LinearOrder δ]

theorem handleEmptyClusters_error (K : Kernel α δ σ) (branching : Int)
    (distance_to : List δ) :
    ∀ (todo k : Nat) (belongs_to : List Nat) (count : List Int) (e : Error),
      handleEmptyClusters K branching distance_to todo k belongs_to count = .error e →
      e = .undefined := by
  intro todo
  induction todo with
  | zero =>
      intro k belongs_to count e h
      simp [handleEmptyClusters] at h
  | succ todo ih =>
      intro k belongs_to count e h
      simp only [handleEmptyClusters] at h
      split at h
      · exact ih _ _ _ _ h
      · split at h
        · simp only [Except.error.injEq] at h
          exact h.symm
        · exact ih _ _ _ _ h

theorem lloydLoop_error (K : Kernel α δ σ) (data : Mat α) (veclen : Nat)
    (branching : Int) (indices : List Nat) :
    ∀ (remaining : Nat) (s : Lloyd α δ) (e : Error),
      lloydLoop K data veclen branching indices remaining s = .error e →
      e = .undefined := by
  intro remaining
  induction remaining with
  | zero =>
      intro s e h
      simp [lloydLoop] at h
  | succ remaining ih =>
      intro s e h
      simp only [lloydLoop] at h
      split at h
      · exact absurd h (by simp)
      · split at h
        · rename_i e1 he1
          simp only [Except.error.injEq] at h
          subst h
          simp only [lloydIteration] at he1
          split at he1
          · rename_i e2 he2
            simp only [Except.error.injEq] at he1
            subst he1
            exact handleEmptyClusters_error K _ _ _ _ _ _ _ he2
          · exact absurd he1 (by simp)
        · exact ih _ _ h

theorem clusterChildren_error
    (recurse : VocabTreeNode α → List Nat → Int → Progress α σ →
      Except Error (VocabTreeNode α × List Nat × Progress α σ))
    (centers : List (List α)) (level : Int)
    (hrec : ∀ node idx lv s e, recurse node idx lv s = .error e →
      e = .undefined ∨ e = .fuel) :
    ∀ (todo c : Nat) (indices belongs_to : List Nat) (start : Nat)
      (s : Progress α σ) (e : Error),
      clusterChildren recurse centers level todo c indices belongs_to start s = .error e →
      e = .undefined ∨ e = .fuel := by
  intro todo
  induction todo with
  | zero =>
      intro c indices belongs_to start s e h
      simp [clusterChildren] at h
  | succ todo ih =>
      intro c indices belongs_to start s e h
      simp only [clusterChildren] at h
      split at h
      · rename_i e1 he1
        simp only [Except.error.injEq] at h
        subst h
        exact hrec _ _ _ _ _ he1
      · split at h
        · rename_i e1 he1
          simp only [Except.error.injEq] at h
          subst h
          exact ih _ _ _ _ _ _ he1
        · exact absurd h (by simp)

theorem computeClustering_error (K : Kernel α δ σ) (t : VocabTree α σ) :
    ∀ (fuel : Nat) (node : VocabTreeNode α) (indices : List Nat) (level : Int)
      (s : Progress α σ) (e : Error),
      computeClustering K t fuel node indices level s = .error e →
      e = .undefined ∨ e = .fuel := by
  intro fuel
  induction fuel with
  | zero =>
      intro node indices level s e h
      simp only [computeClustering, Except.error.injEq] at h
      exact Or.inr h.symm
  | succ fuel ih =>
      intro node indices level s e h
      simp only [computeClustering] at h
      generalize (if level > 1 then indices.insertionSort (· ≤ ·) else indices)
        = indices1 at h
      split at h
      · exact absurd h (by simp)
      · split at h
        · exact absurd h (by simp)
        · split at h
          · rename_i e1 he1
            simp only [Except.error.injEq] at h
            subst h
            exact Or.inl (lloydLoop_error K _ _ _ _ _ _ _ he1)
          · split at h
            · rename_i e1 he1
              simp only [Except.error.injEq] at h
              subst h
              exact clusterChildren_error _ _ _ (fun node idx lv s e => ih node idx lv s e)
                _ _ _ _ _ _ _ he1
            · exact absurd h (by simp)

/-- C1. `build()` fails with InvalidParam whenever the branching factor is
below 2 and whenever the depth is below 1; on a data set of zero rows it fails,
with EmptyDataset once the two parameters are in range (they are checked
first); and for a data set of at least one row, branching at least 2 and depth
at least 1 it fails with neither InvalidParam nor EmptyDataset. -/
theorem build_validation (K : Kernel α δ σ) (t : VocabTree α σ) :
    (t.m_branching < 2 → build K t = .error .invalidParam)
      ∧ (t.m_depth < 1 → build K t = .error .invalidParam)
      ∧ (t.m_dataset.rows = 0 →
          (build K t = .error .invalidParam ∨ build K t = .error .emptyDataset)
            ∧ (2 ≤ t.m_branching → 1 ≤ t.m_depth → build K t = .error .emptyDataset))
      ∧ (1 ≤ t.m_dataset.rows → 2 ≤ t.m_branching → 1 ≤ t.m_depth →
          build K t ≠ .error .invalidParam ∧ build K t ≠ .error .emptyDataset) := by
  have hB : t.m_branching < 2 → build K t = .error .invalidParam := by
    intro h
    simp [build, h]
  have hD : t.m_depth < 1 → build K t = .error .invalidParam := by
    intro h
    unfold build
    split
    · rfl
    · simp [h]
  have hE : t.m_dataset.rows = 0 → 2 ≤ t.m_branching → 1 ≤ t.m_depth →
      build K t = .error .emptyDataset := by
    intro h h2 h1
    unfold build
    rw [if_neg (by omega), if_neg (by omega), if_pos (by simp [Mat.empty, h])]
  refine ⟨hB, hD, ?_, ?_⟩
  · intro h
    refine ⟨?_, hE h⟩
    by_cases h2 : t.m_branching < 2
    · exact Or.inl (hB h2)
    · by_cases h1 : t.m_depth < 1
      · exact Or.inl (hD h1)
      · exact Or.inr (hE h (by omega) (by omega))
  · intro hrows h2 h1
    have key : ∀ e, build K t = .error e → e = .undefined ∨ e = .fuel := by
      intro e he
      unfold build at he
      rw [if_neg (by omega), if_neg (by omega),
        if_neg (by simp [Mat.empty]; omega)] at he
      simp only at he
      split at he
      · rename_i e1 he1
        simp only [Except.error.injEq] at he
        subst he
        exact computeClustering_error K t _ _ _ _ _ _ he1
      · exact absurd he (by simp)
    constructor
    · intro he
      rcases key _ he with h | h <;> exact absurd h (by decide)
    · intro he
      rcases key _ he with h | h <;> exact absurd h (by decide)

theorem build_validation_witness :
    build (binKernel firstCenters) (VocabTree.new exampleData 1 2 10 ())
        = .error .invalidParam
      ∧ build (binKernel firstCenters) (VocabTree.new exampleData 2 0 10 ())
        = .error .invalidParam
      ∧ build (binKernel firstCenters)
          (VocabTree.new { data := [], cols := 1, isU8 := true } 2 2 10 ())
        = .error .emptyDataset
      ∧ build (binKernel firstCenters) exampleTree ≠ .error .invalidParam
      ∧ build (binKernel firstCenters) exampleTree ≠ .error .emptyDataset :=
  ⟨(build_validation (binKernel firstCenters)
      (VocabTree.new exampleData 1 2 10 ())).1 (by decide),
    (build_validation (binKernel firstCenters)
      (VocabTree.new exampleData 2 0 10 ())).2.1 (by decide),
    ((build_validation (binKernel firstCenters)
      (VocabTree.new { data := [], cols := 1, isU8 := true } 2 2 10 ())).2.2.1
        (by decide)).2 (by decide) (by decide),
    (build_validation (binKernel firstCenters) exampleTree).2.2.2
      (by decide) (by decide) (by decide)⟩

end Validation

end vlr

/-! ## The number of words -/

namespace vlr

section LeafBound

variable {α δ σ : Type} [LinearOrder δ]

/-- Number of leaves in a listing. -/
theorem leafCount_append (l1 l2 : List (Int × VocabTreeNode α)) :
    ((l1 ++ l2).filter (fun p => VocabTreeNode.isLeaf p.2)).length
      = (l1.filter (fun p => VocabTreeNode.isLeaf p.2)).length
        + (l2.filter (fun p => VocabTreeNode.isLeaf p.2)).length := by
  rw [List.filter_append, List.length_append]

theorem one_eq_pow_iff (B k : Nat) (hB : 2 ≤ B) : 1 = B ^ k ↔ k = 0 := by
  constructor
  · intro h
    by_contra hk
    have : B ^ 1 ≤ B ^ k := Nat.pow_le_pow_right (by omega) (by omega)
    simp only [pow_one] at this
    omega
  · intro h
    subst h
    simp

mutual
theorem leafCount_node (B : Nat) (D : Int) (hB : 2 ≤ B) :
    ∀ (n : VocabTreeNode α) (level : Int), level ≤ D →
      (∀ p ∈ n.preorderAt level, VocabTreeNode.Shaped (B : Int) p.2) →
      (∀ p ∈ n.preorderAt level, p.1 ≤ D) →
      ((n.preorderAt level).filter (fun p => VocabTreeNode.isLeaf p.2)).length
          ≤ B ^ (D - level).toNat
        ∧ (((n.preorderAt level).filter (fun p => VocabTreeNode.isLeaf p.2)).length
            = B ^ (D - level).toNat
          ↔ ∀ p ∈ n.preorderAt level, VocabTreeNode.isLeaf p.2 = true → p.1 = D)
  | .mk node_id center none word_id, level, hlevel, _, _ => by
      simp only [VocabTreeNode.preorderAt, VocabTreeNode.isLeaf, VocabTreeNode.children,
        Option.isNone_none, List.filter_cons_of_pos, List.filter_nil, List.length_singleton,
        List.mem_singleton, forall_eq, forall_const]
      refine ⟨Nat.one_le_two_pow.trans (Nat.pow_le_pow_left hB _), ?_⟩
      rw [one_eq_pow_iff B _ hB]
      omega
  | .mk node_id center (some children) word_id, level, hlevel, hshape, hlev => by
      have hlen : children.length = B := by
        rcases hshape (level, .mk node_id center (some children) word_id)
          (by simp [VocabTreeNode.preorderAt]) with h | ⟨cs, hcs, hl, _⟩
        · simp [VocabTreeNode.children] at h
        · simp only [VocabTreeNode.children, Option.some.injEq] at hcs
          subst hcs
          exact_mod_cast hl
      have hnext : level + 1 ≤ D := by
        cases children with
        | nil => simp at hlen; omega
        | cons c cs =>
            have hmem : (level + 1, c) ∈ VocabTreeNode.preorderAt
                (.mk node_id center (some (c :: cs)) word_id) level := by
              simp only [VocabTreeNode.preorderAt, VocabTreeNode.preorderListAt,
                List.mem_cons, List.mem_append]
              refine Or.inr (Or.inl ?_)
              have := preorderAt_head c (level + 1)
              exact List.mem_of_mem_head? this
            exact hlev _ hmem
      have hrec := leafCount_list B D hB children (level + 1) hnext
        (fun p hp => hshape p (by simp [VocabTreeNode.preorderAt, hp]))
        (fun p hp => hlev p (by simp [VocabTreeNode.preorderAt, hp]))
      have hpow : children.length * B ^ (D - (level + 1)).toNat = B ^ (D - level).toNat := by
        have : (D - level).toNat = (D - (level + 1)).toNat + 1 := by omega
        rw [this, hlen, pow_succ, Nat.mul_comm]
      rw [hpow] at hrec
      simpa [VocabTreeNode.preorderAt, VocabTreeNode.isLeaf, VocabTreeNode.children]
        using hrec
theorem leafCount_list (B : Nat) (D : Int) (hB : 2 ≤ B) :
    ∀ (cs : List (VocabTreeNode α)) (level : Int), level ≤ D →
      (∀ p ∈ VocabTreeNode.preorderListAt cs level, VocabTreeNode.Shaped (B : Int) p.2) →
      (∀ p ∈ VocabTreeNode.preorderListAt cs level, p.1 ≤ D) →
      ((VocabTreeNode.preorderListAt cs level).filter
          (fun p => VocabTreeNode.isLeaf p.2)).length
          ≤ cs.length * B ^ (D - level).toNat
        ∧ (((VocabTreeNode.preorderListAt cs level).filter
              (fun p => VocabTreeNode.isLeaf p.2)).length
            = cs.length * B ^ (D - level).toNat
          ↔ ∀ p ∈ VocabTreeNode.preorderListAt cs level,
              VocabTreeNode.isLeaf p.2 = true → p.1 = D)
  | [], level, _, _, _ => by
      simp [VocabTreeNode.preorderListAt]
  | c :: cs, level, hlevel, hshape, hlev => by
      have h1 := leafCount_node B D hB c level hlevel
        (fun p hp => hshape p (by simp [VocabTreeNode.preorderListAt, hp]))
        (fun p hp => hlev p (by simp [VocabTreeNode.preorderListAt, hp]))
      have h2 := leafCount_list B D hB cs level hlevel
        (fun p hp => hshape p (by simp [VocabTreeNode.preorderListAt, hp]))
        (fun p hp => hlev p (by simp [VocabTreeNode.preorderListAt, hp]))
      simp only [VocabTreeNode.preorderListAt, leafCount_append, List.length_cons,
        List.mem_append]
      rw [Nat.succ_mul]
      refine ⟨by omega, ?_⟩
      constructor
      · intro h p hp
        rcases hp with hp | hp
        · exact h1.2.1 (by omega) p hp
        · exact h2.2.1 (by omega) p hp
      · intro h
        have e1 := h1.2.2 (fun p hp => h p (Or.inl hp))
        have e2 := h2.2.2 (fun p hp => h p (Or.inr hp))
        omega
end

/-- C8, amended. For every successful `build()` with branching B and depth
D_max on a freshly constructed tree, no node lies deeper than level D_max and
`getNumWords() ≤ B^D_max`, with equality exactly when every leaf lies at level
D_max. -/
theorem build_leaf_bound (K : Kernel α δ σ) (data : Mat α)
    (branching depth maxIterations : Int) (seed : σ) (t : VocabTree α σ)
    (h : build K (VocabTree.new data branching depth maxIterations seed) = .ok t) :
    ∃ root, t.getRoot = some root
      ∧ (∀ p ∈ root.preorderAt 0, p.1 ≤ depth)
      ∧ t.getNumWords ≤ branching.toNat ^ depth.toNat
      ∧ (t.getNumWords = branching.toNat ^ depth.toNat
          ↔ ∀ l ∈ root.leafLevels, l = depth) := by
  obtain ⟨hB, hD, _, _, _, _, _, _, root, hroot, hlaid⟩ := build_laid K _ t h
  simp only [VocabTree.new] at hB hD
  have hwords : t.getNumWords
      = ((root.preorderAt 0).filter (fun p => VocabTreeNode.isLeaf p.2)).length := by
    have := hlaid.words
    simp only [VocabTree.new, List.nil_append] at this
    rw [VocabTree.getNumWords, this, List.filter_map, List.length_map]
    rfl
  have hcast : ((branching.toNat : Nat) : Int) = branching := Int.toNat_of_nonneg (by omega)
  have hcount := leafCount_node branching.toNat depth (by omega) root 0 (by omega)
    (fun p hp => by rw [hcast]; exact hlaid.shaped p hp) (fun p hp => hlaid.levels p hp)
  simp only [sub_zero] at hcount
  refine ⟨root, hroot, fun p hp => hlaid.levels p hp, ?_, ?_⟩
  · rw [hwords]
    exact hcount.1
  · rw [hwords, hcount.2]
    simp only [VocabTreeNode.leafLevels, List.mem_map, List.mem_filter]
    constructor
    · rintro hall l ⟨p, ⟨hp, hleaf⟩, rfl⟩
      exact hall p hp hleaf
    · intro hall p hp hleaf
      exact hall p.1 ⟨p, ⟨hp, hleaf⟩, rfl⟩

/-- A second `build()` on a tree that has been built already (branching 2,
depth 2) succeeds and leaves `getNumWords()` at 8, above 2^2: the words of the
first run stay in the word list. -/
theorem build_leaf_bound_counterexample :
    build (binKernel firstCenters) exampleBuilt = .ok exampleRebuilt
      ∧ exampleRebuilt.getBranching = 2 ∧ exampleRebuilt.getDepth = 2
      ∧ exampleRebuilt.getNumWords = 8
      ∧ ¬ (exampleRebuilt.getNumWords ≤ (2 : Int).toNat ^ (2 : Int).toNat) :=
  ⟨by rfl, by decide, by decide, by decide, by decide⟩

theorem build_leaf_bound_witness :
    build (binKernel firstCenters) (VocabTree.new exampleData 2 2 10 ()) = .ok exampleBuilt
      ∧ ∃ root, exampleBuilt.getRoot = some root
        ∧ (∀ p ∈ root.preorderAt 0, p.1 ≤ 2)
        ∧ exampleBuilt.getNumWords ≤ (2 : Int).toNat ^ (2 : Int).toNat
        ∧ (exampleBuilt.getNumWords = (2 : Int).toNat ^ (2 : Int).toNat
            ↔ ∀ l ∈ root.leafLevels, l = 2) :=
  ⟨rfl, build_leaf_bound (binKernel firstCenters) exampleData 2 2 10 () exampleBuilt rfl⟩

end LeafBound

end vlr

/-! ## Quantization of a descriptor -/

namespace vlr

section QuantizeFacts

variable {α δ σ : Type} [LinearOrder δ]

theorem betterChild_spec (K : Kernel α δ σ) (veclen : Nat) (feature : List α)
    (children : List (VocabTreeNode α)) (level diLevel : Int) :
    ∀ (m k best : Nat) (best_distance : δ) (nodeAtL : Int) (cb : VocabTreeNode α),
      best < k → k + m ≤ children.length → children[best]? = some cb →
      best_distance = K.distance feature cb.center veclen →
      (∀ (i : Nat) (ci : VocabTreeNode α), i < k → children[i]? = some ci →
        best_distance ≤ K.distance feature ci.center veclen
          ∧ (i < best → best_distance < K.distance feature ci.center veclen)) →
      ∃ j n c, betterChild K veclen feature children level diLevel
            (List.range' k m) best best_distance nodeAtL = .ok (j, n)
        ∧ children[j]? = some c
        ∧ ∀ (i : Nat) (ci : VocabTreeNode α), i < k + m → children[i]? = some ci →
            K.distance feature c.center veclen ≤ K.distance feature ci.center veclen
              ∧ (i < j → K.distance feature c.center veclen
                  < K.distance feature ci.center veclen) := by
  intro m
  induction m with
  | zero =>
      intro k best bd nodeAtL cb _ _ hcb hbd hmin
      refine ⟨best, nodeAtL, cb, by simp [betterChild], hcb, ?_⟩
      intro i ci hi hci
      rw [← hbd]
      exact hmin i ci (by omega) hci
  | succ m ih =>
      intro k best bd nodeAtL cb hbest hlen hcb hbd hmin
      have hk : k < children.length := by omega
      have hck : children[k]? = some children[k] := List.getElem?_eq_getElem hk
      rw [List.range'_succ]
      simp only [betterChild, hck]
      split
      · rename_i hlt
        obtain ⟨j, n, c, hres, hc, hall⟩ := ih (k + 1) k
          (K.distance feature children[k].center veclen)
          (if level = diLevel then (k : Int) else nodeAtL) children[k]
          (by omega) (by omega) hck rfl (by
            intro i ci hi hci
            rcases Nat.lt_succ_iff_lt_or_eq.1 hi with h | h
            · have := (hmin i ci h hci).1
              exact ⟨le_of_lt (lt_of_lt_of_le hlt this), fun _ => lt_of_lt_of_le hlt this⟩
            · subst h
              rw [hck] at hci
              cases hci
              exact ⟨le_refl _, fun h => absurd h (lt_irrefl _)⟩)
        exact ⟨j, n, c, hres, hc, fun i ci hi hci => hall i ci (by omega) hci⟩
      · rename_i hlt
        obtain ⟨j, n, c, hres, hc, hall⟩ := ih (k + 1) best bd nodeAtL cb
          (by omega) (by omega) hcb hbd (by
            intro i ci hi hci
            rcases Nat.lt_succ_iff_lt_or_eq.1 hi with h | h
            · exact hmin i ci h hci
            · subst h
              rw [hck] at hci
              cases hci
              exact ⟨not_lt.1 hlt, fun h => absurd h (by omega)⟩)
        exact ⟨j, n, c, hres, hc, fun i ci hi hci => hall i ci (by omega) hci⟩

theorem shaped_children_length {B : Int} {node_id word_id : Int} {center : List α}
    {cs : List (VocabTreeNode α)}
    (h : VocabTreeNode.Shaped B (.mk node_id center (some cs) word_id)) :
    (cs.length : Int) = B := by
  rcases h with h | ⟨cs1, hcs, hl, _⟩
  · simp [VocabTreeNode.children] at h
  · simp only [VocabTreeNode.children, Option.some.injEq] at hcs
    subst hcs
    exact hl

mutual
theorem descend_spec (K : Kernel α δ σ) (veclen : Nat) (B : Int) (hB : 1 ≤ B)
    (feature : List α) (diLevel : Int) :
    ∀ (n : VocabTreeNode α) (lv level nodeAtL : Int),
      (∀ p ∈ n.preorderAt lv, VocabTreeNode.Shaped B p.2) →
      ∃ leaf n1, Descends K veclen feature n leaf ∧ leaf.children = none
        ∧ leaf ∈ (n.preorderAt lv).map Prod.snd
        ∧ descend K veclen B feature diLevel n level nodeAtL = .ok (leaf.word_id, n1)
  | .mk node_id center none word_id, lv, level, nodeAtL, _ =>
      ⟨_, nodeAtL, Descends.leaf _ rfl, rfl, by simp [VocabTreeNode.preorderAt],
        by simp [descend, VocabTreeNode.word_id]⟩
  | .mk node_id center (some []) word_id, lv, level, nodeAtL, hshape => by
      have hlen := shaped_children_length
        (hshape (lv, .mk node_id center (some []) word_id)
          (by simp [VocabTreeNode.preorderAt]))
      simp only [List.length_nil, Nat.cast_zero] at hlen
      omega
  | .mk node_id center (some (first :: rest)) word_id, lv, level, nodeAtL, hshape => by
      have hlen := shaped_children_length
        (hshape (lv, .mk node_id center (some (first :: rest)) word_id)
          (by simp [VocabTreeNode.preorderAt]))
      simp only [List.length_cons, Nat.cast_add, Nat.cast_one] at hlen
      have hm : 1 + (B.toNat - 1) ≤ (first :: rest).length := by
        simp only [List.length_cons]
        omega
      obtain ⟨j, n1, c, hres, hc, hall⟩ := betterChild_spec K veclen feature
        (first :: rest) level diLevel (B.toNat - 1) 1 0
        (K.distance feature first.center veclen) nodeAtL first (by omega) hm
        (List.getElem?_cons_zero) rfl
        (by
          intro i ci hi hci
          have : i = 0 := by omega
          subst this
          simp only [List.getElem?_cons_zero, Option.some.injEq] at hci
          subst hci
          exact ⟨le_refl _, fun h => absurd h (lt_irrefl _)⟩)
      obtain ⟨leaf, n2, hdesc, hleaf, hmem, hrun⟩ := descendAt_spec K veclen B hB feature
        diLevel (first :: rest) j (lv + 1) (level + 1) n1 c hc
        (fun p hp => hshape p (by simp [VocabTreeNode.preorderAt, hp]))
      refine ⟨leaf, n2, ?_, hleaf, ?_, ?_⟩
      · refine Descends.step _ (first :: rest) j c leaf rfl ⟨c, hc, ?_, ?_⟩ hc hdesc
        · intro i ci hci
          have hi : i < (first :: rest).length := by
            by_contra hge
            rw [List.getElem?_eq_none (by omega)] at hci
            cases hci
          exact (hall i ci (by simp only [List.length_cons] at hi; omega) hci).1
        · intro i ci hij hci
          have hi : i < (first :: rest).length := by
            by_contra hge
            rw [List.getElem?_eq_none (by omega)] at hci
            cases hci
          exact (hall i ci (by simp only [List.length_cons] at hi; omega) hci).2 hij
      · simp only [VocabTreeNode.preorderAt, List.map_cons, List.mem_cons]
        exact Or.inr hmem
      · simp only [descend, hres]
        exact hrun
theorem descendAt_spec (K : Kernel α δ σ) (veclen : Nat) (B : Int) (hB : 1 ≤ B)
    (feature : List α) (diLevel : Int) :
    ∀ (cs : List (VocabTreeNode α)) (j : Nat) (lv level nodeAtL : Int)
      (c : VocabTreeNode α), cs[j]? = some c →
      (∀ p ∈ VocabTreeNode.preorderListAt cs lv, VocabTreeNode.Shaped B p.2) →
      ∃ leaf n1, Descends K veclen feature c leaf ∧ leaf.children = none
        ∧ leaf ∈ (VocabTreeNode.preorderListAt cs lv).map Prod.snd
        ∧ descendAt K veclen B feature diLevel cs j level nodeAtL = .ok (leaf.word_id, n1)
  | [], j, _, _, _, c, hc, _ => by simp at hc
  | c0 :: rest, 0, lv, level, nodeAtL, c, hc, hshape => by
      simp only [List.getElem?_cons_zero, Option.some.injEq] at hc
      subst hc
      obtain ⟨leaf, n1, hdesc, hleaf, hmem, hrun⟩ := descend_spec K veclen B hB feature
        diLevel c0 lv level nodeAtL
        (fun p hp => hshape p (by simp [VocabTreeNode.preorderListAt, hp]))
      refine ⟨leaf, n1, hdesc, hleaf, ?_, by simpa [descendAt] using hrun⟩
      simp only [VocabTreeNode.preorderListAt, List.map_append, List.mem_append]
      exact Or.inl hmem
  | c0 :: rest, j + 1, lv, level, nodeAtL, c, hc, hshape => by
      simp only [List.getElem?_cons_succ] at hc
      obtain ⟨leaf, n1, hdesc, hleaf, hmem, hrun⟩ := descendAt_spec K veclen B hB feature
        diLevel rest j lv level nodeAtL c hc
        (fun p hp => hshape p (by simp [VocabTreeNode.preorderListAt, hp]))
      refine ⟨leaf, n1, hdesc, hleaf, ?_, by simpa [descendAt] using hrun⟩
      simp only [VocabTreeNode.preorderListAt, List.map_append, List.mem_append]
      exact Or.inr hmem
end

theorem nearestChild_unique {K : Kernel α δ σ} {veclen : Nat} {feature : List α}
    {cs : List (VocabTreeNode α)} {j1 j2 : Nat}
    (h1 : IsNearestChild K veclen feature cs j1)
    (h2 : IsNearestChild K veclen feature cs j2) : j1 = j2 := by
  obtain ⟨c1, hc1, hmin1, hlow1⟩ := h1
  obtain ⟨c2, hc2, hmin2, hlow2⟩ := h2
  rcases Nat.lt_trichotomy j1 j2 with h | h | h
  · exact absurd (hlow2 j1 c1 h hc1) (not_lt.2 (hmin1 j2 c2 hc2))
  · exact h
  · exact absurd (hlow1 j2 c2 h hc2) (not_lt.2 (hmin2 j1 c1 hc1))

theorem descends_unique {K : Kernel α δ σ} {veclen : Nat} {feature : List α}
    {n leaf1 leaf2 : VocabTreeNode α} (h1 : Descends K veclen feature n leaf1)
    (h2 : Descends K veclen feature n leaf2) : leaf1 = leaf2 := by
  induction h1 generalizing leaf2 with
  | leaf n hn =>
      cases h2 with
      | leaf _ _ => rfl
      | step _ cs j c _ hcs _ _ _ => rw [hn] at hcs; cases hcs
  | step n cs j c leaf hcs hj hc _ ih =>
      cases h2 with
      | leaf _ hn => rw [hn] at hcs; cases hcs
      | step _ cs2 j2 c2 _ hcs2 hj2 hc2 hd2 =>
          rw [hcs] at hcs2
          cases hcs2
          have := nearestChild_unique hj hj2
          subst this
          rw [hc] at hc2
          cases hc2
          exact ih hd2

theorem quantize_on_built (K : Kernel α δ σ) (t0 t : VocabTree α σ)
    (h : build K t0 = .ok t) (feature : List α) (L : Int) (hL0 : 0 ≤ L)
    (hL : L < t.getDepth) (nodeAtL : Int) :
    ∃ root leaf n1, t.getRoot = some root
      ∧ Descends K t.getVeclen feature root leaf ∧ leaf.children = none
      ∧ leaf ∈ root.preorder
      ∧ quantize K t feature L nodeAtL = .ok (leaf.word_id, n1) := by
  obtain ⟨hB, _, _, hBeq, _, _, _, _, root, hroot, hlaid⟩ := build_laid K _ t h
  obtain ⟨leaf, n1, hdesc, hleaf, hmem, hrun⟩ := descend_spec K t.m_veclen t.m_branching
    (by omega) feature L root 0 0 nodeAtL
    (fun p hp => by rw [hBeq]; exact hlaid.shaped p hp)
  refine ⟨root, leaf, n1, hroot, hdesc, hleaf, hmem, ?_⟩
  unfold quantize
  rw [if_neg (by simp only [VocabTree.getDepth] at hL; simp [hL0, hL]), hroot]
  exact hrun

/-- C2. For every tree produced by `build()`, every descriptor and every level
L with 0 ≤ L < depth, `quantize` descends from the root, choosing at each
interior node the child whose centre has minimum distance to the descriptor
(the lowest child index winning ties), and returns the word id of the leaf
reached; that leaf is the only one such a descent can reach. -/
theorem quantize_descends (K : Kernel α δ σ) (t0 t : VocabTree α σ)
    (h : build K t0 = .ok t) (feature : List α) (L : Int) (hL0 : 0 ≤ L)
    (hL : L < t.getDepth) (nodeAtL : Int) :
    ∃ root leaf n1, t.getRoot = some root
      ∧ Descends K t.getVeclen feature root leaf ∧ leaf.children = none
      ∧ (∀ other, Descends K t.getVeclen feature root other → other = leaf)
      ∧ quantize K t feature L nodeAtL = .ok (leaf.word_id, n1) := by
  obtain ⟨root, leaf, n1, hroot, hdesc, hleaf, _, hrun⟩ :=
    quantize_on_built K t0 t h feature L hL0 hL nodeAtL
  exact ⟨root, leaf, n1, hroot, hdesc, hleaf, fun other ho => descends_unique ho hdesc, hrun⟩

/-- C10. For every tree produced by `build()` and every descriptor, `quantize`
with a valid level returns; it stops at a leaf of the tree, which is the only
leaf carrying the word id returned, and that word id satisfies
0 ≤ wordId < getNumWords(). -/
theorem quantize_total (K : Kernel α δ σ) (t0 t : VocabTree α σ)
    (h : build K t0 = .ok t) (feature : List α) (L : Int) (hL0 : 0 ≤ L)
    (hL : L < t.getDepth) (nodeAtL : Int) :
    ∃ root leaf n1, t.getRoot = some root
      ∧ quantize K t feature L nodeAtL = .ok (leaf.word_id, n1)
      ∧ leaf ∈ root.leaves
      ∧ (∀ other ∈ root.leaves, other.word_id = leaf.word_id → other = leaf)
      ∧ 0 ≤ leaf.word_id ∧ leaf.word_id < (t.getNumWords : Int) := by
  obtain ⟨root, leaf, n1, hroot, _, hleaf, hmem, hrun⟩ :=
    quantize_on_built K t0 t h feature L hL0 hL nodeAtL
  obtain ⟨_, _, _, _, _, _, _, _, root1, hroot1, hlaid⟩ := build_laid K _ t h
  have hr : root1 = root := by
    rw [VocabTree.getRoot] at hroot
    rw [hroot] at hroot1
    exact (Option.some.inj hroot1).symm
  subst hr
  have hin : leaf ∈ root1.leaves := by
    simp only [VocabTreeNode.leaves, List.mem_filter]
    exact ⟨hmem, by simp [VocabTreeNode.isLeaf, hleaf]⟩
  have hids : root1.leaves.map VocabTreeNode.word_id
      = (List.range' t0.m_words.length root1.leaves.length).map Int.ofNat :=
    hlaid.wordIds
  have hnodup : (root1.leaves.map VocabTreeNode.word_id).Nodup := by
    rw [hids]
    exact (List.nodup_range' _ _).map (fun a b hab => Int.ofNat.inj hab)
  have hwords : t.getNumWords = t0.m_words.length + root1.leaves.length := by
    have := hlaid.words
    simp only at this
    rw [VocabTree.getNumWords, this, List.length_append]
    rfl
  have hw : leaf.word_id ∈ (List.range' t0.m_words.length root1.leaves.length).map
      Int.ofNat := by
    rw [← hids]
    exact List.mem_map_of_mem _ hin
  obtain ⟨k, hk, hkw⟩ := List.mem_map.1 hw
  rw [List.mem_range'_1] at hk
  refine ⟨root1, leaf, n1, hroot, hrun, hin, ?_, ?_, ?_⟩
  · intro other ho hsame
    exact List.inj_on_of_nodup_map hnodup ho hin hsame
  · rw [← hkw]
    exact Int.ofNat_nonneg k
  · rw [← hkw, hwords]
    exact Int.ofNat_lt.2 hk.2

theorem quantize_descends_witness :
    build (binKernel firstCenters) exampleTree = .ok exampleBuilt
      ∧ (0 : Int) ≤ 1 ∧ (1 : Int) < exampleBuilt.getDepth
      ∧ ∃ root leaf n1, exampleBuilt.getRoot = some root
        ∧ Descends (binKernel firstCenters) exampleBuilt.getVeclen [254] root leaf
        ∧ leaf.children = none
        ∧ (∀ other, Descends (binKernel firstCenters) exampleBuilt.getVeclen [254] root
            other → other = leaf)
        ∧ quantize (binKernel firstCenters) exampleBuilt [254] 1 0
            = .ok (leaf.word_id, n1) :=
  ⟨by rfl, by decide, by decide,
    quantize_descends (binKernel firstCenters) exampleTree exampleBuilt (by rfl) [254] 1
      (by decide) (by decide) 0⟩

theorem quantize_total_witness :
    build (binKernel firstCenters) exampleTree = .ok exampleBuilt
      ∧ (0 : Int) ≤ 0 ∧ (0 : Int) < exampleBuilt.getDepth
      ∧ ∃ root leaf n1, exampleBuilt.getRoot = some root
        ∧ quantize (binKernel firstCenters) exampleBuilt [254] 0 0
            = .ok (leaf.word_id, n1)
        ∧ leaf ∈ root.leaves
        ∧ (∀ other ∈ root.leaves, other.word_id = leaf.word_id → other = leaf)
        ∧ 0 ≤ leaf.word_id ∧ leaf.word_id < (exampleBuilt.getNumWords : Int) :=
  ⟨by rfl, by decide, by decide,
    quantize_total (binKernel firstCenters) exampleTree exampleBuilt (by rfl) [254] 0
      (by decide) (by decide) 0⟩

end QuantizeFacts

end vlr

/-! ## Equality of trees -/

namespace vlr

section FitFacts

variable {α : Type}

theorem fits_center {veclen : Nat} {B : Int} {n : VocabTreeNode α}
    (h : VocabTreeNode.fits veclen B n = true) : n.center.length = veclen := by
  simp only [VocabTreeNode.fits, Bool.and_eq_true, beq_iff_eq] at h
  exact h.1

theorem fits_children {veclen : Nat} {B : Int} {node_id word_id : Int} {center : List α}
    {cs : List (VocabTreeNode α)}
    (h : VocabTreeNode.fits veclen B (.mk node_id center (some cs) word_id) = true) :
    (cs.length : Int) = B := by
  simp only [VocabTreeNode.fits, VocabTreeNode.children, Bool.and_eq_true, beq_iff_eq] at h
  exact h.2

end FitFacts

section EqualityFacts

variable {α σ : Type} [DecidableEq α]

theorem centersEqual_spec (a b : List α) (hlen : a.length = b.length) :
    ∀ (todo k : Nat), k + todo = a.length →
      ∃ r, centersEqual a b todo k = .ok r ∧ (r = true ↔ a.drop k = b.drop k) := by
  intro todo
  induction todo with
  | zero =>
      intro k hk
      refine ⟨true, by simp [centersEqual], ?_⟩
      simp only [true_iff]
      rw [List.drop_of_length_le (by omega), List.drop_of_length_le (by omega)]
  | succ todo ih =>
      intro k hk
      have hka : k < a.length := by omega
      have hkb : k < b.length := by omega
      simp only [centersEqual, List.getElem?_eq_getElem hka, List.getElem?_eq_getElem hkb]
      rw [List.drop_eq_getElem_cons hka, List.drop_eq_getElem_cons hkb]
      split
      · rename_i hne
        refine ⟨false, rfl, ?_⟩
        simp only [Bool.false_eq_true, List.cons.injEq, false_iff, not_and]
        intro h
        exact absurd h hne
      · rename_i heq
        obtain ⟨r, hr, hiff⟩ := ih (k + 1) (by omega)
        refine ⟨r, hr, ?_⟩
        rw [hiff]
        simp only [ne_eq, Decidable.not_not] at heq
        simp only [heq, List.cons.injEq, true_and]

mutual
theorem compareEqual_spec (veclen : Nat) (B : Int) :
    ∀ (a b : VocabTreeNode α) (la lb : Int),
      (∀ p ∈ a.preorderAt la, VocabTreeNode.fits veclen B p.2 = true) →
      (∀ p ∈ b.preorderAt lb, VocabTreeNode.fits veclen B p.2 = true) →
      ∃ r, compareEqual veclen B a b = .ok r ∧ (r = true ↔ a.skeleton = b.skeleton)
  | .mk ia ca none wa, .mk ib cb none wb, la, lb, ha, hb => by
      have hca := fits_center (ha (la, .mk ia ca none wa) (by simp [VocabTreeNode.preorderAt]))
      have hcb := fits_center (hb (lb, .mk ib cb none wb) (by simp [VocabTreeNode.preorderAt]))
      simp only [VocabTreeNode.center] at hca hcb
      obtain ⟨r, hr, hiff⟩ := centersEqual_spec ca cb (by omega) veclen 0 (by omega)
      simp only [List.drop_zero] at hiff
      simp only [compareEqual, hr, VocabTreeNode.skeleton, Skeleton.mk.injEq, and_true]
      cases r with
      | false => exact ⟨false, rfl, hiff⟩
      | true => exact ⟨true, rfl, hiff⟩
  | .mk ia ca (some as) wa, .mk ib cb none wb, _, _, _, _ =>
      ⟨false, by simp [compareEqual], by simp [VocabTreeNode.skeleton]⟩
  | .mk ia ca none wa, .mk ib cb (some bs) wb, _, _, _, _ =>
      ⟨false, by simp [compareEqual], by simp [VocabTreeNode.skeleton]⟩
  | .mk ia ca (some as) wa, .mk ib cb (some bs) wb, la, lb, ha, hb => by
      have hfa := ha (la, .mk ia ca (some as) wa) (by simp [VocabTreeNode.preorderAt])
      have hfb := hb (lb, .mk ib cb (some bs) wb) (by simp [VocabTreeNode.preorderAt])
      have hca := fits_center hfa
      have hcb := fits_center hfb
      have hla := fits_children hfa
      have hlb := fits_children hfb
      simp only [VocabTreeNode.center] at hca hcb
      obtain ⟨r, hr, hiff⟩ := centersEqual_spec ca cb (by omega) veclen 0 (by omega)
      simp only [List.drop_zero] at hiff
      obtain ⟨r2, hr2, hiff2⟩ := compareChildren_spec veclen B as bs B.toNat
        (la + 1) (lb + 1) (by omega) (by omega)
        (fun p hp => ha p (by simp [VocabTreeNode.preorderAt, hp]))
        (fun p hp => hb p (by simp [VocabTreeNode.preorderAt, hp]))
      simp only [compareEqual, hr, VocabTreeNode.skeleton, Skeleton.mk.injEq,
        Option.some.injEq]
      cases r with
      | false =>
          refine ⟨false, rfl, ?_⟩
          simp only [Bool.false_eq_true, false_iff, not_and]
          intro h
          exact absurd (hiff.2 h) (by simp)
      | true =>
          refine ⟨r2, hr2, ?_⟩
          rw [hiff2]
          simp [hiff.1 rfl]
theorem compareChildren_spec (veclen : Nat) (B : Int) :
    ∀ (as bs : List (VocabTreeNode α)) (todo : Nat) (la lb : Int),
      as.length = todo → bs.length = todo →
      (∀ p ∈ VocabTreeNode.preorderListAt as la, VocabTreeNode.fits veclen B p.2 = true) →
      (∀ p ∈ VocabTreeNode.preorderListAt bs lb, VocabTreeNode.fits veclen B p.2 = true) →
      ∃ r, compareChildren veclen B as bs todo = .ok r
        ∧ (r = true ↔ VocabTreeNode.skeletonList as = VocabTreeNode.skeletonList bs)
  | [], [], todo, _, _, ha, _, _, _ => by
      simp only [List.length_nil] at ha
      subst ha
      exact ⟨true, by simp [compareChildren], by simp [VocabTreeNode.skeletonList]⟩
  | [], _ :: _, todo, _, _, ha, hb, _, _ => by
      simp only [List.length_nil] at ha
      subst ha
      simp at hb
  | _ :: _, [], todo, _, _, ha, hb, _, _ => by
      simp only [List.length_nil] at hb
      subst hb
      simp at ha
  | a :: as, b :: bs, todo, la, lb, ha, hb, hfa, hfb => by
      cases todo with
      | zero => simp at ha
      | succ todo =>
          simp only [List.length_cons, Nat.add_right_cancel_iff] at ha hb
          obtain ⟨r, hr, hiff⟩ := compareEqual_spec veclen B a b la lb
            (fun p hp => hfa p (by simp [VocabTreeNode.preorderListAt, hp]))
            (fun p hp => hfb p (by simp [VocabTreeNode.preorderListAt, hp]))
          obtain ⟨r2, hr2, hiff2⟩ := compareChildren_spec veclen B as bs todo la lb ha hb
            (fun p hp => hfa p (by simp [VocabTreeNode.preorderListAt, hp]))
            (fun p hp => hfb p (by simp [VocabTreeNode.preorderListAt, hp]))
          simp only [compareChildren, hr, VocabTreeNode.skeletonList, List.cons.injEq]
          cases r with
          | false =>
              refine ⟨false, rfl, ?_⟩
              simp only [Bool.false_eq_true, false_iff, not_and]
              intro h
              exact absurd (hiff.2 h) (by simp)
          | true =>
              refine ⟨r2, hr2, ?_⟩
              rw [hiff2]
              simp [hiff.1 rfl]
end

/-- C4. For two non-empty trees whose nodes fit their own vector length and
branching factor, `a == b` returns, and it returns true if and only if the two
trees have the same vector length, the same branching factor and the same
depth, and their roots have the same skeleton: at every position the same
leaf/interior status and element-wise equal centres. Node ids, word ids, the
iteration count and the node count are not part of the condition. -/
theorem operatorEq_iff (a b : VocabTree α σ) (ra rb : VocabTreeNode α)
    (ha : a.getRoot = some ra) (hb : b.getRoot = some rb)
    (hwa : ra.WellFormed a.getVeclen a.getBranching)
    (hwb : rb.WellFormed b.getVeclen b.getBranching) :
    ∃ r, a.operatorEq b = .ok r
      ∧ (r = true ↔ a.getVeclen = b.getVeclen ∧ a.getBranching = b.getBranching
          ∧ a.getDepth = b.getDepth ∧ ra.skeleton = rb.skeleton) := by
  unfold VocabTree.operatorEq
  split
  · rename_i hne
    refine ⟨false, rfl, ?_⟩
    simp only [Bool.false_eq_true, false_iff]
    rintro ⟨h1, h2, h3, _⟩
    rcases hne with h | h | h
    · exact h h1
    · exact h h2
    · exact h h3
  · rename_i hsame
    simp only [not_or, ne_eq, Decidable.not_not] at hsame
    obtain ⟨h1, h2, h3⟩ := hsame
    rw [ha, hb]
    simp only
    obtain ⟨r, hr, hiff⟩ := compareEqual_spec a.m_veclen a.m_branching ra rb 0 0
      (fun p hp => hwa p.2 (List.mem_map_of_mem _ hp))
      (fun p hp => by
        have := hwb p.2 (List.mem_map_of_mem _ hp)
        simp only [VocabTree.getVeclen, VocabTree.getBranching] at h1 h2 this
        rw [h1, h2]
        exact this)
    rw [hr]
    cases r with
    | false =>
        refine ⟨false, rfl, ?_⟩
        simp only [Bool.false_eq_true, false_iff]
        rintro ⟨_, _, _, h4⟩
        exact absurd (hiff.2 h4) (by simp)
    | true => exact ⟨true, rfl, by simp [h1, h2, h3, hiff.1 rfl]⟩

theorem operatorEq_iff_witness :
    exampleBuilt.getRoot = some exampleRoot
      ∧ exampleRelabelled.getRoot = some exampleRootRelabelled
      ∧ exampleRoot.WellFormed exampleBuilt.getVeclen exampleBuilt.getBranching
      ∧ exampleRootRelabelled.WellFormed exampleRelabelled.getVeclen
          exampleRelabelled.getBranching
      ∧ ∃ r, exampleBuilt.operatorEq exampleRelabelled = .ok r
        ∧ (r = true ↔ exampleBuilt.getVeclen = exampleRelabelled.getVeclen
            ∧ exampleBuilt.getBranching = exampleRelabelled.getBranching
            ∧ exampleBuilt.getDepth = exampleRelabelled.getDepth
            ∧ exampleRoot.skeleton = exampleRootRelabelled.skeleton) :=
  ⟨rfl, rfl, by unfold VocabTreeNode.WellFormed; decide,
    by unfold VocabTreeNode.WellFormed; decide,
    operatorEq_iff exampleBuilt exampleRelabelled exampleRoot exampleRootRelabelled rfl rfl
      (by unfold VocabTreeNode.WellFormed; decide)
      (by unfold VocabTreeNode.WellFormed; decide)⟩

end EqualityFacts

end vlr

/-! ## Persistence round trip -/

namespace vlr

section PersistenceFacts

variable {α σ : Type}

theorem storeElems_spec (zero : α) (n : Nat) :
    ∀ (elems : List α) (sc : Scan α) (done : List α),
      sc.centerRows = 1 → sc.centerCols = (n : Int) →
      sc.colIdx = (done.length : Int) - 1 →
      sc.centerRow = done ++ List.replicate (n - done.length) zero →
      done.length + elems.length ≤ n →
      ∃ sc1, storeElems elems sc = .ok sc1
        ∧ sc1.centerRows = 1 ∧ sc1.centerCols = (n : Int)
        ∧ sc1.colIdx = ((done ++ elems).length : Int) - 1
        ∧ sc1.centerRow
            = (done ++ elems) ++ List.replicate (n - (done ++ elems).length) zero := by
  intro elems
  induction elems with
  | nil =>
      intro sc done h1 h2 h3 h4 _
      exact ⟨sc, rfl, h1, h2, by simpa using h3, by simpa using h4⟩
  | cons elem elems ih =>
      intro sc done h1 h2 h3 h4 hlen
      simp only [List.length_cons] at hlen
      simp only [storeElems]
      rw [if_pos (by rw [h1, h2, h3]; omega)]
      obtain ⟨sc1, hrun, g1, g2, g3, g4⟩ := ih
        { sc with colIdx := sc.colIdx + 1
                  centerRow := sc.centerRow.set (sc.colIdx + 1).toNat elem }
        (done ++ [elem]) h1 h2
        (by simp only [List.length_append, List.length_singleton]; rw [h3]; omega)
        (by
          simp only
          have hidx : (sc.colIdx + 1).toNat = done.length := by rw [h3]; omega
          rw [hidx, h4, List.set_append_right _ _ (Nat.le_refl _),
            Nat.sub_self]
          have hrep : n - done.length = (n - (done ++ [elem]).length) + 1 := by
            simp only [List.length_append, List.length_singleton]
            omega
          rw [hrep, List.replicate_succ, List.set_cons_zero, List.append_assoc]
          rfl)
        (by simp only [List.length_append, List.length_singleton]; omega)
      refine ⟨sc1, hrun, g1, g2, ?_, ?_⟩
      · rw [g3]
        simp
      · rw [g4]
        simp

theorem readElems_more (zero : α) (veclen : Nat) (elems : List α) (closing : Bool)
    (node : VocabTreeNode α) (sc : Scan α) (done : List α)
    (h1 : sc.centerRows = 1) (h2 : sc.centerCols = (veclen : Int))
    (h3 : sc.colIdx = (done.length : Int) - 1)
    (h4 : sc.centerRow = done ++ List.replicate (veclen - done.length) zero)
    (hlen : done.length + elems.length ≤ veclen) :
    ∃ sc1, readElems zero veclen false elems closing node sc
        = .ok (if closing then node.setCenter
            ((done ++ elems) ++ List.replicate (veclen - (done ++ elems).length) zero)
          else node, sc1)
      ∧ (closing = false → sc1.centerRows = 1 ∧ sc1.centerCols = (veclen : Int)
          ∧ sc1.colIdx = ((done ++ elems).length : Int) - 1
          ∧ sc1.centerRow
              = (done ++ elems) ++ List.replicate (veclen - (done ++ elems).length) zero) := by
  obtain ⟨sc1, hrun, g1, g2, g3, g4⟩ := storeElems_spec zero veclen elems sc done h1 h2 h3 h4 hlen
  unfold readElems
  rw [if_neg (by simp)]
  simp only [Bool.false_eq_true, if_false, hrun]
  cases closing with
  | false => exact ⟨sc1, by simp, fun _ => ⟨g1, g2, g3, g4⟩⟩
  | true =>
      simp only [if_true]
      rw [if_neg (by simp [g1]), if_neg (by simp [g2]), g4]
      exact ⟨_, rfl, fun h => absurd h (by simp)⟩

theorem readNode_more (zero : α) (veclen : Nat) (node_id word_id : Int)
    (rest : List (Line α)) :
    ∀ (chunks : List (List α)) (node : VocabTreeNode α) (sc : Scan α) (done : List α),
      chunks ≠ [] → sc.centerRows = 1 → sc.centerCols = (veclen : Int) →
      sc.colIdx = (done.length : Int) - 1 →
      sc.centerRow = done ++ List.replicate (veclen - done.length) zero →
      done.length + chunks.flatten.length = veclen →
      readNode zero veclen
          (moreDataLines chunks ++ Line.nodeId node_id :: Line.wordId word_id :: rest)
          node sc
        = .ok (((node.setCenter (done ++ chunks.flatten)).setNodeId node_id).setWordId
            word_id, rest) := by
  intro chunks
  induction chunks with
  | nil => intro node sc done h; exact absurd rfl h
  | cons chunk chunks ih =>
      intro node sc done _ h1 h2 h3 h4 hlen
      simp only [List.flatten_cons, List.length_append] at hlen
      cases chunks with
      | nil =>
          simp only [List.flatten_nil, List.length_nil, Nat.add_zero] at hlen
          obtain ⟨sc1, hrun, _⟩ := readElems_more zero veclen chunk true node sc done
            h1 h2 h3 h4 (by omega)
          simp only [moreDataLines, List.singleton_append, readNode, hrun, if_true,
            List.flatten_cons, List.flatten_nil, List.append_nil]
          rw [show veclen - (done ++ chunk).length = 0 by
            simp only [List.length_append]; omega]
          simp
      | cons chunk2 chunks =>
          obtain ⟨sc1, hrun, hinv⟩ := readElems_more zero veclen chunk false node sc done
            h1 h2 h3 h4 (by omega)
          obtain ⟨g1, g2, g3, g4⟩ := hinv rfl
          have := ih node sc1 (done ++ chunk) (by simp) g1 g2 g3 g4
            (by simp only [List.length_append]; omega)
          simp only [moreDataLines, List.cons_append, readNode, hrun]
          simp only [Bool.false_eq_true, if_false]
          rw [List.flatten_cons, ← List.append_assoc]
          exact this

theorem readNode_record (W : Writer α) (zero : α) (veclen : Nat) (center : List α)
    (node_id word_id : Int) (rest : List (Line α))
    (hW : (W.split center).flatten = center) (hlen : center.length = veclen) :
    readNode zero veclen (nodeLines W veclen center node_id word_id ++ rest)
        VocabTreeNode.new Scan.init
      = .ok (.mk node_id center none word_id, rest) := by
  have hflat : (W.split center).flatten.length = veclen := by rw [hW, hlen]
  simp only [nodeLines, List.cons_append, List.nil_append, List.append_assoc, readNode,
    Scan.init]
  cases hs : W.split center with
  | nil =>
      rw [hs] at hflat hW
      simp only [List.flatten_nil, List.length_nil] at hflat
      simp only [List.flatten_nil] at hW
      subst hW
      subst hflat
      simp [dataLines, readNode, readElems, storeElems, VocabTreeNode.setCenter,
        VocabTreeNode.setNodeId, VocabTreeNode.setWordId, VocabTreeNode.new,
        VocabTreeNode.node_id, VocabTreeNode.center, VocabTreeNode.children,
        VocabTreeNode.word_id]
  | cons chunk chunks =>
      rw [hs] at hflat hW
      simp only [List.flatten_cons, List.length_append] at hflat
      have hstore := storeElems_spec zero veclen chunk
        { _rows := 1, _cols := (veclen : Int), colIdx := -1, centerRows := 1,
          centerCols := (veclen : Int), centerRow := List.replicate veclen zero } []
        rfl rfl rfl (by simp) (by simp only [List.length_nil]; omega)
      obtain ⟨sc1, hrun, g1, g2, g3, g4⟩ := hstore
      simp only [List.nil_append, List.length_nil] at g3 g4
      cases chunks with
      | nil =>
          simp only [List.flatten_nil, List.length_nil, Nat.add_zero] at hflat
          simp only [List.flatten_cons, List.flatten_nil, List.append_nil] at hW
          subst hW
          simp only [dataLines, List.singleton_append, readNode, readElems]
          rw [if_neg (by simp)]
          simp only [if_true, le_refl, Int.toNat_ofNat, hrun]
          rw [if_neg (by simp [g1]), if_neg (by simp [g2]), g4, hflat]
          simp [readNode, VocabTreeNode.setCenter, VocabTreeNode.setNodeId,
            VocabTreeNode.setWordId, VocabTreeNode.new, VocabTreeNode.node_id,
            VocabTreeNode.center, VocabTreeNode.children, VocabTreeNode.word_id]
      | cons chunk2 chunks =>
          have hmore := readNode_more zero veclen node_id word_id rest (chunk2 :: chunks)
            VocabTreeNode.new sc1 chunk (by simp) g1 g2 g3
            (by simpa using g4) (by omega)
          simp only [dataLines, List.cons_append, readNode, readElems]
          rw [if_neg (by simp)]
          simp only [if_true, le_refl, Int.toNat_ofNat, hrun]
          simp only [Bool.false_eq_true, if_false, List.append_eq, List.append_assoc,
            List.cons_append, List.nil_append]
          rw [hmore, ← hW]
          simp [VocabTreeNode.setCenter, VocabTreeNode.setNodeId,
            VocabTreeNode.setWordId, VocabTreeNode.new, VocabTreeNode.node_id,
            VocabTreeNode.center, VocabTreeNode.children, VocabTreeNode.word_id]

theorem shaped_leaf_word {B : Int} {node_id word_id : Int} {center : List α}
    (h : VocabTreeNode.Shaped B (.mk node_id center none word_id)) : 0 ≤ word_id := by
  rcases h with h | ⟨cs, hcs, _, _⟩
  · exact h.2
  · simp [VocabTreeNode.children] at hcs

theorem shaped_interior_word {B : Int} {node_id word_id : Int} {center : List α}
    {cs : List (VocabTreeNode α)}
    (h : VocabTreeNode.Shaped B (.mk node_id center (some cs) word_id)) :
    word_id = -1 := by
  rcases h with h | ⟨cs1, _, _, hw⟩
  · simp [VocabTreeNode.children] at h
  · exact hw

mutual
theorem save_load_node (W : Writer α) (zero : α) (veclen : Nat) (B D : Int)
    (hW : ∀ c, (W.split c).flatten = c) :
    ∀ (n : VocabTreeNode α) (lv : Int),
      (∀ p ∈ n.preorderAt lv, VocabTreeNode.fits veclen B p.2 = true) →
      (∀ p ∈ n.preorderAt lv, VocabTreeNode.Shaped B p.2) →
      (∀ p ∈ n.preorderAt lv, p.1 ≤ D) →
      ∃ lines, save_tree W veclen B n = .ok lines
        ∧ ∀ (fuel : Nat) (rest : List (Line α)) (words : List (VocabTreeNode α)),
            (D - lv).toNat < fuel →
            load_tree zero veclen B fuel (lines ++ rest) VocabTreeNode.new words
              = .ok (n, rest,
                  words ++ ((n.preorderAt lv).map Prod.snd).filter VocabTreeNode.isLeaf)
  | .mk node_id center none word_id, lv, hf, hs, _ => by
      have hc := fits_center (hf (lv, .mk node_id center none word_id)
        (by simp [VocabTreeNode.preorderAt]))
      have hw := shaped_leaf_word (hs (lv, .mk node_id center none word_id)
        (by simp [VocabTreeNode.preorderAt]))
      simp only [VocabTreeNode.center] at hc
      refine ⟨nodeLines W veclen center node_id word_id, ?_, ?_⟩
      · simp only [save_tree]
        rw [if_neg (by omega), ← hc, List.take_length]
      · intro fuel rest words hfuel
        cases fuel with
        | zero => omega
        | succ fuel =>
            simp only [load_tree, readNode_record W zero veclen center node_id word_id rest
              (hW center) hc]
            have hne : ¬ word_id = -1 := by omega
            simp [VocabTreeNode.word_id, hne, VocabTreeNode.setChildren,
              VocabTreeNode.node_id, VocabTreeNode.center, VocabTreeNode.preorderAt,
              VocabTreeNode.isLeaf, VocabTreeNode.children]
  | .mk node_id center (some children) word_id, lv, hf, hs, hl => by
      have hfit := hf (lv, .mk node_id center (some children) word_id)
        (by simp [VocabTreeNode.preorderAt])
      have hc := fits_center hfit
      have hlen := fits_children hfit
      have hw := shaped_interior_word (hs (lv, .mk node_id center (some children) word_id)
        (by simp [VocabTreeNode.preorderAt]))
      simp only [VocabTreeNode.center] at hc
      subst hw
      obtain ⟨below, hsave, hload⟩ := save_load_list W zero veclen B D hW children
        (lv + 1) B.toNat (by omega)
        (fun p hp => hf p (by simp [VocabTreeNode.preorderAt, hp]))
        (fun p hp => hs p (by simp [VocabTreeNode.preorderAt, hp]))
        (fun p hp => hl p (by simp [VocabTreeNode.preorderAt, hp]))
      refine ⟨nodeLines W veclen center node_id (-1) ++ below, ?_, ?_⟩
      · simp only [save_tree, hsave]
        rw [if_neg (by omega), ← hc, List.take_length]
      · intro fuel rest words hfuel
        cases fuel with
        | zero => omega
        | succ fuel =>
            have hnext : children ≠ [] → (D - (lv + 1)).toNat < fuel := by
              intro hne
              cases children with
              | nil => exact absurd rfl hne
              | cons c cs =>
                  have hmem : (lv + 1, c) ∈ VocabTreeNode.preorderAt
                      (.mk node_id center (some (c :: cs)) (-1)) lv := by
                    simp only [VocabTreeNode.preorderAt, VocabTreeNode.preorderListAt,
                      List.mem_cons, List.mem_append]
                    exact Or.inr (Or.inl (List.mem_of_mem_head? (preorderAt_head c (lv + 1))))
                  have := hl _ hmem
                  simp only at this
                  omega
            have := hload fuel rest words hnext
            simp only [load_tree, List.append_assoc,
              readNode_record W zero veclen center node_id (-1) (below ++ rest)
                (hW center) hc]
            simp only [VocabTreeNode.word_id, decide_True, Bool.true_eq_false, if_false]
            rw [if_neg (by omega), this]
            simp [VocabTreeNode.setChildren, VocabTreeNode.node_id, VocabTreeNode.center,
              VocabTreeNode.word_id, VocabTreeNode.preorderAt, VocabTreeNode.isLeaf,
              VocabTreeNode.children]
theorem save_load_list (W : Writer α) (zero : α) (veclen : Nat) (B D : Int)
    (hW : ∀ c, (W.split c).flatten = c) :
    ∀ (cs : List (VocabTreeNode α)) (lv : Int) (todo : Nat), cs.length = todo →
      (∀ p ∈ VocabTreeNode.preorderListAt cs lv, VocabTreeNode.fits veclen B p.2 = true) →
      (∀ p ∈ VocabTreeNode.preorderListAt cs lv, VocabTreeNode.Shaped B p.2) →
      (∀ p ∈ VocabTreeNode.preorderListAt cs lv, p.1 ≤ D) →
      ∃ lines, save_children W veclen B cs todo = .ok lines
        ∧ ∀ (fuel : Nat) (rest : List (Line α)) (words : List (VocabTreeNode α)),
            (cs ≠ [] → (D - lv).toNat < fuel) →
            loadChildren (load_tree zero veclen B fuel) todo (lines ++ rest) words
              = .ok (cs, rest,
                  words ++ ((VocabTreeNode.preorderListAt cs lv).map Prod.snd).filter
                    VocabTreeNode.isLeaf)
  | [], lv, todo, hlen, _, _, _ => by
      simp only [List.length_nil] at hlen
      subst hlen
      exact ⟨[], by simp [save_children], fun fuel rest words _ => by
        simp [loadChildren, VocabTreeNode.preorderListAt]⟩
  | c :: cs, lv, todo, hlen, hf, hs, hl => by
      cases todo with
      | zero => simp at hlen
      | succ todo =>
          simp only [List.length_cons, Nat.add_right_cancel_iff] at hlen
          obtain ⟨first, hsave1, hload1⟩ := save_load_node W zero veclen B D hW c lv
            (fun p hp => hf p (by simp [VocabTreeNode.preorderListAt, hp]))
            (fun p hp => hs p (by simp [VocabTreeNode.preorderListAt, hp]))
            (fun p hp => hl p (by simp [VocabTreeNode.preorderListAt, hp]))
          obtain ⟨others, hsave2, hload2⟩ := save_load_list W zero veclen B D hW cs lv
            todo hlen
            (fun p hp => hf p (by simp [VocabTreeNode.preorderListAt, hp]))
            (fun p hp => hs p (by simp [VocabTreeNode.preorderListAt, hp]))
            (fun p hp => hl p (by simp [VocabTreeNode.preorderListAt, hp]))
          refine ⟨first ++ others, by simp [save_children, hsave1, hsave2], ?_⟩
          intro fuel rest words hfuel
          have hfuel1 := hfuel (by simp)
          simp only [loadChildren, List.append_assoc, hload1 fuel (others ++ rest) words hfuel1,
            hload2 fuel rest _ (fun _ => hfuel1)]
          simp [VocabTreeNode.preorderListAt]
end

end PersistenceFacts

section RoundTrip

variable {α δ σ : Type} [LinearOrder δ] [DecidableEq α]

/-- C3. Persistence round trip: for every tree t produced by `build()`, a
writer that breaks a centre over lines without losing elements, and any tree
object t2 to load into, saving t succeeds and loading the saved lines (with a
budget of nested calls above the depth) succeeds, after which `t == t2` holds
under `operator==` and `quantize` gives the same result on t and t2 for every
descriptor, every level and every incoming `nodeAtL`. -/
theorem save_load_roundtrip (K : Kernel α δ σ) (W : Writer α)
    (hW : ∀ c, (W.split c).flatten = c) (t0 t fresh : VocabTree α σ)
    (h : build K t0 = .ok t) (fuel : Nat) (hfuel : t.getDepth.toNat < fuel) :
    ∃ file t2, save W t = .ok file ∧ load K.zero fuel file fresh = .ok t2
      ∧ t.operatorEq t2 = .ok true
      ∧ ∀ (x : List α) (L nodeAtL : Int),
          quantize K t x L nodeAtL = quantize K t2 x L nodeAtL := by
  obtain ⟨hB, hD, _, hBeq, hDeq, hVeq, _, _, root, hroot, hlaid⟩ := build_laid K _ t h
  have hfits : ∀ p ∈ root.preorderAt 0,
      VocabTreeNode.fits t.m_veclen t.m_branching p.2 = true := by
    intro p hp
    have hc := hlaid.centers p hp
    have hs := hlaid.shaped p hp
    rw [hVeq, hBeq]
    obtain ⟨lv, n⟩ := p
    cases n with
    | mk node_id center children word_id =>
        cases children with
        | none =>
            simpa [VocabTreeNode.fits, VocabTreeNode.children, VocabTreeNode.center] using hc
        | some cs =>
            have hl := shaped_children_length hs
            simp only [VocabTreeNode.center] at hc
            simp [VocabTreeNode.fits, VocabTreeNode.children, VocabTreeNode.center, hc, hl]
  obtain ⟨body, hsave, hload⟩ := save_load_node W K.zero t.m_veclen t.m_branching
    t.m_depth hW root 0 hfits
    (fun p hp => by rw [hBeq]; exact hlaid.shaped p hp)
    (fun p hp => by rw [hDeq]; exact hlaid.levels p hp)
  have hsize : t.m_size ≠ 0 := by
    have h1 := hlaid.size
    have h2 := preorderAt_head root 0
    simp only at h1
    cases hl : root.preorderAt 0 with
    | nil => rw [hl] at h2; simp at h2
    | cons a l => rw [hl] at h1; simp only [List.length_cons] at h1; omega
  have hrun := hload fuel [] fresh.m_words
    (by simpa [VocabTree.getDepth] using hfuel)
  rw [List.append_nil] at hrun
  refine ⟨[Line.values [] false, Line.values [] false, Line.iterations t.m_iterations,
      Line.branching t.m_branching, Line.depth t.m_depth, Line.vectorLength t.m_veclen,
      Line.size t.m_size, Line.nodes] ++ body,
    { fresh with m_iterations := t.m_iterations, m_branching := t.m_branching,
                 m_depth := t.m_depth, m_veclen := t.m_veclen, m_size := t.m_size,
                 m_root := some root,
                 m_words := fresh.m_words
                   ++ ((root.preorderAt 0).map Prod.snd).filter VocabTreeNode.isLeaf },
    ?_, ?_, ?_, ?_⟩
  · simp only [save, VocabTree.empty, beq_iff_eq, hsize, if_false, hroot, hsave]
  · simp only [load, List.cons_append, List.nil_append, readHeader, List.append_eq, hrun]
  · simp only [VocabTree.operatorEq, VocabTree.getVeclen, VocabTree.getBranching,
      VocabTree.getDepth, VocabTree.getRoot, ne_eq, not_true_eq_false, or_self, if_false,
      hroot]
    obtain ⟨r, hr, hiff⟩ := compareEqual_spec t.m_veclen t.m_branching root root 0 0
      hfits hfits
    have : r = true := hiff.2 rfl
    subst this
    rw [hr]
  · intro x L nodeAtL
    simp only [quantize, hroot]

/-- Saving on a writer that puts eight elements on the first line and the rest
on a second one. -/
theorem save_load_roundtrip_witness :
    (∀ c : List Nat, (exampleWriter.split c).flatten = c)
      ∧ build (binKernel firstCenters) exampleTree = .ok exampleBuilt
      ∧ exampleBuilt.getDepth.toNat < 3
      ∧ ∃ file t2, save exampleWriter exampleBuilt = .ok file
        ∧ load (binKernel firstCenters).zero 3 file exampleRelabelled = .ok t2
        ∧ exampleBuilt.operatorEq t2 = .ok true
        ∧ ∀ (x : List Nat) (L nodeAtL : Int),
            quantize (binKernel firstCenters) exampleBuilt x L nodeAtL
              = quantize (binKernel firstCenters) t2 x L nodeAtL :=
  ⟨fun c => by simp [exampleWriter], by rfl, by decide,
    save_load_roundtrip (binKernel firstCenters) exampleWriter
      (fun c => by simp [exampleWriter]) exampleTree exampleBuilt exampleRelabelled
      (by rfl) 3 (by decide)⟩

end RoundTrip

end vlr

/-! ## The budget of nested calls -/

namespace vlr

section Budget

variable {α δ σ : Type} [LinearOrder δ]

theorem clusterChildren_error_of (P : Error → Prop)
    (recurse : VocabTreeNode α → List Nat → Int → Progress α σ →
      Except Error (VocabTreeNode α × List Nat × Progress α σ))
    (centers : List (List α)) (level : Int)
    (hrec : ∀ node idx s e, recurse node idx (level + 1) s = .error e → P e) :
    ∀ (todo c : Nat) (indices belongs_to : List Nat) (start : Nat)
      (s : Progress α σ) (e : Error),
      clusterChildren recurse centers level todo c indices belongs_to start s = .error e →
      P e := by
  intro todo
  induction todo with
  | zero =>
      intro c indices belongs_to start s e h
      simp [clusterChildren] at h
  | succ todo ih =>
      intro c indices belongs_to start s e h
      simp only [clusterChildren] at h
      split at h
      · rename_i e1 he1
        simp only [Except.error.injEq] at h
        subst h
        exact hrec _ _ _ _ he1
      · split at h
        · rename_i e1 he1
          simp only [Except.error.injEq] at h
          subst h
          exact ih _ _ _ _ _ _ he1
        · exact absurd h (by simp)

/-- With a budget above the number of levels left, the clusterer can only fail
by undefined behaviour: the budget is never used up. -/
theorem computeClustering_budget (K : Kernel α δ σ) (t : VocabTree α σ) :
    ∀ (fuel : Nat) (node : VocabTreeNode α) (indices : List Nat) (level : Int)
      (s : Progress α σ) (e : Error),
      level ≤ t.m_depth → (t.m_depth - level).toNat < fuel →
      computeClustering K t fuel node indices level s = .error e → e = .undefined := by
  intro fuel
  induction fuel with
  | zero =>
      intro node indices level s e _ hfuel _
      omega
  | succ fuel ih =>
      intro node indices level s e hlevel hfuel h
      simp only [computeClustering] at h
      generalize (if level > 1 then indices.insertionSort (· ≤ ·) else indices)
        = indices1 at h
      split at h
      · exact absurd h (by simp)
      · rename_i hnot
        split at h
        · exact absurd h (by simp)
        · split at h
          · rename_i e1 he1
            simp only [Except.error.injEq] at h
            subst h
            exact lloydLoop_error K _ _ _ _ _ _ _ he1
          · split at h
            · rename_i e1 he1
              simp only [Except.error.injEq] at h
              subst h
              have hne : level ≠ t.m_depth := fun e => hnot (Or.inl e)
              exact clusterChildren_error_of (fun e => e = .undefined) _ _ _
                (fun node idx s e he => ih node idx (level + 1) s e (by omega) (by omega) he)
                _ _ _ _ _ _ _ he1
            · exact absurd h (by simp)

/-- Past the validation, `build` can only fail by undefined behaviour inside
the Lloyd loop; its budget of nested calls is never used up. -/
theorem build_fails_only_undefined (K : Kernel α δ σ) (t : VocabTree α σ) (e : Error)
    (hB : 2 ≤ t.m_branching) (hD : 1 ≤ t.m_depth) (hrows : 1 ≤ t.m_dataset.rows)
    (h : build K t = .error e) : e = .undefined := by
  unfold build at h
  rw [if_neg (by omega), if_neg (by omega), if_neg (by simp [Mat.empty]; omega)] at h
  simp only at h
  split at h
  · rename_i e1 he1
    simp only [Except.error.injEq] at h
    subst h
    exact computeClustering_budget K t _ _ _ 0 _ _ (by omega) (by omega) he1
  · exact absurd h (by simp)

end Budget

end vlr

/-! ## The level argument and the empty tree -/

namespace vlr

section QuantizeGuards

variable {α δ σ : Type} [LinearOrder δ]

/-- C15. `quantize` fails (failed assertion, no word id) for every level L with
L < 0 or L ≥ getDepth(), on any tree; on a tree produced by `build()` it
returns a result for every level with 0 ≤ L < getDepth(). -/
theorem quantize_level_check (K : Kernel α δ σ) (t0 t : VocabTree α σ)
    (feature : List α) (L nodeAtL : Int) :
    ((L < 0 ∨ t.getDepth ≤ L) → quantize K t feature L nodeAtL = .error .assertFailed)
      ∧ (build K t0 = .ok t → 0 ≤ L → L < t.getDepth →
          ∃ r, quantize K t feature L nodeAtL = .ok r) := by
  constructor
  · intro h
    unfold quantize
    rw [if_pos]
    simp only [VocabTree.getDepth] at h
    omega
  · intro hb h0 h1
    obtain ⟨_, leaf, n1, _, _, _, _, hrun⟩ :=
      quantize_on_built K t0 t hb feature L h0 h1 nodeAtL
    exact ⟨_, hrun⟩

theorem quantize_level_check_witness :
    quantize (binKernel firstCenters) exampleBuilt [254] (-1) 0 = .error .assertFailed
      ∧ quantize (binKernel firstCenters) exampleBuilt [254] 2 0 = .error .assertFailed
      ∧ ∃ r, quantize (binKernel firstCenters) exampleBuilt [254] 1 0 = .ok r :=
  ⟨(quantize_level_check (binKernel firstCenters) exampleTree exampleBuilt [254] (-1) 0).1
      (Or.inl (by decide)),
    (quantize_level_check (binKernel firstCenters) exampleTree exampleBuilt [254] 2 0).1
      (Or.inr (by decide)),
    (quantize_level_check (binKernel firstCenters) exampleTree exampleBuilt [254] 1 0).2
      (by rfl) (by decide) (by decide)⟩

/-- C16, what the code does. On a tree that has been neither built nor loaded
`quantize` asserts the level and then reads the children of the null root: it
fails the assertion for a level outside `[0, depth)` and is undefined for a
level inside; it never reports an empty tree. -/
theorem quantize_before_build (K : Kernel α δ σ) (data : Mat α)
    (branching depth maxIterations : Int) (seed : σ) (feature : List α)
    (L nodeAtL : Int) :
    quantize K (VocabTree.new data branching depth maxIterations seed) feature L nodeAtL
      = if 0 ≤ L ∧ L < depth then .error .undefined else .error .assertFailed := by
  unfold quantize
  by_cases h : 0 ≤ L ∧ L < depth
  · rw [if_neg (by simpa [VocabTree.new] using h), if_pos h]
    rfl
  · rw [if_pos (by simpa [VocabTree.new] using h), if_neg h]

/-- C14, what the code does. On the built example tree the descent for the
descriptor `[0]` chooses child 0 of the root (distance 1 against 4), and the
second result of `quantize` at level 0 is the value the caller passed in, here
7, not the index 0. -/
theorem quantize_nodeAtL_first_child :
    IsNearestChild (binKernel firstCenters) exampleBuilt.getVeclen [0]
        [.mk 1 [1] (some [.mk 2 [0] none 0, .mk 3 [1] none 1]) (-1),
         .mk 4 [15] (some [.mk 5 [255] none 2, .mk 6 [14] none 3]) (-1)] 0
      ∧ quantize (binKernel firstCenters) exampleBuilt [0] 0 7 = .ok (0, 7) := by
  refine ⟨⟨_, rfl, ?_, ?_⟩, by rfl⟩
  · intro i ci hci
    match i, hci with
    | 0, hci => cases hci; decide
    | 1, hci => cases hci; decide
    | i + 2, hci => simp at hci
  · intro i ci hi
    omega

end QuantizeGuards

end vlr

/-! ## Saving an empty tree, loading without checks -/

namespace vlr

section SaveLoadGuards

variable {α δ σ : Type} [LinearOrder δ]

mutual
theorem save_tree_error (W : Writer α) (veclen : Nat) (B : Int) :
    ∀ (n : VocabTreeNode α) (e : Error), save_tree W veclen B n = .error e → e = .undefined
  | .mk node_id center none word_id, e, h => by
      simp only [save_tree] at h
      split at h
      · simp only [Except.error.injEq] at h
        exact h.symm
      · exact absurd h (by simp)
  | .mk node_id center (some children) word_id, e, h => by
      simp only [save_tree] at h
      split at h
      · simp only [Except.error.injEq] at h
        exact h.symm
      · split at h
        · rename_i e1 he1
          simp only [Except.error.injEq] at h
          subst h
          exact save_children_error W veclen B children _ _ he1
        · exact absurd h (by simp)
theorem save_children_error (W : Writer α) (veclen : Nat) (B : Int) :
    ∀ (cs : List (VocabTreeNode α)) (todo : Nat) (e : Error),
      save_children W veclen B cs todo = .error e → e = .undefined
  | _, 0, e, h => by simp [save_children] at h
  | [], _ + 1, e, h => by
      simp only [save_children, Except.error.injEq] at h
      exact h.symm
  | c :: cs, todo + 1, e, h => by
      simp only [save_children] at h
      split at h
      · rename_i e1 he1
        simp only [Except.error.injEq] at h
        subst h
        exact save_tree_error W veclen B c _ he1
      · split at h
        · rename_i e1 he1
          simp only [Except.error.injEq] at h
          subst h
          exact save_children_error W veclen B cs todo _ he1
        · exact absurd h (by simp)
end

theorem save_treeEmpty_iff (W : Writer α) (t : VocabTree α σ) :
    save W t = .error .treeEmpty ↔ t.m_size = 0 := by
  unfold save
  by_cases h0 : t.m_size = 0
  · simp [VocabTree.empty, h0]
  · simp only [VocabTree.empty, beq_iff_eq, h0, if_false, iff_false]
    cases hr : t.m_root with
    | none => simp
    | some root =>
        simp only
        cases hs : save_tree W t.m_veclen t.m_branching root with
        | error e =>
            have := save_tree_error W _ _ root e hs
            subst this
            simp
        | ok body => simp

theorem load_size (zero : α) (fuel : Nat) (file : List (Line α)) (t t2 : VocabTree α σ)
    (h : load zero fuel file t = .ok t2) : t2.m_size = (readHeader file t).1.m_size := by
  unfold load at h
  simp only at h
  split at h
  · exact absurd h (by simp)
  · simp only [Except.ok.injEq] at h
    subst h
    rfl

/-- C17, amended. `save` fails with TreeEmpty if and only if the node count is
0. It fails so on a freshly constructed tree, never after a successful
`build()`, and after a successful `load()` exactly when the header of the file
left the node count at 0. -/
theorem save_empty_check (K : Kernel α δ σ) (W : Writer α) (t0 t : VocabTree α σ)
    (data : Mat α) (branching depth maxIterations : Int) (seed : σ) (zero : α)
    (fuel : Nat) (file : List (Line α)) :
    (save W t = .error .treeEmpty ↔ t.getNumNodes = 0)
      ∧ save W (VocabTree.new data branching depth maxIterations seed) = .error .treeEmpty
      ∧ (build K t0 = .ok t → save W t ≠ .error .treeEmpty)
      ∧ (load zero fuel file t0 = .ok t →
          (save W t = .error .treeEmpty ↔ (readHeader file t0).1.m_size = 0)) := by
  refine ⟨save_treeEmpty_iff W t, ?_, ?_, ?_⟩
  · rw [save_treeEmpty_iff]
    rfl
  · intro hb
    rw [ne_eq, save_treeEmpty_iff]
    obtain ⟨_, _, _, _, _, _, _, _, root, _, hlaid⟩ := build_laid K _ t hb
    have h1 := hlaid.size
    have h2 := preorderAt_head root 0
    simp only at h1
    cases hl : root.preorderAt 0 with
    | nil => rw [hl] at h2; simp at h2
    | cons a l => rw [hl] at h1; simp only [List.length_cons] at h1; omega
  · intro hl
    rw [save_treeEmpty_iff, load_size zero fuel file t0 t hl]

theorem save_empty_check_witness :
    save exampleWriter exampleTree = .error .treeEmpty
      ∧ save exampleWriter exampleBuilt ≠ .error .treeEmpty
      ∧ (save exampleWriter exampleLoadedNoSize = .error .treeEmpty
          ↔ (readHeader exampleFileNoSize exampleTree).1.m_size = 0) :=
  ⟨(save_empty_check (binKernel firstCenters) exampleWriter exampleTree exampleBuilt
      exampleData 2 2 10 () 0 1 exampleFileNoSize).2.1,
    (save_empty_check (binKernel firstCenters) exampleWriter exampleTree exampleBuilt
      exampleData 2 2 10 () 0 1 exampleFileNoSize).2.2.1 (by rfl),
    (save_empty_check (binKernel firstCenters) exampleWriter exampleTree
      exampleLoadedNoSize exampleData 2 2 10 () 0 1 exampleFileNoSize).2.2.2 (by rfl)⟩

/-- Loading `exampleFileNoSize`, which has no `size:` line, into a fresh tree
succeeds, and `save` on the loaded tree fails with TreeEmpty. -/
theorem save_empty_check_counterexample :
    load 0 1 exampleFileNoSize exampleTree = .ok exampleLoadedNoSize
      ∧ exampleLoadedNoSize.getRoot = some (.mk 0 [0] none 0)
      ∧ save exampleWriter exampleLoadedNoSize = .error .treeEmpty :=
  ⟨by rfl, by rfl, by rfl⟩

end SaveLoadGuards

end vlr

/-! ## Loading without a depth check; the centre of a leaf -/

namespace vlr

section LoadDepth

variable {α σ : Type}

theorem storeElems_error :
    ∀ (elems : List α) (sc : Scan α) (e : Error),
      storeElems elems sc = .error e → e = .undefined := by
  intro elems
  induction elems with
  | nil => intro sc e h; simp [storeElems] at h
  | cons elem elems ih =>
      intro sc e h
      simp only [storeElems] at h
      split at h
      · exact ih _ _ h
      · simp only [Except.error.injEq] at h
        exact h.symm

theorem readElems_error (zero : α) (veclen : Nat) (first : Bool) (elems : List α)
    (closing : Bool) (node : VocabTreeNode α) (sc : Scan α) (e : Error)
    (h : readElems zero veclen first elems closing node sc = .error e) :
    e ≠ .parseError ∧ e ≠ .fuel := by
  unfold readElems at h
  split at h
  · simp only [Except.error.injEq] at h
    subst h
    exact ⟨by decide, by decide⟩
  · simp only at h
    split at h
    · rename_i e1 he1
      simp only [Except.error.injEq] at h
      subst h
      rw [storeElems_error _ _ _ he1]
      exact ⟨by decide, by decide⟩
    · split at h
      · split at h
        · simp only [Except.error.injEq] at h
          subst h
          exact ⟨by decide, by decide⟩
        · split at h
          · simp only [Except.error.injEq] at h
            subst h
            exact ⟨by decide, by decide⟩
          · exact absurd h (by simp)
      · exact absurd h (by simp)

theorem readNode_error (zero : α) (veclen : Nat) :
    ∀ (lines : List (Line α)) (node : VocabTreeNode α) (sc : Scan α) (e : Error),
      readNode zero veclen lines node sc = .error e → e ≠ .parseError ∧ e ≠ .fuel := by
  intro lines
  induction lines with
  | nil => intro node sc e h; simp [readNode] at h
  | cons line rest ih =>
      intro node sc e h
      cases line <;> simp only [readNode] at h
      all_goals first
        | exact ih _ _ _ h
        | exact absurd h (by simp)
        | (split at h
           · rename_i e1 he1
             simp only [Except.error.injEq] at h
             subst h
             exact readElems_error zero veclen _ _ _ _ _ _ he1
           · exact ih _ _ _ h)

theorem loadChildren_error_of (P : Error → Prop)
    (recurse : List (Line α) → VocabTreeNode α → List (VocabTreeNode α) →
      Except Error (VocabTreeNode α × List (Line α) × List (VocabTreeNode α)))
    (hrec : ∀ lines node words e, recurse lines node words = .error e → P e) :
    ∀ (todo : Nat) (lines : List (Line α)) (words : List (VocabTreeNode α)) (e : Error),
      loadChildren recurse todo lines words = .error e → P e := by
  intro todo
  induction todo with
  | zero => intro lines words e h; simp [loadChildren] at h
  | succ todo ih =>
      intro lines words e h
      simp only [loadChildren] at h
      split at h
      · rename_i e1 he1
        simp only [Except.error.injEq] at h
        subst h
        exact hrec _ _ _ _ he1
      · split at h
        · rename_i e1 he1
          simp only [Except.error.injEq] at h
          subst h
          exact ih _ _ _ he1
        · exact absurd h (by simp)

theorem load_tree_error (zero : α) (veclen : Nat) (B : Int) :
    ∀ (fuel : Nat) (lines : List (Line α)) (node : VocabTreeNode α)
      (words : List (VocabTreeNode α)) (e : Error),
      load_tree zero veclen B fuel lines node words = .error e → e ≠ .parseError := by
  intro fuel
  induction fuel with
  | zero =>
      intro lines node words e h
      simp only [load_tree, Except.error.injEq] at h
      subst h
      decide
  | succ fuel ih =>
      intro lines node words e h
      simp only [load_tree] at h
      split at h
      · rename_i e1 he1
        simp only [Except.error.injEq] at h
        subst h
        exact (readNode_error zero veclen _ _ _ _ he1).1
      · split at h
        · exact absurd h (by simp)
        · split at h
          · simp only [Except.error.injEq] at h
            subst h
            decide
          · split at h
            · rename_i e1 he1
              simp only [Except.error.injEq] at h
              subst h
              exact loadChildren_error_of (fun e => e ≠ .parseError) _
                (fun lines node words e => ih lines node words e) _ _ _ _ he1
            · exact absurd h (by simp)

/-- C19, amended. `load` does not compare the node records with the declared
depth and never fails with ParseError. A file whose header declares any depth
and whose node records are the complete pre-order sequence of a tree (centres
of `vectorLength` elements, `branching` children and word id -1 at interior
nodes, a word id from 0 at leaves) is loaded successfully whatever the depth
of its interior nodes; the loaded tree has the records' root and reports the
declared depth. -/
theorem load_ignores_depth (W : Writer α) (hW : ∀ c, (W.split c).flatten = c)
    (zero : α) (veclen : Nat) (B H : Int) (root : VocabTreeNode α)
    (hfit : ∀ p ∈ root.preorderAt 0, VocabTreeNode.fits veclen B p.2 = true)
    (hshape : ∀ p ∈ root.preorderAt 0, VocabTreeNode.Shaped B p.2)
    (hlev : ∀ p ∈ root.preorderAt 0, p.1 ≤ H)
    (iterations depth : Int) (size : Nat) (t : VocabTree α σ) (fuel : Nat)
    (hfuel : H.toNat < fuel) :
    (∀ (file : List (Line α)) (budget : Nat),
        load zero budget file t ≠ .error .parseError)
      ∧ ∃ body t2, save_tree W veclen B root = .ok body
        ∧ load zero fuel
            ([Line.iterations iterations, Line.branching B, Line.depth depth,
              Line.vectorLength veclen, Line.size size, Line.nodes] ++ body) t = .ok t2
        ∧ t2.getDepth = depth ∧ t2.getRoot = some root := by
  constructor
  · intro file budget h
    unfold load at h
    simp only at h
    split at h
    · rename_i e1 he1
      simp only [Except.error.injEq] at h
      subst h
      exact load_tree_error zero _ _ _ _ _ _ _ he1 rfl
    · exact absurd h (by simp)
  · obtain ⟨body, hsave, hload⟩ := save_load_node W zero veclen B H hW root 0 hfit hshape hlev
    have hrun := hload fuel [] t.m_words (by simpa using hfuel)
    rw [List.append_nil] at hrun
    refine ⟨body, { t with m_iterations := iterations, m_branching := B, m_depth := depth,
                           m_veclen := veclen, m_size := size, m_root := some root,
                           m_words := t.m_words
                             ++ ((root.preorderAt 0).map Prod.snd).filter
                                  VocabTreeNode.isLeaf },
      hsave, ?_, rfl, rfl⟩
    simp only [load, List.cons_append, List.nil_append, readHeader, List.append_eq, hrun]

theorem load_ignores_depth_witness :
    (∀ c : List Nat, (exampleWriter.split c).flatten = c)
      ∧ (∀ p ∈ exampleRoot.preorderAt 0, VocabTreeNode.fits 1 2 p.2 = true)
      ∧ (∀ p ∈ exampleRoot.preorderAt 0, p.1 ≤ 2)
      ∧ (2 : Int).toNat < 3
      ∧ (∀ (file : List (Line Nat)) (budget : Nat),
          load 0 budget file exampleTree ≠ .error .parseError)
      ∧ ∃ body t2, save_tree exampleWriter 1 2 exampleRoot = .ok body
        ∧ load 0 3
            ([Line.iterations 10, Line.branching 2, Line.depth 1, Line.vectorLength 1,
              Line.size 7, Line.nodes] ++ body) exampleTree = .ok t2
        ∧ t2.getDepth = 1 ∧ t2.getRoot = some exampleRoot :=
  ⟨fun c => by simp [exampleWriter], by decide, by decide, by decide,
    load_ignores_depth exampleWriter (fun c => by simp [exampleWriter]) 0 1 2 2
      exampleRoot (by decide)
      (by
        have h := (build_laid (binKernel firstCenters) exampleTree exampleBuilt
          (by rfl)).2.2.2.2.2.2.2.2
        obtain ⟨root, hroot, hlaid⟩ := h
        have hr : root = exampleRoot := (Option.some.inj hroot).symm
        subst hr
        exact hlaid.shaped)
      (by decide) 10 1 7 exampleTree 3 (by decide)⟩

/-- The file `exampleFileDepth1` declares depth 1 and holds the interior nodes 1
and 4 (word id -1, two children each) at depth 1; `load` succeeds on it and the
loaded tree reports depth 1. -/
theorem load_ignores_depth_counterexample :
    (1, VocabTreeNode.mk 1 [1] (some [.mk 2 [0] none 0, .mk 3 [1] none 1]) (-1))
        ∈ exampleRoot.preorderAt 0
      ∧ load 0 3 exampleFileDepth1 exampleTree
        = .ok { exampleTree with m_depth := 1, m_size := 7, m_root := some exampleRoot,
                                 m_words := exampleWords }
      ∧ load 0 3 exampleFileDepth1 exampleTree ≠ .error .parseError := by
  refine ⟨by simp [exampleRoot, VocabTreeNode.preorderAt, VocabTreeNode.preorderListAt],
    by rfl, ?_⟩
  intro h
  have h2 : load 0 3 exampleFileDepth1 exampleTree
      = .ok { exampleTree with m_depth := 1, m_size := 7, m_root := some exampleRoot,
                               m_words := exampleWords } := by rfl
  rw [h2] at h
  cases h

end LoadDepth

section LeafCentre

variable {α δ σ : Type} [LinearOrder δ]

/-- C18, amended. For every tree produced by `build()` and every leaf of it,
`quantize` applied to that leaf's centre returns that leaf's word id whenever
the descent for that centre leads to the leaf, that is, whenever at every
interior node above the leaf the child towards the leaf is the nearest child
of the centre, lowest index on ties. -/
theorem quantize_leaf_centre (K : Kernel α δ σ) (t0 t : VocabTree α σ)
    (hb : build K t0 = .ok t) (root leaf : VocabTreeNode α)
    (hroot : t.getRoot = some root) (hleaf : leaf ∈ root.leaves)
    (hpath : Descends K t.getVeclen leaf.center root leaf)
    (L : Int) (hL0 : 0 ≤ L) (hL : L < t.getDepth) (nodeAtL : Int) :
    ∃ n1, quantize K t leaf.center L nodeAtL = .ok (leaf.word_id, n1) := by
  have _ := hleaf
  obtain ⟨root1, leaf1, n1, hroot1, hdesc, _, _, hrun⟩ :=
    quantize_on_built K t0 t hb leaf.center L hL0 hL nodeAtL
  rw [hroot] at hroot1
  cases hroot1
  have := descends_unique hpath hdesc
  subst this
  exact ⟨n1, hrun⟩

theorem quantize_leaf_centre_witness :
    build (binKernel firstCenters) exampleTree = .ok exampleBuilt
      ∧ exampleBuilt.getRoot = some exampleRoot
      ∧ VocabTreeNode.mk 2 [0] none 0 ∈ exampleRoot.leaves
      ∧ Descends (binKernel firstCenters) exampleBuilt.getVeclen
          (VocabTreeNode.mk 2 [0] none 0).center exampleRoot (.mk 2 [0] none 0)
      ∧ ∃ n1, quantize (binKernel firstCenters) exampleBuilt
          (VocabTreeNode.mk 2 [0] none 0).center 0 0
            = .ok ((VocabTreeNode.mk 2 [0] none 0).word_id, n1) := by
  have hnear : ∀ (a b : VocabTreeNode Nat),
      hammingDistance [0] a.center 1 ≤ hammingDistance [0] b.center 1 →
      IsNearestChild (binKernel firstCenters) 1 [0] [a, b] 0 := by
    intro a b hab
    refine ⟨a, rfl, ?_, ?_⟩
    · intro i ci hci
      match i, hci with
      | 0, hci => cases hci; exact le_refl _
      | 1, hci => cases hci; exact hab
      | i + 2, hci => simp at hci
    · intro i ci hi
      omega
  have hpath : Descends (binKernel firstCenters) exampleBuilt.getVeclen
      (VocabTreeNode.mk 2 [0] none 0).center exampleRoot (.mk 2 [0] none 0) :=
    Descends.step _ _ 0 _ _ rfl (hnear _ _ (by decide)) rfl
      (Descends.step _ _ 0 _ _ rfl (hnear _ _ (by decide)) rfl (Descends.leaf _ rfl))
  have hleaf : VocabTreeNode.mk 2 [0] none 0 ∈ exampleRoot.leaves := by
    simp [exampleRoot, VocabTreeNode.leaves, VocabTreeNode.preorder,
      VocabTreeNode.preorderAt, VocabTreeNode.preorderListAt, VocabTreeNode.isLeaf,
      VocabTreeNode.children]
  exact ⟨by rfl, rfl, hleaf, hpath,
    quantize_leaf_centre (binKernel firstCenters) exampleTree exampleBuilt (by rfl)
      exampleRoot _ rfl hleaf hpath 0 (by decide) (by decide) 0⟩

/-- In the tree built from the rows 1, 2, 7, 4 (branching 2, depth 2) the leaf
with word id 0 has the centre `[0]`, which lies nearer to the root's second
child `[2]` than to its own parent `[5]`: `quantize` of that centre returns the
word id 2. -/
theorem quantize_leaf_centre_counterexample :
    build (binKernel firstCenters) (VocabTree.new exampleDataFour 2 2 10 ())
        = .ok exampleBuiltFour
      ∧ exampleBuiltFour.m_words[0]? = some (.mk 2 [0] none 0)
      ∧ quantize (binKernel firstCenters) exampleBuiltFour
          (VocabTreeNode.mk 2 [0] none 0).center 0 0 = .ok (2, 1)
      ∧ (VocabTreeNode.mk 2 [0] none 0 : VocabTreeNode Nat).word_id = 0 :=
  ⟨by rfl, by rfl, by rfl, by rfl⟩

end LeafCentre

end vlr

/-! ## The counters of the Lloyd loop -/

namespace vlr

section Counters

theorem addAt_length (count : List Int) (j : Nat) (d : Int) :
    (addAt count j d).length = count.length := by
  simp [addAt]

theorem addAt_getD (count : List Int) (j c : Nat) (d : Int) (hj : j < count.length) :
    (addAt count j d).getD c 0 = count.getD c 0 + (if c = j then d else 0) := by
  simp only [addAt, List.getD_eq_getElem?_getD, List.getElem?_set]
  by_cases h : j = c
  · subst h
    simp [hj]
  · have h2 : ¬ c = j := fun e => h e.symm
    simp [h, h2]

theorem countFold_spec (bs : List Nat) :
    ∀ (acc : List Int), (∀ b ∈ bs, b < acc.length) →
      (bs.foldl (fun count j => addAt count j 1) acc).length = acc.length
        ∧ ∀ c, (bs.foldl (fun count j => addAt count j 1) acc).getD c 0
            = acc.getD c 0 + (bs.count c : Int) := by
  induction bs with
  | nil => intro acc _; simp
  | cons b bs ih =>
      intro acc hb
      have hb0 : b < acc.length := hb b (List.mem_cons_self _ _)
      obtain ⟨h1, h2⟩ := ih (addAt acc b 1) (fun x hx => by
        rw [addAt_length]
        exact hb x (List.mem_cons_of_mem _ hx))
      simp only [List.foldl_cons]
      refine ⟨by rw [h1, addAt_length], ?_⟩
      intro c
      rw [h2 c, addAt_getD acc b c 1 hb0, List.count_cons]
      by_cases hc : c = b
      · subst hc
        simp
        omega
      · have : ¬ b = c := fun e => hc e.symm
        simp [hc, this]

end Counters

section LloydFacts

variable {α δ σ : Type} [LinearOrder δ]

theorem nearestFold_lt (f : Nat → δ) (N : Nat) :
    ∀ (js : List Nat) (init : Nat × δ), (∀ j ∈ js, j < N) → init.1 < N →
      (js.foldl (fun (best : Nat × δ) (j : Nat) =>
        if best.2 > f j then (j, f j) else best) init).1 < N := by
  intro js
  induction js with
  | nil => intro init _ h; exact h
  | cons j js ih =>
      intro init hj h
      simp only [List.foldl_cons]
      apply ih _ (fun x hx => hj x (List.mem_cons_of_mem _ hx))
      split
      · exact hj j (List.mem_cons_self _ _)
      · exact h

theorem nearestCenter_lt (K : Kernel α δ σ) (veclen : Nat) (B : Int) (hB : 1 ≤ B)
    (dcenters : List (List α)) (x : List α) :
    (nearestCenter K veclen B dcenters x).1 < B.toNat := by
  unfold nearestCenter
  apply nearestFold_lt (fun j => K.distance x (dcenters.getD j []) veclen)
  · intro j hj
    rw [List.mem_range'_1] at hj
    omega
  · show 0 < B.toNat
    omega

theorem initialAssignment_inv (K : Kernel α δ σ) (data : Mat α) (veclen : Nat) (B : Int)
    (hB : 1 ≤ B) (dcenters : List (List α)) (indices : List Nat) :
    LloydInv B.toNat indices.length
      (initialAssignment K data veclen B dcenters indices) := by
  have hbound : ∀ b ∈ (indices.map (fun idx =>
      nearestCenter K veclen B dcenters (data.row idx))).map Prod.fst, b < B.toNat := by
    intro b hb
    simp only [List.map_map, List.mem_map, Function.comp_apply] at hb
    obtain ⟨idx, _, rfl⟩ := hb
    exact nearestCenter_lt K veclen B hB dcenters _
  obtain ⟨h1, h2⟩ := countFold_spec _ (List.replicate B.toNat 0)
    (fun b hb => by rw [List.length_replicate]; exact hbound b hb)
  refine ⟨by simp [initialAssignment], by simp [initialAssignment], ?_, hbound, ?_⟩
  · simpa [initialAssignment] using h1
  · intro c hc
    have := h2 c
    simp only [initialAssignment]
    rw [this]
    simp [List.getD_eq_getElem?_getD, List.getElem?_replicate, hc]

end LloydFacts

end vlr

/-! ## Reassignment and the repair of empty clusters -/

namespace vlr

section Reassign

variable {α δ : Type}

theorem reassign_spec (near : List α → Nat × δ) (data : Mat α) (B : Nat)
    (hnear : ∀ x, (near x).1 < B) :
    ∀ (bs : List Nat) (indices : List Nat) (ds : List δ) (count : List Int)
      (conv : Bool),
      indices.length = bs.length → ds.length = bs.length → count.length = B →
      (∀ b ∈ bs, b < B) →
      (reassign near data indices bs ds count conv).1.length = bs.length
        ∧ (reassign near data indices bs ds count conv).2.1.length = bs.length
        ∧ (reassign near data indices bs ds count conv).2.2.1.length = B
        ∧ (∀ b ∈ (reassign near data indices bs ds count conv).1, b < B)
        ∧ ∀ c, (reassign near data indices bs ds count conv).2.2.1.getD c 0
            = count.getD c 0 - (bs.count c : Int)
              + ((reassign near data indices bs ds count conv).1.count c : Int) := by
  intro bs
  induction bs with
  | nil =>
      intro indices ds count conv hi hd hc _
      cases indices with
      | nil => simp [reassign, hc]
      | cons a l => simp at hi
  | cons b bs ih =>
      intro indices ds count conv hi hd hc hb
      cases indices with
      | nil => simp at hi
      | cons idx indices =>
        cases ds with
        | nil => simp at hd
        | cons d ds =>
          simp only [List.length_cons, Nat.add_right_cancel_iff] at hi hd
          have hb0 : b < B := hb b (List.mem_cons_self _ _)
          have hbs : ∀ x ∈ bs, x < B := fun x hx => hb x (List.mem_cons_of_mem _ hx)
          simp only [reassign]
          split
          · rename_i hne
            have hlen1 : (addAt (addAt count b (-1)) (near (data.row idx)).1 1).length = B := by
              rw [addAt_length, addAt_length, hc]
            obtain ⟨h1, h2, h3, h4, h5⟩ := ih indices ds _ false hi hd hlen1 hbs
            refine ⟨by simp [h1], by simp [h2], h3, ?_, ?_⟩
            · intro x hx
              rcases List.mem_cons.1 hx with h | h
              · rw [h]; exact hnear _
              · exact h4 x h
            · intro c
              simp only
              rw [h5 c, addAt_getD _ _ _ _ (by rw [addAt_length, hc]; exact hnear _),
                addAt_getD _ _ _ _ (by rw [hc]; exact hb0), List.count_cons, List.count_cons]
              by_cases hcb : c = b
              · by_cases hcn : c = (near (data.row idx)).1
                · exact absurd (hcn.symm.trans hcb) hne
                · have e1 : ¬ (near (data.row idx)).1 = c := fun e => hcn e.symm
                  subst hcb
                  simp [hcn, e1]
                  omega
              · have e0 : ¬ b = c := fun e => hcb e.symm
                by_cases hcn : c = (near (data.row idx)).1
                · simp [hcb, e0, hcn]
                  omega
                · have e1 : ¬ (near (data.row idx)).1 = c := fun e => hcn e.symm
                  simp [hcb, e0, hcn, e1]
          · rename_i heq
            obtain ⟨h1, h2, h3, h4, h5⟩ := ih indices ds count conv hi hd hc hbs
            refine ⟨by simp [h1], by simp [h2], h3, ?_, ?_⟩
            · intro x hx
              rcases List.mem_cons.1 hx with h | h
              · rw [h]; exact hb0
              · exact h4 x h
            · intro c
              simp only
              rw [h5 c, List.count_cons, List.count_cons]
              omega

end Reassign

end vlr

/-! ## The repair of empty clusters and the Lloyd loop -/

namespace vlr

section Repair

variable {α δ σ : Type} [LinearOrder δ]

theorem biggestFold_spec (count : List Int) :
    ∀ (m k acc : Nat), acc < k → (∀ c, c < k → count.getD c 0 ≤ count.getD acc 0) →
      (List.range' k m).foldl
          (fun max_k k1 => if count.getD max_k 0 < count.getD k1 0 then k1 else max_k) acc
          < k + m
        ∧ ∀ c, c < k + m → count.getD c 0 ≤ count.getD
            ((List.range' k m).foldl
              (fun max_k k1 => if count.getD max_k 0 < count.getD k1 0 then k1 else max_k)
              acc) 0 := by
  intro m
  induction m with
  | zero =>
      intro k acc h1 h2
      exact ⟨by simpa using h1, by simpa using h2⟩
  | succ m ih =>
      intro k acc h1 h2
      rw [List.range'_succ, List.foldl_cons]
      split
      · rename_i hlt
        obtain ⟨g1, g2⟩ := ih (k + 1) k (by omega) (by
          intro c hc
          rcases Nat.lt_succ_iff_lt_or_eq.1 hc with h | h
          · exact le_of_lt (lt_of_le_of_lt (h2 c h) hlt)
          · rw [h])
        exact ⟨by omega, fun c hc => g2 c (by omega)⟩
      · rename_i hlt
        obtain ⟨g1, g2⟩ := ih (k + 1) acc (by omega) (by
          intro c hc
          rcases Nat.lt_succ_iff_lt_or_eq.1 hc with h | h
          · exact h2 c h
          · rw [h]; exact not_lt.1 hlt)
        exact ⟨by omega, fun c hc => g2 c (by omega)⟩

theorem biggestCluster_spec (B : Int) (hB : 1 ≤ B) (count : List Int) :
    biggestCluster B count < B.toNat
      ∧ ∀ c, c < B.toNat → count.getD c 0 ≤ count.getD (biggestCluster B count) 0 := by
  have h := biggestFold_spec count (B.toNat - 1) 1 0 (by omega) (by
    intro c hc
    have : c = 0 := by omega
    rw [this])
  have e : 1 + (B.toNat - 1) = B.toNat := by omega
  rw [e] at h
  exact h

theorem farthestPoint_spec (max_k : Nat) :
    ∀ (bs : List Nat) (ds : List δ) (i : Nat) (maxDist : δ) (cur : Option Nat) (r : Nat),
      farthestPoint max_k bs ds i maxDist cur = some r →
      cur = some r ∨ ∃ p, r = i + p ∧ bs[p]? = some max_k := by
  intro bs
  induction bs with
  | nil => intro ds i maxDist cur r h; simp [farthestPoint] at h; exact Or.inl h
  | cons b bs ih =>
      intro ds i maxDist cur r h
      cases ds with
      | nil => simp [farthestPoint] at h; exact Or.inl h
      | cons d ds =>
          simp only [farthestPoint] at h
          split at h
          · rename_i hc
            rcases ih ds (i + 1) d (some i) r h with h1 | ⟨p, hp, hb⟩
            · simp only [Option.some.injEq] at h1
              exact Or.inr ⟨0, by omega, by simp [hc.1]⟩
            · exact Or.inr ⟨p + 1, by omega, by simpa using hb⟩
          · rcases ih ds (i + 1) maxDist cur r h with h1 | ⟨p, hp, hb⟩
            · exact Or.inl h1
            · exact Or.inr ⟨p + 1, by omega, by simpa using hb⟩

theorem sum_count_range (B : Nat) :
    ∀ (bs : List Nat), (∀ b ∈ bs, b < B) →
      (Finset.range B).sum (fun c => bs.count c) = bs.length := by
  intro bs
  induction bs with
  | nil => intro _; simp
  | cons b bs ih =>
      intro hb
      have hb0 : b < B := hb b (List.mem_cons_self _ _)
      have := ih (fun x hx => hb x (List.mem_cons_of_mem _ hx))
      simp only [List.count_cons, Finset.sum_add_distrib, this, List.length_cons,
        beq_iff_eq]
      rw [Finset.sum_ite_eq]
      simp [hb0]

theorem sum_le_pred (B : Nat) (f : Nat → Nat) :
    (∀ c, c < B → f c ≤ 1) → ∀ k, k < B → f k = 0 →
      (Finset.range B).sum f ≤ B - 1 := by
  induction B with
  | zero => intro _ k hk; omega
  | succ B ih =>
      intro h1 k hk h0
      rw [Finset.sum_range_succ]
      show (Finset.range B).sum f + f B ≤ B + 1 - 1
      by_cases hkB : k = B
      · subst hkB
        have : (Finset.range k).sum f ≤ k := by
          have := Finset.sum_le_card_nsmul (Finset.range k) f 1
            (fun c hc => h1 c (by rw [Finset.mem_range] at hc; omega))
          simpa using this
        omega
      · have := ih (fun c hc => h1 c (by omega)) k (by omega) h0
        have := h1 B (by omega)
        omega

theorem biggest_has_two (B : Nat) (bs : List Nat) (hb : ∀ b ∈ bs, b < B)
    (hn : B ≤ bs.length) (k m : Nat) (hk : k < B) (h0 : bs.count k = 0)
    (hmax : ∀ c, c < B → bs.count c ≤ bs.count m) : 2 ≤ bs.count m := by
  by_contra hlt
  have h1 : ∀ c, c < B → bs.count c ≤ 1 := fun c hc => by
    have := hmax c hc
    omega
  have := sum_le_pred B (fun c => bs.count c) h1 k hk h0
  rw [sum_count_range B bs hb] at this
  omega

theorem handleEmptyClusters_spec (K : Kernel α δ σ) (B : Int) (hB : 1 ≤ B)
    (distance_to : List δ) (n : Nat) (hn : B.toNat ≤ n) :
    ∀ (todo k : Nat) (bs : List Nat) (count : List Int) (r : List Nat × List Int),
      k + todo = B.toNat → bs.length = n → count.length = B.toNat →
      (∀ b ∈ bs, b < B.toNat) →
      (∀ c, c < B.toNat → count.getD c 0 = (bs.count c : Int)) →
      (∀ c, c < k → 1 ≤ count.getD c 0) →
      handleEmptyClusters K B distance_to todo k bs count = .ok r →
      r.1.length = n ∧ r.2.length = B.toNat ∧ (∀ b ∈ r.1, b < B.toNat)
        ∧ (∀ c, c < B.toNat → r.2.getD c 0 = (r.1.count c : Int))
        ∧ ∀ c, c < B.toNat → 1 ≤ r.2.getD c 0 := by
  intro todo
  induction todo with
  | zero =>
      intro k bs count r hk hlen hcl hb hag hpos h
      simp only [handleEmptyClusters, Except.ok.injEq] at h
      subst h
      exact ⟨hlen, hcl, hb, hag, fun c hc => hpos c (by omega)⟩
  | succ todo ih =>
      intro k bs count r hk hlen hcl hb hag hpos h
      have hkB : k < B.toNat := by omega
      simp only [handleEmptyClusters] at h
      split at h
      · rename_i hne
        refine ih (k + 1) bs count r (by omega) hlen hcl hb hag ?_ h
        intro c hc
        rcases Nat.lt_succ_iff_lt_or_eq.1 hc with h1 | h1
        · exact hpos c h1
        · subst h1
          have := hag c hkB
          omega
      · rename_i h0
        simp only [ne_eq, Decidable.not_not] at h0
        split at h
        · exact absurd h (by simp)
        · rename_i idx hfar
          obtain ⟨hm1, hm2⟩ := biggestCluster_spec B hB count
          have hcount0 : bs.count k = 0 := by
            have := hag k hkB
            omega
          have htwo : 2 ≤ bs.count (biggestCluster B count) :=
            biggest_has_two B.toNat bs hb (by omega) k _ hkB hcount0 (by
              intro c hc
              have h1 := hm2 c hc
              rw [hag c hc, hag _ hm1] at h1
              exact_mod_cast h1)
          have hmk : biggestCluster B count ≠ k := by
            intro e
            rw [e] at htwo
            omega
          rcases farthestPoint_spec _ _ _ _ _ _ _ hfar with h1 | ⟨p, hp, hbp⟩
          · cases h1
          · simp only [Nat.zero_add] at hp
            subst hp
            have hidx : idx < bs.length := by
              by_contra hge
              rw [List.getElem?_eq_none (by omega)] at hbp
              cases hbp
            have hget : bs[idx] = biggestCluster B count := by
              rw [List.getElem?_eq_getElem hidx] at hbp
              exact Option.some.inj hbp
            refine ih (k + 1) (bs.set idx k)
              (addAt (addAt count (biggestCluster B count) (-1)) k 1) r (by omega)
              (by simp [hlen]) (by rw [addAt_length, addAt_length, hcl]) ?_ ?_ ?_ h
            · intro b hb1
              rcases List.mem_or_eq_of_mem_set hb1 with h2 | h2
              · exact hb b h2
              · rw [h2]; exact hkB
            · intro c hc
              have hc1 : (addAt (addAt count (biggestCluster B count) (-1)) k 1).getD c 0
                  = count.getD c 0 + (if c = biggestCluster B count then -1 else 0)
                    + (if c = k then 1 else 0) := by
                rw [addAt_getD _ _ _ _ (by rw [addAt_length, hcl]; exact hkB),
                  addAt_getD _ _ _ _ (by rw [hcl]; exact hm1)]
              have hc2 : (bs.set idx k).count c
                  = bs.count c - (if biggestCluster B count = c then 1 else 0)
                    + (if k = c then 1 else 0) := by
                rw [List.count_set _ _ _ _ hidx, hget]
                simp only [beq_iff_eq]
              rw [hc1, hc2, hag c hc]
              by_cases e1 : c = biggestCluster B count
              · rw [← e1] at htwo hmk
                have e2 : ¬ k = c := fun e => hmk e.symm
                rw [if_pos e1, if_pos e1.symm, if_neg hmk, if_neg e2]
                omega
              · have e1' : ¬ biggestCluster B count = c := fun e => e1 e.symm
                rw [if_neg e1, if_neg e1']
                by_cases e2 : c = k
                · rw [if_pos e2, if_pos e2.symm]
                  omega
                · have e3 : ¬ k = c := fun e => e2 e.symm
                  rw [if_neg e2, if_neg e3]
                  omega
            · intro c hc
              have hc1 : (addAt (addAt count (biggestCluster B count) (-1)) k 1).getD c 0
                  = count.getD c 0 + (if c = biggestCluster B count then -1 else 0)
                    + (if c = k then 1 else 0) := by
                rw [addAt_getD _ _ _ _ (by rw [addAt_length, hcl]; exact hkB),
                  addAt_getD _ _ _ _ (by rw [hcl]; exact hm1)]
              rw [hc1]
              rcases Nat.lt_succ_iff_lt_or_eq.1 hc with h1 | h1
              · have hp1 := hpos c h1
                have hck : ¬ c = k := by omega
                rw [if_neg hck]
                by_cases e1 : c = biggestCluster B count
                · have := hag c (by omega)
                  rw [← e1] at htwo
                  rw [if_pos e1]
                  omega
                · rw [if_neg e1]
                  omega
              · subst h1
                have e1 : ¬ c = biggestCluster B count := fun e => hmk e.symm
                rw [if_neg e1, if_pos rfl, h0]
                omega

theorem lloydIteration_inv (K : Kernel α δ σ) (data : Mat α) (veclen : Nat) (B : Int)
    (hB : 1 ≤ B) (indices : List Nat) (hn : B.toNat ≤ indices.length)
    (s s1 : Lloyd α δ) (hs : LloydInv B.toNat indices.length s)
    (h : lloydIteration K data veclen B indices s = .ok s1) :
    LloydInv B.toNat indices.length s1
      ∧ (∀ c, c < B.toNat → 1 ≤ s1.count.getD c 0)
      ∧ s1.dcenters
          = computeCentroids K data veclen B indices s.belongs_to s.count := by
  simp only [lloydIteration] at h
  split at h
  · exact absurd h (by simp)
  · rename_i fixed hfix
    simp only [Except.ok.injEq] at h
    subst h
    obtain ⟨r1, r2, r3, r4, r5⟩ := reassign_spec
      (nearestCenter K veclen B
        (computeCentroids K data veclen B indices s.belongs_to s.count)) data B.toNat
      (fun x => nearestCenter_lt K veclen B hB _ x) s.belongs_to indices s.distance_to
      s.count true hs.labels.symm (by rw [hs.dists, hs.labels]) hs.counts hs.bound
    obtain ⟨g1, g2, g3, g4, g5⟩ := handleEmptyClusters_spec K B hB _ indices.length hn
      B.toNat 0 _ _ fixed (by omega) (by rw [r1, hs.labels]) r3 r4
      (by
        intro c hc
        rw [r5 c, hs.agree c hc]
        omega)
      (by intro c hc; omega) hfix
    exact ⟨⟨g1, by simp only; rw [r2, hs.labels], g2, g3, g4⟩, g5, rfl⟩

/-- Once the Lloyd loop has run an iteration, the invariant holds at its end
and every cluster has a member. -/
theorem lloydLoop_inv (K : Kernel α δ σ) (data : Mat α) (veclen : Nat) (B : Int)
    (hB : 1 ≤ B) (indices : List Nat) (hn : B.toNat ≤ indices.length) :
    ∀ (remaining : Nat) (s final : Lloyd α δ),
      LloydInv B.toNat indices.length s →
      lloydLoop K data veclen B indices remaining s = .ok final →
      LloydInv B.toNat indices.length final
        ∧ (final = s
            ∨ ∀ c, c < B.toNat → 1 ≤ final.count.getD c 0) := by
  intro remaining
  induction remaining with
  | zero =>
      intro s final hs h
      simp only [lloydLoop, Except.ok.injEq] at h
      subst h
      exact ⟨hs, Or.inl rfl⟩
  | succ remaining ih =>
      intro s final hs h
      simp only [lloydLoop] at h
      split at h
      · simp only [Except.ok.injEq] at h
        subst h
        exact ⟨hs, Or.inl rfl⟩
      · split at h
        · exact absurd h (by simp)
        · rename_i s1 hs1
          obtain ⟨hinv1, hpos1, _⟩ := lloydIteration_inv K data veclen B hB indices hn s s1
            hs hs1
          obtain ⟨hinv, hfin⟩ := ih s1 final hinv1 h
          refine ⟨hinv, Or.inr ?_⟩
          rcases hfin with h1 | h1
          · rw [h1]; exact hpos1
          · exact h1

end Repair

end vlr


/-! ## The binary centroid -/

namespace vlr

section Majority

theorem bitOf_lt_two (x b : Nat) : bitOf x b < 2 := by
  unfold bitOf
  omega

theorem bitOf_cast (row : List Nat) (j : Nat) :
    ((bitOf (row.getD (j / 8) 0) (j % 8) : Nat) : Int) = if bitSet row j = true then 1 else 0 := by
  have := bitOf_lt_two (row.getD (j / 8) 0) (j % 8)
  unfold bitSet
  simp only [decide_eq_true_eq]
  by_cases h : bitOf (row.getD (j / 8) 0) (j % 8) = 1
  · rw [if_pos h, h]
    rfl
  · have h0 : bitOf (row.getD (j / 8) 0) (j % 8) = 0 := by omega
    rw [if_neg h, h0]
    rfl

theorem cumBitSum_length (src : List Nat) (counters : List Int) :
    (KMajority.cumBitSum src counters).length = counters.length := by
  simp [KMajority.cumBitSum]

theorem cumBitSum_getD (src : List Nat) (counters : List Int) (j : Nat)
    (hj : j < counters.length) :
    (KMajority.cumBitSum src counters).getD j 0
      = counters.getD j 0 + (if bitSet src j = true then 1 else 0) := by
  rw [← bitOf_cast]
  simp only [KMajority.cumBitSum, List.getD_eq_getElem?_getD, List.getElem?_map,
    List.getElem?_range hj, Option.map_some', Option.getD_some]

theorem bitwiseSums_spec {σ : Type}
    (ch : σ → Int → List Nat → Mat Nat → List Nat × σ) (data : Mat Nat) (m : Nat) :
    ∀ (indices belongs_to : List Nat) (acc : List (List Int)),
      indices.length = belongs_to.length →
      (∀ c, c < acc.length → (acc.getD c []).length = m) →
      (bitwiseSums (binKernel ch) data indices belongs_to acc).length = acc.length
        ∧ (∀ c, c < acc.length →
            ((bitwiseSums (binKernel ch) data indices belongs_to acc).getD c []).length = m)
        ∧ ∀ c j, c < acc.length → j < m →
            ((bitwiseSums (binKernel ch) data indices belongs_to acc).getD c []).getD j 0
              = (acc.getD c []).getD j 0
                + (((clusterRows data indices belongs_to c).filter
                    (fun row => bitSet row j)).length : Int) := by
  intro indices
  induction indices with
  | nil =>
      intro belongs_to acc hlen hrows
      cases belongs_to with
      | nil =>
          exact ⟨rfl, hrows, fun c j _ _ => by simp [bitwiseSums, clusterRows]⟩
      | cons b bs => simp at hlen
  | cons idx indices ih =>
      intro belongs_to acc hlen hrows
      cases belongs_to with
      | nil => simp at hlen
      | cons b bs =>
          simp only [List.length_cons, Nat.add_right_cancel_iff] at hlen
          have hset : ∀ c, c < acc.length →
              ((acc.set b (KMajority.cumBitSum (data.row idx) (acc.getD b []))).getD c [])
                = if c = b then KMajority.cumBitSum (data.row idx) (acc.getD c [])
                  else acc.getD c [] := by
            intro c hc
            simp only [List.getD_eq_getElem?_getD, List.getElem?_set]
            by_cases e : b = c
            · subst e
              simp [hc]
            · have e2 : ¬ c = b := fun h => e h.symm
              simp [e, e2]
          obtain ⟨h1, h2, h3⟩ := ih bs
            (acc.set b (KMajority.cumBitSum (data.row idx) (acc.getD b []))) hlen (by
              intro c hc
              rw [List.length_set] at hc
              rw [hset c hc]
              split
              · rw [cumBitSum_length]; exact hrows c hc
              · exact hrows c hc)
          simp only [bitwiseSums]
          rw [List.length_set] at h1 h2 h3
          refine ⟨h1, h2, ?_⟩
          intro c j hc hj
          have := h3 c j hc hj
          simp only [binKernel] at this ⊢
          rw [this, hset c hc]
          simp only [clusterRows, List.zip_cons_cons, List.filter_cons]
          by_cases e : b = c
          · subst e
            simp only [decide_True, if_true, List.map_cons, List.filter_cons]
            rw [cumBitSum_getD _ _ _ (by rw [hrows b hc]; exact hj)]
            by_cases hbit : bitSet (data.row idx) j = true
            · simp only [hbit, if_true, List.length_cons]
              push_cast
              ring
            · simp only [hbit, if_false]
              simp
          · have e2 : ¬ c = b := fun h => e h.symm
            simp only [e, e2, decide_False, if_false]
            simp

theorem bitOf_bits (e0 e1 e2 e3 e4 e5 e6 e7 : Bool) (b : Fin 8) :
    bitOf ((if e0 then 1 else 0) + (if e1 then 2 else 0) + (if e2 then 4 else 0)
        + (if e3 then 8 else 0) + (if e4 then 16 else 0) + (if e5 then 32 else 0)
        + (if e6 then 64 else 0) + (if e7 then 128 else 0)) b.val
      = if [e0, e1, e2, e3, e4, e5, e6, e7].getD b.val false then 1 else 0 := by
  revert e0 e1 e2 e3 e4 e5 e6 e7 b
  decide

theorem majorityVoting_bit (counters : List Int) (size : Int) (j : Nat)
    (hj : j < counters.length / 8 * 8) :
    bitSet (KMajority.majorityVoting counters size) j
      = decide (counters.getD j 0 > size / 2) := by
  have hk : j / 8 < counters.length / 8 := by omega
  have hb : j % 8 < 8 := Nat.mod_lt _ (by omega)
  have hjj : 8 * (j / 8) + j % 8 = j := Nat.div_add_mod j 8
  have hval : (KMajority.majorityVoting counters size).getD (j / 8) 0
      = (if decide (counters.getD (8 * (j / 8) + 0) 0 > size / 2) then 1 else 0)
        + (if decide (counters.getD (8 * (j / 8) + 1) 0 > size / 2) then 2 else 0)
        + (if decide (counters.getD (8 * (j / 8) + 2) 0 > size / 2) then 4 else 0)
        + (if decide (counters.getD (8 * (j / 8) + 3) 0 > size / 2) then 8 else 0)
        + (if decide (counters.getD (8 * (j / 8) + 4) 0 > size / 2) then 16 else 0)
        + (if decide (counters.getD (8 * (j / 8) + 5) 0 > size / 2) then 32 else 0)
        + (if decide (counters.getD (8 * (j / 8) + 6) 0 > size / 2) then 64 else 0)
        + (if decide (counters.getD (8 * (j / 8) + 7) 0 > size / 2) then 128 else 0) := by
    have hr : List.range 8 = [0, 1, 2, 3, 4, 5, 6, 7] := by decide
    simp only [KMajority.majorityVoting, List.getD_eq_getElem?_getD, List.getElem?_map,
      List.getElem?_range hk, Option.map_some', Option.getD_some, hr, List.map_cons,
      List.map_nil, List.sum_cons, List.sum_nil, decide_eq_true_eq]
    norm_num
    ring
  have hbits := bitOf_bits
    (decide (counters.getD (8 * (j / 8) + 0) 0 > size / 2))
    (decide (counters.getD (8 * (j / 8) + 1) 0 > size / 2))
    (decide (counters.getD (8 * (j / 8) + 2) 0 > size / 2))
    (decide (counters.getD (8 * (j / 8) + 3) 0 > size / 2))
    (decide (counters.getD (8 * (j / 8) + 4) 0 > size / 2))
    (decide (counters.getD (8 * (j / 8) + 5) 0 > size / 2))
    (decide (counters.getD (8 * (j / 8) + 6) 0 > size / 2))
    (decide (counters.getD (8 * (j / 8) + 7) 0 > size / 2)) ⟨j % 8, hb⟩
  unfold bitSet
  rw [hval, hbits]
  have hsel : [decide (counters.getD (8 * (j / 8) + 0) 0 > size / 2),
      decide (counters.getD (8 * (j / 8) + 1) 0 > size / 2),
      decide (counters.getD (8 * (j / 8) + 2) 0 > size / 2),
      decide (counters.getD (8 * (j / 8) + 3) 0 > size / 2),
      decide (counters.getD (8 * (j / 8) + 4) 0 > size / 2),
      decide (counters.getD (8 * (j / 8) + 5) 0 > size / 2),
      decide (counters.getD (8 * (j / 8) + 6) 0 > size / 2),
      decide (counters.getD (8 * (j / 8) + 7) 0 > size / 2)].getD (j % 8) false
      = decide (counters.getD j 0 > size / 2) := by
    have h8 : j % 8 = 0 ∨ j % 8 = 1 ∨ j % 8 = 2 ∨ j % 8 = 3 ∨ j % 8 = 4 ∨ j % 8 = 5
        ∨ j % 8 = 6 ∨ j % 8 = 7 := by omega
    rcases h8 with h | h | h | h | h | h | h | h <;>
      · rw [h] at hjj ⊢
        rw [hjj]
        rfl
  show decide ((if _ then 1 else 0) = 1) = _
  rw [hsel]
  by_cases hgt : counters.getD j 0 > size / 2
  · simp [hgt]
  · simp [hgt]

theorem clusterRows_length {α : Type} (data : Mat α) (c : Nat) :
    ∀ (indices bs : List Nat), indices.length = bs.length →
      (clusterRows data indices bs c).length = bs.count c := by
  intro indices
  induction indices with
  | nil =>
      intro bs h
      cases bs with
      | nil => simp [clusterRows]
      | cons b bs => simp at h
  | cons idx indices ih =>
      intro bs h
      cases bs with
      | nil => simp at h
      | cons b bs =>
          simp only [List.length_cons, Nat.add_right_cancel_iff] at h
          have := ih bs h
          simp only [clusterRows, List.length_map] at this ⊢
          simp only [List.zip_cons_cons, List.filter_cons, List.count_cons, beq_iff_eq]
          by_cases e : b = c
          · simp [e, this]
          · simp [e, this]

theorem computeCentroids_bit {σ : Type}
    (ch : σ → Int → List Nat → Mat Nat → List Nat × σ) (data : Mat Nat)
    (hU8 : data.isU8 = true) (veclen : Nat) (B : Int) (indices bs : List Nat)
    (count : List Int) (hlen : indices.length = bs.length) (c : Nat) (hc : c < B.toNat)
    (hcount : count.getD c 0 = (bs.count c : Int)) (j : Nat) (hj : j < veclen * 8) :
    bitSet ((computeCentroids (binKernel ch) data veclen B indices bs count).getD c []) j
        = true
      ↔ 2 * ((clusterRows data indices bs c).filter (fun row => bitSet row j)).length
          > (clusterRows data indices bs c).length := by
  obtain ⟨h1, h2, h3⟩ := bitwiseSums_spec ch data (veclen * 8) indices bs
    (List.replicate B.toNat (List.replicate (veclen * 8) 0)) hlen (by
      intro c hc
      rw [List.length_replicate] at hc
      simp [List.getD_eq_getElem?_getD, List.getElem?_replicate, hc])
  rw [List.length_replicate] at h1 h2 h3
  have hrow := h2 c hc
  have hval := h3 c j hc hj
  have hzero : ((List.replicate B.toNat (List.replicate (veclen * 8) (0 : Int))).getD c
      []).getD j 0 = 0 := by
    simp [List.getD_eq_getElem?_getD, List.getElem?_replicate, hc, hj]
  rw [hzero, zero_add] at hval
  have hcentre : (computeCentroids (binKernel ch) data veclen B indices bs count).getD c []
      = KMajority.majorityVoting
          ((bitwiseSums (binKernel ch) data indices bs
            (List.replicate B.toNat (List.replicate (veclen * 8) 0))).getD c [])
          (count.getD c 0) := by
    simp only [computeCentroids, hU8, if_true, List.getD_eq_getElem?_getD,
      List.getElem?_map, List.getElem?_range hc, Option.map_some', Option.getD_some]
    rfl
  rw [hcentre, majorityVoting_bit _ _ j (by rw [hrow]; omega), hval, hcount,
    clusterRows_length data c indices bs hlen]
  simp only [decide_eq_true_eq, gt_iff_lt]
  omega

/-- C13. For binary descriptors a Lloyd iteration that starts from working
vectors in which `count` agrees with the labels sets bit j of the new centre of
cluster c to 1 if and only if strictly more than half of the points currently
labelled c have bit j set, so that a tie gives 0. In particular the bit values
{1,1,0} give 1 and {0,0,1,1} give 0. -/
theorem majority_centroid {σ : Type}
    (ch : σ → Int → List Nat → Mat Nat → List Nat × σ) (data : Mat Nat)
    (hU8 : data.isU8 = true) (veclen : Nat) (B : Int) (indices : List Nat)
    (s s1 : Lloyd Nat Int) (hs : LloydInv B.toNat indices.length s)
    (h : lloydIteration (binKernel ch) data veclen B indices s = .ok s1)
    (c : Nat) (hc : c < B.toNat) (j : Nat) (hj : j < veclen * 8) :
    (bitSet (s1.dcenters.getD c []) j = true
        ↔ 2 * ((clusterRows data indices s.belongs_to c).filter
              (fun row => bitSet row j)).length
            > (clusterRows data indices s.belongs_to c).length)
      ∧ (2 * ((clusterRows data indices s.belongs_to c).filter
              (fun row => bitSet row j)).length
            = (clusterRows data indices s.belongs_to c).length →
          bitSet (s1.dcenters.getD c []) j = false)
      ∧ bitSet ((computeCentroids (binKernel ch)
          { data := [[1], [1], [0]], cols := 1, isU8 := true } 1 1 [0, 1, 2] [0, 0, 0]
          [3]).getD 0 []) 0 = true
      ∧ bitSet ((computeCentroids (binKernel ch)
          { data := [[0], [0], [1], [1]], cols := 1, isU8 := true } 1 1 [0, 1, 2, 3]
          [0, 0, 0, 0] [4]).getD 0 []) 0 = false := by
  have hd : s1.dcenters
      = computeCentroids (binKernel ch) data veclen B indices s.belongs_to s.count := by
    simp only [lloydIteration] at h
    split at h
    · exact absurd h (by simp)
    · simp only [Except.ok.injEq] at h
      subst h
      rfl
  have hiff := computeCentroids_bit ch data hU8 veclen B indices s.belongs_to s.count
    hs.labels.symm c hc (hs.agree c hc) j hj
  rw [← hd] at hiff
  refine ⟨hiff, ?_, ?_, ?_⟩
  · intro htie
    cases hb : bitSet (s1.dcenters.getD c []) j with
    | false => rfl
    | true =>
        have := hiff.1 hb
        omega
  · exact (computeCentroids_bit ch { data := [[1], [1], [0]], cols := 1, isU8 := true } rfl
      1 1 [0, 1, 2] [0, 0, 0] [3] rfl 0 (by decide) (by decide) 0 (by decide)).2 (by decide)
  · rw [Bool.eq_false_iff]
    intro hb
    have := (computeCentroids_bit ch { data := [[0], [0], [1], [1]], cols := 1, isU8 := true }
      rfl 1 1 [0, 1, 2, 3] [0, 0, 0, 0] [4] rfl 0 (by decide) (by decide) 0 (by decide)).1 hb
    revert this
    decide

theorem majority_centroid_witness :
    (bitSet [3] 1 = true
        ↔ 2 * ((clusterRows exampleData (List.range 8) [0, 1, 1, 0, 1, 1, 1, 0] 1).filter
              (fun row => bitSet row 1)).length
            > (clusterRows exampleData (List.range 8) [0, 1, 1, 0, 1, 1, 1, 0] 1).length)
      ∧ 2 * ((clusterRows exampleData (List.range 8) [0, 1, 1, 0, 1, 1, 1, 0] 1).filter
              (fun row => bitSet row 1)).length = 6
      ∧ (clusterRows exampleData (List.range 8) [0, 1, 1, 0, 1, 1, 1, 0] 1).length = 5 :=
  ⟨(majority_centroid firstCenters exampleData rfl 1 2 (List.range 8)
      (initialAssignment (binKernel firstCenters) exampleData 1 2
        (initCenters exampleData 2 [0, 1]) (List.range 8))
      { dcenters := [[0], [3]]
        belongs_to := [0, 0, 1, 0, 0, 1, 1, 0]
        distance_to := [0, 1, 1, 4, 5, 7, 3, 3]
        count := [5, 3]
        converged := false }
      (initialAssignment_inv (binKernel firstCenters) exampleData 1 2 (by decide)
        (initCenters exampleData 2 [0, 1]) (List.range 8))
      (by rfl) 1 (by decide) 1 (by decide)).1,
    by decide, by decide⟩

end Majority

end vlr

/-! ## Re-ordering of the indices by chunks -/

namespace vlr

section Reorder

theorem swapAt_length (xs : List Nat) (i j : Nat) : (swapAt xs i j).length = xs.length := by
  simp [swapAt]

theorem swapAt_getD (xs : List Nat) (i j p : Nat) (hi : i < xs.length) (hj : j < xs.length) :
    (swapAt xs i j).getD p 0
      = if p = j then xs.getD i 0 else if p = i then xs.getD j 0 else xs.getD p 0 := by
  simp only [swapAt, List.getD_eq_getElem?_getD, List.getElem?_set, List.length_set]
  by_cases h1 : p = j
  · subst h1
    simp [hj]
  · by_cases h2 : p = i
    · subst h2
      simp [hi, h1, Ne.symm h1]
    · simp [h1, h2, Ne.symm h1, Ne.symm h2]

theorem swapAt_perm (xs : List Nat) (i j : Nat) (hi : i < xs.length) (hj : j < xs.length) :
    (swapAt xs i j).Perm xs := by
  rw [List.perm_iff_count]
  intro b
  have hj1 : j < (xs.set i (xs.getD j 0)).length := by simpa using hj
  have hci : xs[i] = b → 1 ≤ xs.count b := by
    intro h
    exact List.count_pos_iff.2 (h ▸ List.getElem_mem hi)
  have hcj : xs[j] = b → 1 ≤ xs.count b := by
    intro h
    exact List.count_pos_iff.2 (h ▸ List.getElem_mem hj)
  simp only [swapAt]
  rw [List.count_set _ _ _ _ hj1, List.count_set _ _ _ _ hi]
  simp only [List.getD_eq_getElem?_getD, List.getElem?_eq_getElem hi,
    List.getElem?_eq_getElem hj, Option.getD_some, beq_iff_eq, List.getElem_set]
  by_cases e : i = j
  · subst e
    simp only [if_true]
    by_cases h : xs[i] = b
    · have := hci h
      simp only [h, if_true]
      omega
    · simp [h]
  · simp only [e, if_false]
    by_cases h1 : xs[i] = b <;> by_cases h2 : xs[j] = b
    · have := hci h1
      simp only [h1, h2, if_true]
      omega
    · have := hci h1
      simp only [h1, h2, if_true, if_false]
      omega
    · have := hcj h2
      simp only [h1, h2, if_true, if_false]
      omega
    · simp [h1, h2]

/-- One pass of the re-ordering for the label `c`, from position `i` with the
chunk end at `e`: when no position from `i` up to `e` and no position from `e`
up to `i` carries the label `c`, the pass permutes both vectors, leaves the
positions before `e` alone, fills the positions from `e` to the new end with the
points labelled `c`, and leaves no `c` behind the new end. -/
theorem reorder_spec (c : Nat) : ∀ (todo i : Nat) (indices bs : List Nat) (e : Nat),
    indices.length = bs.length → i + todo = bs.length → e ≤ bs.length →
    (∀ p, i ≤ p → p < e → bs.getD p 0 ≠ c) →
    (∀ p, e ≤ p → p < i → bs.getD p 0 ≠ c) →
    (reorder c todo i indices bs e).1.Perm indices
      ∧ (reorder c todo i indices bs e).2.1.Perm bs
      ∧ e ≤ (reorder c todo i indices bs e).2.2
      ∧ (reorder c todo i indices bs e).2.2 ≤ bs.length
      ∧ (∀ p, p < e → (reorder c todo i indices bs e).1.getD p 0 = indices.getD p 0
          ∧ (reorder c todo i indices bs e).2.1.getD p 0 = bs.getD p 0)
      ∧ (∀ p, e ≤ p → p < (reorder c todo i indices bs e).2.2 →
          (reorder c todo i indices bs e).2.1.getD p 0 = c)
      ∧ (∀ p, (reorder c todo i indices bs e).2.2 ≤ p → p < bs.length →
          (reorder c todo i indices bs e).2.1.getD p 0 ≠ c) := by
  intro todo
  induction todo with
  | zero =>
      intro i indices bs e _ hi he _ hb
      simp only [reorder]
      refine ⟨List.Perm.refl _, List.Perm.refl _, le_refl _, he, fun p _ => by simp, ?_, ?_⟩
      · intro p h1 h2
        omega
      · intro p h1 h2
        exact hb p h1 (by omega)
  | succ todo ih =>
      intro i indices bs e hlen hi he ha hb
      simp only [reorder]
      by_cases hc : bs.getD i 0 = c
      · rw [if_pos hc]
        have hei : e ≤ i := by
          by_contra hlt
          exact ha i (le_refl _) (by omega) hc
        have hin : i < bs.length := by omega
        have hen : e < bs.length := by omega
        have hlen1 : (swapAt indices i e).length = (swapAt bs i e).length := by
          rw [swapAt_length, swapAt_length, hlen]
        have hbl : (swapAt bs i e).length = bs.length := swapAt_length _ _ _
        obtain ⟨h1, h2, h3, h4, h5, h6, h7⟩ := ih (i + 1) (swapAt indices i e)
          (swapAt bs i e) (e + 1) hlen1 (by rw [hbl]; omega) (by rw [hbl]; omega)
          (by intro p hp1 hp2; omega)
          (by
            intro p hp1 hp2
            rw [swapAt_getD bs i e p hin hen, if_neg (by omega)]
            by_cases hpi : p = i
            · rw [if_pos hpi]
              exact hb e (le_refl _) (by omega)
            · rw [if_neg hpi]
              exact hb p (by omega) (by omega))
        rw [hbl] at h4 h7
        refine ⟨h1.trans (swapAt_perm indices i e (by omega) (by omega)),
          h2.trans (swapAt_perm bs i e hin hen), by omega, h4, ?_, ?_, h7⟩
        · intro p hp
          obtain ⟨q1, q2⟩ := h5 p (by omega)
          rw [q1, q2, swapAt_getD bs i e p hin hen,
            swapAt_getD indices i e p (by omega) (by omega),
            if_neg (by omega), if_neg (by omega), if_neg (by omega), if_neg (by omega)]
          exact ⟨rfl, rfl⟩
        · intro p hp1 hp2
          by_cases hpe : p = e
          · rw [(h5 p (by omega)).2, swapAt_getD bs i e p hin hen, if_pos hpe]
            exact hc
          · exact h6 p (by omega) hp2
      · rw [if_neg hc]
        obtain ⟨h1, h2, h3, h4, h5, h6, h7⟩ := ih (i + 1) indices bs e hlen (by omega) he
          (by intro p hp1 hp2; exact ha p (by omega) hp2)
          (by
            intro p hp1 hp2
            by_cases hpi : p = i
            · rw [hpi]; exact hc
            · exact hb p hp1 (by omega))
        exact ⟨h1, h2, h3, h4, h5, h6, h7⟩

theorem getD_take (l : List Nat) (k p : Nat) (h : p < k) :
    (l.take k).getD p 0 = l.getD p 0 := by
  simp only [List.getD_eq_getElem?_getD, List.getElem?_take, if_pos h]

theorem getD_drop (l : List Nat) (k p : Nat) : (l.drop k).getD p 0 = l.getD (k + p) 0 := by
  simp only [List.getD_eq_getElem?_getD, List.getElem?_drop]

theorem mem_getD (l : List Nat) (x : Nat) (h : x ∈ l) : ∃ p, p < l.length ∧ l.getD p 0 = x := by
  obtain ⟨p, hp, rfl⟩ := List.mem_iff_getElem.1 h
  exact ⟨p, hp, by simp [List.getD_eq_getElem?_getD, List.getElem?_eq_getElem hp]⟩

theorem getD_mem (l : List Nat) (p : Nat) (h : p < l.length) : l.getD p 0 ∈ l := by
  simp only [List.getD_eq_getElem?_getD, List.getElem?_eq_getElem h, Option.getD_some]
  exact List.getElem_mem h

theorem take_eq_of_getD (l1 l2 : List Nat) (k : Nat) (hlen : l1.length = l2.length)
    (h : ∀ p, p < k → l1.getD p 0 = l2.getD p 0) : l1.take k = l2.take k := by
  apply List.ext_getElem?
  intro n
  simp only [List.getElem?_take]
  by_cases hn : n < k
  · rw [if_pos hn, if_pos hn]
    have := h n hn
    simp only [List.getD_eq_getElem?_getD] at this
    by_cases hl : n < l1.length
    · rw [List.getElem?_eq_getElem hl, List.getElem?_eq_getElem (hlen ▸ hl)] at this ⊢
      simpa using this
    · rw [List.getElem?_eq_none (by omega), List.getElem?_eq_none (by omega)]
  · rw [if_neg hn, if_neg hn]

theorem count_eq_zero_of_getD (l : List Nat) (c : Nat)
    (h : ∀ p, p < l.length → l.getD p 0 ≠ c) : l.count c = 0 := by
  rw [List.count_eq_zero]
  intro hm
  obtain ⟨p, hp, hx⟩ := mem_getD l c hm
  exact h p hp hx

theorem count_eq_length_of_getD (l : List Nat) (c : Nat)
    (h : ∀ p, p < l.length → l.getD p 0 = c) : l.count c = l.length := by
  rw [List.count_eq_length]
  intro b hb
  obtain ⟨p, hp, hx⟩ := mem_getD l b hb
  rw [← hx, h p hp]

/-- The pass of the loop over the children for the label `c`, started at
`start`: when the positions before `start` carry smaller labels and the others
do not, the chunk from `start` to the new end holds as many indices as there
are points labelled `c`, the positions before `start` are untouched, and after
the pass the positions before the new end carry labels up to `c` and the others
larger ones. -/
theorem reorder_chunk (c : Nat) (indices bs : List Nat) (start : Nat)
    (hlen : indices.length = bs.length) (hs : start ≤ bs.length)
    (hlow : ∀ p, p < start → bs.getD p 0 < c)
    (hhigh : ∀ p, start ≤ p → p < bs.length → c ≤ bs.getD p 0) :
    (reorder c indices.length 0 indices bs start).1.Perm indices
      ∧ (reorder c indices.length 0 indices bs start).2.1.Perm bs
      ∧ start ≤ (reorder c indices.length 0 indices bs start).2.2
      ∧ (reorder c indices.length 0 indices bs start).2.2 ≤ bs.length
      ∧ (reorder c indices.length 0 indices bs start).2.2 - start = bs.count c
      ∧ (reorder c indices.length 0 indices bs start).1.take start = indices.take start
      ∧ ((reorder c indices.length 0 indices bs start).1.drop start).Perm
          (indices.drop start)
      ∧ (∀ p, p < (reorder c indices.length 0 indices bs start).2.2 →
          (reorder c indices.length 0 indices bs start).2.1.getD p 0 < c + 1)
      ∧ (∀ p, (reorder c indices.length 0 indices bs start).2.2 ≤ p → p < bs.length →
          c + 1 ≤ (reorder c indices.length 0 indices bs start).2.1.getD p 0) := by
  obtain ⟨h1, h2, h3, h4, h5, h6, h7⟩ := reorder_spec c indices.length 0 indices bs start
    hlen (by omega) hs
    (by intro p _ hp; exact Nat.ne_of_lt (hlow p hp))
    (by intro p _ hp; omega)
  generalize reorder c indices.length 0 indices bs start = r at h1 h2 h3 h4 h5 h6 h7
  obtain ⟨idx1, bs1, e⟩ := r
  simp only at h1 h2 h3 h4 h5 h6 h7 ⊢
  have hl1 : idx1.length = indices.length := h1.length_eq
  have hl2 : bs1.length = bs.length := h2.length_eq
  have htake1 : idx1.take start = indices.take start :=
    take_eq_of_getD _ _ _ hl1 (fun p hp => (h5 p hp).1)
  have htake2 : bs1.take start = bs.take start :=
    take_eq_of_getD _ _ _ hl2 (fun p hp => (h5 p hp).2)
  have hdrop1 : (idx1.drop start).Perm (indices.drop start) := by
    have := h1
    rw [← List.take_append_drop start idx1, ← List.take_append_drop start indices,
      htake1] at this
    exact (List.perm_append_left_iff _).1 this
  have hdrop2 : (bs1.drop start).Perm (bs.drop start) := by
    have := h2
    rw [← List.take_append_drop start bs1, ← List.take_append_drop start bs,
      htake2] at this
    exact (List.perm_append_left_iff _).1 this
  have hge : ∀ p, start ≤ p → p < bs.length → c ≤ bs1.getD p 0 := by
    intro p hp1 hp2
    have hm : bs1.getD p 0 ∈ bs1.drop start := by
      have := getD_mem (bs1.drop start) (p - start) (by simp; omega)
      rw [getD_drop] at this
      rwa [show start + (p - start) = p by omega] at this
    obtain ⟨q, hq, hx⟩ := mem_getD _ _ (hdrop2.subset hm)
    rw [getD_drop] at hx
    rw [← hx]
    simp only [List.length_drop] at hq
    exact hhigh _ (by omega) (by omega)
  refine ⟨h1, h2, h3, h4, ?_, htake1, hdrop1, ?_, ?_⟩
  · rw [← h2.count_eq c, ← List.take_append_drop start bs1,
      ← List.take_append_drop (e - start) (bs1.drop start), List.count_append,
      List.count_append]
    have c1 : (bs1.take start).count c = 0 := by
      apply count_eq_zero_of_getD
      intro p hp
      simp only [List.length_take] at hp
      rw [getD_take _ _ _ (by omega), (h5 p (by omega)).2]
      exact Nat.ne_of_lt (hlow p (by omega))
    have c2 : ((bs1.drop start).take (e - start)).count c = e - start := by
      rw [count_eq_length_of_getD]
      · simp only [List.length_take, List.length_drop]
        omega
      · intro p hp
        simp only [List.length_take, List.length_drop] at hp
        rw [getD_take _ _ _ (by omega), getD_drop]
        exact h6 _ (by omega) (by omega)
    have c3 : ((bs1.drop start).drop (e - start)).count c = 0 := by
      apply count_eq_zero_of_getD
      intro p hp
      simp only [List.length_drop] at hp
      rw [getD_drop, getD_drop]
      exact h7 _ (by omega) (by omega)
    omega
  · intro p hp
    by_cases hps : p < start
    · rw [(h5 p hps).2]
      exact Nat.lt_succ_of_lt (hlow p hps)
    · rw [h6 p (by omega) hp]
      exact Nat.lt_succ_self c
  · intro p hp1 hp2
    have := hge p (by omega) hp2
    have := h7 p hp1 hp2
    omega

end Reorder

end vlr

/-! ## The logged clusterer and the original one -/

namespace vlr

section Erasure

variable {α δ σ : Type} [LinearOrder δ]

theorem clusterChildrenLogged_erase
    (recurseL : VocabTreeNode α → List Nat → Int → Progress α σ →
      Except Error ((VocabTreeNode α × List Nat × Progress α σ) × List Call))
    (recurse : VocabTreeNode α → List Nat → Int → Progress α σ →
      Except Error (VocabTreeNode α × List Nat × Progress α σ))
    (h : ∀ node indices level s,
      (recurseL node indices level s).map Prod.fst = recurse node indices level s)
    (centers : List (List α)) (level : Int) :
    ∀ (todo c : Nat) (indices bs : List Nat) (start : Nat) (s : Progress α σ),
      (clusterChildrenLogged recurseL centers level todo c indices bs start s).map Prod.fst
        = clusterChildren recurse centers level todo c indices bs start s := by
  intro todo
  induction todo with
  | zero =>
      intro c indices bs start s
      rfl
  | succ todo ih =>
      intro c indices bs start s
      simp only [clusterChildrenLogged, clusterChildren]
      rw [← h]
      cases hr : recurseL ((VocabTreeNode.new : VocabTreeNode α).setCenter (centers.getD c []))
          (List.take ((reorder c indices.length 0 indices bs start).2.2 - start)
            (List.drop start (reorder c indices.length 0 indices bs start).1))
          (level + 1) s with
      | error e => rfl
      | ok done =>
          simp only [Except.map]
          rw [← ih]
          cases hc : clusterChildrenLogged recurseL centers level todo (c + 1)
              (List.take start (reorder c indices.length 0 indices bs start).1
                ++ done.1.2.1
                ++ List.drop (reorder c indices.length 0 indices bs start).2.2
                  (reorder c indices.length 0 indices bs start).1)
              (reorder c indices.length 0 indices bs start).2.1
              (reorder c indices.length 0 indices bs start).2.2 done.1.2.2 with
          | error e => rfl
          | ok rest => rfl

theorem computeClusteringLogged_erase (K : Kernel α δ σ) (t : VocabTree α σ) :
    ∀ (fuel : Nat) (node : VocabTreeNode α) (indices : List Nat) (level : Int)
      (s : Progress α σ),
      (computeClusteringLogged K t fuel node indices level s).map Prod.fst
        = computeClustering K t fuel node indices level s := by
  intro fuel
  induction fuel with
  | zero =>
      intro node indices level s
      rfl
  | succ fuel ih =>
      intro node indices level s
      simp only [computeClusteringLogged, computeClustering]
      generalize (if level > 1 then indices.insertionSort (· ≤ ·) else indices) = indices1
      by_cases h1 : level = t.m_depth ∨ (indices1.length : Int) < t.m_branching
      · rw [if_pos h1, if_pos h1]
        rfl
      · rw [if_neg h1, if_neg h1]
        by_cases h2 : ((K.chooseCenters s.rng t.m_branching indices1 t.m_dataset).1.length : Int)
            < t.m_branching
        · rw [if_pos h2, if_pos h2]
          rfl
        · rw [if_neg h2, if_neg h2]
          generalize lloydLoop K t.m_dataset t.m_veclen t.m_branching indices1
            t.m_iterations.toNat _ = ll
          cases ll with
          | error e => rfl
          | ok final =>
              simp only
              rw [← clusterChildrenLogged_erase (computeClusteringLogged K t fuel)
                (computeClustering K t fuel) ih]
              generalize clusterChildrenLogged (computeClusteringLogged K t fuel) _ level
                t.m_branching.toNat 0 indices1 final.belongs_to 0 _ = cc
              cases cc with
              | error e => rfl
              | ok r => rfl

/-- The logged `build()` returns what `build()` returns. -/
theorem buildLogged_erase (K : Kernel α δ σ) (t : VocabTree α σ) :
    (buildLogged K t).map Prod.fst = build K t := by
  simp only [buildLogged, build]
  split
  · rfl
  · split
    · rfl
    · split
      · rfl
      · rw [← computeClusteringLogged_erase]
        generalize computeClusteringLogged K t (t.m_depth.toNat + 1) _ _ 0 _ = cc
        cases cc with
        | error e => rfl
        | ok r => rfl

end Erasure

end vlr

/-! ## The ranges handed to the calls -/

namespace vlr

section Ranges

variable {α δ σ : Type} [LinearOrder δ]

/-- A Lloyd loop of at least one iteration that starts unconverged ends with at
least one member in every cluster. -/
theorem lloydLoop_repaired (K : Kernel α δ σ) (data : Mat α) (veclen : Nat) (B : Int)
    (hB : 1 ≤ B) (indices : List Nat) (hn : B.toNat ≤ indices.length)
    (remaining : Nat) (hrem : 1 ≤ remaining) (s final : Lloyd α δ)
    (hs : LloydInv B.toNat indices.length s) (hconv : s.converged = false)
    (h : lloydLoop K data veclen B indices remaining s = .ok final) :
    ∀ c, c < B.toNat → 1 ≤ final.count.getD c 0 := by
  cases remaining with
  | zero => omega
  | succ remaining =>
      simp only [lloydLoop, hconv, Bool.false_eq_true, if_false] at h
      split at h
      · exact absurd h (by simp)
      · rename_i s1 hs1
        obtain ⟨hinv1, hpos1, _⟩ := lloydIteration_inv K data veclen B hB indices hn s s1
          hs hs1
        obtain ⟨_, hfin⟩ := lloydLoop_inv K data veclen B hB indices hn remaining s1 final
          hinv1 h
        rcases hfin with h1 | h1
        · rw [h1]; exact hpos1
        · exact h1

theorem leafRanges_append (xs ys : List Call) :
    leafRanges (xs ++ ys) = leafRanges xs ++ leafRanges ys := by
  simp [leafRanges]

/-- The loop over the children hands out chunks that cover the index array
from `start` on: with labels below `B`, smaller than `c` before `start` and at
least `c` from `start` on, the chunk of child `c + k` holds as many indices as
there are points labelled `c + k`, and the ranges of the leaves below the
children are a rearrangement of the indices from `start` on. -/
theorem clusterChildrenLogged_spec
    (recurse : VocabTreeNode α → List Nat → Int → Progress α σ →
      Except Error ((VocabTreeNode α × List Nat × Progress α σ) × List Call))
    (Q : Call → Prop)
    (hR : ∀ node idx lvl s out, recurse node idx lvl s = .ok out →
      out.1.2.1.Perm idx ∧ (leafRanges out.2).flatten.Perm idx
        ∧ out.1.2.2.m_words.length = s.m_words.length + (leafRanges out.2).length
        ∧ ∀ call ∈ out.2, Q call)
    (B : Nat) (centers : List (List α)) (level : Int) :
    ∀ (todo c : Nat) (indices bs : List Nat) (start : Nat) (s : Progress α σ)
      (r : (List (VocabTreeNode α) × List Nat × Progress α σ) × List (List Nat) × List Call),
      c + todo = B → indices.length = bs.length → start ≤ bs.length →
      (∀ b ∈ bs, b < B) →
      (∀ p, p < start → bs.getD p 0 < c) →
      (∀ p, start ≤ p → p < bs.length → c ≤ bs.getD p 0) →
      clusterChildrenLogged recurse centers level todo c indices bs start s = .ok r →
      r.1.2.1.Perm indices
        ∧ (leafRanges r.2.2).flatten.Perm (indices.drop start)
        ∧ r.1.2.2.m_words.length = s.m_words.length + (leafRanges r.2.2).length
        ∧ (∀ call ∈ r.2.2, Q call)
        ∧ r.2.1.length = todo
        ∧ ∀ k, k < todo → (r.2.1.getD k []).length = bs.count (c + k) := by
  intro todo
  induction todo with
  | zero =>
      intro c indices bs start s r hc hlen hs hb hlow hhigh h
      simp only [clusterChildrenLogged, Except.ok.injEq] at h
      subst h
      have hstart : bs.length ≤ start := by
        by_contra hlt
        have h1 := hhigh start (le_refl _) (by omega)
        have h2 := hb _ (getD_mem bs start (by omega))
        omega
      refine ⟨List.Perm.refl _, ?_, by simp [leafRanges], by simp, rfl, by intro k hk; omega⟩
      rw [List.drop_of_length_le (by omega)]
      simp [leafRanges]
  | succ todo ih =>
      intro c indices bs start s r hc hlen hs hb hlow hhigh h
      obtain ⟨h1, h2, h3, h4, h5, h6, h7, h8, h9⟩ :=
        reorder_chunk c indices bs start hlen hs hlow hhigh
      simp only [clusterChildrenLogged] at h
      generalize reorder c indices.length 0 indices bs start = ro at h h1 h2 h3 h4 h5 h6 h7 h8 h9
      obtain ⟨idx1, bs1, e⟩ := ro
      simp only at h h1 h2 h3 h4 h5 h6 h7 h8 h9
      split at h
      · exact absurd h (by simp)
      · rename_i done hdone
        obtain ⟨d1, d2, d3, d4⟩ := hR _ _ _ _ _ hdone
        split at h
        · exact absurd h (by simp)
        · rename_i rest hrest
          simp only [Except.ok.injEq] at h
          subst h
          have hl1 : idx1.length = indices.length := h1.length_eq
          have hl2 : bs1.length = bs.length := h2.length_eq
          have hdl : done.1.2.1.length = e - start := by
            rw [d1.length_eq, List.length_take, List.length_drop]
            omega
          have hpre : (idx1.take start ++ done.1.2.1).length = e := by
            rw [List.length_append, List.length_take, hdl]
            omega
          obtain ⟨r1, r2, r3, r4, r5, r6⟩ := ih (c + 1)
            (idx1.take start ++ done.1.2.1 ++ idx1.drop e) bs1 e done.1.2.2 rest
            (by omega)
            (by rw [List.length_append, hpre, List.length_drop]; omega)
            (by omega)
            (fun b hb1 => hb b (h2.subset hb1))
            h8
            (by intro p hp1 hp2; exact h9 p hp1 (by omega))
            hrest
          have hdrop : (idx1.take start ++ done.1.2.1 ++ idx1.drop e).drop e = idx1.drop e := by
            rw [← hpre]
            exact List.drop_left _ _
          have hsplit : (idx1.drop start).take (e - start) ++ idx1.drop e = idx1.drop start := by
            have : idx1.drop e = (idx1.drop start).drop (e - start) := by
              rw [List.drop_drop]
              congr 1
              omega
            rw [this, List.take_append_drop]
          refine ⟨?_, ?_, ?_, ?_, ?_, ?_⟩
          · refine r1.trans (List.Perm.trans ?_ h1)
            have : (idx1.take start ++ done.1.2.1 ++ idx1.drop e).Perm
                (idx1.take start ++ (idx1.drop start).take (e - start) ++ idx1.drop e) :=
              List.Perm.append_right _ (List.Perm.append_left _ d1)
            refine this.trans ?_
            rw [List.append_assoc, hsplit, List.take_append_drop]
          · rw [leafRanges_append, List.flatten_append]
            rw [hdrop] at r2
            refine (List.Perm.append d2 r2).trans ?_
            rw [hsplit]
            exact h7
          · rw [leafRanges_append, List.length_append, r3, d3]
            omega
          · intro call hcall
            rcases List.mem_append.1 hcall with hm | hm
            · exact d4 call hm
            · exact r4 call hm
          · simp only [List.length_cons, r5]
          · intro k hk
            cases k with
            | zero =>
                simp only [List.getD_cons_zero, List.length_take, List.length_drop,
                  Nat.add_zero]
                omega
            | succ k =>
                simp only [List.getD_cons_succ]
                rw [r6 k (by omega), h2.count_eq]
                congr 1
                omega

/-- What the log of a run of the clusterer says: the indices come back
rearranged, the ranges of the leaves are a rearrangement of the range handed to
the call, every leaf record stands for one new word, and every record of an
interior node has at least `m_branching` indices, `m_branching` chunks of the
sizes given by `count`, and, when at least one iteration is allowed, no empty
cluster. -/
theorem computeClusteringLogged_spec (K : Kernel α δ σ) (t : VocabTree α σ)
    (hB : 1 ≤ t.m_branching) :
    ∀ (fuel : Nat) (node : VocabTreeNode α) (idx : List Nat) (lvl : Int)
      (s : Progress α σ)
      (out : (VocabTreeNode α × List Nat × Progress α σ) × List Call),
      computeClusteringLogged K t fuel node idx lvl s = .ok out →
      out.1.2.1.Perm idx ∧ (leafRanges out.2).flatten.Perm idx
        ∧ out.1.2.2.m_words.length = s.m_words.length + (leafRanges out.2).length
        ∧ ∀ call ∈ out.2, call.leaf = false →
            t.m_branching.toNat ≤ call.range.length
              ∧ call.count.length = t.m_branching.toNat
              ∧ call.parts.length = t.m_branching.toNat
              ∧ (∀ c, c < t.m_branching.toNat →
                  ((call.parts.getD c []).length : Int) = call.count.getD c 0)
              ∧ (1 ≤ t.m_iterations → ∀ c, c < t.m_branching.toNat →
                  1 ≤ call.count.getD c 0) := by
  intro fuel
  induction fuel with
  | zero =>
      intro node idx lvl s out h
      exact absurd h (by simp [computeClusteringLogged])
  | succ fuel ih =>
      intro node idx lvl s out h
      simp only [computeClusteringLogged] at h
      have hsort : (if lvl > 1 then idx.insertionSort (· ≤ ·) else idx).Perm idx := by
        split
        · exact List.perm_insertionSort _ _
        · exact List.Perm.refl _
      generalize (if lvl > 1 then idx.insertionSort (· ≤ ·) else idx) = idx1 at h hsort
      have hleaf : ∀ (s1 : Progress α σ),
          s1.m_words = s.m_words →
          out = (makeLeaf (node.setNodeId s.m_size) idx1 s1,
            [({ level := lvl, node_id := s.m_size, range := idx, work := idx1,
                leaf := true, labels := [], count := [], parts := [],
                result := idx1 } : Call)]) →
          out.1.2.1.Perm idx ∧ (leafRanges out.2).flatten.Perm idx
            ∧ out.1.2.2.m_words.length = s.m_words.length + (leafRanges out.2).length
            ∧ ∀ call ∈ out.2, call.leaf = false →
                t.m_branching.toNat ≤ call.range.length
                  ∧ call.count.length = t.m_branching.toNat
                  ∧ call.parts.length = t.m_branching.toNat
                  ∧ (∀ c, c < t.m_branching.toNat →
                      ((call.parts.getD c []).length : Int) = call.count.getD c 0)
                  ∧ (1 ≤ t.m_iterations → ∀ c, c < t.m_branching.toNat →
                      1 ≤ call.count.getD c 0) := by
        intro s1 hw ho
        subst ho
        refine ⟨hsort, by simp [leafRanges], by simp [leafRanges, makeLeaf, hw], ?_⟩
        intro call hc hl
        simp only [List.mem_singleton] at hc
        subst hc
        simp at hl
      by_cases c1 : lvl = t.m_depth ∨ (idx1.length : Int) < t.m_branching
      · rw [if_pos c1] at h
        simp only [Except.ok.injEq] at h
        exact hleaf { m_size := s.m_size + 1, m_words := s.m_words, rng := s.rng } rfl h.symm
      · rw [if_neg c1] at h
        by_cases c2 : ((K.chooseCenters s.rng t.m_branching idx1 t.m_dataset).1.length : Int)
            < t.m_branching
        · rw [if_pos c2] at h
          simp only [Except.ok.injEq] at h
          exact hleaf ⟨s.m_size + 1, s.m_words,
            (K.chooseCenters s.rng t.m_branching idx1 t.m_dataset).2⟩ rfl h.symm
        · rw [if_neg c2] at h
          have hn : t.m_branching.toNat ≤ idx1.length := by
            have : ¬ (idx1.length : Int) < t.m_branching := fun hlt => c1 (Or.inr hlt)
            omega
          have hstart := initialAssignment_inv K t.m_dataset t.m_veclen t.m_branching hB
            (initCenters t.m_dataset t.m_branching
              (K.chooseCenters s.rng t.m_branching idx1 t.m_dataset).1) idx1
          split at h
          · exact absurd h (by simp)
          · rename_i final hfinal
            obtain ⟨hinv, _⟩ := lloydLoop_inv K t.m_dataset t.m_veclen t.m_branching hB idx1 hn
              _ _ final hstart hfinal
            split at h
            · exact absurd h (by simp)
            · rename_i r hr
              simp only [Except.ok.injEq] at h
              subst h
              obtain ⟨r1, r2, r3, r4, r5, r6⟩ := clusterChildrenLogged_spec
                (computeClusteringLogged K t fuel) _ (ih) t.m_branching.toNat _ lvl
                t.m_branching.toNat 0 idx1 final.belongs_to 0 _ r (by omega)
                hinv.labels.symm (by omega) hinv.bound (by intro p hp; omega)
                (by intro p _ _; omega) hr
              refine ⟨r1.trans hsort, ?_, ?_, ?_⟩
              · simp only [leafRanges, List.filter_cons, Bool.false_eq_true, if_false]
                simp only [leafRanges, List.drop_zero] at r2
                exact r2.trans hsort
              · simp only [leafRanges, List.filter_cons, Bool.false_eq_true, if_false]
                simp only [leafRanges] at r3
                exact r3
              · intro call hc hl
                rcases List.mem_cons.1 hc with hc | hc
                · subst hc
                  refine ⟨?_, hinv.counts, r5, ?_, ?_⟩
                  · simp only
                    rw [← hsort.length_eq]
                    exact hn
                  · intro c hc
                    simp only
                    rw [r6 c hc, hinv.agree c hc, Nat.zero_add]
                  · intro hit c hc
                    exact lloydLoop_repaired K t.m_dataset t.m_veclen t.m_branching hB idx1
                      hn t.m_iterations.toNat (by omega) _ final hstart rfl hfinal c hc
                · exact r4 call hc hl

end Ranges

end vlr

/-! ## The leaves partition the training rows -/

namespace vlr

section Partition

variable {α δ σ : Type} [LinearOrder δ]

theorem filter_mem_length_one (i : Nat) :
    ∀ (ls : List (List Nat)), ls.flatten.count i = 1 →
      (ls.filter (fun r => decide (i ∈ r))).length = 1 := by
  intro ls
  induction ls with
  | nil => intro h; simp at h
  | cons l ls ih =>
      intro h
      rw [List.flatten_cons, List.count_append] at h
      by_cases hm : i ∈ l
      · have h1 : 1 ≤ l.count i := List.count_pos_iff.2 hm
        have h2 : ls.flatten.count i = 0 := by omega
        have h3 : ls.filter (fun r => decide (i ∈ r)) = [] := by
          rw [List.filter_eq_nil_iff]
          intro r hr
          simp only [decide_eq_true_eq]
          intro hir
          exact (List.count_eq_zero.1 h2) (List.mem_flatten.2 ⟨r, hr, hir⟩)
        simp [List.filter_cons, hm, h3]
      · have h1 : l.count i = 0 := List.count_eq_zero.2 hm
        simp only [List.filter_cons, hm, decide_False, Bool.false_eq_true, if_false]
        exact ih (by omega)

/-- The log of a `build()` that returns: the call for the root is handed all the
row indices, so the facts about the log of the clusterer hold for it. -/
theorem buildLogged_spec (K : Kernel α δ σ) (t t1 : VocabTree α σ) (calls : List Call)
    (h : buildLogged K t = .ok (t1, calls)) :
    (leafRanges calls).flatten.Perm (List.range t.m_dataset.rows)
      ∧ t1.m_words.length = t.m_words.length + (leafRanges calls).length
      ∧ ∀ call ∈ calls, call.leaf = false →
          t.m_branching.toNat ≤ call.range.length
            ∧ call.count.length = t.m_branching.toNat
            ∧ call.parts.length = t.m_branching.toNat
            ∧ (∀ c, c < t.m_branching.toNat →
                ((call.parts.getD c []).length : Int) = call.count.getD c 0)
            ∧ (1 ≤ t.m_iterations → ∀ c, c < t.m_branching.toNat →
                1 ≤ call.count.getD c 0) := by
  simp only [buildLogged] at h
  split at h
  · exact absurd h (by simp)
  · rename_i hB
    split at h
    · exact absurd h (by simp)
    · split at h
      · exact absurd h (by simp)
      · split at h
        · exact absurd h (by simp)
        · rename_i r hr
          simp only [Except.ok.injEq, Prod.mk.injEq] at h
          obtain ⟨ht, hc⟩ := h
          subst ht
          subst hc
          obtain ⟨_, h2, h3, h4⟩ := computeClusteringLogged_spec K t (by omega) _ _ _ _ _ r hr
          exact ⟨h2, h3, h4⟩

theorem buildLogged_of_build (K : Kernel α δ σ) (t t1 : VocabTree α σ)
    (h : build K t = .ok t1) : ∃ calls, buildLogged K t = .ok (t1, calls) := by
  rw [← buildLogged_erase] at h
  cases hb : buildLogged K t with
  | error e =>
      rw [hb] at h
      exact absurd h (by simp [Except.map])
  | ok r =>
      rw [hb] at h
      simp only [Except.map, Except.ok.injEq] at h
      exact ⟨r.2, by rw [← h]⟩

/-- C11. When `build()` returns, the ranges of indices handed to the calls of the
clusterer that made a leaf are, put together, a rearrangement of the row indices
`0 .. N-1`: every row index lies in exactly one of these ranges and occurs once
in it, the sizes of the ranges sum to `N`, and there is one such range for every
word added. The log is the one of `buildLogged`, which returns what `build()`
returns. -/
theorem build_leaf_partition (K : Kernel α δ σ) (t t1 : VocabTree α σ)
    (h : build K t = .ok t1) :
    ∃ calls, buildLogged K t = .ok (t1, calls)
      ∧ (leafRanges calls).flatten.Perm (List.range t.m_dataset.rows)
      ∧ (∀ i, i < t.m_dataset.rows →
          ((leafRanges calls).filter (fun r => decide (i ∈ r))).length = 1
            ∧ (leafRanges calls).flatten.count i = 1)
      ∧ ((leafRanges calls).map List.length).sum = t.m_dataset.rows
      ∧ t1.m_words.length = t.m_words.length + (leafRanges calls).length := by
  obtain ⟨calls, hc⟩ := buildLogged_of_build K t t1 h
  obtain ⟨h1, h2, _⟩ := buildLogged_spec K t t1 calls hc
  have hcount : ∀ i, i < t.m_dataset.rows → (leafRanges calls).flatten.count i = 1 := by
    intro i hi
    rw [h1.count_eq]
    exact List.count_eq_one_of_mem (List.nodup_range _) (List.mem_range.2 hi)
  refine ⟨calls, hc, h1, ?_, ?_, h2⟩
  · intro i hi
    exact ⟨filter_mem_length_one i _ (hcount i hi), hcount i hi⟩
  · rw [← List.length_flatten, h1.length_eq, List.length_range]

theorem build_leaf_partition_witness :
    ∃ calls, buildLogged (binKernel firstCenters) exampleTree = .ok (exampleBuilt, calls)
      ∧ (leafRanges calls).flatten.Perm (List.range exampleTree.m_dataset.rows)
      ∧ (∀ i, i < exampleTree.m_dataset.rows →
          ((leafRanges calls).filter (fun r => decide (i ∈ r))).length = 1
            ∧ (leafRanges calls).flatten.count i = 1)
      ∧ ((leafRanges calls).map List.length).sum = exampleTree.m_dataset.rows
      ∧ exampleBuilt.m_words.length
          = exampleTree.m_words.length + (leafRanges calls).length :=
  build_leaf_partition (binKernel firstCenters) exampleTree exampleBuilt (by rfl)

end Partition

end vlr

/-! ## Leaf or interior node -/

namespace vlr

section LeafOrInterior

variable {α δ σ : Type} [LinearOrder δ]

theorem clusterChildrenLogged_levels
    (recurse : VocabTreeNode α → List Nat → Int → Progress α σ →
      Except Error ((VocabTreeNode α × List Nat × Progress α σ) × List Call))
    (centers : List (List α)) (level : Int)
    (hrec : ∀ node idx s out, recurse node idx (level + 1) s = .ok out →
      ∃ call rest, out.2 = call :: rest ∧ call.level = level + 1
        ∧ ∀ c ∈ rest, level + 1 + 1 ≤ c.level) :
    ∀ (todo c : Nat) (indices bs : List Nat) (start : Nat) (s : Progress α σ)
      (r : (List (VocabTreeNode α) × List Nat × Progress α σ) × List (List Nat) × List Call),
      clusterChildrenLogged recurse centers level todo c indices bs start s = .ok r →
      r.1.1.length = todo
        ∧ (r.2.2.filter (fun call => decide (call.level = level + 1))).length = todo
        ∧ ∀ call ∈ r.2.2, level + 1 ≤ call.level := by
  intro todo
  induction todo with
  | zero =>
      intro c indices bs start s r h
      simp only [clusterChildrenLogged, Except.ok.injEq] at h
      subst h
      simp
  | succ todo ih =>
      intro c indices bs start s r h
      simp only [clusterChildrenLogged] at h
      split at h
      · exact absurd h (by simp)
      · rename_i done hdone
        obtain ⟨call, rest, hd, hl, hrest⟩ := hrec _ _ _ _ hdone
        split at h
        · exact absurd h (by simp)
        · rename_i others hothers
          simp only [Except.ok.injEq] at h
          subst h
          obtain ⟨r1, r2, r3⟩ := ih _ _ _ _ _ _ hothers
          have hnone : rest.filter (fun call => decide (call.level = level + 1)) = [] := by
            rw [List.filter_eq_nil_iff]
            intro x hx
            have := hrest x hx
            simp only [decide_eq_true_eq]
            omega
          refine ⟨by simp [r1], ?_, ?_⟩
          · simp only [hd, List.cons_append, List.filter_cons, hl, decide_True, if_true,
              List.filter_append, hnone, List.nil_append, List.length_cons, r2]
          · intro x hx
            simp only [hd, List.cons_append, List.mem_cons, List.mem_append] at hx
            rcases hx with hx | hx | hx
            · rw [hx, hl]
            · have := hrest x hx
              omega
            · exact r3 x hx

theorem computeClusteringLogged_head (K : Kernel α δ σ) (t : VocabTree α σ) :
    ∀ (fuel : Nat) (node : VocabTreeNode α) (idx : List Nat) (lvl : Int)
      (s : Progress α σ)
      (out : (VocabTreeNode α × List Nat × Progress α σ) × List Call),
      computeClusteringLogged K t fuel node idx lvl s = .ok out →
      ∃ call rest, out.2 = call :: rest ∧ call.level = lvl
        ∧ ∀ c ∈ rest, lvl + 1 ≤ c.level := by
  intro fuel
  induction fuel with
  | zero =>
      intro node idx lvl s out h
      exact absurd h (by simp [computeClusteringLogged])
  | succ fuel ih =>
      intro node idx lvl s out h
      simp only [computeClusteringLogged] at h
      generalize (if lvl > 1 then idx.insertionSort (· ≤ ·) else idx) = idx1 at h
      by_cases c1 : lvl = t.m_depth ∨ (idx1.length : Int) < t.m_branching
      · rw [if_pos c1] at h
        simp only [Except.ok.injEq] at h
        subst h
        exact ⟨_, [], rfl, rfl, by simp⟩
      · rw [if_neg c1] at h
        by_cases c2 : ((K.chooseCenters s.rng t.m_branching idx1 t.m_dataset).1.length : Int)
            < t.m_branching
        · rw [if_pos c2] at h
          simp only [Except.ok.injEq] at h
          subst h
          exact ⟨_, [], rfl, rfl, by simp⟩
        · rw [if_neg c2] at h
          split at h
          · exact absurd h (by simp)
          · rename_i final hfinal
            split at h
            · exact absurd h (by simp)
            · rename_i r hr
              simp only [Except.ok.injEq] at h
              subst h
              obtain ⟨_, _, r3⟩ := clusterChildrenLogged_levels
                (computeClusteringLogged K t fuel) _ lvl
                (fun node idx s out ho => ih node idx (lvl + 1) s out ho) _ _ _ _ _ _ r hr
              exact ⟨_, _, rfl, rfl, r3⟩

end LeafOrInterior

end vlr

namespace vlr

section LeafOrInteriorClaim

variable {α δ σ : Type} [LinearOrder δ]

/-- C21. A call of the clusterer at `level` on `indices` that returns makes its
node a leaf if and only if `level == m_depth`, or there are fewer than
`m_branching` indices, or the initializer returned fewer than `m_branching`
centres. A leaf takes the number of words created so far as word id and is
appended to the words. Otherwise the node gets `m_branching` children and keeps
its word id, and the calls for the children are made at `level + 1`: among the
records after the one of the call exactly `m_branching` have that level and none
has a lower one. The logged clusterer returns what `computeClustering`
returns. -/
theorem computeClustering_leaf_iff (K : Kernel α δ σ) (t : VocabTree α σ)
    (hB : 0 ≤ t.m_branching) (fuel : Nat) (node : VocabTreeNode α)
    (indices : List Nat) (level : Int) (s : Progress α σ)
    (out : (VocabTreeNode α × List Nat × Progress α σ) × List Call)
    (h : computeClusteringLogged K t fuel node indices level s = .ok out) :
    computeClustering K t fuel node indices level s = .ok out.1
      ∧ (out.1.1.children = none ↔ becomesLeaf K t indices level s.rng)
      ∧ (becomesLeaf K t indices level s.rng →
          out.1.1.word_id = (s.m_words.length : Int)
            ∧ out.1.2.2.m_words = s.m_words ++ [out.1.1])
      ∧ (¬ becomesLeaf K t indices level s.rng →
          ∃ cs, out.1.1.children = some cs ∧ (cs.length : Int) = t.m_branching
            ∧ out.1.1.word_id = node.word_id
            ∧ ((out.2.tail.filter (fun call => decide (call.level = level + 1))).length : Int)
                = t.m_branching
            ∧ ∀ call ∈ out.2.tail, level + 1 ≤ call.level) := by
  refine ⟨?_, ?_⟩
  · rw [← computeClusteringLogged_erase, h]
    rfl
  cases fuel with
  | zero => exact absurd h (by simp [computeClusteringLogged])
  | succ fuel =>
      simp only [computeClusteringLogged] at h
      have hlen : (if level > 1 then indices.insertionSort (· ≤ ·) else indices).length
          = indices.length := by
        split
        · exact List.length_insertionSort _ _
        · rfl
      unfold becomesLeaf
      generalize (if level > 1 then indices.insertionSort (· ≤ ·) else indices) = idx1
        at h hlen
      rw [← hlen]
      have hleaf : ∀ (s1 : Progress α σ) (calls : List Call), s1.m_words = s.m_words →
          out = (makeLeaf (node.setNodeId s.m_size) idx1 s1, calls) →
          out.1.1.children = none
            ∧ out.1.1.word_id = (s.m_words.length : Int)
            ∧ out.1.2.2.m_words = s.m_words ++ [out.1.1] := by
        intro s1 calls hw ho
        subst ho
        cases node with
        | mk a b c d =>
            simp [makeLeaf, hw, VocabTreeNode.setNodeId, VocabTreeNode.setChildren,
              VocabTreeNode.setWordId, VocabTreeNode.children, VocabTreeNode.word_id,
              VocabTreeNode.center, VocabTreeNode.node_id]
      by_cases c1 : level = t.m_depth ∨ (idx1.length : Int) < t.m_branching
      · rw [if_pos c1] at h
        simp only [Except.ok.injEq] at h
        obtain ⟨q1, q2, q3⟩ := hleaf ⟨s.m_size + 1, s.m_words, s.rng⟩ _ rfl h.symm
        have hstop : level = t.m_depth ∨ (idx1.length : Int) < t.m_branching
            ∨ ((K.chooseCenters s.rng t.m_branching idx1 t.m_dataset).1.length : Int)
              < t.m_branching := by
          rcases c1 with c | c
          · exact Or.inl c
          · exact Or.inr (Or.inl c)
        exact ⟨⟨fun _ => hstop, fun _ => q1⟩, fun _ => ⟨q2, q3⟩, fun hn => absurd hstop hn⟩
      · rw [if_neg c1] at h
        by_cases c2 : ((K.chooseCenters s.rng t.m_branching idx1 t.m_dataset).1.length : Int)
            < t.m_branching
        · rw [if_pos c2] at h
          simp only [Except.ok.injEq] at h
          obtain ⟨q1, q2, q3⟩ := hleaf ⟨s.m_size + 1, s.m_words,
            (K.chooseCenters s.rng t.m_branching idx1 t.m_dataset).2⟩ _ rfl h.symm
          have hstop : level = t.m_depth ∨ (idx1.length : Int) < t.m_branching
              ∨ ((K.chooseCenters s.rng t.m_branching idx1 t.m_dataset).1.length : Int)
                < t.m_branching := Or.inr (Or.inr c2)
          exact ⟨⟨fun _ => hstop, fun _ => q1⟩, fun _ => ⟨q2, q3⟩,
            fun hn => absurd hstop hn⟩
        · rw [if_neg c2] at h
          have hgo : ¬ (level = t.m_depth ∨ (idx1.length : Int) < t.m_branching
              ∨ ((K.chooseCenters s.rng t.m_branching idx1 t.m_dataset).1.length : Int)
                < t.m_branching) := by
            rintro (c | c | c)
            · exact c1 (Or.inl c)
            · exact c1 (Or.inr c)
            · exact c2 c
          split at h
          · exact absurd h (by simp)
          · rename_i final hfinal
            split at h
            · exact absurd h (by simp)
            · rename_i r hr
              simp only [Except.ok.injEq] at h
              subst h
              obtain ⟨r1, r2, r3⟩ := clusterChildrenLogged_levels
                (computeClusteringLogged K t fuel) _ level
                (fun node idx s out ho =>
                  computeClusteringLogged_head K t fuel node idx (level + 1) s out ho)
                _ _ _ _ _ _ r hr
              have hch : ((node.setNodeId s.m_size).setChildren (some r.1.1)).children
                  = some r.1.1 := by
                cases node with
                | mk a b c d => rfl
              have hwd : ((node.setNodeId s.m_size).setChildren (some r.1.1)).word_id
                  = node.word_id := by
                cases node with
                | mk a b c d => rfl
              refine ⟨⟨fun hnone => ?_, fun hs => absurd hs hgo⟩,
                fun hs => absurd hs hgo, fun _ => ?_⟩
              · simp only [hch] at hnone
                exact absurd hnone (by simp)
              · refine ⟨r.1.1, hch, ?_, hwd, ?_, ?_⟩
                · rw [r1]; omega
                · simp only [List.tail_cons]
                  rw [r2]; omega
                · simpa only [List.tail_cons] using r3


theorem computeClustering_leaf_iff_witness :
    computeClustering (binKernel firstCenters) exampleTree 3
        ((VocabTreeNode.new : VocabTreeNode Nat).setCenter [0]) (List.range 8) 0
        { m_size := 0, m_words := [], rng := () }
      = .ok (exampleRoot, [0, 3, 1, 2, 4, 5, 6, 7],
          { m_size := 7, m_words := exampleWords, rng := () })
      ∧ (exampleRoot.children = none
          ↔ becomesLeaf (binKernel firstCenters) exampleTree (List.range 8) 0 ())
      ∧ ¬ becomesLeaf (binKernel firstCenters) exampleTree (List.range 8) 0 ()
      ∧ ((exampleCalls.tail.filter (fun call => decide (call.level = 0 + 1))).length : Int)
          = 2 :=
  have h := computeClustering_leaf_iff (binKernel firstCenters) exampleTree (by decide) 3
    ((VocabTreeNode.new : VocabTreeNode Nat).setCenter [0]) (List.range 8) 0
    { m_size := 0, m_words := [], rng := () }
    ((exampleRoot, [0, 3, 1, 2, 4, 5, 6, 7],
      { m_size := 7, m_words := exampleWords, rng := () }), exampleCalls) (by rfl)
  ⟨h.1, h.2.1, by unfold becomesLeaf; decide, by decide⟩

end LeafOrInteriorClaim

end vlr

/-! ## The chunks and the labels -/

namespace vlr

section Chunks

theorem set_set_perm {β : Type} [DecidableEq β] (l : List β) (i e : Nat)
    (hi : i < l.length) (he : e < l.length) :
    ((l.set i l[e]).set e l[i]).Perm l := by
  rw [List.perm_iff_count]
  intro b
  have he1 : e < (l.set i l[e]).length := by simpa using he
  have hci : l[i] = b → 1 ≤ l.count b := by
    intro h
    exact List.count_pos_iff.2 (h ▸ List.getElem_mem hi)
  have hce : l[e] = b → 1 ≤ l.count b := by
    intro h
    exact List.count_pos_iff.2 (h ▸ List.getElem_mem he)
  rw [List.count_set _ _ _ _ he1, List.count_set _ _ _ _ hi]
  simp only [beq_iff_eq, List.getElem_set]
  by_cases q : i = e
  · subst q
    simp only [if_true]
    by_cases h : l[i] = b
    · have := hci h
      simp only [h, if_true]
      omega
    · simp [h]
  · simp only [q, if_false]
    by_cases h1 : l[i] = b <;> by_cases h2 : l[e] = b
    · have := hci h1
      simp only [h1, h2, if_true]
      omega
    · have := hci h1
      simp only [h1, h2, if_true, if_false]
      omega
    · have := hce h2
      simp only [h1, h2, if_true, if_false]
      omega
    · simp [h1, h2]

theorem zip_set_pair {β γ : Type} (x : β) (y : γ) :
    ∀ (a : List β) (b : List γ) (i : Nat),
      (a.set i x).zip (b.set i y) = (a.zip b).set i (x, y) := by
  intro a
  induction a with
  | nil => intro b i; simp
  | cons h t ih =>
      intro b i
      cases b with
      | nil => simp
      | cons h2 t2 =>
          cases i with
          | zero => simp
          | succ i => simp [ih]

theorem zip_swapAt_perm (a b : List Nat) (i e : Nat) (hlen : a.length = b.length)
    (hi : i < a.length) (he : e < a.length) :
    ((swapAt a i e).zip (swapAt b i e)).Perm (a.zip b) := by
  have hzi : i < (a.zip b).length := by simp [List.length_zip]; omega
  have hze : e < (a.zip b).length := by simp [List.length_zip]; omega
  have h1 : (a.getD e 0, b.getD e 0) = (a.zip b)[e] := by
    rw [List.getElem_zip]
    simp [List.getD_eq_getElem?_getD, List.getElem?_eq_getElem he,
      List.getElem?_eq_getElem (hlen ▸ he)]
  have h2 : (a.getD i 0, b.getD i 0) = (a.zip b)[i] := by
    rw [List.getElem_zip]
    simp [List.getD_eq_getElem?_getD, List.getElem?_eq_getElem hi,
      List.getElem?_eq_getElem (hlen ▸ hi)]
  have : (swapAt a i e).zip (swapAt b i e)
      = ((a.zip b).set i (a.zip b)[e]).set e (a.zip b)[i] := by
    simp only [swapAt]
    rw [zip_set_pair, zip_set_pair, h1, h2]
  rw [this]
  exact set_set_perm _ _ _ hzi hze

/-- The pass of the re-ordering moves labels and indices together: the pairs of
an index and its label are only rearranged. -/
theorem reorder_zip (c : Nat) : ∀ (todo i : Nat) (indices bs : List Nat) (e : Nat),
    indices.length = bs.length → i + todo = bs.length → e ≤ bs.length →
    (∀ p, i ≤ p → p < e → bs.getD p 0 ≠ c) →
    ((reorder c todo i indices bs e).1.zip (reorder c todo i indices bs e).2.1).Perm
      (indices.zip bs) := by
  intro todo
  induction todo with
  | zero =>
      intro i indices bs e _ _ _ _
      exact List.Perm.refl _
  | succ todo ih =>
      intro i indices bs e hlen hi he ha
      simp only [reorder]
      by_cases hc : bs.getD i 0 = c
      · rw [if_pos hc]
        have hei : e ≤ i := by
          by_contra hlt
          exact ha i (le_refl _) (by omega) hc
        have hbl : (swapAt bs i e).length = bs.length := swapAt_length _ _ _
        refine (ih (i + 1) (swapAt indices i e) (swapAt bs i e) (e + 1)
          (by rw [swapAt_length, swapAt_length, hlen]) (by rw [hbl]; omega)
          (by rw [hbl]; omega) (by intro p hp1 hp2; omega)).trans ?_
        exact zip_swapAt_perm indices bs i e hlen (by omega) (by omega)
      · rw [if_neg hc]
        exact ih (i + 1) indices bs e hlen (by omega) he
          (by intro p hp1 hp2; exact ha p (by omega) hp2)

theorem clusterIndices_perm (a la b lb : List Nat) (c : Nat)
    (h : (a.zip la).Perm (b.zip lb)) :
    (clusterIndices a la c).Perm (clusterIndices b lb c) :=
  (h.filter _).map _

theorem clusterIndices_append (a la b lb : List Nat) (c : Nat) (h : a.length = la.length) :
    clusterIndices (a ++ b) (la ++ lb) c = clusterIndices a la c ++ clusterIndices b lb c := by
  simp only [clusterIndices, List.zip_append h, List.filter_append, List.map_append]

theorem clusterIndices_none (a la : List Nat) (c : Nat) (h : ∀ x ∈ la, x ≠ c) :
    clusterIndices a la c = [] := by
  simp only [clusterIndices, List.map_eq_nil_iff, List.filter_eq_nil_iff, decide_eq_true_eq]
  intro p hp
  exact h p.2 (List.of_mem_zip hp).2

theorem clusterIndices_all (a la : List Nat) (c : Nat) (hlen : a.length = la.length)
    (h : ∀ x ∈ la, x = c) : clusterIndices a la c = a := by
  simp only [clusterIndices]
  rw [List.filter_eq_self.2]
  · exact List.map_fst_zip _ _ (by omega)
  · intro p hp
    simp only [decide_eq_true_eq]
    exact h p.2 (List.of_mem_zip hp).2

/-- The chunk gathered by the pass for the label `c` holds the indices labelled
`c`, and the indices of any other label stay what they are when the chunk is
replaced by a list of the same length. -/
theorem reorder_chunk_labelled (c : Nat) (indices bs : List Nat) (start : Nat)
    (hlen : indices.length = bs.length) (hs : start ≤ bs.length)
    (hlow : ∀ p, p < start → bs.getD p 0 < c) :
    (((reorder c indices.length 0 indices bs start).1.drop start).take
        ((reorder c indices.length 0 indices bs start).2.2 - start)).Perm
        (clusterIndices indices bs c)
      ∧ ∀ c1, c1 ≠ c → ∀ (mid : List Nat),
          mid.length = (reorder c indices.length 0 indices bs start).2.2 - start →
          (clusterIndices
            ((reorder c indices.length 0 indices bs start).1.take start ++ mid
              ++ (reorder c indices.length 0 indices bs start).1.drop
                (reorder c indices.length 0 indices bs start).2.2)
            (reorder c indices.length 0 indices bs start).2.1 c1).Perm
            (clusterIndices indices bs c1) := by
  have ha : ∀ p, 0 ≤ p → p < start → bs.getD p 0 ≠ c := by
    intro p _ hp
    exact Nat.ne_of_lt (hlow p hp)
  obtain ⟨h1, h2, h3, h4, h5, h6, h7⟩ := reorder_spec c indices.length 0 indices bs start
    hlen (by omega) hs ha (by intro p _ hp; omega)
  have hz := reorder_zip c indices.length 0 indices bs start hlen (by omega) hs ha
  generalize reorder c indices.length 0 indices bs start = r at h1 h2 h3 h4 h5 h6 h7 hz
  obtain ⟨idx1, bs1, e⟩ := r
  simp only at h1 h2 h3 h4 h5 h6 h7 hz ⊢
  have hl1 : idx1.length = indices.length := h1.length_eq
  have hl2 : bs1.length = bs.length := h2.length_eq
  have hbs : bs1 = bs1.take start ++ (bs1.drop start).take (e - start) ++ bs1.drop e := by
    have : bs1.drop e = (bs1.drop start).drop (e - start) := by
      rw [List.drop_drop]
      congr 1
      omega
    rw [this, List.append_assoc, List.take_append_drop, List.take_append_drop]
  have hidx : idx1 = idx1.take start ++ (idx1.drop start).take (e - start) ++ idx1.drop e := by
    have : idx1.drop e = (idx1.drop start).drop (e - start) := by
      rw [List.drop_drop]
      congr 1
      omega
    rw [this, List.append_assoc, List.take_append_drop, List.take_append_drop]
  have hA : ∀ x ∈ bs1.take start, x ≠ c := by
    intro x hx
    obtain ⟨p, hp, rfl⟩ := mem_getD _ _ hx
    simp only [List.length_take] at hp
    rw [getD_take _ _ _ (by omega), (h5 p (by omega)).2]
    exact Nat.ne_of_lt (hlow p (by omega))
  have hM : ∀ x ∈ (bs1.drop start).take (e - start), x = c := by
    intro x hx
    obtain ⟨p, hp, rfl⟩ := mem_getD _ _ hx
    simp only [List.length_take, List.length_drop] at hp
    rw [getD_take _ _ _ (by omega), getD_drop]
    exact h6 _ (by omega) (by omega)
  have hZ : ∀ x ∈ bs1.drop e, x ≠ c := by
    intro x hx
    obtain ⟨p, hp, rfl⟩ := mem_getD _ _ hx
    simp only [List.length_drop] at hp
    rw [getD_drop]
    exact h7 _ (by omega) (by omega)
  have hlA : (idx1.take start).length = (bs1.take start).length := by
    simp only [List.length_take]
    omega
  have hlM : ((idx1.drop start).take (e - start)).length
      = ((bs1.drop start).take (e - start)).length := by
    simp only [List.length_take, List.length_drop]
    omega
  have hlMe : ((bs1.drop start).take (e - start)).length = e - start := by
    simp only [List.length_take, List.length_drop]
    omega
  refine ⟨?_, ?_⟩
  · refine List.Perm.trans ?_ (clusterIndices_perm _ _ _ _ c hz)
    have : clusterIndices idx1 bs1 c = (idx1.drop start).take (e - start) := by
      conv_lhs => rw [hidx, hbs]
      rw [clusterIndices_append _ _ _ _ _ (by rw [List.length_append, List.length_append, hlA, hlM]),
        clusterIndices_append _ _ _ _ _ hlA, clusterIndices_none _ _ _ hA,
        clusterIndices_all _ _ _ hlM hM, clusterIndices_none _ _ _ hZ]
      simp
    rw [this]
  · intro c1 hc1 mid hmid
    refine List.Perm.trans ?_ (clusterIndices_perm _ _ _ _ c1 hz)
    have hM1 : ∀ x ∈ (bs1.drop start).take (e - start), x ≠ c1 := by
      intro x hx
      rw [hM x hx]
      exact Ne.symm hc1
    have e1 : clusterIndices (idx1.take start ++ mid ++ idx1.drop e) bs1 c1
        = clusterIndices (idx1.take start) (bs1.take start) c1
          ++ clusterIndices (idx1.drop e) (bs1.drop e) c1 := by
      conv_lhs => rw [hbs]
      rw [clusterIndices_append _ _ _ _ _
          (by rw [List.length_append, List.length_append, hlA, hmid, hlMe]),
        clusterIndices_append _ _ _ _ _ hlA, clusterIndices_none _ _ _ hM1]
      simp
    have e2 : clusterIndices idx1 bs1 c1
        = clusterIndices (idx1.take start) (bs1.take start) c1
          ++ clusterIndices (idx1.drop e) (bs1.drop e) c1 := by
      conv_lhs => rw [hidx, hbs]
      rw [clusterIndices_append _ _ _ _ _
          (by rw [List.length_append, List.length_append, hlA, hlM]),
        clusterIndices_append _ _ _ _ _ hlA, clusterIndices_none _ _ _ hM1]
      simp
    rw [e1, e2]

end Chunks

end vlr

/-! ## The partition of the range of an interior node -/

namespace vlr

section Parts

variable {α δ σ : Type} [LinearOrder δ]

/-- The loop over the children, seen from the index array: with labels below
`B`, smaller than `c` before `start` and at least `c` from `start` on, the chunk
of child `c + k` is a rearrangement of the indices labelled `c + k`, the chunks
together are a rearrangement of the array from `start` on, the array before
`start` is untouched, and when the loop ends the array from `start` on consists
of one block per child, each a rearrangement of the chunk of that child. -/
theorem clusterChildrenLogged_parts
    (recurse : VocabTreeNode α → List Nat → Int → Progress α σ →
      Except Error ((VocabTreeNode α × List Nat × Progress α σ) × List Call))
    (Q : Call → Prop) (level : Int)
    (hR : ∀ node idx s out, recurse node idx (level + 1) s = .ok out →
      out.1.2.1.Perm idx
        ∧ (∃ call rest, out.2 = call :: rest ∧ call.range = idx ∧ call.level = level + 1
            ∧ ∀ c ∈ rest, level + 1 + 1 ≤ c.level)
        ∧ ∀ call ∈ out.2, Q call)
    (B : Nat) (centers : List (List α)) :
    ∀ (todo c : Nat) (indices bs : List Nat) (start : Nat) (s : Progress α σ)
      (r : (List (VocabTreeNode α) × List Nat × Progress α σ) × List (List Nat) × List Call),
      c + todo = B → indices.length = bs.length → start ≤ bs.length →
      (∀ b ∈ bs, b < B) →
      (∀ p, p < start → bs.getD p 0 < c) →
      (∀ p, start ≤ p → p < bs.length → c ≤ bs.getD p 0) →
      clusterChildrenLogged recurse centers level todo c indices bs start s = .ok r →
      r.1.2.1.Perm indices
        ∧ r.1.2.1.take start = indices.take start
        ∧ (∃ blocks : List (List Nat), blocks.length = todo
            ∧ r.1.2.1.drop start = blocks.flatten
            ∧ ∀ k, k < todo → (blocks.getD k []).Perm (r.2.1.getD k []))
        ∧ r.2.1.length = todo
        ∧ (∀ k, k < todo → (r.2.1.getD k []).Perm (clusterIndices indices bs (c + k)))
        ∧ r.2.1.flatten.Perm (indices.drop start)
        ∧ (r.2.2.filter (fun call => decide (call.level = level + 1))).map
            (fun call => call.range) = r.2.1
        ∧ ∀ call ∈ r.2.2, Q call := by
  intro todo
  induction todo with
  | zero =>
      intro c indices bs start s r hc hlen hs hb hlow hhigh h
      simp only [clusterChildrenLogged, Except.ok.injEq] at h
      subst h
      have hstart : bs.length ≤ start := by
        by_contra hlt
        have h1 := hhigh start (le_refl _) (by omega)
        have h2 := hb _ (getD_mem bs start (by omega))
        omega
      refine ⟨List.Perm.refl _, rfl, ⟨[], rfl, ?_, by intro k hk; omega⟩, rfl,
        by intro k hk; omega, ?_, by simp, by simp⟩
      · simp only [List.flatten_nil]
        exact List.drop_of_length_le (by omega)
      · rw [List.drop_of_length_le (by omega)]
        simp
  | succ todo ih =>
      intro c indices bs start s r hc hlen hs hb hlow hhigh h
      obtain ⟨h1, h2, h3, h4, h5, h6, h7, h8, h9⟩ :=
        reorder_chunk c indices bs start hlen hs hlow hhigh
      obtain ⟨g1, g2⟩ := reorder_chunk_labelled c indices bs start hlen hs hlow
      simp only [clusterChildrenLogged] at h
      generalize reorder c indices.length 0 indices bs start = ro
        at h h1 h2 h3 h4 h5 h6 h7 h8 h9 g1 g2
      obtain ⟨idx1, bs1, e⟩ := ro
      simp only at h h1 h2 h3 h4 h5 h6 h7 h8 h9 g1 g2
      split at h
      · exact absurd h (by simp)
      · rename_i done hdone
        obtain ⟨d1, ⟨call, rest0, hd, hrange, hlevel, hrest0⟩, d4⟩ := hR _ _ _ _ hdone
        split at h
        · exact absurd h (by simp)
        · rename_i rest hrest
          simp only [Except.ok.injEq] at h
          subst h
          have hl1 : idx1.length = indices.length := h1.length_eq
          have hl2 : bs1.length = bs.length := h2.length_eq
          have hdl : done.1.2.1.length = e - start := by
            rw [d1.length_eq, List.length_take, List.length_drop]
            omega
          have hpre : (idx1.take start ++ done.1.2.1).length = e := by
            rw [List.length_append, List.length_take, hdl]
            omega
          have hsplit : (idx1.drop start).take (e - start) ++ idx1.drop e = idx1.drop start := by
            have : idx1.drop e = (idx1.drop start).drop (e - start) := by
              rw [List.drop_drop]
              congr 1
              omega
            rw [this, List.take_append_drop]
          have hperm1 : (idx1.take start ++ done.1.2.1 ++ idx1.drop e).Perm idx1 := by
            have : (idx1.take start ++ done.1.2.1 ++ idx1.drop e).Perm
                (idx1.take start ++ (idx1.drop start).take (e - start) ++ idx1.drop e) :=
              List.Perm.append_right _ (List.Perm.append_left _ d1)
            refine this.trans ?_
            rw [List.append_assoc, hsplit, List.take_append_drop]
          obtain ⟨r1, r2, ⟨blocks, b1, b2, b3⟩, r4, r5, r6, r7, r8⟩ := ih (c + 1)
            (idx1.take start ++ done.1.2.1 ++ idx1.drop e) bs1 e done.1.2.2 rest
            (by omega)
            (by rw [List.length_append, hpre, List.length_drop]; omega)
            (by omega)
            (fun b hb1 => hb b (h2.subset hb1))
            h8
            (by intro p hp1 hp2; exact h9 p hp1 (by omega))
            hrest
          have hdrop : (idx1.take start ++ done.1.2.1 ++ idx1.drop e).drop e = idx1.drop e := by
            rw [← hpre]
            exact List.drop_left _ _
          have htake : (idx1.take start ++ done.1.2.1 ++ idx1.drop e).take e
              = idx1.take start ++ done.1.2.1 := by
            rw [← hpre]
            exact List.take_left _ _
          have hfin : rest.1.2.1 = idx1.take start ++ done.1.2.1 ++ rest.1.2.1.drop e := by
            conv_lhs => rw [← List.take_append_drop e rest.1.2.1, r2, htake]
          have hts : (idx1.take start).length = start := by
            rw [List.length_take]
            omega
          refine ⟨r1.trans (hperm1.trans h1), ?_, ⟨done.1.2.1 :: blocks, ?_, ?_, ?_⟩, ?_, ?_,
            ?_, ?_, ?_⟩
          · rw [hfin, List.append_assoc, ← h6]
            exact List.take_left' hts
          · simp only [List.length_cons, b1]
          · rw [hfin, List.append_assoc, List.flatten_cons, ← b2]
            exact List.drop_left' hts
          · intro k hk
            cases k with
            | zero =>
                simp only [List.getD_cons_zero]
                exact d1
            | succ k =>
                simp only [List.getD_cons_succ]
                exact b3 k (by omega)
          · simp only [List.length_cons, r4]
          · intro k hk
            cases k with
            | zero =>
                simp only [List.getD_cons_zero, Nat.add_zero]
                exact g1
            | succ k =>
                simp only [List.getD_cons_succ]
                refine (r5 k (by omega)).trans ?_
                have := g2 (c + 1 + k) (by omega) done.1.2.1 hdl
                rwa [show c + (k + 1) = c + 1 + k by omega]
          · rw [List.flatten_cons]
            rw [hdrop] at r6
            refine (List.Perm.append_left _ r6).trans ?_
            rw [hsplit]
            exact h7
          · have hnone : rest0.filter (fun call => decide (call.level = level + 1)) = [] := by
              rw [List.filter_eq_nil_iff]
              intro x hx
              have := hrest0 x hx
              simp only [decide_eq_true_eq]
              omega
            simp only [hd, List.cons_append, List.filter_cons, hlevel, decide_True, if_true,
              List.filter_append, hnone, List.nil_append, List.map_cons, r7, hrange]
          · intro x hx
            rcases List.mem_append.1 hx with hm | hm
            · exact d4 x hm
            · exact r8 x hm

theorem computeClusteringLogged_range (K : Kernel α δ σ) (t : VocabTree α σ)
    (fuel : Nat) (node : VocabTreeNode α) (idx : List Nat) (lvl : Int) (s : Progress α σ)
    (out : (VocabTreeNode α × List Nat × Progress α σ) × List Call)
    (h : computeClusteringLogged K t fuel node idx lvl s = .ok out) :
    ∃ call rest, out.2 = call :: rest ∧ call.range = idx ∧ call.level = lvl
      ∧ call.work = (if lvl > 1 then idx.insertionSort (· ≤ ·) else idx)
      ∧ call.result = out.1.2.1
      ∧ ∀ c ∈ rest, lvl + 1 ≤ c.level := by
  obtain ⟨call, rest, hc, _, hrest⟩ := computeClusteringLogged_head K t fuel node idx lvl s out h
  refine ⟨call, rest, hc, ?_⟩
  cases fuel with
  | zero => exact absurd h (by simp [computeClusteringLogged])
  | succ fuel =>
      simp only [computeClusteringLogged] at h
      generalize (if lvl > 1 then idx.insertionSort (· ≤ ·) else idx) = idx1 at h ⊢
      by_cases c1 : lvl = t.m_depth ∨ (idx1.length : Int) < t.m_branching
      · rw [if_pos c1] at h
        simp only [Except.ok.injEq] at h
        subst h
        simp only [List.cons.injEq] at hc
        rw [← hc.1]
        exact ⟨rfl, rfl, rfl, rfl, hrest⟩
      · rw [if_neg c1] at h
        by_cases c2 : ((K.chooseCenters s.rng t.m_branching idx1 t.m_dataset).1.length : Int)
            < t.m_branching
        · rw [if_pos c2] at h
          simp only [Except.ok.injEq] at h
          subst h
          simp only [List.cons.injEq] at hc
          rw [← hc.1]
          exact ⟨rfl, rfl, rfl, rfl, hrest⟩
        · rw [if_neg c2] at h
          split at h
          · exact absurd h (by simp)
          · split at h
            · exact absurd h (by simp)
            · simp only [Except.ok.injEq] at h
              subst h
              simp only [List.cons.injEq] at hc
              rw [← hc.1]
              exact ⟨rfl, rfl, rfl, rfl, hrest⟩

/-- C22. For every call of the clusterer that makes an interior node, with
`work` the range of the node when the clustering starts and `labels` the vector
`belongs_to` when the Lloyd loop ends: there is one chunk per cluster, the chunk
of child `c` is a rearrangement of the indices of `work` labelled `c`, the chunks
together are a rearrangement of `work` (so they share no entry of it and cover
it), they are handed to the calls for the children in the order `0 .. B-1`, and
when the call returns the range consists of one block per child in that order,
each block a rearrangement of the chunk of that child. -/
theorem computeClustering_partition (K : Kernel α δ σ) (t : VocabTree α σ)
    (hB : 1 ≤ t.m_branching) (fuel : Nat) (node : VocabTreeNode α) (indices : List Nat)
    (level : Int) (s : Progress α σ)
    (out : (VocabTreeNode α × List Nat × Progress α σ) × List Call)
    (call : Call) (rest : List Call)
    (h : computeClusteringLogged K t fuel node indices level s = .ok out)
    (hout : out.2 = call :: rest) (hleaf : call.leaf = false) :
    call.range = indices ∧ call.work.Perm indices
      ∧ call.labels.length = call.work.length
      ∧ (∀ b ∈ call.labels, b < t.m_branching.toNat)
      ∧ call.parts.length = t.m_branching.toNat
      ∧ (∀ c, c < t.m_branching.toNat →
          (call.parts.getD c []).Perm (clusterIndices call.work call.labels c))
      ∧ call.parts.flatten.Perm call.work
      ∧ (call.work.Nodup → call.parts.Pairwise List.Disjoint)
      ∧ (rest.filter (fun below => decide (below.level = level + 1))).map
          (fun below => below.range) = call.parts
      ∧ ∃ blocks : List (List Nat), blocks.length = t.m_branching.toNat
          ∧ out.1.2.1 = blocks.flatten
          ∧ ∀ c, c < t.m_branching.toNat →
              (blocks.getD c []).Perm (call.parts.getD c []) := by
  cases fuel with
  | zero => exact absurd h (by simp [computeClusteringLogged])
  | succ fuel =>
      simp only [computeClusteringLogged] at h
      have hsort : (if level > 1 then indices.insertionSort (· ≤ ·) else indices).Perm
          indices := by
        split
        · exact List.perm_insertionSort _ _
        · exact List.Perm.refl _
      generalize (if level > 1 then indices.insertionSort (· ≤ ·) else indices) = idx1
        at h hsort
      by_cases c1 : level = t.m_depth ∨ (idx1.length : Int) < t.m_branching
      · rw [if_pos c1] at h
        simp only [Except.ok.injEq] at h
        subst h
        simp only [List.cons.injEq] at hout
        rw [← hout.1] at hleaf
        simp at hleaf
      · rw [if_neg c1] at h
        by_cases c2 : ((K.chooseCenters s.rng t.m_branching idx1 t.m_dataset).1.length : Int)
            < t.m_branching
        · rw [if_pos c2] at h
          simp only [Except.ok.injEq] at h
          subst h
          simp only [List.cons.injEq] at hout
          rw [← hout.1] at hleaf
          simp at hleaf
        · rw [if_neg c2] at h
          have hn : t.m_branching.toNat ≤ idx1.length := by
            have : ¬ (idx1.length : Int) < t.m_branching := fun hlt => c1 (Or.inr hlt)
            omega
          have hstart := initialAssignment_inv K t.m_dataset t.m_veclen t.m_branching hB
            (initCenters t.m_dataset t.m_branching
              (K.chooseCenters s.rng t.m_branching idx1 t.m_dataset).1) idx1
          split at h
          · exact absurd h (by simp)
          · rename_i final hfinal
            obtain ⟨hinv, _⟩ := lloydLoop_inv K t.m_dataset t.m_veclen t.m_branching hB idx1 hn
              _ _ final hstart hfinal
            split at h
            · exact absurd h (by simp)
            · rename_i r hr
              simp only [Except.ok.injEq] at h
              subst h
              simp only [List.cons.injEq] at hout
              obtain ⟨hcall, hrest⟩ := hout
              subst hcall
              subst hrest
              obtain ⟨r1, r2, ⟨blocks, b1, b2, b3⟩, r4, r5, r6, r7, _⟩ :=
                clusterChildrenLogged_parts (computeClusteringLogged K t fuel)
                  (fun _ => True) level
                  (fun node idx s out ho => by
                    obtain ⟨p1, _, _, _⟩ := computeClusteringLogged_spec K t hB fuel node idx
                      (level + 1) s out ho
                    obtain ⟨call, rest, q1, q2, q3, _, _, q6⟩ :=
                      computeClusteringLogged_range K t fuel node idx (level + 1) s out ho
                    exact ⟨p1, ⟨call, rest, q1, q2, q3, q6⟩, fun _ _ => trivial⟩)
                  t.m_branching.toNat _ t.m_branching.toNat 0 idx1 final.belongs_to 0 _ r
                  (by omega) hinv.labels.symm (by omega) hinv.bound (by intro p hp; omega)
                  (by intro p _ _; omega) hr
              simp only [List.drop_zero, Nat.zero_add] at b2 r5 r6
              refine ⟨rfl, hsort, hinv.labels, hinv.bound, r4, r5, r6, ?_, r7,
                ⟨blocks, b1, b2, b3⟩⟩
              intro hnd
              exact (List.nodup_flatten.1 ((r6.nodup_iff).2 hnd)).2

theorem computeClustering_partition_witness :
    (∀ c, c < (2 : Int).toNat →
        (([[0, 1, 2, 3, 4], [5, 6, 7]] : List (List Nat)).getD c []).Perm
          (clusterIndices [0, 1, 2, 3, 4, 5, 6, 7] [0, 0, 0, 0, 0, 1, 1, 1] c))
      ∧ (exampleCalls.tail.filter (fun below => decide (below.level = 0 + 1))).map
          (fun below => below.range) = [[0, 1, 2, 3, 4], [5, 6, 7]]
      ∧ ∃ blocks : List (List Nat), blocks.length = (2 : Int).toNat
          ∧ [0, 3, 1, 2, 4, 5, 6, 7] = blocks.flatten
          ∧ ∀ c, c < (2 : Int).toNat →
              (blocks.getD c []).Perm
                (([[0, 1, 2, 3, 4], [5, 6, 7]] : List (List Nat)).getD c []) :=
  have h := computeClustering_partition (binKernel firstCenters) exampleTree (by decide) 3
    ((VocabTreeNode.new : VocabTreeNode Nat).setCenter [0]) (List.range 8) 0
    { m_size := 0, m_words := [], rng := () }
    ((exampleRoot, [0, 3, 1, 2, 4, 5, 6, 7],
      { m_size := 7, m_words := exampleWords, rng := () }), exampleCalls)
    { level := 0, node_id := 0, range := [0, 1, 2, 3, 4, 5, 6, 7],
      work := [0, 1, 2, 3, 4, 5, 6, 7], leaf := false,
      labels := [0, 0, 0, 0, 0, 1, 1, 1], count := [5, 3],
      parts := [[0, 1, 2, 3, 4], [5, 6, 7]], result := [0, 3, 1, 2, 4, 5, 6, 7] }
    exampleCalls.tail (by rfl) rfl rfl
  ⟨h.2.2.2.2.2.1, h.2.2.2.2.2.2.2.2.1, h.2.2.2.2.2.2.2.2.2⟩

end Parts

end vlr

/-! ## The sorting of the range -/

namespace vlr

section Sorting

variable {α δ σ : Type} [LinearOrder δ]

theorem clusterChildrenLogged_forall
    (recurse : VocabTreeNode α → List Nat → Int → Progress α σ →
      Except Error ((VocabTreeNode α × List Nat × Progress α σ) × List Call))
    (Q : Call → Prop)
    (hR : ∀ node idx lvl s out, recurse node idx lvl s = .ok out → ∀ call ∈ out.2, Q call)
    (centers : List (List α)) (level : Int) :
    ∀ (todo c : Nat) (indices bs : List Nat) (start : Nat) (s : Progress α σ)
      (r : (List (VocabTreeNode α) × List Nat × Progress α σ) × List (List Nat) × List Call),
      clusterChildrenLogged recurse centers level todo c indices bs start s = .ok r →
      ∀ call ∈ r.2.2, Q call := by
  intro todo
  induction todo with
  | zero =>
      intro c indices bs start s r h
      simp only [clusterChildrenLogged, Except.ok.injEq] at h
      subst h
      simp
  | succ todo ih =>
      intro c indices bs start s r h
      simp only [clusterChildrenLogged] at h
      split at h
      · exact absurd h (by simp)
      · rename_i done hdone
        split at h
        · exact absurd h (by simp)
        · rename_i rest hrest
          simp only [Except.ok.injEq] at h
          subst h
          intro call hcall
          rcases List.mem_append.1 hcall with hm | hm
          · exact hR _ _ _ _ _ hdone call hm
          · exact ih _ _ _ _ _ _ hrest call hm

theorem computeClusteringLogged_sorted (K : Kernel α δ σ) (t : VocabTree α σ) :
    ∀ (fuel : Nat) (node : VocabTreeNode α) (idx : List Nat) (lvl : Int)
      (s : Progress α σ)
      (out : (VocabTreeNode α × List Nat × Progress α σ) × List Call),
      computeClusteringLogged K t fuel node idx lvl s = .ok out →
      ∀ call ∈ out.2, call.work.Perm call.range
        ∧ (1 < call.level → call.work.Sorted (· ≤ ·))
        ∧ (call.level ≤ 1 → call.work = call.range) := by
  intro fuel
  induction fuel with
  | zero =>
      intro node idx lvl s out h
      exact absurd h (by simp [computeClusteringLogged])
  | succ fuel ih =>
      intro node idx lvl s out h
      obtain ⟨call, rest, hc, q1, q2, q3, _, _⟩ :=
        computeClusteringLogged_range K t (fuel + 1) node idx lvl s out h
      have hhead : call.work.Perm call.range
          ∧ (1 < call.level → call.work.Sorted (· ≤ ·))
          ∧ (call.level ≤ 1 → call.work = call.range) := by
        rw [q1, q2, q3]
        refine ⟨?_, ?_, ?_⟩
        · split
          · exact List.perm_insertionSort _ _
          · exact List.Perm.refl _
        · intro hl
          rw [if_pos hl]
          exact List.sorted_insertionSort _ _
        · intro hl
          rw [if_neg (by omega)]
      simp only [computeClusteringLogged] at h
      generalize (if lvl > 1 then idx.insertionSort (· ≤ ·) else idx) = idx1 at h
      intro x hx
      rw [hc] at hx
      rcases List.mem_cons.1 hx with hx | hx
      · rw [hx]
        exact hhead
      · by_cases c1 : lvl = t.m_depth ∨ (idx1.length : Int) < t.m_branching
        · rw [if_pos c1] at h
          simp only [Except.ok.injEq] at h
          subst h
          simp only [List.cons.injEq] at hc
          rw [← hc.2] at hx
          simp at hx
        · rw [if_neg c1] at h
          by_cases c2 : ((K.chooseCenters s.rng t.m_branching idx1 t.m_dataset).1.length : Int)
              < t.m_branching
          · rw [if_pos c2] at h
            simp only [Except.ok.injEq] at h
            subst h
            simp only [List.cons.injEq] at hc
            rw [← hc.2] at hx
            simp at hx
          · rw [if_neg c2] at h
            split at h
            · exact absurd h (by simp)
            · split at h
              · exact absurd h (by simp)
              · rename_i r hr
                simp only [Except.ok.injEq] at h
                subst h
                simp only [List.cons.injEq] at hc
                rw [← hc.2] at hx
                exact clusterChildrenLogged_forall (computeClusteringLogged K t fuel) _
                  (fun node idx lvl s out ho => ih node idx lvl s out ho) _ _ _ _ _ _ _ _ r hr
                  x hx

end Sorting

end vlr

/-! ## The end of the Lloyd loop -/

namespace vlr

section ReassignFlag

variable {α δ : Type}

theorem reassign_converged (near : List α → Nat × δ) (data : Mat α) :
    ∀ (indices bs : List Nat) (ds : List δ) (count : List Int) (conv : Bool),
      indices.length = bs.length → ds.length = bs.length →
      ((reassign near data indices bs ds count conv).2.2.2 = true
        ↔ conv = true ∧ (reassign near data indices bs ds count conv).1 = bs) := by
  intro indices
  induction indices with
  | nil =>
      intro bs ds count conv hi hd
      cases bs with
      | nil => simp [reassign]
      | cons b bs => simp at hi
  | cons idx indices ih =>
      intro bs ds count conv hi hd
      cases bs with
      | nil => simp at hi
      | cons b bs =>
          cases ds with
          | nil => simp at hd
          | cons d ds =>
              simp only [List.length_cons, Nat.add_right_cancel_iff] at hi hd
              simp only [reassign]
              split
              · rename_i hne
                have := ih bs ds (addAt (addAt count b (-1)) (near (data.row idx)).1 1) false
                  hi hd
                simp only [this, Bool.false_eq_true, false_and, false_iff, not_and,
                  List.cons.injEq]
                intro _ hcon
                exact absurd hcon hne
              · have := ih bs ds count conv hi hd
                simp only [this, List.cons.injEq, true_and]

end ReassignFlag

section LloydStop

variable {α δ σ : Type} [LinearOrder δ]

theorem lloydIteration_converged (K : Kernel α δ σ) (data : Mat α) (veclen : Nat) (B : Int)
    (indices : List Nat) (s s1 : Lloyd α δ) (hs : LloydInv B.toNat indices.length s)
    (h : lloydIteration K data veclen B indices s = .ok s1) :
    s1.converged = true ↔ reassignedLabels K data veclen B indices s = s.belongs_to := by
  simp only [lloydIteration] at h
  split at h
  · exact absurd h (by simp)
  · simp only [Except.ok.injEq] at h
    subst h
    simp only [reassignedLabels]
    rw [reassign_converged _ _ _ _ _ _ _ hs.labels.symm (by rw [hs.dists, hs.labels])]
    simp

theorem lloydLoopLogged_erase (K : Kernel α δ σ) (data : Mat α) (veclen : Nat) (B : Int)
    (indices : List Nat) :
    ∀ (cap : Nat) (s : Lloyd α δ),
      (lloydLoopLogged K data veclen B indices cap s).map Prod.fst
        = lloydLoop K data veclen B indices cap s := by
  intro cap
  induction cap with
  | zero => intro s; rfl
  | succ cap ih =>
      intro s
      simp only [lloydLoopLogged, lloydLoop]
      split
      · rfl
      · cases hit : lloydIteration K data veclen B indices s with
        | error e => rfl
        | ok s1 =>
            simp only
            rw [← ih s1]
            cases lloydLoopLogged K data veclen B indices cap s1 with
            | error e => rfl
            | ok r => rfl

/-- The log of a Lloyd loop of at most `cap` iterations: it holds at most `cap`
states, each the result of one iteration on the state before it, which was not
converged; the loop ends in the last state, and it ends unconverged only after
`cap` iterations; `converged` is set after an iteration exactly when its
reassignment left every label as it was. -/
theorem lloydLoopLogged_spec (K : Kernel α δ σ) (data : Mat α) (veclen : Nat) (B : Int)
    (hB : 1 ≤ B) (indices : List Nat) (hn : B.toNat ≤ indices.length) :
    ∀ (cap : Nat) (s final : Lloyd α δ) (trace : List (Lloyd α δ)),
      LloydInv B.toNat indices.length s →
      lloydLoopLogged K data veclen B indices cap s = .ok (final, trace) →
      trace.length ≤ cap
        ∧ (s :: trace).getLast? = some final
        ∧ (final.converged = false → trace.length = cap)
        ∧ ∀ k, k < trace.length →
            ((s :: trace).getD k s).converged = false
              ∧ lloydIteration K data veclen B indices ((s :: trace).getD k s)
                  = .ok (trace.getD k s)
              ∧ ((trace.getD k s).converged = true
                  ↔ reassignedLabels K data veclen B indices ((s :: trace).getD k s)
                      = ((s :: trace).getD k s).belongs_to) := by
  intro cap
  induction cap with
  | zero =>
      intro s final trace hs h
      simp only [lloydLoopLogged, Except.ok.injEq, Prod.mk.injEq] at h
      obtain ⟨h1, h2⟩ := h
      subst h1
      subst h2
      exact ⟨le_refl _, rfl, fun _ => rfl, by intro k hk; simp at hk⟩
  | succ cap ih =>
      intro s final trace hs h
      simp only [lloydLoopLogged] at h
      by_cases hconv : s.converged = true
      · rw [if_pos hconv] at h
        simp only [Except.ok.injEq, Prod.mk.injEq] at h
        obtain ⟨h1, h2⟩ := h
        subst h1
        subst h2
        refine ⟨Nat.zero_le _, rfl, ?_, by intro k hk; simp at hk⟩
        intro hf
        rw [hconv] at hf
        exact absurd hf (by simp)
      · rw [if_neg hconv] at h
        split at h
        · exact absurd h (by simp)
        · rename_i s1 hs1
          split at h
          · exact absurd h (by simp)
          · rename_i r hr
            simp only [Except.ok.injEq, Prod.mk.injEq] at h
            obtain ⟨h1, h2⟩ := h
            subst h1
            subst h2
            obtain ⟨hinv1, _, _⟩ := lloydIteration_inv K data veclen B hB indices hn s s1
              hs hs1
            obtain ⟨q1, q2, q3, q4⟩ := ih s1 r.1 r.2 hinv1 hr
            refine ⟨by simp only [List.length_cons]; omega, ?_, ?_, ?_⟩
            · rw [List.getLast?_cons_cons]
              exact q2
            · intro hf
              simp only [List.length_cons]
              rw [q3 hf]
            · intro k hk
              cases k with
              | zero =>
                  simp only [List.getD_cons_zero]
                  refine ⟨by simpa using hconv, hs1, ?_⟩
                  exact lloydIteration_converged K data veclen B indices s s1 hs hs1
              | succ k =>
                  simp only [List.length_cons, Nat.add_lt_add_iff_right] at hk
                  obtain ⟨p1, p2, p3⟩ := q4 k hk
                  simp only [List.getD_cons_succ]
                  have e1 : (s1 :: r.2).getD k s = (s1 :: r.2).getD k s1 := by
                    simp only [List.getD_eq_getElem?_getD]
                    rw [List.getElem?_eq_getElem (by simp only [List.length_cons]; omega)]
                    rfl
                  have e2 : r.2.getD k s = r.2.getD k s1 := by
                    simp only [List.getD_eq_getElem?_getD]
                    rw [List.getElem?_eq_getElem hk]
                    rfl
                  rw [e1, e2]
                  exact ⟨p1, p2, p3⟩

/-- C24, as the code has it. On a tree constructed with `maxIterations`, the
Lloyd loop of an interior node (at least `B` points, working vectors as the
initial assignment leaves them) runs at most `maxIterations` iterations, at most
`INT_MAX` when `maxIterations` is negative; every iteration starts from
unconverged working vectors, the loop ends in the state after the last
iteration, and it ends unconverged only when the cap is reached. After an
iteration `converged` is true if and only if the reassignment of that iteration
left every `belongs_to[i]` as it was; the labels moved afterwards by the
handling of empty clusters are not looked at. -/
theorem lloydLoop_stops (K : Kernel α δ σ) (data : Mat α)
    (branching depth maxIterations : Int) (seed : σ) (hB : 1 ≤ branching)
    (indices : List Nat) (hn : branching.toNat ≤ indices.length)
    (s final : Lloyd α δ) (trace : List (Lloyd α δ))
    (hs : LloydInv branching.toNat indices.length s)
    (h : lloydLoopLogged K data data.cols branching indices
      (VocabTree.new data branching depth maxIterations seed).m_iterations.toNat s
        = .ok (final, trace)) :
    lloydLoop K data data.cols branching indices
        (VocabTree.new data branching depth maxIterations seed).m_iterations.toNat s
        = .ok final
      ∧ (trace.length : Int) ≤ (if maxIterations < 0 then INT_MAX else maxIterations)
      ∧ (s :: trace).getLast? = some final
      ∧ (final.converged = false → 0 ≤ maxIterations →
          (trace.length : Int) = maxIterations)
      ∧ (final.converged = false → maxIterations < 0 →
          (trace.length : Int) = INT_MAX)
      ∧ ∀ k, k < trace.length →
          ((s :: trace).getD k s).converged = false
            ∧ lloydIteration K data data.cols branching indices ((s :: trace).getD k s)
                = .ok (trace.getD k s)
            ∧ ((trace.getD k s).converged = true
                ↔ reassignedLabels K data data.cols branching indices ((s :: trace).getD k s)
                    = ((s :: trace).getD k s).belongs_to) := by
  obtain ⟨q1, q2, q3, q4⟩ := lloydLoopLogged_spec K data data.cols branching hB indices hn
    _ s final trace hs h
  refine ⟨?_, ?_, q2, ?_, ?_, q4⟩
  · rw [← lloydLoopLogged_erase, h]
    rfl
  · simp only [VocabTree.new, INT_MAX] at q1 ⊢
    split at q1 <;> rename_i hneg
    · rw [if_pos hneg]
      omega
    · rw [if_neg hneg]
      omega
  · intro hf hpos
    have := q3 hf
    simp only [VocabTree.new] at this
    rw [if_neg (by omega)] at this
    omega
  · intro hf hneg
    have := q3 hf
    simp only [VocabTree.new] at this
    rw [if_pos hneg] at this
    simp only [INT_MAX] at this ⊢
    omega

theorem lloydLoop_stops_witness :
    lloydLoop (binKernel firstCenters) exampleDataNear exampleDataNear.cols 2 [0, 1, 2, 3]
        (VocabTree.new exampleDataNear 2 1 10 ()).m_iterations.toNat exampleNearStart
        = .ok exampleNearEnd
      ∧ (([exampleNearEnd].length : Nat) : Int) ≤ (if (10 : Int) < 0 then INT_MAX else 10)
      ∧ (exampleNearEnd.converged = true
          ↔ reassignedLabels (binKernel firstCenters) exampleDataNear exampleDataNear.cols 2
              [0, 1, 2, 3] exampleNearStart = exampleNearStart.belongs_to) :=
  have h := lloydLoop_stops (binKernel firstCenters) exampleDataNear 2 1 10 () (by decide)
    [0, 1, 2, 3] (by decide) exampleNearStart exampleNearEnd [exampleNearEnd]
    (initialAssignment_inv (binKernel firstCenters) exampleDataNear 1 2 (by decide)
      (initCenters exampleDataNear 2 [0, 1]) [0, 1, 2, 3])
    (by rfl)
  ⟨h.1, h.2.1, (h.2.2.2.2.2 0 (by decide)).2.2⟩

/-- C24, a run against the claim as it is worded: from the working vectors
`exampleNearStart` one iteration moves the last point from cluster 0 to
cluster 1 (by the handling of the empty cluster), yet `converged` is true after
it and the loop stops. -/
theorem lloydLoop_stops_counterexample :
    initialAssignment (binKernel firstCenters) exampleDataNear 1 2
        (initCenters exampleDataNear 2 [0, 1]) [0, 1, 2, 3] = exampleNearStart
      ∧ lloydIteration (binKernel firstCenters) exampleDataNear 1 2 [0, 1, 2, 3]
          exampleNearStart = .ok exampleNearEnd
      ∧ exampleNearEnd.belongs_to ≠ exampleNearStart.belongs_to
      ∧ exampleNearEnd.converged = true
      ∧ lloydLoop (binKernel firstCenters) exampleDataNear 1 2 [0, 1, 2, 3] 10
          exampleNearStart = .ok exampleNearEnd :=
  ⟨by rfl, by rfl, by decide, rfl, by rfl⟩

end LloydStop

end vlr

/-! ## Loading a pre-order sequence of records -/

namespace vlr

section LoadRecords

variable {α : Type}

theorem loadChildren_rebuilds (W : Writer α) (veclen : Nat)
    (recurseL : List (Line α) → VocabTreeNode α → List (VocabTreeNode α) →
      Except Error (VocabTreeNode α × List (Line α) × List (VocabTreeNode α)))
    (recurseR : List (Record α) →
      Option (VocabTreeNode α × List (Record α) × List (VocabTreeNode α)))
    (hrec : ∀ recs out, (∀ r ∈ recs, r.center.length = veclen) → recurseR recs = some out →
      (∀ r ∈ out.2.1, r.center.length = veclen)
        ∧ ∀ other words, recurseL (recordLines W veclen recs ++ other) VocabTreeNode.new words
          = .ok (out.1, recordLines W veclen out.2.1 ++ other, words ++ out.2.2)) :
    ∀ (todo : Nat) (recs : List (Record α))
      (out : List (VocabTreeNode α) × List (Record α) × List (VocabTreeNode α)),
      (∀ r ∈ recs, r.center.length = veclen) →
      rebuildChildren recurseR todo recs = some out →
      (∀ r ∈ out.2.1, r.center.length = veclen)
        ∧ out.1.length = todo
        ∧ ∀ other words,
            loadChildren recurseL todo (recordLines W veclen recs ++ other) words
              = .ok (out.1, recordLines W veclen out.2.1 ++ other, words ++ out.2.2) := by
  intro todo
  induction todo with
  | zero =>
      intro recs out hc h
      simp only [rebuildChildren, Option.some.injEq] at h
      subst h
      exact ⟨hc, rfl, fun other words => by simp [loadChildren]⟩
  | succ todo ih =>
      intro recs out hc h
      simp only [rebuildChildren] at h
      split at h
      · exact absurd h (by simp)
      · rename_i first hfirst
        split at h
        · exact absurd h (by simp)
        · rename_i others hothers
          simp only [Option.some.injEq] at h
          subst h
          obtain ⟨f1, f2⟩ := hrec recs first hc hfirst
          obtain ⟨o1, o2, o3⟩ := ih first.2.1 others f1 hothers
          refine ⟨o1, by simp [o2], ?_⟩
          intro other words
          simp only [loadChildren, f2 other words, o3 other (words ++ first.2.2),
            List.append_assoc]

/-- C25. Whenever a sequence of node records with centres of `veclen` elements
starts with the pre-order records of a tree in the sense of the spec (a record
with `wordId == -1` followed by the records of exactly `B` subtrees, a record
with `wordId >= 0` alone), `load_tree` on the lines of these records returns
that tree: interior nodes with their `B` children in child-index order, leaves
without children. It stops at the first line after the records of the tree and
appends the leaves to the words in the order they were read. -/
theorem load_tree_rebuilds (W : Writer α) (zero : α) (veclen : Nat) (B : Int)
    (hB : 0 ≤ B) (hW : ∀ c, (W.split c).flatten = c) :
    ∀ (fuel : Nat) (recs : List (Record α))
      (out : VocabTreeNode α × List (Record α) × List (VocabTreeNode α)),
      (∀ r ∈ recs, r.center.length = veclen) →
      rebuild B.toNat fuel recs = some out →
      (∀ r ∈ out.2.1, r.center.length = veclen)
        ∧ ∀ other words,
            load_tree zero veclen B fuel (recordLines W veclen recs ++ other)
                VocabTreeNode.new words
              = .ok (out.1, recordLines W veclen out.2.1 ++ other, words ++ out.2.2) := by
  intro fuel
  induction fuel with
  | zero =>
      intro recs out _ h
      exact absurd h (by simp [rebuild])
  | succ fuel ih =>
      intro recs out hc h
      cases recs with
      | nil => exact absurd h (by simp [rebuild])
      | cons r rest =>
          have hr : r.center.length = veclen := hc r (List.mem_cons_self _ _)
          have hrest : ∀ x ∈ rest, x.center.length = veclen :=
            fun x hx => hc x (List.mem_cons_of_mem _ hx)
          simp only [rebuild] at h
          by_cases hw : r.word_id = -1
          · rw [if_pos hw] at h
            split at h
            · exact absurd h (by simp)
            · rename_i below hbelow
              simp only [Option.some.injEq] at h
              subst h
              obtain ⟨b1, b2, b3⟩ := loadChildren_rebuilds W veclen
                (load_tree zero veclen B fuel) (rebuild B.toNat fuel)
                (fun recs out hc1 ho => ih recs out hc1 ho) B.toNat rest below hrest hbelow
              refine ⟨b1, ?_⟩
              intro other words
              simp only [recordLines, List.append_assoc, load_tree,
                readNode_record W zero veclen r.center r.node_id r.word_id _ (hW r.center) hr]
              simp only [VocabTreeNode.word_id, hw, decide_True, Bool.true_eq_false, if_false,
                if_neg (not_lt.2 hB), b3 other words]
              simp [VocabTreeNode.setChildren, VocabTreeNode.node_id, VocabTreeNode.center,
                VocabTreeNode.word_id]
          · rw [if_neg hw] at h
            by_cases hp : 0 ≤ r.word_id
            · rw [if_pos hp] at h
              simp only [Option.some.injEq] at h
              subst h
              refine ⟨hrest, ?_⟩
              intro other words
              simp only [recordLines, List.append_assoc, load_tree,
                readNode_record W zero veclen r.center r.node_id r.word_id _ (hW r.center) hr]
              simp [VocabTreeNode.word_id, hw, VocabTreeNode.setChildren,
                VocabTreeNode.node_id, VocabTreeNode.center]
            · rw [if_neg hp] at h
              exact absurd h (by simp)

theorem load_tree_rebuilds_witness :
    (∀ c : List Nat, (exampleWriter.split c).flatten = c)
      ∧ rebuild (2 : Int).toNat 3 exampleRecords = some (exampleRoot, [], exampleWords)
      ∧ ∀ other words,
          load_tree 0 1 2 3 (recordLines exampleWriter 1 exampleRecords ++ other)
              VocabTreeNode.new words
            = .ok (exampleRoot, recordLines exampleWriter 1 [] ++ other,
                words ++ exampleWords) :=
  ⟨fun c => by simp [exampleWriter], by rfl,
    (load_tree_rebuilds exampleWriter 0 1 2 (by decide) (fun c => by simp [exampleWriter]) 3
      exampleRecords (exampleRoot, [], exampleWords) (by decide) (by rfl)).2⟩

end LoadRecords

end vlr

/-! ## Loading a file that ends early -/

namespace vlr

section Truncated

variable {α σ : Type}

/-- At the end of the stream the line loop of `load_tree` leaves the word id of
a fresh node at `-1`, so the node is taken for an interior node and the method
calls itself for its first child, again at the end of the stream: no budget of
nested calls is enough. -/
theorem load_tree_at_end (zero : α) (veclen : Nat) (B : Int) (hB : 1 ≤ B) :
    ∀ (fuel : Nat) (node : VocabTreeNode α) (words : List (VocabTreeNode α)),
      node.word_id = -1 →
      load_tree zero veclen B fuel [] node words = .error .fuel := by
  intro fuel
  induction fuel with
  | zero => intro node words _; rfl
  | succ fuel ih =>
      intro node words hw
      obtain ⟨k, hk⟩ : ∃ k, B.toNat = k + 1 := ⟨B.toNat - 1, by omega⟩
      simp only [load_tree, readNode, hw, decide_True, Bool.true_eq_false, if_false,
        if_neg (show ¬ B < 0 by omega), hk, loadChildren,
        ih VocabTreeNode.new words rfl]

theorem load_tree_leaf_step (zero : α) (veclen : Nat) (B : Int) (fuel : Nat)
    (lines rest : List (Line α)) (node r : VocabTreeNode α) (words : List (VocabTreeNode α))
    (hread : readNode zero veclen lines node Scan.init = .ok (r, rest))
    (hw : r.word_id ≠ -1) :
    load_tree zero veclen B (fuel + 1) lines node words
      = .ok (r.setChildren none, rest, words ++ [r.setChildren none]) := by
  simp only [load_tree, hread, hw, decide_False, if_true]

theorem load_tree_interior_step (zero : α) (veclen : Nat) (B : Int) (hB : 0 ≤ B) (fuel : Nat)
    (lines rest : List (Line α)) (node r : VocabTreeNode α) (words : List (VocabTreeNode α))
    (hread : readNode zero veclen lines node Scan.init = .ok (r, rest))
    (hw : r.word_id = -1) :
    load_tree zero veclen B (fuel + 1) lines node words
      = match loadChildren (load_tree zero veclen B fuel) B.toNat rest words with
        | .error e => .error e
        | .ok below => .ok (r.setChildren (some below.1), below.2.1, below.2.2) := by
  simp only [load_tree, hread, hw, decide_True, Bool.true_eq_false, if_false,
    if_neg (not_lt.2 hB)]

/-- C26, what the code does. On a file that ends after the header, and on a file
with an interior root and one child record where two are due, `load` returns for
no budget of nested calls of `load_tree`: the recursion goes on without end. It
does not fail with ParseError. -/
theorem load_truncated_diverges :
    (∀ fuel, load 0 fuel exampleFileNoNodes exampleTree = .error .fuel)
      ∧ (∀ fuel, load 0 fuel exampleFileShort exampleTree = .error .fuel)
      ∧ (∀ fuel, load 0 fuel exampleFileNoNodes exampleTree ≠ .error .parseError)
      ∧ (∀ fuel, load 0 fuel exampleFileShort exampleTree ≠ .error .parseError) := by
  have h1 : ∀ fuel, load 0 fuel exampleFileNoNodes exampleTree = .error .fuel := by
    intro fuel
    simp only [load, exampleFileNoNodes, readHeader]
    rw [load_tree_at_end 0 _ 2 (by decide) fuel VocabTreeNode.new _ rfl]
  have h2 : ∀ fuel, load 0 fuel exampleFileShort exampleTree = .error .fuel := by
    intro fuel
    simp only [load, exampleFileShort, readHeader]
    cases fuel with
    | zero => rfl
    | succ fuel =>
        cases fuel with
        | zero => rfl
        | succ fuel =>
            rw [load_tree_interior_step (0 : Nat) 1 2 (by decide) (fuel + 1) _
              [.start, .center, .rows 1, .cols 1, .dt false, .data [1] true, .nodeId 1,
                .wordId 0]
              VocabTreeNode.new (.mk 0 [0] none (-1)) _ (by rfl) rfl]
            have hk : (2 : Int).toNat = 1 + 1 := rfl
            rw [hk]
            simp only [loadChildren]
            rw [load_tree_leaf_step (0 : Nat) 1 2 fuel _ [] VocabTreeNode.new
              (.mk 1 [1] none 0) _ (by rfl) (by decide)]
            simp only
            rw [load_tree_at_end (0 : Nat) 1 2 (by decide) (fuel + 1) VocabTreeNode.new _ rfl]
  refine ⟨h1, h2, ?_, ?_⟩
  · intro fuel
    rw [h1 fuel]
    simp
  · intro fuel
    rw [h2 fuel]
    simp

end Truncated

end vlr

/-! ## The repair always finds a point -/

namespace vlr

section RepairTotal

variable {α δ σ : Type} [LinearOrder δ]

theorem farthestPoint_some (max_k : Nat) :
    ∀ (bs : List Nat) (ds : List δ) (i : Nat) (maxDist : δ) (cur : Option Nat),
      (cur.isSome = true
        ∨ ∃ (p : Nat) (d : δ), bs[p]? = some max_k ∧ ds[p]? = some d ∧ maxDist < d) →
      ∃ r, farthestPoint max_k bs ds i maxDist cur = some r := by
  intro bs
  induction bs with
  | nil =>
      intro ds i maxDist cur h
      rcases h with h | ⟨p, d, hp, _⟩
      · simp only [farthestPoint]
        exact Option.isSome_iff_exists.1 h
      · simp at hp
  | cons b bs ih =>
      intro ds i maxDist cur h
      cases ds with
      | nil =>
          rcases h with h | ⟨p, d, _, hd, _⟩
          · simp only [farthestPoint]
            exact Option.isSome_iff_exists.1 h
          · simp at hd
      | cons d0 ds =>
          simp only [farthestPoint]
          split
          · exact ih ds (i + 1) d0 (some i) (Or.inl rfl)
          · rename_i hc
            apply ih ds (i + 1) maxDist cur
            rcases h with h | ⟨p, d, hp, hd, hlt⟩
            · exact Or.inl h
            · cases p with
              | zero =>
                  simp only [List.getElem?_cons_zero, Option.some.injEq] at hp hd
                  subst hp
                  subst hd
                  exact absurd ⟨rfl, hlt⟩ hc
              | succ p =>
                  simp only [List.getElem?_cons_succ] at hp hd
                  exact Or.inr ⟨p, d, hp, hd, hlt⟩

/-- One repair: with `count` in agreement with the labels, cluster `k` empty and
position `idx` in the biggest cluster, moving `idx` to `k` keeps the agreement
and leaves the clusters up to `k` with a member. -/
theorem repair_step (B : Int) (hB : 1 ≤ B) (n : Nat) (hn : B.toNat ≤ n) (k : Nat)
    (hkB : k < B.toNat) (bs : List Nat) (count : List Int) (hlen : bs.length = n)
    (hcl : count.length = B.toNat) (hb : ∀ b ∈ bs, b < B.toNat)
    (hag : ∀ c, c < B.toNat → count.getD c 0 = (bs.count c : Int))
    (hpos : ∀ c, c < k → 1 ≤ count.getD c 0) (h0 : count.getD k 0 = 0)
    (idx : Nat) (hidx : idx < bs.length) (hget : bs[idx] = biggestCluster B count) :
    (bs.set idx k).length = n
      ∧ (addAt (addAt count (biggestCluster B count) (-1)) k 1).length = B.toNat
      ∧ (∀ b ∈ bs.set idx k, b < B.toNat)
      ∧ (∀ c, c < B.toNat →
          (addAt (addAt count (biggestCluster B count) (-1)) k 1).getD c 0
            = ((bs.set idx k).count c : Int))
      ∧ ∀ c, c < k + 1 →
          1 ≤ (addAt (addAt count (biggestCluster B count) (-1)) k 1).getD c 0 := by
  obtain ⟨hm1, hm2⟩ := biggestCluster_spec B hB count
  have hcount0 : bs.count k = 0 := by
    have := hag k hkB
    omega
  have htwo : 2 ≤ bs.count (biggestCluster B count) :=
    biggest_has_two B.toNat bs hb (by omega) k _ hkB hcount0 (by
      intro c hc
      have h1 := hm2 c hc
      rw [hag c hc, hag _ hm1] at h1
      exact_mod_cast h1)
  have hmk : biggestCluster B count ≠ k := by
    intro e
    rw [e] at htwo
    omega
  have hc1 : ∀ c, (addAt (addAt count (biggestCluster B count) (-1)) k 1).getD c 0
      = count.getD c 0 + (if c = biggestCluster B count then -1 else 0)
        + (if c = k then 1 else 0) := by
    intro c
    rw [addAt_getD _ _ _ _ (by rw [addAt_length, hcl]; exact hkB),
      addAt_getD _ _ _ _ (by rw [hcl]; exact hm1)]
  refine ⟨by simp [hlen], by rw [addAt_length, addAt_length, hcl], ?_, ?_, ?_⟩
  · intro b hb1
    rcases List.mem_or_eq_of_mem_set hb1 with h2 | h2
    · exact hb b h2
    · rw [h2]; exact hkB
  · intro c hc
    have hc2 : (bs.set idx k).count c
        = bs.count c - (if biggestCluster B count = c then 1 else 0)
          + (if k = c then 1 else 0) := by
      rw [List.count_set _ _ _ _ hidx, hget]
      simp only [beq_iff_eq]
    rw [hc1, hc2, hag c hc]
    by_cases e1 : c = biggestCluster B count
    · rw [← e1] at htwo hmk
      have e2 : ¬ k = c := fun e => hmk e.symm
      rw [if_pos e1, if_pos e1.symm, if_neg hmk, if_neg e2]
      omega
    · have e1' : ¬ biggestCluster B count = c := fun e => e1 e.symm
      rw [if_neg e1, if_neg e1']
      by_cases e2 : c = k
      · rw [if_pos e2, if_pos e2.symm]
        omega
      · have e3 : ¬ k = c := fun e => e2 e.symm
        rw [if_neg e2, if_neg e3]
        omega
  · intro c hc
    rw [hc1]
    rcases Nat.lt_succ_iff_lt_or_eq.1 hc with h1 | h1
    · have hp1 := hpos c h1
      have hck : ¬ c = k := by omega
      rw [if_neg hck]
      by_cases e1 : c = biggestCluster B count
      · have := hag c (by omega)
        rw [← e1] at htwo
        rw [if_pos e1]
        omega
      · rw [if_neg e1]
        omega
    · subst h1
      have e1 : ¬ c = biggestCluster B count := fun e => hmk e.symm
      rw [if_neg e1, if_pos rfl, h0]
      omega

/-- The handling of empty clusters returns whenever every distance is above
`DistanceType(-1)`: the biggest cluster has a member, so the search for its
farthest point ends with an index. -/
theorem handleEmptyClusters_total (K : Kernel α δ σ) (B : Int) (hB : 1 ≤ B)
    (distance_to : List δ) (n : Nat) (hn : B.toNat ≤ n) (hdl : distance_to.length = n)
    (hd : ∀ d ∈ distance_to, K.minusOne < d) :
    ∀ (todo k : Nat) (bs : List Nat) (count : List Int),
      k + todo = B.toNat → bs.length = n → count.length = B.toNat →
      (∀ b ∈ bs, b < B.toNat) →
      (∀ c, c < B.toNat → count.getD c 0 = (bs.count c : Int)) →
      (∀ c, c < k → 1 ≤ count.getD c 0) →
      ∃ r, handleEmptyClusters K B distance_to todo k bs count = .ok r := by
  intro todo
  induction todo with
  | zero =>
      intro k bs count _ _ _ _ _ _
      exact ⟨_, rfl⟩
  | succ todo ih =>
      intro k bs count hk hlen hcl hb hag hpos
      have hkB : k < B.toNat := by omega
      simp only [handleEmptyClusters]
      split
      · rename_i hne
        refine ih (k + 1) bs count (by omega) hlen hcl hb hag ?_
        intro c hc
        rcases Nat.lt_succ_iff_lt_or_eq.1 hc with h1 | h1
        · exact hpos c h1
        · subst h1
          have := hag c hkB
          omega
      · rename_i h0
        simp only [ne_eq, Decidable.not_not] at h0
        obtain ⟨hm1, hm2⟩ := biggestCluster_spec B hB count
        have hcount0 : bs.count k = 0 := by
          have := hag k hkB
          omega
        have htwo : 2 ≤ bs.count (biggestCluster B count) :=
          biggest_has_two B.toNat bs hb (by omega) k _ hkB hcount0 (by
            intro c hc
            have h1 := hm2 c hc
            rw [hag c hc, hag _ hm1] at h1
            exact_mod_cast h1)
        have hmem : biggestCluster B count ∈ bs := List.count_pos_iff.1 (by omega)
        obtain ⟨p, hp, hbp⟩ := List.mem_iff_getElem.1 hmem
        have hpd : p < distance_to.length := by omega
        obtain ⟨idx, hfar⟩ := farthestPoint_some (biggestCluster B count) bs distance_to 0
          K.minusOne none (Or.inr ⟨p, distance_to[p], by
            rw [List.getElem?_eq_getElem hp, hbp], List.getElem?_eq_getElem hpd,
            hd _ (List.getElem_mem hpd)⟩)
        rw [hfar]
        simp only
        rcases farthestPoint_spec _ _ _ _ _ _ _ hfar with h1 | ⟨q, hq, hbq⟩
        · cases h1
        · simp only [Nat.zero_add] at hq
          subst hq
          have hidx : idx < bs.length := by
            by_contra hge
            rw [List.getElem?_eq_none (by omega)] at hbq
            cases hbq
          have hget : bs[idx] = biggestCluster B count := by
            rw [List.getElem?_eq_getElem hidx] at hbq
            exact Option.some.inj hbq
          obtain ⟨s1, s2, s3, s4, s5⟩ := repair_step B hB n hn k hkB bs count hlen hcl hb
            hag hpos h0 idx hidx hget
          exact ih (k + 1) _ _ (by omega) s1 s2 s3 s4 s5

end RepairTotal

end vlr

/-! ## The clusterer always returns -/

namespace vlr

section DistAbove

variable {α δ : Type}

theorem reassign_above (near : List α → Nat × δ) (data : Mat α) (P : δ → Prop)
    (hnear : ∀ x, P (near x).2) :
    ∀ (indices bs : List Nat) (ds : List δ) (count : List Int) (conv : Bool),
      (∀ d ∈ ds, P d) → ∀ d ∈ (reassign near data indices bs ds count conv).2.1, P d := by
  intro indices
  induction indices with
  | nil =>
      intro bs ds count conv _ d hd
      simp [reassign] at hd
  | cons idx indices ih =>
      intro bs ds count conv hds d hd
      cases bs with
      | nil => simp [reassign] at hd
      | cons b bs =>
          cases ds with
          | nil => simp [reassign] at hd
          | cons d0 ds =>
              have hd0 : P d0 := hds d0 (List.mem_cons_self _ _)
              have hrest : ∀ x ∈ ds, P x := fun x hx => hds x (List.mem_cons_of_mem _ hx)
              simp only [reassign] at hd
              split at hd
              · simp only [List.mem_cons] at hd
                rcases hd with hd | hd
                · rw [hd]; exact hnear _
                · exact ih _ _ _ _ hrest d hd
              · simp only [List.mem_cons] at hd
                rcases hd with hd | hd
                · rw [hd]; exact hd0
                · exact ih _ _ _ _ hrest d hd

end DistAbove

section Total

variable {α δ σ : Type} [LinearOrder δ]

theorem nearestFold_snd (f : Nat → δ) (P : δ → Prop) (hf : ∀ j, P (f j)) :
    ∀ (js : List Nat) (init : Nat × δ), P init.2 →
      P (js.foldl (fun (best : Nat × δ) (j : Nat) =>
        if best.2 > f j then (j, f j) else best) init).2 := by
  intro js
  induction js with
  | nil => intro init h; exact h
  | cons j js ih =>
      intro init h
      simp only [List.foldl_cons]
      apply ih
      split
      · exact hf j
      · exact h

theorem nearestCenter_above (K : Kernel α δ σ)
    (hdist : ∀ a b n, K.minusOne < K.distance a b n) (veclen : Nat) (B : Int)
    (dcenters : List (List α)) (x : List α) :
    K.minusOne < (nearestCenter K veclen B dcenters x).2 := by
  unfold nearestCenter
  exact nearestFold_snd (fun j => K.distance x (dcenters.getD j []) veclen)
    (fun d => K.minusOne < d) (fun j => hdist _ _ _) _ _ (hdist _ _ _)

theorem initialAssignment_above (K : Kernel α δ σ)
    (hdist : ∀ a b n, K.minusOne < K.distance a b n) (data : Mat α) (veclen : Nat)
    (B : Int) (dcenters : List (List α)) (indices : List Nat) :
    ∀ d ∈ (initialAssignment K data veclen B dcenters indices).distance_to,
      K.minusOne < d := by
  intro d hd
  simp only [initialAssignment, List.mem_map] at hd
  obtain ⟨p, ⟨idx, _, rfl⟩, rfl⟩ := hd
  exact nearestCenter_above K hdist veclen B dcenters _

/-- An iteration of the Lloyd loop returns, and keeps the invariant and the
distances above `DistanceType(-1)`. -/
theorem lloydIteration_total (K : Kernel α δ σ)
    (hdist : ∀ a b n, K.minusOne < K.distance a b n) (data : Mat α) (veclen : Nat)
    (B : Int) (hB : 1 ≤ B) (indices : List Nat) (hn : B.toNat ≤ indices.length)
    (s : Lloyd α δ) (hs : LloydInv B.toNat indices.length s)
    (hd : ∀ d ∈ s.distance_to, K.minusOne < d) :
    ∃ s1, lloydIteration K data veclen B indices s = .ok s1
      ∧ LloydInv B.toNat indices.length s1
      ∧ (∀ d ∈ s1.distance_to, K.minusOne < d) := by
  obtain ⟨r1, r2, r3, r4, r5⟩ := reassign_spec
    (nearestCenter K veclen B
      (computeCentroids K data veclen B indices s.belongs_to s.count)) data B.toNat
    (fun x => nearestCenter_lt K veclen B hB _ x) s.belongs_to indices s.distance_to
    s.count true hs.labels.symm (by rw [hs.dists, hs.labels]) hs.counts hs.bound
  have habove := reassign_above
    (nearestCenter K veclen B
      (computeCentroids K data veclen B indices s.belongs_to s.count)) data
    (fun d => K.minusOne < d) (fun x => nearestCenter_above K hdist veclen B _ x)
    indices s.belongs_to s.distance_to s.count true hd
  obtain ⟨fixed, hfix⟩ := handleEmptyClusters_total K B hB _ indices.length hn
    (by rw [r2, hs.labels]) habove B.toNat 0 _ _ (by omega) (by rw [r1, hs.labels]) r3 r4
    (by
      intro c hc
      rw [r5 c, hs.agree c hc]
      omega)
    (by intro c hc; omega)
  have hit : lloydIteration K data veclen B indices s = .ok
      { dcenters := computeCentroids K data veclen B indices s.belongs_to s.count
        belongs_to := fixed.1
        distance_to := (reassign (nearestCenter K veclen B
          (computeCentroids K data veclen B indices s.belongs_to s.count)) data indices
          s.belongs_to s.distance_to s.count true).2.1
        count := fixed.2
        converged := (reassign (nearestCenter K veclen B
          (computeCentroids K data veclen B indices s.belongs_to s.count)) data indices
          s.belongs_to s.distance_to s.count true).2.2.2 } := by
    simp only [lloydIteration, hfix]
  refine ⟨_, hit, (lloydIteration_inv K data veclen B hB indices hn s _ hs hit).1, habove⟩

/-- The Lloyd loop returns for every cap on the iterations: running out of
iterations is not a failure. -/
theorem lloydLoop_total (K : Kernel α δ σ)
    (hdist : ∀ a b n, K.minusOne < K.distance a b n) (data : Mat α) (veclen : Nat)
    (B : Int) (hB : 1 ≤ B) (indices : List Nat) (hn : B.toNat ≤ indices.length) :
    ∀ (cap : Nat) (s : Lloyd α δ), LloydInv B.toNat indices.length s →
      (∀ d ∈ s.distance_to, K.minusOne < d) →
      ∃ final, lloydLoop K data veclen B indices cap s = .ok final := by
  intro cap
  induction cap with
  | zero => intro s _ _; exact ⟨s, rfl⟩
  | succ cap ih =>
      intro s hs hd
      simp only [lloydLoop]
      split
      · exact ⟨s, rfl⟩
      · obtain ⟨s1, h1, h2, h3⟩ := lloydIteration_total K hdist data veclen B hB indices hn
          s hs hd
        rw [h1]
        exact ih s1 h2 h3

theorem clusterChildren_total
    (recurse : VocabTreeNode α → List Nat → Int → Progress α σ →
      Except Error (VocabTreeNode α × List Nat × Progress α σ))
    (centers : List (List α)) (level : Int)
    (hrec : ∀ node idx s, ∃ r, recurse node idx (level + 1) s = .ok r) :
    ∀ (todo c : Nat) (indices bs : List Nat) (start : Nat) (s : Progress α σ),
      ∃ r, clusterChildren recurse centers level todo c indices bs start s = .ok r := by
  intro todo
  induction todo with
  | zero => intro c indices bs start s; exact ⟨_, rfl⟩
  | succ todo ih =>
      intro c indices bs start s
      simp only [clusterChildren]
      obtain ⟨done, hdone⟩ := hrec
        ((VocabTreeNode.new : VocabTreeNode α).setCenter (centers.getD c []))
        (List.take ((reorder c indices.length 0 indices bs start).2.2 - start)
          (List.drop start (reorder c indices.length 0 indices bs start).1)) s
      rw [hdone]
      simp only
      obtain ⟨rest, hrest⟩ := ih (c + 1)
        (List.take start (reorder c indices.length 0 indices bs start).1 ++ done.2.1
          ++ List.drop (reorder c indices.length 0 indices bs start).2.2
            (reorder c indices.length 0 indices bs start).1)
        (reorder c indices.length 0 indices bs start).2.1
        (reorder c indices.length 0 indices bs start).2.2 done.2.2
      rw [hrest]
      exact ⟨_, rfl⟩

/-- With distances above `DistanceType(-1)` a call of the clusterer at a level
up to `m_depth` returns when it may nest `m_depth - level + 1` calls. -/
theorem computeClustering_total (K : Kernel α δ σ)
    (hdist : ∀ a b n, K.minusOne < K.distance a b n) (t : VocabTree α σ)
    (hB : 1 ≤ t.m_branching) :
    ∀ (fuel : Nat) (node : VocabTreeNode α) (indices : List Nat) (level : Int)
      (s : Progress α σ),
      level ≤ t.m_depth → (t.m_depth - level).toNat < fuel →
      ∃ r, computeClustering K t fuel node indices level s = .ok r := by
  intro fuel
  induction fuel with
  | zero =>
      intro node indices level s _ hfuel
      omega
  | succ fuel ih =>
      intro node indices level s hlevel hfuel
      simp only [computeClustering]
      generalize (if level > 1 then indices.insertionSort (· ≤ ·) else indices) = idx1
      by_cases c1 : level = t.m_depth ∨ (idx1.length : Int) < t.m_branching
      · rw [if_pos c1]
        exact ⟨_, rfl⟩
      · rw [if_neg c1]
        by_cases c2 : ((K.chooseCenters s.rng t.m_branching idx1 t.m_dataset).1.length : Int)
            < t.m_branching
        · rw [if_pos c2]
          exact ⟨_, rfl⟩
        · rw [if_neg c2]
          have hn : t.m_branching.toNat ≤ idx1.length := by
            have : ¬ (idx1.length : Int) < t.m_branching := fun hlt => c1 (Or.inr hlt)
            omega
          have hlt : level ≠ t.m_depth := fun e => c1 (Or.inl e)
          obtain ⟨final, hfinal⟩ := lloydLoop_total K hdist t.m_dataset t.m_veclen
            t.m_branching hB idx1 hn t.m_iterations.toNat _
            (initialAssignment_inv K t.m_dataset t.m_veclen t.m_branching hB
              (initCenters t.m_dataset t.m_branching
                (K.chooseCenters s.rng t.m_branching idx1 t.m_dataset).1) idx1)
            (initialAssignment_above K hdist t.m_dataset t.m_veclen t.m_branching _ idx1)
          rw [hfinal]
          simp only
          obtain ⟨r, hr⟩ := clusterChildren_total (computeClustering K t fuel)
            (copyCenters K t.m_veclen t.m_branching final.dcenters) level
            (fun node idx s => ih node idx (level + 1) s (by omega) (by omega))
            t.m_branching.toNat 0 idx1 final.belongs_to 0
            { m_size := s.m_size + 1, m_words := s.m_words,
              rng := (K.chooseCenters s.rng t.m_branching idx1 t.m_dataset).2 }
          rw [hr]
          exact ⟨_, rfl⟩

theorem build_total (K : Kernel α δ σ)
    (hdist : ∀ a b n, K.minusOne < K.distance a b n) (t : VocabTree α σ)
    (hB : 2 ≤ t.m_branching) (hD : 1 ≤ t.m_depth) (hrows : 1 ≤ t.m_dataset.rows) :
    ∃ t1, build K t = .ok t1 := by
  unfold build
  rw [if_neg (by omega), if_neg (by omega), if_neg (by simp [Mat.empty]; omega)]
  simp only
  obtain ⟨r, hr⟩ := computeClustering_total K hdist t (by omega) (t.m_depth.toNat + 1)
    ((VocabTreeNode.new : VocabTreeNode α).setCenter (List.replicate t.m_veclen K.zero))
    (List.range t.m_dataset.rows) 0
    { m_size := t.m_size, m_words := t.m_words, rng := t.rng } (by omega) (by omega)
  rw [hr]
  exact ⟨_, rfl⟩

end Total

end vlr

/-! ## Termination of `build()` and the counters of the Lloyd loop -/

namespace vlr

section CountSum

theorem binKernel_above {σ : Type} (ch : σ → Int → List Nat → Mat Nat → List Nat × σ) :
    ∀ a b n, (binKernel ch).minusOne < (binKernel ch).distance a b n := by
  intro a b n
  simp only [binKernel, hammingDistance]
  omega

theorem lloydInv_sum {α δ : Type} {B n : Nat} {s : Lloyd α δ} (hs : LloydInv B n s) :
    (Finset.range B).sum (fun c => s.count.getD c 0) = (n : Int) := by
  have h1 : (Finset.range B).sum (fun c => s.count.getD c 0)
      = (Finset.range B).sum (fun c => (s.belongs_to.count c : Int)) :=
    Finset.sum_congr rfl (fun c hc => hs.agree c (Finset.mem_range.1 hc))
  rw [h1, ← Nat.cast_sum, sum_count_range B s.belongs_to hs.bound, hs.labels]

end CountSum

section Termination

variable {α δ σ : Type} [LinearOrder δ]

theorem lloydLoopLogged_total (K : Kernel α δ σ)
    (hdist : ∀ a b n, K.minusOne < K.distance a b n) (data : Mat α) (veclen : Nat)
    (B : Int) (hB : 1 ≤ B) (indices : List Nat) (hn : B.toNat ≤ indices.length) :
    ∀ (cap : Nat) (s : Lloyd α δ), LloydInv B.toNat indices.length s →
      (∀ d ∈ s.distance_to, K.minusOne < d) →
      ∃ final trace, lloydLoopLogged K data veclen B indices cap s = .ok (final, trace)
        ∧ ∀ x ∈ trace, LloydInv B.toNat indices.length x
            ∧ ∀ d ∈ x.distance_to, K.minusOne < d := by
  intro cap
  induction cap with
  | zero => intro s _ _; exact ⟨s, [], rfl, by simp⟩
  | succ cap ih =>
      intro s hs hd
      simp only [lloydLoopLogged]
      split
      · exact ⟨s, [], rfl, by simp⟩
      · obtain ⟨s1, h1, h2, h3⟩ := lloydIteration_total K hdist data veclen B hB indices hn
          s hs hd
        obtain ⟨final, trace, h4, h5⟩ := ih s1 h2 h3
        rw [h1]
        simp only [h4]
        refine ⟨final, s1 :: trace, rfl, ?_⟩
        intro x hx
        rcases List.mem_cons.1 hx with hx | hx
        · rw [hx]; exact ⟨h2, h3⟩
        · exact h5 x hx

/-- C27. With distances above `DistanceType(-1)`, `build()` returns for every
data set with at least one row, branching at least 2 and depth at least 1,
whatever the iteration count: no node of the tree lies deeper than `m_depth`, and
every Lloyd loop on at least `B` points returns after at most `m_iterations`
iterations; when it ends unconverged it has run `m_iterations` iterations and
hands on the working vectors it has then. -/
theorem build_terminates (K : Kernel α δ σ)
    (hdist : ∀ a b n, K.minusOne < K.distance a b n) (t : VocabTree α σ)
    (hB : 2 ≤ t.m_branching) (hD : 1 ≤ t.m_depth) (hrows : 1 ≤ t.m_dataset.rows) :
    (∃ t1 root, build K t = .ok t1 ∧ t1.m_root = some root
        ∧ ∀ p ∈ root.preorderAt 0, p.1 ≤ t.m_depth)
      ∧ ∀ (indices : List Nat) (s : Lloyd α δ),
          t.m_branching.toNat ≤ indices.length →
          LloydInv t.m_branching.toNat indices.length s →
          (∀ d ∈ s.distance_to, K.minusOne < d) →
          ∃ final trace,
            lloydLoopLogged K t.m_dataset t.m_veclen t.m_branching indices
                t.m_iterations.toNat s = .ok (final, trace)
              ∧ lloydLoop K t.m_dataset t.m_veclen t.m_branching indices
                  t.m_iterations.toNat s = .ok final
              ∧ trace.length ≤ t.m_iterations.toNat
              ∧ (final.converged = false → trace.length = t.m_iterations.toNat) := by
  refine ⟨?_, ?_⟩
  · obtain ⟨t1, h1⟩ := build_total K hdist t hB hD hrows
    obtain ⟨_, _, _, _, _, _, _, _, root, hroot, hlaid⟩ := build_laid K t t1 h1
    exact ⟨t1, root, h1, hroot, hlaid.levels⟩
  · intro indices s hn hs hd
    obtain ⟨final, trace, h1, _⟩ := lloydLoopLogged_total K hdist t.m_dataset t.m_veclen
      t.m_branching (by omega) indices hn t.m_iterations.toNat s hs hd
    obtain ⟨q1, _, q3, _⟩ := lloydLoopLogged_spec K t.m_dataset t.m_veclen t.m_branching
      (by omega) indices hn _ s final trace hs h1
    refine ⟨final, trace, h1, ?_, q1, q3⟩
    rw [← lloydLoopLogged_erase, h1]
    rfl

theorem build_terminates_witness :
    (∃ t1 root, build (binKernel firstCenters) exampleTree = .ok t1 ∧ t1.m_root = some root
        ∧ ∀ p ∈ root.preorderAt 0, p.1 ≤ exampleTree.m_depth)
      ∧ ∀ (indices : List Nat) (s : Lloyd Nat Int),
          exampleTree.m_branching.toNat ≤ indices.length →
          LloydInv exampleTree.m_branching.toNat indices.length s →
          (∀ d ∈ s.distance_to, (binKernel firstCenters).minusOne < d) →
          ∃ final trace,
            lloydLoopLogged (binKernel firstCenters) exampleTree.m_dataset
                exampleTree.m_veclen exampleTree.m_branching indices
                exampleTree.m_iterations.toNat s = .ok (final, trace)
              ∧ lloydLoop (binKernel firstCenters) exampleTree.m_dataset
                  exampleTree.m_veclen exampleTree.m_branching indices
                  exampleTree.m_iterations.toNat s = .ok final
              ∧ trace.length ≤ exampleTree.m_iterations.toNat
              ∧ (final.converged = false → trace.length = exampleTree.m_iterations.toNat) :=
  build_terminates (binKernel firstCenters) (binKernel_above firstCenters) exampleTree
    (by decide) (by decide) (by decide)

/-- C28. With distances above `DistanceType(-1)` and at least `B` points, the
working vectors after the initial assignment and after every iteration of the
Lloyd loop (reassignment, then the handling of empty clusters) have `count[c]`
equal to the number of positions labelled `c` for every cluster `c` and counts
that sum to the number of points; every iteration returns, that is, the search
for the farthest point of the biggest cluster never ends with the index `-1`. -/
theorem lloyd_counts (K : Kernel α δ σ)
    (hdist : ∀ a b n, K.minusOne < K.distance a b n) (data : Mat α) (veclen : Nat)
    (B : Int) (hB : 1 ≤ B) (dcenters : List (List α)) (indices : List Nat)
    (hn : B.toNat ≤ indices.length) (cap : Nat) :
    ∃ final trace,
      lloydLoopLogged K data veclen B indices cap
          (initialAssignment K data veclen B dcenters indices) = .ok (final, trace)
        ∧ ∀ s ∈ initialAssignment K data veclen B dcenters indices :: trace,
            s.belongs_to.length = indices.length
              ∧ (∀ c, c < B.toNat → s.count.getD c 0 = (s.belongs_to.count c : Int))
              ∧ (Finset.range B.toNat).sum (fun c => s.count.getD c 0)
                  = (indices.length : Int)
              ∧ ∃ s1, lloydIteration K data veclen B indices s = .ok s1 := by
  have h0 := initialAssignment_inv K data veclen B hB dcenters indices
  obtain ⟨final, trace, h1, h2⟩ := lloydLoopLogged_total K hdist data veclen B hB indices hn
    cap _ h0 (initialAssignment_above K hdist data veclen B dcenters indices)
  refine ⟨final, trace, h1, ?_⟩
  intro s hs
  have hinv : LloydInv B.toNat indices.length s
      ∧ ∀ d ∈ s.distance_to, K.minusOne < d := by
    rcases List.mem_cons.1 hs with hs | hs
    · rw [hs]
      exact ⟨h0, initialAssignment_above K hdist data veclen B dcenters indices⟩
    · exact h2 s hs
  obtain ⟨s1, q, _⟩ := lloydIteration_total K hdist data veclen B hB indices hn s hinv.1
    hinv.2
  exact ⟨hinv.1.labels, hinv.1.agree, lloydInv_sum hinv.1, s1, q⟩

theorem lloyd_counts_witness :
    ∃ final trace,
      lloydLoopLogged (binKernel firstCenters) exampleDataRepeated 1 3 (List.range 6) 10
          (initialAssignment (binKernel firstCenters) exampleDataRepeated 1 3
            [[5], [5], [5]] (List.range 6)) = .ok (final, trace)
        ∧ ∀ s ∈ initialAssignment (binKernel firstCenters) exampleDataRepeated 1 3
              [[5], [5], [5]] (List.range 6) :: trace,
            s.belongs_to.length = (List.range 6).length
              ∧ (∀ c, c < (3 : Int).toNat → s.count.getD c 0 = (s.belongs_to.count c : Int))
              ∧ (Finset.range (3 : Int).toNat).sum (fun c => s.count.getD c 0)
                  = ((List.range 6).length : Int)
              ∧ ∃ s1, lloydIteration (binKernel firstCenters) exampleDataRepeated 1 3
                  (List.range 6) s = .ok s1 :=
  lloyd_counts (binKernel firstCenters) (binKernel_above firstCenters) exampleDataRepeated 1 3
    (by decide) [[5], [5], [5]] (List.range 6) (by decide) 10

end Termination

end vlr

/-! ## Equality as an equivalence relation -/

namespace vlr

section EqualityRelation

variable {α σ : Type} [DecidableEq α]

theorem operatorEq_char (a b : VocabTree α σ) (ra rb : VocabTreeNode α)
    (ha : a.getRoot = some ra) (hb : b.getRoot = some rb)
    (hwa : ra.WellFormed a.getVeclen a.getBranching)
    (hwb : rb.WellFormed b.getVeclen b.getBranching) :
    ∃ r, a.operatorEq b = .ok r
      ∧ (r = true ↔ a.getVeclen = b.getVeclen ∧ a.getBranching = b.getBranching
          ∧ a.getDepth = b.getDepth ∧ ra.skeleton = rb.skeleton) := by
  unfold VocabTree.operatorEq
  split
  · rename_i hne
    refine ⟨false, rfl, ?_⟩
    simp only [Bool.false_eq_true, false_iff]
    rintro ⟨h1, h2, h3, _⟩
    rcases hne with h | h | h
    · exact h h1
    · exact h h2
    · exact h h3
  · rename_i hsame
    simp only [not_or, ne_eq, Decidable.not_not] at hsame
    obtain ⟨h1, h2, h3⟩ := hsame
    rw [ha, hb]
    simp only
    obtain ⟨r, hr, hiff⟩ := compareEqual_spec a.m_veclen a.m_branching ra rb 0 0
      (fun p hp => hwa p.2 (List.mem_map_of_mem _ hp))
      (fun p hp => by
        have := hwb p.2 (List.mem_map_of_mem _ hp)
        simp only [VocabTree.getVeclen, VocabTree.getBranching] at h1 h2 this
        rw [h1, h2]
        exact this)
    rw [hr]
    cases r with
    | false =>
        refine ⟨false, rfl, ?_⟩
        simp only [Bool.false_eq_true, false_iff]
        rintro ⟨_, _, _, h4⟩
        exact absurd (hiff.2 h4) (by simp)
    | true => exact ⟨true, rfl, by simp [h1, h2, h3, hiff.1 rfl]⟩

/-- C29. On trees with a root whose nodes fit their vector length and branching
factor, with centres compared element by element as bytes are, `operator==`
always returns, `a == a` is true, `a == b` and `b == a` return the same, `a == b`
and `b == c` true make `a == c` true, and `a != b` returns the negation of
`a == b`. -/
theorem operatorEq_equivalence (a b c : VocabTree α σ) (ra rb rc : VocabTreeNode α)
    (ha : a.getRoot = some ra) (hb : b.getRoot = some rb) (hc : c.getRoot = some rc)
    (hwa : ra.WellFormed a.getVeclen a.getBranching)
    (hwb : rb.WellFormed b.getVeclen b.getBranching)
    (hwc : rc.WellFormed c.getVeclen c.getBranching) :
    a.operatorEq a = .ok true
      ∧ a.operatorEq b = b.operatorEq a
      ∧ (a.operatorEq b = .ok true → b.operatorEq c = .ok true →
          a.operatorEq c = .ok true)
      ∧ ∃ r, a.operatorEq b = .ok r ∧ a.operatorNe b = .ok (!r)
          ∧ (a.operatorNe b = .ok true ↔ a.operatorEq b = .ok false) := by
  obtain ⟨raa, haa, iaa⟩ := operatorEq_char a a ra ra ha ha hwa hwa
  obtain ⟨rab, hab, iab⟩ := operatorEq_char a b ra rb ha hb hwa hwb
  obtain ⟨rba, hba, iba⟩ := operatorEq_char b a rb ra hb ha hwb hwa
  obtain ⟨rbc, hbc, ibc⟩ := operatorEq_char b c rb rc hb hc hwb hwc
  obtain ⟨rac, hac, iac⟩ := operatorEq_char a c ra rc ha hc hwa hwc
  refine ⟨?_, ?_, ?_, ?_⟩
  · rw [haa]
    have : raa = true := iaa.2 ⟨rfl, rfl, rfl, rfl⟩
    rw [this]
  · rw [hab, hba]
    have : rab = rba := by
      cases h1 : rab <;> cases h2 : rba
      · rfl
      · have := iba.1 h2
        have h3 := iab.2 ⟨this.1.symm, this.2.1.symm, this.2.2.1.symm, this.2.2.2.symm⟩
        rw [h1] at h3
        exact absurd h3 (by simp)
      · have := iab.1 h1
        have h3 := iba.2 ⟨this.1.symm, this.2.1.symm, this.2.2.1.symm, this.2.2.2.symm⟩
        rw [h2] at h3
        exact absurd h3 (by simp)
      · rfl
    rw [this]
  · intro h1 h2
    rw [hab] at h1
    rw [hbc] at h2
    simp only [Except.ok.injEq] at h1 h2
    have p := iab.1 h1
    have q := ibc.1 h2
    rw [hac]
    have : rac = true := iac.2 ⟨p.1.trans q.1, p.2.1.trans q.2.1, p.2.2.1.trans q.2.2.1,
      p.2.2.2.trans q.2.2.2⟩
    rw [this]
  · refine ⟨rab, hab, ?_, ?_⟩
    · simp only [VocabTree.operatorNe, hab]
    · simp only [VocabTree.operatorNe, hab, Except.ok.injEq]
      cases rab <;> simp

theorem operatorEq_equivalence_witness :
    exampleBuilt.operatorEq exampleBuilt = .ok true
      ∧ exampleBuilt.operatorEq exampleRelabelled
          = exampleRelabelled.operatorEq exampleBuilt
      ∧ (exampleBuilt.operatorEq exampleRelabelled = .ok true →
          exampleRelabelled.operatorEq exampleRebuilt = .ok true →
          exampleBuilt.operatorEq exampleRebuilt = .ok true)
      ∧ ∃ r, exampleBuilt.operatorEq exampleRelabelled = .ok r
          ∧ exampleBuilt.operatorNe exampleRelabelled = .ok (!r)
          ∧ (exampleBuilt.operatorNe exampleRelabelled = .ok true
              ↔ exampleBuilt.operatorEq exampleRelabelled = .ok false) :=
  operatorEq_equivalence exampleBuilt exampleRelabelled exampleRebuilt exampleRoot
    exampleRootRelabelled _ rfl rfl rfl
    (by unfold VocabTreeNode.WellFormed; decide)
    (by unfold VocabTreeNode.WellFormed; decide)
    (by unfold VocabTreeNode.WellFormed; decide)

end EqualityRelation

end vlr

/-! ## The most voted landmark -/

namespace vlr

namespace VocabMatch

theorem maxFold_spec :
    ∀ (xs : List Int) (x : Int),
      (xs.foldl (fun best y => if best < y then y else best) x ∈ x :: xs)
        ∧ ∀ y ∈ x :: xs, y ≤ xs.foldl (fun best y => if best < y then y else best) x := by
  intro xs
  induction xs with
  | nil => intro x; simp
  | cons z zs ih =>
      intro x
      simp only [List.foldl_cons]
      by_cases hxz : x < z
      · rw [if_pos hxz]
        obtain ⟨h1, h2⟩ := ih z
        refine ⟨List.mem_cons_of_mem _ h1, ?_⟩
        intro y hy
        rcases List.mem_cons.1 hy with h | h
        · have := h2 z (List.mem_cons_self _ _)
          rw [h]
          omega
        · exact h2 y h
      · rw [if_neg hxz]
        obtain ⟨h1, h2⟩ := ih x
        refine ⟨?_, ?_⟩
        · rcases List.mem_cons.1 h1 with h | h
          · rw [h]
            exact List.mem_cons_self _ _
          · exact List.mem_cons_of_mem _ (List.mem_cons_of_mem _ h)
        · intro y hy
          rcases List.mem_cons.1 hy with h | h
          · rw [h]
            exact h2 x (List.mem_cons_self _ _)
          · rcases List.mem_cons.1 h with h | h
            · have := h2 x (List.mem_cons_self _ _)
              rw [h]
              omega
            · exact h2 y (List.mem_cons_of_mem _ h)

theorem maxElement_spec (l : List Int) (hl : l ≠ []) :
    ∃ m, maxElement l = .ok m ∧ m ∈ l ∧ ∀ x ∈ l, x ≤ m := by
  cases l with
  | nil => exact absurd rfl hl
  | cons x xs =>
      obtain ⟨h1, h2⟩ := maxFold_spec xs x
      exact ⟨_, rfl, h1, h2⟩

theorem sum_set_succ :
    ∀ (votes : List Int) (k : Nat), k < votes.length →
      (votes.set k (votes.getD k 0 + 1)).sum = votes.sum + 1 := by
  intro votes
  induction votes with
  | nil => intro k hk; simp at hk
  | cons v vs ih =>
      intro k hk
      cases k with
      | zero =>
          simp only [List.set_cons_zero, List.sum_cons, List.getD_cons_zero]
          omega
      | succ k =>
          simp only [List.length_cons, Nat.add_lt_add_iff_right] at hk
          simp only [List.set_cons_succ, List.sum_cons, List.getD_cons_succ, ih k hk]
          omega

theorem getD_set_succ (votes : List Int) (k l : Nat) (hk : k < votes.length) :
    (votes.set k (votes.getD k 0 + 1)).getD l 0
      = votes.getD l 0 + (if l = k then 1 else 0) := by
  simp only [List.getD_eq_getElem?_getD, List.getElem?_set]
  by_cases h : k = l
  · subst h
    simp [hk]
  · have h1 : ¬ l = k := fun e => h e.symm
    simp [h, h1]

/-- The loop over the ranks returns when every rank names an image of the data
base with a landmark id inside `votes`; every step adds one vote, to the entry
of the landmark of the image. -/
theorem countVotes_spec (db_landmarks : List Int) (perm : List Nat) :
    ∀ (todo i : Nat) (votes : List Int),
      (∀ k, i ≤ k → k < i + todo → ∃ image, perm[k]? = some image
        ∧ ∃ ld, db_landmarks[image]? = some ld ∧ 0 ≤ ld ∧ ld < votes.length) →
      ∃ r, countVotes db_landmarks perm todo i votes = .ok r
        ∧ r.length = votes.length
        ∧ r.sum = votes.sum + todo
        ∧ ∀ l, l < votes.length →
            r.getD l 0 = votes.getD l 0
              + ((((perm.drop i).take todo).map (fun image => db_landmarks.getD image 0)).count
                  (l : Int) : Int) := by
  intro todo
  induction todo with
  | zero =>
      intro i votes _
      exact ⟨votes, rfl, rfl, by simp, by intro l _; simp⟩
  | succ todo ih =>
      intro i votes h
      obtain ⟨image, hp, ld, hd, h0, h1⟩ := h i (le_refl _) (by omega)
      have hk : ld.toNat < votes.length := by omega
      obtain ⟨r, hr, hlen, hsum, hget⟩ := ih (i + 1)
        (votes.set ld.toNat (votes.getD ld.toNat 0 + 1)) (by
          intro k hk1 hk2
          obtain ⟨im, q1, l2, q2, q3, q4⟩ := h k (by omega) (by omega)
          exact ⟨im, q1, l2, q2, q3, by rw [List.length_set]; exact q4⟩)
      rw [List.length_set] at hlen hget
      refine ⟨r, ?_, hlen, ?_, ?_⟩
      · simp only [countVotes, hp, hd, h0, h1, and_self, if_true]
        exact hr
      · rw [hsum, sum_set_succ votes _ hk]
        push_cast
        omega
      · intro l hl
        rw [hget l hl, getD_set_succ votes _ l hk]
        have hi : i < perm.length := by
          by_contra hge
          rw [List.getElem?_eq_none (by omega)] at hp
          cases hp
        have hdrop : perm.drop i = image :: perm.drop (i + 1) := by
          rw [List.drop_eq_getElem_cons hi]
          rw [List.getElem?_eq_getElem hi] at hp
          rw [Option.some.inj hp]
        have himg : db_landmarks.getD image 0 = ld := by
          rw [List.getD_eq_getElem?_getD, hd]
          rfl
        rw [hdrop, List.take_succ_cons, List.map_cons, List.count_cons, himg]
        simp only [beq_iff_eq]
        by_cases e : l = ld.toNat
        · have e2 : ld = (l : Int) := by omega
          rw [if_pos e, if_pos e2]
          push_cast
          omega
        · have e2 : ¬ ld = (l : Int) := by omega
          rw [if_neg e, if_neg e2]
          push_cast
          omega

/-- The loop over the landmark ids keeps the largest number of votes seen so
far and the first landmark id that reached it. -/
theorem maxVoted_spec (votes : List Int) :
    ∀ (todo j : Nat) (best : Int × Int),
      (∀ k, k < j → votes.getD k 0 ≤ best.1) →
      ((best.2 = -1 ∧ best.1 = 0)
        ∨ (0 ≤ best.2 ∧ best.2 < j ∧ votes.getD best.2.toNat 0 = best.1 ∧ 0 < best.1
            ∧ ∀ k, k < best.2.toNat → votes.getD k 0 < best.1)) →
      (∀ k, k < j + todo → votes.getD k 0 ≤ (maxVoted votes todo j best).1)
        ∧ (((maxVoted votes todo j best).2 = -1 ∧ (maxVoted votes todo j best).1 = 0)
          ∨ (0 ≤ (maxVoted votes todo j best).2
              ∧ (maxVoted votes todo j best).2 < (j + todo : Nat)
              ∧ votes.getD (maxVoted votes todo j best).2.toNat 0
                  = (maxVoted votes todo j best).1
              ∧ 0 < (maxVoted votes todo j best).1
              ∧ ∀ k, k < (maxVoted votes todo j best).2.toNat →
                  votes.getD k 0 < (maxVoted votes todo j best).1)) := by
  intro todo
  induction todo with
  | zero =>
      intro j best h1 h2
      simp only [maxVoted, Nat.add_zero]
      exact ⟨h1, h2⟩
  | succ todo ih =>
      intro j best h1 h2
      simp only [maxVoted]
      have e : j + (todo + 1) = j + 1 + todo := by omega
      rw [e]
      split
      · rename_i hgt
        apply ih (j + 1) (votes.getD j 0, (j : Int))
        · intro k hk
          rcases Nat.lt_succ_iff_lt_or_eq.1 hk with h | h
          · have := h1 k h
            simp only
            omega
          · rw [h]
        · right
          refine ⟨by simp, by simp, by simp, ?_, ?_⟩
          · simp only
            rcases h2 with ⟨_, q⟩ | ⟨_, _, _, q, _⟩ <;> omega
          · intro k hk
            simp only [Int.toNat_ofNat] at hk
            have := h1 k hk
            simp only
            omega
      · rename_i hle
        apply ih (j + 1) best
        · intro k hk
          rcases Nat.lt_succ_iff_lt_or_eq.1 hk with h | h
          · exact h1 k h
          · rw [h]
            omega
        · rcases h2 with q | ⟨q1, q2, q3, q4, q5⟩
          · exact Or.inl q
          · exact Or.inr ⟨q1, by push_cast; omega, q3, q4, q5⟩

end VocabMatch

end vlr

/-! ## The log lists the nodes of the tree -/

namespace vlr

section Listing

variable {α δ σ : Type} [LinearOrder δ]

theorem clusterChildrenLogged_listing
    (recurse : VocabTreeNode α → List Nat → Int → Progress α σ →
      Except Error ((VocabTreeNode α × List Nat × Progress α σ) × List Call))
    (centers : List (List α)) (level : Int)
    (hrec : ∀ node idx s out, recurse node idx (level + 1) s = .ok out →
      out.2.map (fun call => (call.level, (call.node_id : Int), call.leaf))
        = (out.1.1.preorderAt (level + 1)).map
            (fun p => (p.1, p.2.node_id, p.2.isLeaf))) :
    ∀ (todo c : Nat) (indices bs : List Nat) (start : Nat) (s : Progress α σ)
      (r : (List (VocabTreeNode α) × List Nat × Progress α σ) × List (List Nat) × List Call),
      clusterChildrenLogged recurse centers level todo c indices bs start s = .ok r →
      r.2.2.map (fun call => (call.level, (call.node_id : Int), call.leaf))
        = (VocabTreeNode.preorderListAt r.1.1 (level + 1)).map
            (fun p => (p.1, p.2.node_id, p.2.isLeaf)) := by
  intro todo
  induction todo with
  | zero =>
      intro c indices bs start s r h
      simp only [clusterChildrenLogged, Except.ok.injEq] at h
      subst h
      simp [VocabTreeNode.preorderListAt]
  | succ todo ih =>
      intro c indices bs start s r h
      simp only [clusterChildrenLogged] at h
      split at h
      · exact absurd h (by simp)
      · rename_i done hdone
        split at h
        · exact absurd h (by simp)
        · rename_i rest hrest
          simp only [Except.ok.injEq] at h
          subst h
          simp only [List.map_append, VocabTreeNode.preorderListAt,
            hrec _ _ _ _ hdone, ih _ _ _ _ _ _ hrest]

/-- The log of a run of the clusterer has one record for every node of the tree
it returns, in pre-order, with the level, the id and the leaf status of the
node. -/
theorem computeClusteringLogged_listing (K : Kernel α δ σ) (t : VocabTree α σ) :
    ∀ (fuel : Nat) (node : VocabTreeNode α) (idx : List Nat) (lvl : Int)
      (s : Progress α σ)
      (out : (VocabTreeNode α × List Nat × Progress α σ) × List Call),
      computeClusteringLogged K t fuel node idx lvl s = .ok out →
      out.2.map (fun call => (call.level, (call.node_id : Int), call.leaf))
        = (out.1.1.preorderAt lvl).map (fun p => (p.1, p.2.node_id, p.2.isLeaf)) := by
  intro fuel
  induction fuel with
  | zero =>
      intro node idx lvl s out h
      exact absurd h (by simp [computeClusteringLogged])
  | succ fuel ih =>
      intro node idx lvl s out h
      simp only [computeClusteringLogged] at h
      generalize (if lvl > 1 then idx.insertionSort (· ≤ ·) else idx) = idx1 at h
      by_cases c1 : lvl = t.m_depth ∨ (idx1.length : Int) < t.m_branching
      · rw [if_pos c1] at h
        simp only [Except.ok.injEq] at h
        subst h
        cases node with
        | mk a b c d =>
            simp [makeLeaf, VocabTreeNode.setNodeId, VocabTreeNode.setChildren,
              VocabTreeNode.setWordId, VocabTreeNode.children, VocabTreeNode.word_id,
              VocabTreeNode.center, VocabTreeNode.node_id, VocabTreeNode.preorderAt,
              VocabTreeNode.isLeaf]
      · rw [if_neg c1] at h
        by_cases c2 : ((K.chooseCenters s.rng t.m_branching idx1 t.m_dataset).1.length : Int)
            < t.m_branching
        · rw [if_pos c2] at h
          simp only [Except.ok.injEq] at h
          subst h
          cases node with
          | mk a b c d =>
              simp [makeLeaf, VocabTreeNode.setNodeId, VocabTreeNode.setChildren,
                VocabTreeNode.setWordId, VocabTreeNode.children, VocabTreeNode.word_id,
                VocabTreeNode.center, VocabTreeNode.node_id, VocabTreeNode.preorderAt,
                VocabTreeNode.isLeaf]
        · rw [if_neg c2] at h
          split at h
          · exact absurd h (by simp)
          · split at h
            · exact absurd h (by simp)
            · rename_i r hr
              simp only [Except.ok.injEq] at h
              subst h
              have hl := clusterChildrenLogged_listing (computeClusteringLogged K t fuel) _ lvl
                (fun node idx s out ho => ih node idx (lvl + 1) s out ho) _ _ _ _ _ _ r hr
              cases node with
              | mk a b c d =>
                  simp [VocabTreeNode.setNodeId, VocabTreeNode.setChildren,
                    VocabTreeNode.children, VocabTreeNode.word_id,
                    VocabTreeNode.center, VocabTreeNode.node_id, VocabTreeNode.preorderAt,
                    VocabTreeNode.isLeaf, hl]

/-- The log of a `build()` that returns lists the nodes of the built tree: one
record per node reachable from the root, in pre-order, with its level, id and
leaf status; the record of the root was handed all the row indices. -/
theorem buildLogged_listing (K : Kernel α δ σ) (t t1 : VocabTree α σ) (calls : List Call)
    (h : buildLogged K t = .ok (t1, calls)) :
    ∃ root, t1.m_root = some root
      ∧ calls.map (fun call => (call.level, (call.node_id : Int), call.leaf))
          = (root.preorderAt 0).map (fun p => (p.1, p.2.node_id, p.2.isLeaf))
      ∧ ∃ first rest, calls = first :: rest
          ∧ first.range = List.range t.m_dataset.rows := by
  simp only [buildLogged] at h
  split at h
  · exact absurd h (by simp)
  · split at h
    · exact absurd h (by simp)
    · split at h
      · exact absurd h (by simp)
      · split at h
        · exact absurd h (by simp)
        · rename_i r hr
          simp only [Except.ok.injEq, Prod.mk.injEq] at h
          obtain ⟨ht, hc⟩ := h
          subst ht
          subst hc
          obtain ⟨call, rest, q1, q2, _⟩ := computeClusteringLogged_range K t _ _ _ _ _ r hr
          exact ⟨r.1.1, rfl, computeClusteringLogged_listing K t _ _ _ _ _ r hr,
            call, rest, q1, q2⟩

end Listing

end vlr

/-! ## Every call and the calls for its children -/

namespace vlr

section Children

variable {α δ σ : Type} [LinearOrder δ]

theorem take_filter_append (B : Nat) (p : Call → Bool) (parts : List (List Nat))
    (after more : List Call) (hlen : parts.length = B)
    (h : ((after.filter p).take B).map (fun below => below.range) = parts) :
    (((after ++ more).filter p).take B).map (fun below => below.range) = parts := by
  have hl : B ≤ (after.filter p).length := by
    have := congrArg List.length h
    rw [List.length_map, List.length_take, hlen] at this
    omega
  rw [List.filter_append, List.take_append_of_le_length hl]
  exact h

/-- A property of a record and the records after it that survives when more
records are appended holds for every record of the loop over the children when
it holds for every record of each recursive call. -/
theorem clusterChildrenLogged_suffix
    (recurse : VocabTreeNode α → List Nat → Int → Progress α σ →
      Except Error ((VocabTreeNode α × List Nat × Progress α σ) × List Call))
    (Q : Call → List Call → Prop)
    (hmono : ∀ call after more, Q call after → Q call (after ++ more))
    (hR : ∀ node idx lvl s out, recurse node idx lvl s = .ok out →
      ∀ before call after, out.2 = before ++ call :: after → Q call after)
    (centers : List (List α)) (level : Int) :
    ∀ (todo c : Nat) (indices bs : List Nat) (start : Nat) (s : Progress α σ)
      (r : (List (VocabTreeNode α) × List Nat × Progress α σ) × List (List Nat) × List Call),
      clusterChildrenLogged recurse centers level todo c indices bs start s = .ok r →
      ∀ before call after, r.2.2 = before ++ call :: after → Q call after := by
  intro todo
  induction todo with
  | zero =>
      intro c indices bs start s r h
      simp only [clusterChildrenLogged, Except.ok.injEq] at h
      subst h
      intro before call after hsplit
      simp at hsplit
  | succ todo ih =>
      intro c indices bs start s r h
      simp only [clusterChildrenLogged] at h
      split at h
      · exact absurd h (by simp)
      · rename_i done hdone
        split at h
        · exact absurd h (by simp)
        · rename_i rest hrest
          simp only [Except.ok.injEq] at h
          subst h
          intro before call after hsplit
          simp only at hsplit
          rcases List.append_eq_append_iff.1 hsplit with ⟨a, ha, hb⟩ | ⟨a, ha, hb⟩
          · exact ih _ _ _ _ _ _ hrest a call after hb
          · cases a with
            | nil =>
                simp only [List.nil_append] at hb
                exact ih _ _ _ _ _ _ hrest [] call after (by simpa using hb.symm)
            | cons x a =>
                simp only [List.cons_append, List.cons.injEq] at hb
                obtain ⟨hx, hafter⟩ := hb
                subst hx
                rw [hafter]
                exact hmono _ _ _ (hR _ _ _ _ _ hdone before call a ha)

/-- Every record of an interior node in the log of the clusterer, with the
records that follow it: the ranges of the first `B` records one level below
are the chunks of the node in the order of the clusters, the chunk of cluster
`c` is a rearrangement of the indices labelled `c` when the Lloyd loop ended,
the chunks together are a rearrangement of the range the clustering started
on, and `count[c]` is the number of labels equal to `c`. -/
theorem computeClusteringLogged_children (K : Kernel α δ σ) (t : VocabTree α σ)
    (hB : 1 ≤ t.m_branching) :
    ∀ (fuel : Nat) (node : VocabTreeNode α) (idx : List Nat) (lvl : Int)
      (s : Progress α σ)
      (out : (VocabTreeNode α × List Nat × Progress α σ) × List Call),
      computeClusteringLogged K t fuel node idx lvl s = .ok out →
      ∀ before call after, out.2 = before ++ call :: after → call.leaf = false →
        call.parts.length = t.m_branching.toNat
          ∧ ((after.filter (fun below => decide (below.level = call.level + 1))).take
              t.m_branching.toNat).map (fun below => below.range) = call.parts
          ∧ call.parts.flatten.Perm call.work
          ∧ call.labels.length = call.work.length
          ∧ (∀ c, c < t.m_branching.toNat →
              call.count.getD c 0 = (call.labels.count c : Int))
          ∧ ∀ c, c < t.m_branching.toNat →
              (call.parts.getD c []).Perm (clusterIndices call.work call.labels c) := by
  intro fuel
  induction fuel with
  | zero =>
      intro node idx lvl s out h
      exact absurd h (by simp [computeClusteringLogged])
  | succ fuel ih =>
      intro node idx lvl s out h
      simp only [computeClusteringLogged] at h
      generalize (if lvl > 1 then idx.insertionSort (· ≤ ·) else idx) = idx1 at h
      have hleaf : ∀ (x : VocabTreeNode α × List Nat × Progress α σ) (leafCall : Call),
          leafCall.leaf = true → out = (x, [leafCall]) →
          ∀ before call after, out.2 = before ++ call :: after → call.leaf = false →
            call.parts.length = t.m_branching.toNat
              ∧ ((after.filter (fun below => decide (below.level = call.level + 1))).take
                  t.m_branching.toNat).map (fun below => below.range) = call.parts
              ∧ call.parts.flatten.Perm call.work
              ∧ call.labels.length = call.work.length
              ∧ (∀ c, c < t.m_branching.toNat →
                  call.count.getD c 0 = (call.labels.count c : Int))
              ∧ ∀ c, c < t.m_branching.toNat →
                  (call.parts.getD c []).Perm (clusterIndices call.work call.labels c) := by
        intro x leafCall hl ho before call after hsplit hcall
        subst ho
        cases before with
        | nil =>
            simp only [List.nil_append, List.cons.injEq] at hsplit
            rw [← hsplit.1, hl] at hcall
            exact absurd hcall (by simp)
        | cons b bs =>
            simp at hsplit
      by_cases c1 : lvl = t.m_depth ∨ (idx1.length : Int) < t.m_branching
      · rw [if_pos c1] at h
        simp only [Except.ok.injEq] at h
        exact hleaf _ _ rfl h.symm
      · rw [if_neg c1] at h
        by_cases c2 : ((K.chooseCenters s.rng t.m_branching idx1 t.m_dataset).1.length : Int)
            < t.m_branching
        · rw [if_pos c2] at h
          simp only [Except.ok.injEq] at h
          exact hleaf _ _ rfl h.symm
        · rw [if_neg c2] at h
          have hn : t.m_branching.toNat ≤ idx1.length := by
            have : ¬ (idx1.length : Int) < t.m_branching := fun hlt => c1 (Or.inr hlt)
            omega
          have hstart := initialAssignment_inv K t.m_dataset t.m_veclen t.m_branching hB
            (initCenters t.m_dataset t.m_branching
              (K.chooseCenters s.rng t.m_branching idx1 t.m_dataset).1) idx1
          split at h
          · exact absurd h (by simp)
          · rename_i final hfinal
            obtain ⟨hinv, _⟩ := lloydLoop_inv K t.m_dataset t.m_veclen t.m_branching hB idx1 hn
              _ _ final hstart hfinal
            split at h
            · exact absurd h (by simp)
            · rename_i r hr
              simp only [Except.ok.injEq] at h
              subst h
              intro before call after hsplit hcall
              cases before with
              | nil =>
                  simp only [List.nil_append, List.cons.injEq] at hsplit
                  obtain ⟨hc, hafter⟩ := hsplit
                  subst hc
                  subst hafter
                  obtain ⟨r1, r2, _, r4, r5, r6, r7, _⟩ :=
                    clusterChildrenLogged_parts (computeClusteringLogged K t fuel)
                      (fun _ => True) lvl
                      (fun node idx s out ho => by
                        obtain ⟨p1, _, _, _⟩ := computeClusteringLogged_spec K t hB fuel node idx
                          (lvl + 1) s out ho
                        obtain ⟨call, rest, q1, q2, q3, _, _, q6⟩ :=
                          computeClusteringLogged_range K t fuel node idx (lvl + 1) s out ho
                        exact ⟨p1, ⟨call, rest, q1, q2, q3, q6⟩, fun _ _ => trivial⟩)
                      t.m_branching.toNat _ t.m_branching.toNat 0 idx1 final.belongs_to 0 _ r
                      (by omega) hinv.labels.symm (by omega) hinv.bound (by intro p hp; omega)
                      (by intro p _ _; omega) hr
                  simp only [List.drop_zero, Nat.zero_add] at r5 r6
                  refine ⟨r4, ?_, r6, hinv.labels, hinv.agree, r5⟩
                  simp only
                  rw [List.take_of_length_le]
                  · exact r7
                  · have := congrArg List.length r7
                    rw [List.length_map, r4] at this
                    omega
              | cons b bs =>
                  simp only [List.cons_append, List.cons.injEq] at hsplit
                  exact clusterChildrenLogged_suffix (computeClusteringLogged K t fuel)
                    (fun call after => call.leaf = false →
                      call.parts.length = t.m_branching.toNat
                        ∧ ((after.filter (fun below =>
                              decide (below.level = call.level + 1))).take
                            t.m_branching.toNat).map (fun below => below.range) = call.parts
                        ∧ call.parts.flatten.Perm call.work
                        ∧ call.labels.length = call.work.length
                        ∧ (∀ c, c < t.m_branching.toNat →
                            call.count.getD c 0 = (call.labels.count c : Int))
                        ∧ ∀ c, c < t.m_branching.toNat →
                            (call.parts.getD c []).Perm
                              (clusterIndices call.work call.labels c))
                    (fun call after more hq hl => by
                      obtain ⟨q1, q2, q3⟩ := hq hl
                      exact ⟨q1, take_filter_append _ _ _ _ _ q1 q2, q3⟩)
                    (fun node idx lvl s out ho => ih node idx lvl s out ho)
                    _ _ _ _ _ _ _ _ r hr bs call after hsplit.2 hcall

/-- The records of the interior nodes in the log of a `build()` that returns,
each with the records that follow it. -/
theorem buildLogged_children (K : Kernel α δ σ) (t t1 : VocabTree α σ) (calls : List Call)
    (h : buildLogged K t = .ok (t1, calls)) :
    ∀ before call after, calls = before ++ call :: after → call.leaf = false →
      call.parts.length = t.m_branching.toNat
        ∧ ((after.filter (fun below => decide (below.level = call.level + 1))).take
            t.m_branching.toNat).map (fun below => below.range) = call.parts
        ∧ call.parts.flatten.Perm call.work
        ∧ call.labels.length = call.work.length
        ∧ (∀ c, c < t.m_branching.toNat →
            call.count.getD c 0 = (call.labels.count c : Int))
        ∧ ∀ c, c < t.m_branching.toNat →
            (call.parts.getD c []).Perm (clusterIndices call.work call.labels c) := by
  simp only [buildLogged] at h
  split at h
  · exact absurd h (by simp)
  · split at h
    · exact absurd h (by simp)
    · split at h
      · exact absurd h (by simp)
      · split at h
        · exact absurd h (by simp)
        · rename_i r hr
          simp only [Except.ok.injEq, Prod.mk.injEq] at h
          obtain ⟨ht, hc⟩ := h
          subst ht
          subst hc
          exact computeClusteringLogged_children K t (by omega) _ _ _ _ _ r hr

end Children

end vlr

/-! ## The range when the clustering starts -/

namespace vlr

section Started

variable {α δ σ : Type} [LinearOrder δ]

theorem buildLogged_sorted (K : Kernel α δ σ) (t t1 : VocabTree α σ) (calls : List Call)
    (h : buildLogged K t = .ok (t1, calls)) :
    ∀ call ∈ calls, call.work.Perm call.range
      ∧ (1 < call.level → call.work.Sorted (· ≤ ·))
      ∧ (call.level ≤ 1 → call.work = call.range) := by
  simp only [buildLogged] at h
  split at h
  · exact absurd h (by simp)
  · split at h
    · exact absurd h (by simp)
    · split at h
      · exact absurd h (by simp)
      · split at h
        · exact absurd h (by simp)
        · rename_i r hr
          simp only [Except.ok.injEq, Prod.mk.injEq] at h
          rw [← h.2]
          exact computeClusteringLogged_sorted K t _ _ _ _ _ r hr

/-- A call that makes a leaf returns the range as it was when the clustering
started. -/
theorem computeClusteringLogged_leaf_result (K : Kernel α δ σ) (t : VocabTree α σ) :
    ∀ (fuel : Nat) (node : VocabTreeNode α) (idx : List Nat) (lvl : Int)
      (s : Progress α σ)
      (out : (VocabTreeNode α × List Nat × Progress α σ) × List Call),
      computeClusteringLogged K t fuel node idx lvl s = .ok out →
      ∀ call ∈ out.2, call.leaf = true → call.result = call.work := by
  intro fuel
  induction fuel with
  | zero =>
      intro node idx lvl s out h
      exact absurd h (by simp [computeClusteringLogged])
  | succ fuel ih =>
      intro node idx lvl s out h
      simp only [computeClusteringLogged] at h
      generalize (if lvl > 1 then idx.insertionSort (· ≤ ·) else idx) = idx1 at h
      by_cases c1 : lvl = t.m_depth ∨ (idx1.length : Int) < t.m_branching
      · rw [if_pos c1] at h
        simp only [Except.ok.injEq] at h
        subst h
        intro call hc _
        simp only [List.mem_singleton] at hc
        subst hc
        rfl
      · rw [if_neg c1] at h
        by_cases c2 : ((K.chooseCenters s.rng t.m_branching idx1 t.m_dataset).1.length : Int)
            < t.m_branching
        · rw [if_pos c2] at h
          simp only [Except.ok.injEq] at h
          subst h
          intro call hc _
          simp only [List.mem_singleton] at hc
          subst hc
          rfl
        · rw [if_neg c2] at h
          split at h
          · exact absurd h (by simp)
          · split at h
            · exact absurd h (by simp)
            · rename_i r hr
              simp only [Except.ok.injEq] at h
              subst h
              intro call hc hl
              rcases List.mem_cons.1 hc with hc | hc
              · subst hc
                simp at hl
              · exact clusterChildrenLogged_forall (computeClusteringLogged K t fuel)
                  (fun call => call.leaf = true → call.result = call.work)
                  (fun node idx lvl s out ho => ih node idx lvl s out ho) _ _ _ _ _ _ _ _ r hr
                  call hc hl

theorem buildLogged_leaf_result (K : Kernel α δ σ) (t t1 : VocabTree α σ)
    (calls : List Call) (h : buildLogged K t = .ok (t1, calls)) :
    ∀ call ∈ calls, call.leaf = true → call.result = call.work := by
  simp only [buildLogged] at h
  split at h
  · exact absurd h (by simp)
  · split at h
    · exact absurd h (by simp)
    · split at h
      · exact absurd h (by simp)
      · split at h
        · exact absurd h (by simp)
        · rename_i r hr
          simp only [Except.ok.injEq, Prod.mk.injEq] at h
          rw [← h.2]
          exact computeClusteringLogged_leaf_result K t _ _ _ _ _ r hr

theorem buildLogged_build (K : Kernel α δ σ) (t t1 : VocabTree α σ) (calls : List Call)
    (h : buildLogged K t = .ok (t1, calls)) : build K t = .ok t1 := by
  rw [← buildLogged_erase, h]
  rfl

/-- Above level 1 the clusterer only looks at the sorted range: two orders of
the same range give the same result. -/
theorem computeClustering_sorted_input (K : Kernel α δ σ) (t : VocabTree α σ)
    (fuel : Nat) (node : VocabTreeNode α) (idx idx' : List Nat) (level : Int)
    (s : Progress α σ) (hl : 1 < level) (hp : idx.Perm idx') :
    computeClustering K t fuel node idx level s
      = computeClustering K t fuel node idx' level s := by
  cases fuel with
  | zero => rfl
  | succ fuel =>
      have e : idx.insertionSort (· ≤ ·) = idx'.insertionSort (· ≤ ·) :=
        List.eq_of_perm_of_sorted
          (((List.perm_insertionSort _ idx).trans hp).trans
            (List.perm_insertionSort _ idx').symm)
          (List.sorted_insertionSort _ _) (List.sorted_insertionSort _ _)
      simp only [computeClustering, if_pos (show level > 1 from hl), e]

/-- A call that makes a leaf returns its range in ascending order above level
1 and in the order received at the levels 0 and 1. -/
theorem computeClustering_leaf_range (K : Kernel α δ σ) (t : VocabTree α σ)
    (fuel : Nat) (node : VocabTreeNode α) (idx : List Nat) (level : Int)
    (s : Progress α σ) (out : VocabTreeNode α × List Nat × Progress α σ)
    (h : computeClustering K t fuel node idx level s = .ok out)
    (hleaf : out.1.isLeaf = true) :
    out.2.1 = if level > 1 then idx.insertionSort (· ≤ ·) else idx := by
  cases fuel with
  | zero => exact absurd h (by simp [computeClustering])
  | succ fuel =>
      simp only [computeClustering] at h
      generalize (if level > 1 then idx.insertionSort (· ≤ ·) else idx) = idx1 at h ⊢
      by_cases c1 : level = t.m_depth ∨ (idx1.length : Int) < t.m_branching
      · rw [if_pos c1] at h
        simp only [Except.ok.injEq] at h
        subst h
        rfl
      · rw [if_neg c1] at h
        by_cases c2 : ((K.chooseCenters s.rng t.m_branching idx1 t.m_dataset).1.length : Int)
            < t.m_branching
        · rw [if_pos c2] at h
          simp only [Except.ok.injEq] at h
          subst h
          rfl
        · rw [if_neg c2] at h
          split at h
          · exact absurd h (by simp)
          · split at h
            · exact absurd h (by simp)
            · simp only [Except.ok.injEq] at h
              subst h
              cases node with
              | mk a b c d =>
                  simp [VocabTreeNode.setNodeId, VocabTreeNode.setChildren,
                    VocabTreeNode.children, VocabTreeNode.isLeaf] at hleaf

end Started

end vlr

namespace vlr

section Revisited

variable {α δ σ : Type} [LinearOrder δ]

/-- C12. Take a `build()` on a tree constructed with `maxIterations` other than
0 that returns the tree `t1`, with `calls` the log of the calls of the
clusterer (`buildLogged` returns what `build()` returns). The log has one record
for every node of `t1`, in pre-order, with the level, the id and the leaf status
of the node, and the record of the root was handed all the row indices. Every
record of an interior node, with the records `after` it: the call was handed at
least `B` indices; when its Lloyd loop ended every one of the `B` clusters had
at least one label, `count[c]` being the number of labels equal to `c`; the
chunk of child `c` consists of the indices labelled `c`, as many as `count[c]`,
so at least one; the chunks are the ranges of the calls for the `B` children,
the first `B` records one level below among those that follow, so every child
is handed at least one index. -/
theorem build_children_nonempty (K : Kernel α δ σ) (data : Mat α)
    (branching depth maxIterations : Int) (seed : σ) (t1 : VocabTree α σ)
    (calls : List Call) (hmax : maxIterations ≠ 0)
    (h : buildLogged K (VocabTree.new data branching depth maxIterations seed)
      = .ok (t1, calls)) :
    build K (VocabTree.new data branching depth maxIterations seed) = .ok t1
      ∧ (∃ root, t1.m_root = some root
          ∧ calls.map (fun call => (call.level, (call.node_id : Int), call.leaf))
              = (root.preorderAt 0).map (fun p => (p.1, p.2.node_id, p.2.isLeaf)))
      ∧ (∃ first rest, calls = first :: rest ∧ first.range = List.range data.rows)
      ∧ ∀ before call after, calls = before ++ call :: after → call.leaf = false →
          branching.toNat ≤ call.range.length
            ∧ call.labels.length = call.range.length
            ∧ call.count.length = branching.toNat
            ∧ call.parts.length = branching.toNat
            ∧ (∀ c, c < branching.toNat →
                1 ≤ call.labels.count c
                  ∧ call.count.getD c 0 = (call.labels.count c : Int)
                  ∧ 1 ≤ call.count.getD c 0
                  ∧ (call.parts.getD c []).Perm (clusterIndices call.work call.labels c)
                  ∧ ((call.parts.getD c []).length : Int) = call.count.getD c 0
                  ∧ 1 ≤ (call.parts.getD c []).length)
            ∧ ((after.filter (fun below => decide (below.level = call.level + 1))).take
                branching.toNat).map (fun below => below.range) = call.parts
            ∧ ∀ below ∈ (after.filter
                  (fun below => decide (below.level = call.level + 1))).take branching.toNat,
                1 ≤ below.range.length := by
  obtain ⟨root, hroot, hlist, first, rest, hfirst, hrange⟩ := buildLogged_listing K _ t1 calls h
  obtain ⟨_, _, h3⟩ := buildLogged_spec K _ t1 calls h
  have hsorted := buildLogged_sorted K _ t1 calls h
  have hchildren := buildLogged_children K _ t1 calls h
  have hit : 1 ≤ (VocabTree.new data branching depth maxIterations seed).m_iterations := by
    simp only [VocabTree.new, INT_MAX]
    split <;> omega
  refine ⟨buildLogged_build K _ t1 calls h, ⟨root, hroot, hlist⟩,
    ⟨first, rest, hfirst, hrange⟩, ?_⟩
  intro before call after hsplit hleaf
  have hmem : call ∈ calls := by
    rw [hsplit]
    exact List.mem_append_right _ (List.mem_cons_self _ _)
  obtain ⟨q1, q2, q3, q4, q5⟩ := h3 call hmem hleaf
  obtain ⟨s1, _, _⟩ := hsorted call hmem
  obtain ⟨k1, k2, _, k4, k5, k6⟩ := hchildren before call after hsplit hleaf
  have hpos : ∀ c, c < branching.toNat → 1 ≤ (call.parts.getD c []).length := by
    intro c hc
    have p1 := q5 hit c hc
    have p2 := q4 c hc
    omega
  refine ⟨q1, ?_, q2, q3, ?_, k2, ?_⟩
  · rw [k4, s1.length_eq]
  · intro c hc
    have p1 := q5 hit c hc
    have p2 := q4 c hc
    have p3 := k5 c hc
    exact ⟨by omega, p3, p1, k6 c hc, p2, hpos c hc⟩
  · intro below hbelow
    have hin : below.range ∈ call.parts := by
      rw [← k2]
      exact List.mem_map_of_mem _ hbelow
    obtain ⟨c, hc, hget⟩ := List.getElem_of_mem hin
    have hc2 : c < branching.toNat := by
      have : call.parts.length = branching.toNat := q3
      omega
    have := hpos c hc2
    rw [List.getD_eq_getElem?_getD, List.getElem?_eq_getElem hc, Option.getD_some, hget] at this
    exact this

theorem build_children_nonempty_witness :
    build (binKernel firstCenters) (VocabTree.new exampleDataRepeated 3 1 10 ())
        = .ok exampleBuiltRepeated
      ∧ (∃ root, exampleBuiltRepeated.m_root = some root
          ∧ exampleCallsRepeated.map
              (fun call => (call.level, (call.node_id : Int), call.leaf))
              = (root.preorderAt 0).map (fun p => (p.1, p.2.node_id, p.2.isLeaf)))
      ∧ (∃ first rest, exampleCallsRepeated = first :: rest
          ∧ first.range = List.range exampleDataRepeated.rows)
      ∧ ∀ before call after, exampleCallsRepeated = before ++ call :: after →
          call.leaf = false →
          (3 : Int).toNat ≤ call.range.length
            ∧ call.labels.length = call.range.length
            ∧ call.count.length = (3 : Int).toNat
            ∧ call.parts.length = (3 : Int).toNat
            ∧ (∀ c, c < (3 : Int).toNat →
                1 ≤ call.labels.count c
                  ∧ call.count.getD c 0 = (call.labels.count c : Int)
                  ∧ 1 ≤ call.count.getD c 0
                  ∧ (call.parts.getD c []).Perm (clusterIndices call.work call.labels c)
                  ∧ ((call.parts.getD c []).length : Int) = call.count.getD c 0
                  ∧ 1 ≤ (call.parts.getD c []).length)
            ∧ ((after.filter (fun below => decide (below.level = call.level + 1))).take
                (3 : Int).toNat).map (fun below => below.range) = call.parts
            ∧ ∀ below ∈ (after.filter
                  (fun below => decide (below.level = call.level + 1))).take (3 : Int).toNat,
                1 ≤ below.range.length :=
  build_children_nonempty (binKernel firstCenters) exampleDataRepeated 3 1 10 ()
    exampleBuiltRepeated exampleCallsRepeated (by decide) (by rfl)

/-- C23. Take a `build()` that returns the tree `t1`, with `calls` the log of
the calls of the clusterer (`buildLogged` returns what `build()` returns). The
log has one record for every node of `t1`, in pre-order, with the level, the id
and the leaf status of the node, and the record of the root was handed all the
row indices. For every record, `range` being the range handed to the call and
`work` the range when its clustering starts: `work` is a rearrangement of
`range`, at a level above 1 it is in ascending order, and at the levels 0 and 1
it is `range` as received; a call that makes a leaf returns `work`. The ranges
handed to the calls for the children of an interior node, the first `B` records
one level below among those that follow its record, are the chunks cut from its
`work`. For the clusterer itself: above level 1 two orders of the same range
give the same result, and a call that makes a leaf returns the range sorted
above level 1 and untouched at the levels 0 and 1. -/
theorem build_sorted_ranges (K : Kernel α δ σ) (t t1 : VocabTree α σ) (calls : List Call)
    (h : buildLogged K t = .ok (t1, calls)) :
    build K t = .ok t1
      ∧ (∃ root, t1.m_root = some root
          ∧ calls.map (fun call => (call.level, (call.node_id : Int), call.leaf))
              = (root.preorderAt 0).map (fun p => (p.1, p.2.node_id, p.2.isLeaf)))
      ∧ (∃ first rest, calls = first :: rest
          ∧ first.range = List.range t.m_dataset.rows)
      ∧ (∀ call ∈ calls, call.work.Perm call.range
          ∧ (1 < call.level → call.work.Sorted (· ≤ ·))
          ∧ (call.level ≤ 1 → call.work = call.range)
          ∧ (call.leaf = true → call.result = call.work))
      ∧ (∀ before call after, calls = before ++ call :: after → call.leaf = false →
          ((after.filter (fun below => decide (below.level = call.level + 1))).take
              t.m_branching.toNat).map (fun below => below.range) = call.parts
            ∧ call.parts.flatten.Perm call.work)
      ∧ (∀ (fuel : Nat) (node : VocabTreeNode α) (idx idx' : List Nat) (level : Int)
            (s : Progress α σ), 1 < level → idx.Perm idx' →
          computeClustering K t fuel node idx level s
            = computeClustering K t fuel node idx' level s)
      ∧ ∀ (fuel : Nat) (node : VocabTreeNode α) (idx : List Nat) (level : Int)
            (s : Progress α σ) (out : VocabTreeNode α × List Nat × Progress α σ),
          computeClustering K t fuel node idx level s = .ok out → out.1.isLeaf = true →
          out.2.1 = if level > 1 then idx.insertionSort (· ≤ ·) else idx := by
  obtain ⟨root, hroot, hlist, first, rest, hfirst, hrange⟩ := buildLogged_listing K t t1 calls h
  have hsorted := buildLogged_sorted K t t1 calls h
  have hresult := buildLogged_leaf_result K t t1 calls h
  have hchildren := buildLogged_children K t t1 calls h
  refine ⟨buildLogged_build K t t1 calls h, ⟨root, hroot, hlist⟩,
    ⟨first, rest, hfirst, hrange⟩, ?_, ?_, ?_, ?_⟩
  · intro call hmem
    obtain ⟨s1, s2, s3⟩ := hsorted call hmem
    exact ⟨s1, s2, s3, hresult call hmem⟩
  · intro before call after hsplit hleaf
    obtain ⟨_, k2, k3, _⟩ := hchildren before call after hsplit hleaf
    exact ⟨k2, k3⟩
  · intro fuel node idx idx' level s hl hp
    exact computeClustering_sorted_input K t fuel node idx idx' level s hl hp
  · intro fuel node idx level s out ho hleaf
    exact computeClustering_leaf_range K t fuel node idx level s out ho hleaf

theorem build_sorted_ranges_witness :
    build (binKernel firstCenters) exampleTree = .ok exampleBuilt
      ∧ (∃ root, exampleBuilt.m_root = some root
          ∧ exampleCalls.map (fun call => (call.level, (call.node_id : Int), call.leaf))
              = (root.preorderAt 0).map (fun p => (p.1, p.2.node_id, p.2.isLeaf)))
      ∧ (∃ first rest, exampleCalls = first :: rest
          ∧ first.range = List.range exampleTree.m_dataset.rows)
      ∧ (∀ call ∈ exampleCalls, call.work.Perm call.range
          ∧ (1 < call.level → call.work.Sorted (· ≤ ·))
          ∧ (call.level ≤ 1 → call.work = call.range)
          ∧ (call.leaf = true → call.result = call.work))
      ∧ (∀ before call after, exampleCalls = before ++ call :: after → call.leaf = false →
          ((after.filter (fun below => decide (below.level = call.level + 1))).take
              exampleTree.m_branching.toNat).map (fun below => below.range) = call.parts
            ∧ call.parts.flatten.Perm call.work)
      ∧ (∀ (fuel : Nat) (node : VocabTreeNode Nat) (idx idx' : List Nat) (level : Int)
            (s : Progress Nat Unit), 1 < level → idx.Perm idx' →
          computeClustering (binKernel firstCenters) exampleTree fuel node idx level s
            = computeClustering (binKernel firstCenters) exampleTree fuel node idx' level s)
      ∧ ∀ (fuel : Nat) (node : VocabTreeNode Nat) (idx : List Nat) (level : Int)
            (s : Progress Nat Unit) (out : VocabTreeNode Nat × List Nat × Progress Nat Unit),
          computeClustering (binKernel firstCenters) exampleTree fuel node idx level s
            = .ok out → out.1.isLeaf = true →
          out.2.1 = if level > 1 then idx.insertionSort (· ≤ ·) else idx :=
  build_sorted_ranges (binKernel firstCenters) exampleTree exampleBuilt exampleCalls (by rfl)

end Revisited

end vlr

/-! ## The landmark voting of VocabMatch, with `int` arithmetic -/

namespace vlr

namespace VocabMatch

theorem toInt32_of_fits (x : Int) (h0 : 0 ≤ x) (h1 : x ≤ INT_MAX) : toInt32 x = x := by
  simp only [INT_MAX] at h1
  simp only [toInt32]
  omega

/-- C30. For a data base with at least one image, landmark ids that are not
negative and below `INT_MAX`, a `top` that fits an `int` and a ranking `perm` of
the images, the voting returns `top = min(num_nbrs, number of images)`; the
votes sum to `top`; `max_votes` is the largest number of the `top` best ranked
images that share a landmark, and when `top` is positive `max_landmark` is the
smallest landmark id with that many of them; when `top` is 0 the result is
`max_landmark == -1` and `max_votes == 0`. -/
theorem landmarkVoting_spec (num_nbrs : Nat) (db_landmarks : List Int) (perm : List Nat)
    (hdb : db_landmarks ≠ [])
    (hids : ∀ ld ∈ db_landmarks, 0 ≤ ld ∧ ld < INT_MAX)
    (hsize : ((min num_nbrs db_landmarks.length : Nat) : Int) ≤ INT_MAX)
    (hperm : perm.Perm (List.range db_landmarks.length)) :
    ∃ max_ld votes max_landmark max_votes,
      maxElement db_landmarks = .ok max_ld
        ∧ countVotes db_landmarks perm (min num_nbrs db_landmarks.length) 0
            (List.replicate (max_ld + 1).toNat 0) = .ok votes
        ∧ landmarkVoting num_nbrs db_landmarks perm
            = .ok (((min num_nbrs db_landmarks.length : Nat) : Int), max_landmark, max_votes)
        ∧ votes.sum = (min num_nbrs db_landmarks.length : Nat)
        ∧ (∀ l : Int,
            ((topLandmarks db_landmarks perm (min num_nbrs db_landmarks.length)).count l : Int)
              ≤ max_votes)
        ∧ (0 < min num_nbrs db_landmarks.length →
            0 ≤ max_landmark ∧ 0 < max_votes
              ∧ ((topLandmarks db_landmarks perm (min num_nbrs db_landmarks.length)).count
                  max_landmark : Int) = max_votes
              ∧ ∀ l : Int,
                  ((topLandmarks db_landmarks perm
                    (min num_nbrs db_landmarks.length)).count l : Int) = max_votes →
                  max_landmark ≤ l)
        ∧ (min num_nbrs db_landmarks.length = 0 → max_landmark = -1 ∧ max_votes = 0) := by
  obtain ⟨m, hm, hmem, hmax⟩ := maxElement_spec db_landmarks hdb
  have hnonneg : ∀ ld ∈ db_landmarks, 0 ≤ ld := fun ld hld => (hids ld hld).1
  have hm0 : 0 ≤ m := hnonneg m hmem
  have hm1 : m < INT_MAX := (hids m hmem).2
  have hsz : toInt32 (m + 1) = m + 1 := toInt32_of_fits _ (by omega) (by omega)
  have hplen : perm.length = db_landmarks.length := by
    rw [hperm.length_eq, List.length_range]
  have himg : ∀ image ∈ perm, image < db_landmarks.length := by
    intro image hi
    exact List.mem_range.1 (hperm.subset hi)
  generalize htop : min num_nbrs db_landmarks.length = top at hsize
  have htop32 : toInt32 (top : Int) = (top : Int) := toInt32_of_fits _ (by omega) hsize
  have htopN : top ≤ db_landmarks.length := by omega
  have hL : (List.replicate (m + 1).toNat (0 : Int)).length = (m + 1).toNat :=
    List.length_replicate _ _
  obtain ⟨votes, hv, hvl, hvs, hvg⟩ := countVotes_spec db_landmarks perm top 0
    (List.replicate (m + 1).toNat 0) (by
      intro k _ hk
      have hkp : k < perm.length := by omega
      have hlt := himg perm[k] (List.getElem_mem hkp)
      refine ⟨perm[k], List.getElem?_eq_getElem hkp, db_landmarks[perm[k]],
        List.getElem?_eq_getElem hlt, hnonneg _ (List.getElem_mem hlt), ?_⟩
      have := hmax _ (List.getElem_mem hlt)
      rw [hL]
      omega)
  rw [hL] at hvl hvg
  have hzero : ∀ l, (List.replicate (m + 1).toNat (0 : Int)).getD l 0 = 0 := by
    intro l
    simp only [List.getD_eq_getElem?_getD, List.getElem?_replicate]
    split <;> rfl
  have hsum0 : (List.replicate (m + 1).toNat (0 : Int)).sum = 0 := by simp
  have htops : ((perm.drop 0).take top).map (fun image => db_landmarks.getD image 0)
      = topLandmarks db_landmarks perm top := rfl
  simp only [hzero, zero_add, htops] at hvg
  rw [hsum0, zero_add] at hvs
  have hin : ∀ x ∈ topLandmarks db_landmarks perm top, 0 ≤ x ∧ x < ((m + 1).toNat : Int) := by
    intro x hx
    simp only [topLandmarks, List.mem_map] at hx
    obtain ⟨image, hi, rfl⟩ := hx
    have hlt := himg image (List.mem_of_mem_take hi)
    have e : db_landmarks.getD image 0 = db_landmarks[image] := by
      simp [List.getD_eq_getElem?_getD, List.getElem?_eq_getElem hlt]
    rw [e]
    have := hmax _ (List.getElem_mem hlt)
    have := hnonneg _ (List.getElem_mem hlt)
    omega
  have hcount : ∀ l : Int, ((topLandmarks db_landmarks perm top).count l : Int)
      = if 0 ≤ l ∧ l < ((m + 1).toNat : Int) then votes.getD l.toNat 0 else 0 := by
    intro l
    split
    · rename_i hl
      rw [hvg l.toNat (by omega), Int.toNat_of_nonneg hl.1]
    · rename_i hl
      have : l ∉ topLandmarks db_landmarks perm top := fun hmem => hl (hin l hmem)
      rw [List.count_eq_zero.2 this]
      rfl
  obtain ⟨g1, g2⟩ := maxVoted_spec votes (m + 1).toNat 0 (0, -1) (by intro k hk; omega)
    (Or.inl ⟨rfl, rfl⟩)
  simp only [Nat.zero_add] at g1 g2
  have hmv0 : 0 ≤ (maxVoted votes (m + 1).toNat 0 (0, -1)).1 := by
    rcases g2 with ⟨_, q⟩ | ⟨_, _, _, q, _⟩ <;> omega
  refine ⟨m, votes, (maxVoted votes (m + 1).toNat 0 (0, -1)).2,
    (maxVoted votes (m + 1).toNat 0 (0, -1)).1, hm, hv, ?_, hvs, ?_, ?_, ?_⟩
  · simp only [landmarkVoting, hm, htop, hsz, htop32, Int.toNat_ofNat,
      if_neg (show ¬ m + 1 < 0 by omega), hv]
  · intro l
    rw [hcount l]
    split
    · exact g1 l.toNat (by omega)
    · exact hmv0
  · intro hpos
    have hne : topLandmarks db_landmarks perm top ≠ [] := by
      intro e
      have : (topLandmarks db_landmarks perm top).length = top := by
        simp only [topLandmarks, List.length_map, List.length_take]
        omega
      rw [e] at this
      simp at this
      omega
    obtain ⟨x, hx⟩ := List.exists_mem_of_ne_nil _ hne
    have hxin := hin x hx
    have hxc : 1 ≤ ((topLandmarks db_landmarks perm top).count x : Int) := by
      have := List.count_pos_iff.2 hx
      omega
    rw [hcount x, if_pos hxin] at hxc
    have hxle := g1 x.toNat (by omega)
    rcases g2 with ⟨_, q⟩ | ⟨q1, q2, q3, q4, q5⟩
    · omega
    · refine ⟨q1, q4, ?_, ?_⟩
      · rw [hcount, if_pos ⟨q1, q2⟩]
        exact q3
      · intro l hl
        by_contra hlt
        have hlin : l ∈ topLandmarks db_landmarks perm top := by
          apply List.count_pos_iff.1
          omega
        have hl2 := hin l hlin
        rw [hcount l, if_pos hl2] at hl
        have := q5 l.toNat (by omega)
        omega
  · intro hz
    have hnil : topLandmarks db_landmarks perm top = [] := by
      simp [topLandmarks, hz]
    rcases g2 with q | ⟨q1, q2, q3, q4, _⟩
    · exact q
    · have := hcount (maxVoted votes (m + 1).toNat 0 (0, -1)).2
      rw [if_pos ⟨q1, q2⟩, hnil] at this
      simp only [List.count_nil, Nat.cast_zero] at this
      omega

theorem landmarkVoting_spec_witness :
    landmarkVoting 4 [2, 0, 0, 1, 1, 2] [3, 4, 1, 2, 5, 0] = .ok (4, 0, 2)
      ∧ ∃ max_ld votes max_landmark max_votes,
      maxElement [2, 0, 0, 1, 1, 2] = .ok max_ld
        ∧ countVotes [2, 0, 0, 1, 1, 2] [3, 4, 1, 2, 5, 0] (min 4 [2, 0, 0, 1, 1, 2].length) 0
            (List.replicate (max_ld + 1).toNat 0) = .ok votes
        ∧ landmarkVoting 4 [2, 0, 0, 1, 1, 2] [3, 4, 1, 2, 5, 0]
            = .ok (((min 4 [2, 0, 0, 1, 1, 2].length : Nat) : Int), max_landmark, max_votes)
        ∧ votes.sum = (min 4 [2, 0, 0, 1, 1, 2].length : Nat)
        ∧ (∀ l : Int,
            ((topLandmarks [2, 0, 0, 1, 1, 2] [3, 4, 1, 2, 5, 0]
              (min 4 [2, 0, 0, 1, 1, 2].length)).count l : Int) ≤ max_votes)
        ∧ (0 < min 4 [2, 0, 0, 1, 1, 2].length →
            0 ≤ max_landmark ∧ 0 < max_votes
              ∧ ((topLandmarks [2, 0, 0, 1, 1, 2] [3, 4, 1, 2, 5, 0]
                  (min 4 [2, 0, 0, 1, 1, 2].length)).count max_landmark : Int) = max_votes
              ∧ ∀ l : Int,
                  ((topLandmarks [2, 0, 0, 1, 1, 2] [3, 4, 1, 2, 5, 0]
                    (min 4 [2, 0, 0, 1, 1, 2].length)).count l : Int) = max_votes →
                  max_landmark ≤ l)
        ∧ (min 4 [2, 0, 0, 1, 1, 2].length = 0 → max_landmark = -1 ∧ max_votes = 0) :=
  ⟨by rfl, landmarkVoting_spec 4 [2, 0, 0, 1, 1, 2] [3, 4, 1, 2, 5, 0] (by decide)
    (by decide) (by decide) (by decide)⟩

/-- C30, the claim as written fails: with the non-negative landmark id `INT_MAX`
in the data base the size `max_ld + 1` of `votes` wraps to `INT_MIN`, the
allocation fails, and no `top`, `max_landmark` or `max_votes` is produced. -/
theorem landmarkVoting_spec_counterexample :
    (∀ ld ∈ ([2147483647, 0] : List Int), 0 ≤ ld)
      ∧ ([1, 0] : List Nat).Perm (List.range ([2147483647, 0] : List Int).length)
      ∧ maxElement [2147483647, 0] = .ok 2147483647
      ∧ toInt32 (2147483647 + 1) = -2147483648
      ∧ landmarkVoting 1 [2147483647, 0] [1, 0] = .error .badAlloc
      ∧ ¬ ∃ max_landmark max_votes, landmarkVoting 1 [2147483647, 0] [1, 0]
          = .ok (((min 1 ([2147483647, 0] : List Int).length : Nat) : Int),
              max_landmark, max_votes) := by
  refine ⟨by decide, by decide, by rfl, by decide, by rfl, ?_⟩
  rintro ⟨a, b, hab⟩
  have e : landmarkVoting 1 [2147483647, 0] [1, 0] = .error .badAlloc := by rfl
  rw [e] at hab
  cases hab

end VocabMatch

end vlr
